import Mathlib

/-!
HyperLogLog sketch (vendor/github.com/axiomhq/hyperloglog/hyperloglog.go),
fingerprint mapper (pkg/ingester/mapper.go) and column builder
(pkg/dataobj/internal/dataset)

A shallow embedding of the sketch of `hyperloglog.go`, in the namespace `HLL`,
and of the mapper of `mapper.go`, in the namespace `Ingester`.  The namespace
`Dataset` holds a model of the column builder and reader that
`column_test.go` drives.

* Machine integers are natural numbers reduced modulo `2^w` wherever the Go
  code can wrap around.
* A Go method that mutates its receiver becomes a function returning the new
  receiver; a method that also returns an `error` returns the new receiver
  together with `Option Error`.
* A run-time panic (index out of range, nil dereference, slice bounds) is the
  outcome `Except.error Abort.panic`.  Loops over the compressed list are
  written with a step budget; `Abort.fuel` is the outcome of an exhausted
  budget and is distinct from a panic.
* `float64` arithmetic is kept abstract in the record `FloatOps`.
* Values do not share storage.  Where sharing matters (`Clone`, the argument
  of `Merge`), the methods of the sketch are embedded a second time over a
  `Heap`, in which the structs, backing arrays, set maps and compressed lists
  are addresses; the heap-level `Merge` returns whenever the value-level one
  does.
* A Go map is a partial function on its keys.
-/

namespace HLL

/-! ## Outcomes -/

/-- Abnormal ends of a call: a Go run-time panic, or an exhausted step budget
of the embedding. -/
inductive Abort where
  | panic
  | fuel
deriving DecidableEq, Repr

/-- The errors returned by the package. -/
inductive Error where
  /-- The error `fmt.Errorf("p has to be >= 4 and <= 18")` of `NewSketch`. -/
  | precisionRange
  /-- The error `errors.New("precisions must be equal")` of `Merge`. -/
  | precisionsMustBeEqual
  /-- The error `ErrorTooShort`. -/
  | ErrorTooShort
deriving DecidableEq, Repr

deriving instance DecidableEq for Except

/-! ## Machine integers -/

def u8 (n : Nat) : Nat := n % 2 ^ 8

def u32 (n : Nat) : Nat := n % 2 ^ 32

def u64 (n : Nat) : Nat := n % 2 ^ 64

/-- Wrapping subtraction of `uint8`. -/
def sub8 (a b : Nat) : Nat := (a + 2 ^ 8 - b % 2 ^ 8) % 2 ^ 8

/-- Wrapping subtraction of `uint32`. -/
def sub32 (a b : Nat) : Nat := (a + 2 ^ 32 - b % 2 ^ 32) % 2 ^ 32

/-- Wrapping subtraction of `uint64`. -/
def sub64 (a b : Nat) : Nat := (a + 2 ^ 64 - b % 2 ^ 64) % 2 ^ 64

/-- The constant `pp = uint8(25)`. -/
def pp : Nat := 25

/-- The constant `mp = uint32(1) << pp`. -/
def mp : Nat := u32 (1 <<< pp)

/-- The constant `version = 2`. -/
def version : Nat := 2

/-- The four bytes of a `uint32`, most significant first (the
`byte(x>>24), byte(x>>16), byte(x>>8), byte(x)` idiom of the encoders). -/
def be32 (x : Nat) : List Nat := [u8 (x >>> 24), u8 (x >>> 16), u8 (x >>> 8), u8 x]

/-- Function `binary.BigEndian.Uint32(b)`: panics when `b` has fewer than four bytes. -/
def Uint32 : List Nat → Except Abort Nat
  | b0 :: b1 :: b2 :: b3 :: _ => .ok (b3 ||| b2 <<< 8 ||| b1 <<< 16 ||| b0 <<< 24)
  | _ => .error .panic

/-- The slice expression `data[lo:hi]` of a slice whose capacity equals its
length: panics unless `lo ≤ hi ≤ len(data)`. -/
def subslice (data : List Nat) (lo hi : Nat) : Except Abort (List Nat) :=
  if lo ≤ hi ∧ hi ≤ data.length then .ok ((data.take hi).drop lo) else .error .panic

/-- The slice expression `data[lo:]`: panics unless `lo ≤ len(data)`. -/
def sliceFrom (data : List Nat) (lo : Nat) : Except Abort (List Nat) :=
  if lo ≤ data.length then .ok (data.drop lo) else .error .panic

/-! ## Helpers of the package that are not in `hyperloglog.go` -/

/-- Modelled from the spec: the scan of `bits.LeadingZeros64`, the number of
zero bits of `w` from bit `k - 1` downwards, up to the first bit that is set. -/
def countLZ : Nat → Nat → Nat
  | 0, _ => 0
  | k + 1, w => if w.testBit k then 0 else countLZ k w + 1

/-- Modelled from the spec: `bits.LeadingZeros64` of the Go standard library,
the number of leading zero bits of a 64-bit word (64 for zero). -/
def LeadingZeros64 (w : Nat) : Nat := countLZ 64 (u64 w)

/-- Modelled from the spec: `bextr` (utils.go is not under src/), the bit field
of `length` bits of the 64-bit word `v` that starts at bit `start`. -/
def bextr (v start length : Nat) : Nat :=
  (u64 v >>> start) &&& sub64 (u64 (1 <<< length)) 1

/-- Modelled from the spec: `bextr32` (utils.go is not under src/), the bit
field of `length` bits of the 32-bit word `v` that starts at bit `start`. -/
def bextr32 (v start length : Nat) : Nat :=
  (u32 v >>> start) &&& sub32 (u32 (1 <<< length)) 1

/-- Modelled from the spec: `getPosVal` (utils.go is not under src/): the
register index is the top `p` bits of the hash, the rank is one more than the
number of leading zeros of the remaining bits (a sentinel bit bounds it). -/
def getPosVal (x p : Nat) : Nat × Nat :=
  let i := bextr x (sub8 64 p) p
  let w := u64 (u64 x <<< p) ||| u64 (1 <<< sub8 p 1)
  (i, u8 (u8 (LeadingZeros64 w) + 1))

/-- Modelled from the spec: `encodeHash` (sparse.go is not under src/): the
hash is encoded as an (index, rank) pair at the fixed precision `pp` (25
bits); the rank is stored only when the bits between precision `p` and `pp`
are all zero, and the lowest bit tells the two layouts apart. -/
def encodeHash (x p pp : Nat) : Nat :=
  let idx := u32 (bextr x (sub8 64 pp) pp)
  if bextr x (sub8 64 pp) (sub8 pp p) = 0 then
    let zeros :=
      LeadingZeros64 (u64 (bextr x 0 (sub8 64 pp) <<< pp) ||| sub64 (u64 (1 <<< pp)) 1) + 1
    u32 (idx <<< 7) ||| u32 (zeros <<< 1) ||| 1
  else u32 (idx <<< 1)

/-- Modelled from the spec: `getIndex` (sparse.go is not under src/): the top
`p` bits of the 25-bit index held by an encoded entry. -/
def getIndex (k p pp : Nat) : Nat :=
  if u32 k &&& 1 = 1 then bextr32 k (sub8 32 p) p
  else bextr32 k (u8 (sub8 pp p + 1)) p

/-- Modelled from the spec: `decodeHash` (sparse.go is not under src/): an
encoded entry is decoded down to precision `p`, giving its register index and
its rank. -/
def decodeHash (k p pp : Nat) : Nat × Nat :=
  let r :=
    if u32 k &&& 1 = 1 then sub8 (u8 (u8 (bextr32 k 1 6) + pp)) p
    else u8 (LeadingZeros64 (u32 (u32 k <<< sub8 (u8 (sub8 32 pp + p)) 1)) - 31)
  (getIndex k p pp, r)

/-! ### The temporary set -/

/-- Modelled from the spec: the type `set` (sparse.go is not under src/), the
small unsorted temporary set of encoded entries.  It is a list without
repetitions; `ForEach` visits it in insertion order. -/
abbrev set := List Nat

/-- Modelled from the spec: `makeSet(size)` (sparse.go is not under src/), an
empty set; `size` is a capacity hint. -/
def makeSet (_size : Nat) : set := []

/-- Modelled from the spec: `nilSet` (sparse.go is not under src/), the set of
a dense sketch; its length is 0. -/
def nilSet : set := []

/-- Modelled from the spec: `s.Len()` (sparse.go is not under src/). -/
def set.Len (s : set) : Nat := s.length

/-- Modelled from the spec: `s.add(k)` (sparse.go is not under src/): inserts
`k`, and tells whether `k` was new. -/
def set.add (s : set) (k : Nat) : set × Bool :=
  if k ∈ s then (s, false) else (s ++ [k], true)

/-- Modelled from the spec: `s.Merge(other)` (sparse.go is not under src/): adds
every element of `other`. -/
def set.Merge (s other : set) : set :=
  other.foldl (fun acc k => (set.add acc k).1) s

/-- Modelled from the spec: `s.Clone()` (sparse.go is not under src/). -/
def set.Clone (s : set) : set := s

/-- Modelled from the spec: `s.AppendBinary(data)` (sparse.go is not under
src/): the size of the temporary set, then its raw entries, four bytes each. -/
def set.AppendBinary (s : set) (data : List Nat) : List Nat :=
  data ++ be32 (set.Len s) ++ s.flatMap be32

/-! ### The compressed list -/

/-- Modelled from the spec: `variableLengthList.Append` (compressed.go is not
under src/): seven bits per byte, least significant group first, the high bit
of a byte announcing a further byte.  The loop runs at most four times on a
32-bit value. -/
def variableLengthList.AppendAux : Nat → List Nat → Nat → List Nat
  | 0, v, x => v ++ [u8 (x &&& 0x7f)]
  | n + 1, v, x =>
    if x &&& 0xffffff80 ≠ 0 then
      variableLengthList.AppendAux n (v ++ [u8 ((x &&& 0x7f) ||| 0x80)]) (x >>> 7)
    else v ++ [u8 (x &&& 0x7f)]

/-- Modelled from the spec: `v.Append(x)` of `variableLengthList`, for a
`uint32` value `x`. -/
def variableLengthList.Append (v : List Nat) (x : Nat) : List Nat :=
  variableLengthList.AppendAux 4 v (u32 x)

/-- Modelled from the spec: `variableLengthList.decode` (compressed.go is not
under src/): reads one value starting at the head of `v`, returning it with
the bytes that follow it; `k` counts the bytes already read and `x` holds the
bits gathered so far.  Reading past the end of the list panics. -/
def variableLengthList.decode : List Nat → Nat → Nat → Except Abort (Nat × List Nat)
  | [], _, _ => .error .panic
  | b :: rest, x, k =>
    if b &&& 0x80 ≠ 0 then
      variableLengthList.decode rest (x ||| u32 ((b &&& 0x7f) <<< (k * 7))) (k + 1)
    else .ok (x ||| u32 (b <<< (k * 7)), rest)

/-- Modelled from the spec: the type `compressedList` (compressed.go is not
under src/), the sorted, delta and variable-length encoded list of encoded
entries: the number of entries, the last entry appended, and the bytes. -/
structure compressedList where
  count : Nat
  last : Nat
  b : List Nat
deriving DecidableEq, Repr

/-- Modelled from the spec: `newCompressedList(capacity)` (compressed.go is not
under src/), the empty list. -/
def newCompressedList (_capacity : Nat) : compressedList := ⟨0, 0, []⟩

/-- Modelled from the spec: `v.Len()` of `compressedList`, the number of bytes
of the encoding. -/
def compressedList.Len (v : compressedList) : Nat := v.b.length

/-- Modelled from the spec: `v.Append(x)` of `compressedList`: appends the
difference to the last entry. -/
def compressedList.Append (v : compressedList) (x : Nat) : compressedList :=
  { count := u32 (v.count + 1)
    last := u32 x
    b := variableLengthList.Append v.b (sub32 (u32 x) v.last) }

/-- Modelled from the spec: `v.decode(i, last)` of `compressedList`, with the
position `i` given as the bytes from `i` on:
the entry at that position, and the bytes after it. -/
def compressedList.decode (rest : List Nat) (last : Nat) : Except Abort (Nat × List Nat) :=
  match variableLengthList.decode rest 0 0 with
  | .ok (n, rest') => .ok (u32 (n + last), rest')
  | .error e => .error e

/-- Modelled from the spec: `v.Clone()` of `compressedList`, on a possibly nil
receiver. -/
def compressedList.Clone (v : Option compressedList) : Option compressedList := v

/-- Modelled from the spec: `v.AppendBinary(data)` of `compressedList`, the
list's own serialization: count, last entry, number of bytes (four bytes
each), then the bytes. -/
def compressedList.AppendBinary (v : compressedList) (data : List Nat) : List Nat :=
  data ++ be32 v.count ++ be32 v.last ++ be32 v.b.length ++ v.b

/-- Modelled from the spec: `v.UnmarshalBinary(data)` of `compressedList`, on a
possibly nil receiver; a short input gives `ErrorTooShort`.  The length test
comes before the first access to the receiver. -/
def compressedList.UnmarshalBinary (v : Option compressedList) (data : List Nat) :
    Except Abort (Option compressedList × Option Error) :=
  if data.length < 12 then .ok (v, some .ErrorTooShort)
  else
    match v with
    | none => .error .panic
    | some _ =>
      match Uint32 data, Uint32 (data.drop 4), Uint32 (data.drop 8) with
      | .ok count, .ok last, .ok sz =>
        let data := data.drop 12
        if u32 data.length < sz then
          .ok (some ⟨count, last, List.replicate sz 0⟩, some .ErrorTooShort)
        else .ok (some ⟨count, last, data.take sz⟩, none)
      | _, _, _ => .error .panic

/-- Modelled from the spec: the iterator of `compressedList` in a loop
`for iter := v.Iter(); iter.HasNext(); { step(iter.Next()) }`.  The
iterator is its remaining bytes and the last entry read; every round reads
at least one byte, so a budget of `len(v.b)` rounds is enough. -/
def iterate {σ : Type} (step : σ → Nat → Except Abort σ) :
    Nat → List Nat → Nat → σ → Except Abort σ
  | _, [], _, s => .ok s
  | 0, _ :: _, _, _ => .error .fuel
  | fuel + 1, b :: rest, last, s =>
    match compressedList.decode (b :: rest) last with
    | .error e => .error e
    | .ok (n, rest') =>
      match step s n with
      | .error e => .error e
      | .ok s' => iterate step fuel rest' n s'

/-! ## The sketch -/

/-- The type `Sketch`.  The field `alpha` is left out: `NewSketch` sets it to
`alpha(float64(m))`, nothing else writes it, and the zero value has
`alpha = 0 = alpha(float64(0))`; `Estimate` recomputes it from `m`.  A nil
`sparseList` pointer and a nil `regs` slice are `none`. -/
structure Sketch where
  p : Nat
  m : Nat
  tmpSet : set
  sparseList : Option compressedList
  regs : Option (List Nat)
deriving DecidableEq, Repr

/-- The zero value `Sketch{}`. -/
def Sketch.zero : Sketch := ⟨0, 0, nilSet, none, none⟩

/-- Function `NewSketch(precision, sparse)`. -/
def NewSketch (precision : Nat) (sparse : Bool) : Except Error Sketch :=
  if precision < 4 ∨ precision > 18 then .error .precisionRange
  else
    let m := u32 (1 <<< precision)
    if sparse then
      .ok { p := precision, m := m, tmpSet := makeSet 0,
            sparseList := some (newCompressedList 0), regs := none }
    else
      .ok { p := precision, m := m, tmpSet := nilSet,
            sparseList := none, regs := some (List.replicate m 0) }

/-- Method `sk.sparse()`. -/
def Sketch.sparse (sk : Sketch) : Bool := sk.sparseList.isSome

/-- The expression `len(sk.regs)`. -/
def Sketch.lenRegs (sk : Sketch) : Nat :=
  match sk.regs with
  | none => 0
  | some rs => rs.length

/-- Method `sk.Clone()`: `append([]uint8(nil), sk.regs...)` is nil when
`sk.regs` has no element. -/
def Sketch.Clone (sk : Sketch) : Sketch :=
  { sk with
    regs := (match sk.regs with
      | none => none
      | some [] => none
      | some rs => some rs)
    tmpSet := set.Clone sk.tmpSet
    sparseList := compressedList.Clone sk.sparseList }

/-- Method `sk.insert(i, r)`: `sk.regs[i] = max(r, sk.regs[i])`, a panic when
`i` is out of range. -/
def Sketch.insert (sk : Sketch) (i r : Nat) : Except Abort Sketch :=
  match sk.regs with
  | none => .error .panic
  | some rs =>
    if i < rs.length then .ok { sk with regs := some (rs.set i (max r (rs.getD i 0))) }
    else .error .panic

/-- The loop of `mergeSparse`.  The iterator over the old list is its
remaining bytes `rest` and the last entry read `last`; `keys` are the sorted
keys from index `i` on; `newList` is the list under construction.  Every
round reads a byte or a key, so `len(rest) + len(keys)` rounds are enough. -/
def mergeSparseLoop :
    Nat → List Nat → Nat → List Nat → compressedList → Except Abort compressedList
  | _, [], _, [], newList => .ok newList
  | 0, _, _, _, _ => .error .fuel
  | fuel + 1, [], last, k :: keys, newList =>
    mergeSparseLoop fuel [] last keys (newList.Append k)
  | fuel + 1, b :: rest, last, [], newList =>
    match compressedList.decode (b :: rest) last with
    | .error e => .error e
    | .ok (n, rest') => mergeSparseLoop fuel rest' n [] (newList.Append n)
  | fuel + 1, b :: rest, last, x2 :: keys, newList =>
    match compressedList.decode (b :: rest) last with
    | .error e => .error e
    | .ok (x1, adv) =>
      if x1 = x2 then mergeSparseLoop fuel adv x1 keys (newList.Append x1)
      else if x1 > x2 then mergeSparseLoop fuel (b :: rest) last keys (newList.Append x2)
      else mergeSparseLoop fuel adv x1 (x2 :: keys) (newList.Append x1)

/-- Method `sk.mergeSparse()`. -/
def Sketch.mergeSparse (sk : Sketch) : Except Abort Sketch :=
  if set.Len sk.tmpSet = 0 then .ok sk
  else
    let keys := List.insertionSort (· ≤ ·) sk.tmpSet
    match sk.sparseList with
    | none => .error .panic
    | some l =>
      match mergeSparseLoop (l.b.length + keys.length) l.b 0 keys
          (newCompressedList (4 * set.Len sk.tmpSet + l.Len)) with
      | .error e => .error e
      | .ok newList => .ok { sk with sparseList := some newList, tmpSet := makeSet 0 }

/-- Method `sk.toNormal()`. -/
def Sketch.toNormal (sk : Sketch) : Except Abort Sketch :=
  match (if set.Len sk.tmpSet > 0 then sk.mergeSparse else .ok sk) with
  | .error e => .error e
  | .ok sk1 =>
    let sk2 := { sk1 with regs := some (List.replicate sk1.m 0) }
    match sk2.sparseList with
    | none => .error .panic
    | some l =>
      match iterate (fun (s : Sketch) k =>
          s.insert (decodeHash k s.p pp).1 (decodeHash k s.p pp).2) l.b.length l.b 0 sk2 with
      | .error e => .error e
      | .ok sk3 => .ok { sk3 with tmpSet := nilSet, sparseList := none }

/-- Method `sk.maybeToNormal()`. -/
def Sketch.maybeToNormal (sk : Sketch) : Except Abort Sketch :=
  if u32 (u32 (set.Len sk.tmpSet) * 100) > sk.m then
    match sk.mergeSparse with
    | .error e => .error e
    | .ok sk1 =>
      match sk1.sparseList with
      | none => .error .panic
      | some l => if u32 l.Len > sk1.m then sk1.toNormal else .ok sk1
  else .ok sk

/-- Method `sk.InsertHash(x)`. -/
def Sketch.InsertHash (sk : Sketch) (x : Nat) : Except Abort Sketch :=
  if sk.sparse then
    let r := set.add sk.tmpSet (encodeHash x sk.p pp)
    let sk1 := { sk with tmpSet := r.1 }
    if r.2 then sk1.maybeToNormal else .ok sk1
  else
    sk.insert (u32 (getPosVal x sk.p).1) (getPosVal x sk.p).2

/-- Method `sk.mergeSparseSketch(other)`. -/
def Sketch.mergeSparseSketch (sk other : Sketch) : Except Abort Sketch :=
  let sk1 := { sk with tmpSet := set.Merge sk.tmpSet other.tmpSet }
  match other.sparseList with
  | none => .error .panic
  | some l =>
    match iterate (fun (s : Sketch) k => .ok { s with tmpSet := (set.add s.tmpSet k).1 })
        l.b.length l.b 0 sk1 with
    | .error e => .error e
    | .ok sk2 => sk2.maybeToNormal

/-- The loop `for i, v := range other.regs` of `mergeDenseSketch`, from index
`i` on. -/
def mergeRegsLoop : List Nat → Nat → List Nat → Except Abort (List Nat)
  | [], _, regs => .ok regs
  | v :: vs, i, regs =>
    if i < regs.length then
      mergeRegsLoop vs (i + 1) (if v > regs.getD i 0 then regs.set i v else regs)
    else .error .panic

/-- The loop `other.tmpSet.ForEach` of `mergeDenseSketch`. -/
def insertKeys (p : Nat) : List Nat → Sketch → Except Abort Sketch
  | [], sk => .ok sk
  | k :: ks, sk =>
    match sk.insert (decodeHash k p pp).1 (decodeHash k p pp).2 with
    | .error e => .error e
    | .ok sk1 => insertKeys p ks sk1

/-- Method `sk.mergeDenseSketch(other)`. -/
def Sketch.mergeDenseSketch (sk other : Sketch) : Except Abort Sketch :=
  match (if sk.sparse then sk.toNormal else .ok sk) with
  | .error e => .error e
  | .ok sk1 =>
    match other.sparseList with
    | some l =>
      match insertKeys other.p other.tmpSet sk1 with
      | .error e => .error e
      | .ok sk2 =>
        iterate (fun (s : Sketch) k =>
          s.insert (decodeHash k other.p pp).1 (decodeHash k other.p pp).2) l.b.length l.b 0 sk2
    | none =>
      match other.regs with
      | none => .ok sk1
      | some [] => .ok sk1
      | some (v :: vs) =>
        match sk1.regs with
        | none => .error .panic
        | some rs =>
          match mergeRegsLoop (v :: vs) 0 rs with
          | .error e => .error e
          | .ok rs' => .ok { sk1 with regs := some rs' }

/-- Method `sk.Merge(other)`; `other = none` is the nil pointer. -/
def Sketch.Merge (sk : Sketch) (other : Option Sketch) : Except Abort (Sketch × Option Error) :=
  match other with
  | none => .ok (sk, none)
  | some o =>
    if sk.p ≠ o.p then .ok (sk, some .precisionsMustBeEqual)
    else
      match (if sk.sparse && o.sparse then sk.mergeSparseSketch o else sk.mergeDenseSketch o) with
      | .error e => .error e
      | .ok sk1 => .ok (sk1, none)

/-! ## Estimation -/

/-- The `float64` operations used by `Estimate` and `sumAndZeros`, and the
numeric helpers `alpha`, `beta` and `linearCount` of the package (utils.go and
beta.go are not under src/).  They are parameters of the embedding. -/
structure FloatOps where
  /-- The type `float64`. -/
  F : Type
  /-- The conversion `float64(n)` of an integer, and integer literals. -/
  ofNat : Nat → F
  /-- The literal `0.5`. -/
  half : F
  add : F → F → F
  sub : F → F → F
  mul : F → F → F
  div : F → F → F
  /-- Function `math.Pow`. -/
  Pow : F → F → F
  /-- The conversion `uint64(x)`. -/
  toUint64 : F → Nat
  /-- Function `alpha(m)`. -/
  alpha : F → F
  /-- Function `beta(p, ez)`. -/
  beta : Nat → F → F
  /-- Function `linearCount(m, v)`. -/
  linearCount : Nat → Nat → F

/-- Function `sumAndZeros(regs)`. -/
def sumAndZeros (ops : FloatOps) (regs : List Nat) : ops.F × ops.F :=
  regs.foldl
    (fun (acc : ops.F × ops.F) v =>
      (ops.add acc.1 (ops.div (ops.ofNat 1) (ops.Pow (ops.ofNat 2) (ops.ofNat v))),
       if v = 0 then ops.add acc.2 (ops.ofNat 1) else acc.2))
    (ops.ofNat 0, ops.ofNat 0)

/-- Method `sk.Estimate()`: the sketch after the call (a sparse sketch has
its temporary set merged) and the estimate. -/
def Sketch.Estimate (ops : FloatOps) (sk : Sketch) : Except Abort (Sketch × Nat) :=
  if sk.sparse then
    match sk.mergeSparse with
    | .error e => .error e
    | .ok sk1 =>
      match sk1.sparseList with
      | none => .error .panic
      | some l => .ok (sk1, ops.toUint64 (ops.linearCount mp (sub32 mp l.count)))
  else
    let sz := sumAndZeros ops (sk.regs.getD [])
    let m := ops.ofNat sk.m
    let est := ops.div (ops.mul (ops.mul (ops.alpha (ops.ofNat sk.m)) m) (ops.sub m sz.2))
      (ops.add sz.1 (ops.beta sk.p sz.2))
    .ok (sk, ops.toUint64 (ops.add est ops.half))

/-! ## Binary encoding -/

/-- Method `sk.AppendBinary(data)`.  The error it returns is always nil. -/
def Sketch.AppendBinary (sk : Sketch) (data : List Nat) : List Nat :=
  let data := data ++ [version] ++ [sk.p] ++ [0]
  match sk.sparseList with
  | some l =>
    let data := data ++ [1]
    let data := set.AppendBinary sk.tmpSet data
    l.AppendBinary data
  | none =>
    let data := data ++ [0]
    let sz := sk.lenRegs
    let data := data ++ be32 sz
    data ++ (sk.regs.getD []).map u8

/-- Method `sk.MarshalBinary()`. -/
def Sketch.MarshalBinary (sk : Sketch) : List Nat := sk.AppendBinary []

/-- Method `sk.unmarshalBinaryV1(data, b)`. -/
def Sketch.unmarshalBinaryV1 (sk : Sketch) (data : List Nat) (b : Nat) : Sketch × Option Error :=
  ({ sk with regs := some (data.flatMap fun v => [u8 (u8 (v >>> 4) + b), u8 (u8 (u8 (v <<< 4) >>> 4) + b)]) },
   none)

/-- Method `sk.unmarshalBinaryV2(data)`; the caller has checked `len(data) ≥ 8`. -/
def Sketch.unmarshalBinaryV2 (sk : Sketch) (data : List Nat) : Sketch × Option Error :=
  ({ sk with regs := some (data.drop 8) }, none)

/-- The loop `for i := 8; i < tsLastByte; i += 4` of `UnmarshalBinary`, with
`n` rounds left to run from index `i`. -/
def readKeys (data : List Nat) : Nat → Nat → set → Except Abort set
  | 0, _, s => .ok s
  | n + 1, i, s =>
    match subslice data i (i + 4) with
    | .error e => .error e
    | .ok d =>
      match Uint32 d with
      | .error e => .error e
      | .ok k => readKeys data n (i + 4) (set.add s k).1

/-- The test of `UnmarshalBinary` for making a new sketch:
`sk.p != p || sk.regs != nil || sk.tmpSet.Len() > 0 ||
(sk.sparseList != nil && sk.sparseList.Len() > 0)`. -/
def Sketch.needsNew (sk : Sketch) (p : Nat) : Bool :=
  sk.p != p || sk.regs.isSome || decide (set.Len sk.tmpSet > 0) ||
    (match sk.sparseList with
      | none => false
      | some l => decide (l.Len > 0))

/-- Method `sk.UnmarshalBinary(data)`. -/
def Sketch.UnmarshalBinary (sk : Sketch) (data : List Nat) :
    Except Abort (Sketch × Option Error) :=
  if data.length < 8 then .ok (sk, some .ErrorTooShort)
  else
    let v := data.getD 0 0
    let p := data.getD 1 0
    let b := data.getD 2 0
    let sparse : Bool := data.getD 3 0 = 1
    let fresh : Except Error Sketch :=
      if sk.needsNew p then NewSketch p sparse else .ok sk
    match fresh with
    | .error err => .ok (sk, some err)
    | .ok sk1 =>
      if sparse then
        match Uint32 (data.drop 4) with
        | .error e => .error e
        | .ok tssz =>
          let tsLastByte := u32 (u32 (tssz * 4) + 8)
          match readKeys data ((tsLastByte - 8 + 3) / 4) 8 (makeSet tssz) with
          | .error e => .error e
          | .ok ts =>
            match sliceFrom data tsLastByte with
            | .error e => .error e
            | .ok d =>
              match compressedList.UnmarshalBinary sk1.sparseList d with
              | .error e => .error e
              | .ok (l, err) => .ok ({ sk1 with tmpSet := ts, sparseList := l }, err)
      else
        let sk2 := { sk1 with sparseList := none, tmpSet := nilSet }
        if v = 1 then .ok (sk2.unmarshalBinaryV1 (data.drop 8) b)
        else .ok (sk2.unmarshalBinaryV2 data)


/-! ## Call sequences and auxiliary notions used in the statements -/

/-- A sequence of `InsertHash` calls, one for every hash of the list in order. -/
def Sketch.InsertHashes (sk : Sketch) : List Nat → Except Abort Sketch
  | [] => .ok sk
  | x :: xs =>
    match sk.InsertHash x with
    | .error e => .error e
    | .ok sk1 => sk1.InsertHashes xs

/-- The largest rank among the (index, rank) pairs of `es` whose index is `j`,
and 0 when there is none. -/
def maxRank (es : List (Nat × Nat)) (j : Nat) : Nat :=
  es.foldr (fun e acc => if e.1 = j then max e.2 acc else acc) 0

/-- The bytes that `Append` writes for the entries `L` when the entry before
them is `last`. -/
def deltaBytes : Nat → List Nat → List Nat
  | _, [] => []
  | last, x :: xs =>
    variableLengthList.Append [] (sub32 (u32 x) last) ++ deltaBytes (u32 x) xs

/-- The compressed list that holds the entries `L`: they are appended in
order to an empty list. -/
def encList (L : List Nat) : compressedList :=
  L.foldl compressedList.Append (newCompressedList 0)

/-- Running `step` on the values of a list in order, from the state `s`, up to
the first abnormal end. -/
def foldSteps {σ : Type} (step : σ → Nat → Except Abort σ) : List Nat → σ → Except Abort σ
  | [], s => .ok s
  | x :: xs, s =>
    match step s x with
    | .error e => .error e
    | .ok s1 => foldSteps step xs s1

/-- The strictly increasing list of the values that occur in `L` or in `T`. -/
def sunion (L T : List Nat) : List Nat :=
  ((L ++ T).dedup).insertionSort (· ≤ ·)

/-- The register array `rs` after `insert(decodeHash(k, p, pp))` for every
entry `k` of `M` in order. -/
def regsOf (p : Nat) (M : List Nat) (rs : List Nat) : List Nat :=
  (M.map fun k => decodeHash k p pp).foldl (fun rs e => rs.set e.1 (max e.2 (rs.getD e.1 0))) rs

/-- The sparse sketch of precision `p` whose compressed list holds the entries
`L` and whose temporary set is `T`. -/
def sparseSk (p : Nat) (L T : List Nat) : Sketch :=
  ⟨p, 2 ^ p, T, some (encList L), none⟩

/-- The dense sketch of precision `p` with registers `rs`. -/
def denseSk (p : Nat) (rs : List Nat) : Sketch :=
  ⟨p, 2 ^ p, [], none, some rs⟩

/-- The entries `L` and the temporary set `T` of a sparse sketch are well
formed: the entries are strictly increasing 32-bit values, the temporary set
has no repetition and holds 32-bit values. -/
def GoodS (L T : List Nat) : Prop :=
  L.Sorted (· < ·) ∧ (∀ x ∈ L, x < 2 ^ 32) ∧ T.Nodup ∧ ∀ k ∈ T, k < 2 ^ 32

/-- The registers of a dense sketch of precision `p` are well formed: there
are `2^p` of them, each a byte. -/
def GoodD (p : Nat) (rs : List Nat) : Prop :=
  rs.length = 2 ^ p ∧ ∀ r ∈ rs, r < 256

/-- The sketches built by `NewSketch` followed by any sequence of `InsertHash`
and `Merge` calls, the argument of a `Merge` being nil or built the same way. -/
inductive Built : Sketch → Prop
  | new (p : Nat) (sparse : Bool) (sk : Sketch) : NewSketch p sparse = .ok sk → Built sk
  | insert (sk sk1 : Sketch) (x : Nat) : Built sk → sk.InsertHash x = .ok sk1 → Built sk1
  | merge (sk sk1 : Sketch) (other : Option Sketch) (e : Option Error) :
      Built sk → (∀ o, other = some o → Built o) → sk.Merge other = .ok (sk1, e) → Built sk1

/-- A fresh receiver for `UnmarshalBinary`: the zero value `Sketch{}` or the
result of a constructor. -/
def Fresh (r : Sketch) : Prop :=
  r = Sketch.zero ∨ ∃ q s, NewSketch q s = .ok r

/-- The invariant of built sketches: a valid precision, and either a
well-formed sparse state whose temporary set is at most 1% of `m` and whose
compressed list has at most `m` bytes, or a well-formed dense state. -/
def InvB (sk : Sketch) : Prop :=
  ∃ p, 4 ≤ p ∧ p ≤ 18 ∧
    ((∃ L T, sk = sparseSk p L T ∧ GoodS L T ∧ T.length * 100 ≤ 2 ^ p ∧
        (deltaBytes 0 L).length ≤ 2 ^ p) ∨
      (∃ rs, sk = denseSk p rs ∧ GoodD p rs))

/-- The invariant of the sketches reachable through `NewSketch`, `InsertHash`,
`Estimate` and `Merge`: a valid precision, and a well-formed sparse state or
a well-formed dense state. -/
def InvW (sk : Sketch) : Prop :=
  ∃ p, 4 ≤ p ∧ p ≤ 18 ∧
    ((∃ L T, sk = sparseSk p L T ∧ GoodS L T) ∨ (∃ rs, sk = denseSk p rs ∧ GoodD p rs))

/-- Forty-three hashes whose sparse encodings at precision 7 are pairwise
distinct and decode to the register indices 0 and 1: the top 25 bits are
`(i + 1) * 8192` for `i < 31` and `262144 + (i + 1) * 8192` for `i < 12`. -/
def cexHashes : List Nat :=
  (List.range 31).map (fun i => ((i + 1) * 8192) <<< 39) ++
    (List.range 12).map (fun i => (262144 + (i + 1) * 8192) <<< 39)

/-- The sparse sketch of precision 7 after `InsertHash` of the 43 hashes of
`cexHashes`: 42 entries in the compressed list (126 bytes), one pending in the
temporary set. -/
def cexA : Sketch :=
  ⟨7, 128, [720896], some ⟨42, 704512,
    (List.replicate 31 [128, 128, 1]).flatten ++ [128, 128, 2] ++
      (List.replicate 10 [128, 128, 1]).flatten⟩, none⟩

/-- The sparse sketch of precision 7 after `InsertHash` of the last hash of
`cexHashes` alone. -/
def cexB : Sketch := ⟨7, 128, [720896], some ⟨0, 0, []⟩, none⟩

/-- The dense sketch of precision 7 whose registers 0 and 1 hold rank 5. -/
def cexDense : Sketch := ⟨7, 128, [], none, some (5 :: 5 :: List.replicate 126 0)⟩

/-- The sketch states reachable from `NewSketch` through `InsertHash` and
`Estimate` calls, each with the hashes inserted so far (the latest first). -/
inductive Reachable : Sketch → List Nat → Prop
  | new (p : Nat) (sparse : Bool) (sk : Sketch) : NewSketch p sparse = .ok sk → Reachable sk []
  | insert (sk sk1 : Sketch) (H : List Nat) (x : Nat) :
      Reachable sk H → sk.InsertHash x = .ok sk1 → Reachable sk1 (x :: H)
  | estimate (ops : FloatOps) (sk sk1 : Sketch) (H : List Nat) (v : Nat) :
      Reachable sk H → sk.Estimate ops = .ok (sk1, v) → Reachable sk1 H

/-- The invariant of a reachable state with inserted hashes `H`: the state is
well formed, a sparse state holds the encoding of every inserted hash, and a
dense state has, for every inserted hash, at least its rank in its register. -/
def Holds (sk : Sketch) (H : List Nat) : Prop :=
  ∃ p, 4 ≤ p ∧ p ≤ 18 ∧
    ((∃ L T, sk = sparseSk p L T ∧ GoodS L T ∧ ∀ x ∈ H, encodeHash x p pp ∈ sunion L T) ∨
      (∃ rs, sk = denseSk p rs ∧ GoodD p rs ∧
        ∀ x ∈ H, (getPosVal x p).2 ≤ rs.getD (getPosVal x p).1 0))

/-- The sketch as the first statement of `mergeDenseSketch` leaves it,
`if sk.sparse() { sk.toNormal() }`: a sparse sketch is promoted to dense, a
dense sketch is left as it is. -/
def Sketch.promoted (sk : Sketch) : Except Abort Sketch :=
  if sk.sparse then sk.toNormal else .ok sk

/-- The encoded entries held by a sparse sketch: the entries that
`tmpSet.ForEach` visits, followed by the entries that the iterator of the
compressed list yields.  A nil list has no iterator. -/
def Sketch.entries (sk : Sketch) : Except Abort (List Nat) :=
  match sk.sparseList with
  | none => .error .panic
  | some l =>
    match iterate (fun (acc : List Nat) k => .ok (acc ++ [k])) l.b.length l.b 0 [] with
    | .error e => .error e
    | .ok ks => .ok (sk.tmpSet ++ ks)

/-- Method `sk.Insert(e)`.  The function `hash` (utils.go is not under src/)
is a parameter. -/
def Sketch.Insert (hash : List Nat → Nat) (sk : Sketch) (e : List Nat) : Except Abort Sketch :=
  sk.InsertHash (hash e)

/-- A call of one of the methods `InsertHash`, `Insert`, `Merge`, `Estimate`
and `Clone` with its arguments. -/
inductive Call where
  | InsertHash (x : Nat)
  | Insert (e : List Nat)
  | Merge (other : Option Sketch)
  | Estimate
  | Clone

/-- The sketch after one call: the receiver after `InsertHash`, `Insert`,
`Merge` (whether it returns an error or not) and `Estimate`, and the returned
copy after `Clone`, which leaves its receiver as it is. -/
def Sketch.call (ops : FloatOps) (hash : List Nat → Nat) (sk : Sketch) :
    Call → Except Abort Sketch
  | .InsertHash x => sk.InsertHash x
  | .Insert e => sk.Insert hash e
  | .Merge other =>
    match sk.Merge other with
    | .error e => .error e
    | .ok (sk1, _) => .ok sk1
  | .Estimate =>
    match sk.Estimate ops with
    | .error e => .error e
    | .ok (sk1, _) => .ok sk1
  | .Clone => .ok sk.Clone

/-- The sketch after a sequence of calls. -/
def Sketch.calls (ops : FloatOps) (hash : List Nat → Nat) (sk : Sketch) :
    List Call → Except Abort Sketch
  | [] => .ok sk
  | c :: cs =>
    match sk.call ops hash c with
    | .error e => .error e
    | .ok sk1 => sk1.calls ops hash cs

/-- Operations on natural numbers in place of `float64`, for evaluating
`Estimate` on examples. -/
def natOps : FloatOps where
  F := Nat
  ofNat := fun n => n
  half := 0
  add := fun a b => a + b
  sub := fun a b => a - b
  mul := fun a b => a * b
  div := fun a b => a / b
  Pow := fun a b => a ^ b
  toUint64 := fun a => a % 2 ^ 64
  alpha := fun _ => 1
  beta := fun _ _ => 0
  linearCount := fun m v => m - v

/-! ## The sketch with its pointers and slices: shared storage -/

/-- The struct `Sketch` with its references kept as references: the map behind
`tmpSet` (`none` for `nilSet`, whose map is nil), the pointer `sparseList`
(`none` for nil) and the backing array of the slice `regs` (`none` for a nil
slice) are addresses into a `Heap`.  A `regs` slice made by `make` or `append`
spans its whole backing array. -/
structure RSketch where
  p : Nat
  m : Nat
  tmpSet : Option Nat
  sparseList : Option Nat
  regs : Option Nat
deriving DecidableEq, Repr

/-- The storage that sketches refer to: the structs behind `*Sketch` pointers,
the backing arrays of `[]uint8` slices, the maps behind temporary sets and the
values behind `*compressedList` pointers.  An address is an index; allocation
appends. -/
structure Heap where
  sketches : List RSketch
  arrs : List (List Nat)
  sets : List set
  lists : List compressedList
deriving DecidableEq, Repr

/-- The heap without any object. -/
def Heap.empty : Heap := ⟨[], [], [], []⟩

/-- The elements of the slice `r.regs`. -/
def Heap.regs (h : Heap) (r : RSketch) : Option (List Nat) :=
  r.regs.map fun a => h.arrs.getD a []

/-- The entries of the set `r.tmpSet`. -/
def Heap.tmpSet (h : Heap) (r : RSketch) : set :=
  match r.tmpSet with
  | none => nilSet
  | some t => h.sets.getD t []

/-- The compressed list that `r.sparseList` points to. -/
def Heap.sparseList (h : Heap) (r : RSketch) : Option compressedList :=
  match r.sparseList with
  | none => none
  | some a => h.lists[a]?

/-- The value of the struct `r` with its references followed. -/
def Heap.load (h : Heap) (r : RSketch) : Sketch :=
  ⟨r.p, r.m, h.tmpSet r, h.sparseList r, h.regs r⟩

/-- The value of the sketch that the pointer `sk` points to. -/
def Heap.view (h : Heap) (sk : Nat) : Option Sketch :=
  h.sketches[sk]?.map h.load

/-- Function `NewSketch(precision, sparse)` on the heap: the new pointer. -/
def Heap.NewSketch (h : Heap) (precision : Nat) (sparse : Bool) : Except Error (Heap × Nat) :=
  if precision < 4 ∨ precision > 18 then .error .precisionRange
  else
    let m := u32 (1 <<< precision)
    if sparse then
      .ok ({ h with
        sets := h.sets ++ [makeSet 0]
        lists := h.lists ++ [newCompressedList 0]
        sketches := h.sketches ++
          [⟨precision, m, some h.sets.length, some h.lists.length, none⟩] },
        h.sketches.length)
    else
      .ok ({ h with
        arrs := h.arrs ++ [List.replicate m 0]
        sketches := h.sketches ++ [⟨precision, m, none, none, some h.arrs.length⟩] },
        h.sketches.length)

/-- The slice `append([]uint8(nil), sk.regs...)` of `Clone`: nil when
`sk.regs` has no element, and a new backing array with the same elements
otherwise.  The arrays after the call, and the new slice. -/
def Heap.cloneRegs (h : Heap) (r : RSketch) : List (List Nat) × Option Nat :=
  match h.regs r with
  | none => (h.arrs, none)
  | some [] => (h.arrs, none)
  | some (v :: vs) => (h.arrs ++ [v :: vs], some h.arrs.length)

/-- Modelled from the spec: `sk.tmpSet.Clone()` (sparse.go is not under src/):
`nilSet` for `nilSet`, and a new set with the same entries otherwise.  The
sets after the call, and the new set. -/
def Heap.cloneSet (h : Heap) (r : RSketch) : List set × Option Nat :=
  match r.tmpSet with
  | none => (h.sets, none)
  | some t => (h.sets ++ [h.sets.getD t []], some h.sets.length)

/-- Modelled from the spec: `sk.sparseList.Clone()` (compressed.go is not
under src/): nil for nil, and a new list with the same count, last entry and
bytes otherwise.  The lists after the call, and the new pointer. -/
def Heap.cloneList (h : Heap) (r : RSketch) : List compressedList × Option Nat :=
  match h.sparseList r with
  | none => (h.lists, none)
  | some l => (h.lists ++ [l], some h.lists.length)

/-- Method `sk.Clone()` on the heap: `clone := *sk` copies the struct, then
the three references are replaced.  The heap after the call and the pointer
to the copy. -/
def Heap.Clone (h : Heap) (sk : Nat) : Except Abort (Heap × Nat) :=
  match h.sketches[sk]? with
  | none => .error .panic
  | some r =>
    .ok ({ sketches := h.sketches ++
            [{ r with
              regs := (h.cloneRegs r).2
              tmpSet := (h.cloneSet r).2
              sparseList := (h.cloneList r).2 }]
           arrs := (h.cloneRegs r).1
           sets := (h.cloneSet r).1
           lists := (h.cloneList r).1 }, h.sketches.length)

/-- Method `sk.insert(i, r)` on the heap: it writes `sk.regs[i]` in place. -/
def Heap.insert (h : Heap) (sk i v : Nat) : Except Abort Heap :=
  match h.sketches[sk]? with
  | none => .error .panic
  | some r =>
    match r.regs with
    | none => .error .panic
    | some a =>
      if i < (h.arrs.getD a []).length then
        .ok { h with
          arrs := h.arrs.set a ((h.arrs.getD a []).set i (max v ((h.arrs.getD a []).getD i 0))) }
      else .error .panic

/-- Method `sk.mergeSparse()` on the heap: `newList` and `makeSet(0)` are new
objects, assigned to the fields of `sk`. -/
def Heap.mergeSparse (h : Heap) (sk : Nat) : Except Abort Heap :=
  match h.sketches[sk]? with
  | none => .error .panic
  | some r =>
    if set.Len (h.tmpSet r) = 0 then .ok h
    else
      let keys := List.insertionSort (· ≤ ·) (h.tmpSet r)
      match h.sparseList r with
      | none => .error .panic
      | some l =>
        match mergeSparseLoop (l.b.length + keys.length) l.b 0 keys
            (newCompressedList (4 * set.Len (h.tmpSet r) + l.Len)) with
        | .error e => .error e
        | .ok newList =>
          .ok { h with
            lists := h.lists ++ [newList]
            sets := h.sets ++ [makeSet 0]
            sketches := h.sketches.set sk
              { r with sparseList := some h.lists.length, tmpSet := some h.sets.length } }

/-- Method `sk.toNormal()` on the heap: `make([]uint8, sk.m)` is a new backing
array. -/
def Heap.toNormal (h : Heap) (sk : Nat) : Except Abort Heap :=
  match h.sketches[sk]? with
  | none => .error .panic
  | some r =>
    match (if set.Len (h.tmpSet r) > 0 then h.mergeSparse sk else .ok h) with
    | .error e => .error e
    | .ok h1 =>
      match h1.sketches[sk]? with
      | none => .error .panic
      | some r1 =>
        let r2 := { r1 with regs := some h1.arrs.length }
        let h2 := { h1 with
          arrs := h1.arrs ++ [List.replicate r1.m 0]
          sketches := h1.sketches.set sk r2 }
        match h2.sparseList r2 with
        | none => .error .panic
        | some l =>
          match iterate (fun (hh : Heap) k =>
              hh.insert sk (decodeHash k r2.p pp).1 (decodeHash k r2.p pp).2)
              l.b.length l.b 0 h2 with
          | .error e => .error e
          | .ok h3 =>
            match h3.sketches[sk]? with
            | none => .error .panic
            | some r3 =>
              .ok { h3 with
                sketches := h3.sketches.set sk { r3 with tmpSet := none, sparseList := none } }

/-- Method `sk.maybeToNormal()` on the heap. -/
def Heap.maybeToNormal (h : Heap) (sk : Nat) : Except Abort Heap :=
  match h.sketches[sk]? with
  | none => .error .panic
  | some r =>
    if u32 (u32 (set.Len (h.tmpSet r)) * 100) > r.m then
      match h.mergeSparse sk with
      | .error e => .error e
      | .ok h1 =>
        match h1.sketches[sk]? with
        | none => .error .panic
        | some r1 =>
          match h1.sparseList r1 with
          | none => .error .panic
          | some l => if u32 l.Len > r1.m then h1.toNormal sk else .ok h1
    else .ok h

/-- Modelled from the spec: `s.add(k)` (sparse.go is not under src/) on the
heap: it adds `k` to the map of the set in place, and tells whether `k` was
new; the map of `nilSet` is nil and cannot be written. -/
def Heap.add (h : Heap) (s : Option Nat) (k : Nat) : Except Abort (Heap × Bool) :=
  match s with
  | none => .error .panic
  | some t =>
    .ok ({ h with sets := h.sets.set t (set.add (h.sets.getD t []) k).1 },
      (set.add (h.sets.getD t []) k).2)

/-- Modelled from the spec: `s.Merge(other)` (sparse.go is not under src/) on
the heap: it adds every entry of `other` to the map of `s` in place. -/
def Heap.setMerge (h : Heap) (s : Option Nat) (other : set) : Except Abort Heap :=
  match s with
  | none => if other = [] then .ok h else .error .panic
  | some t => .ok { h with sets := h.sets.set t (set.Merge (h.sets.getD t []) other) }

/-- Method `sk.InsertHash(x)` on the heap. -/
def Heap.InsertHash (h : Heap) (sk x : Nat) : Except Abort Heap :=
  match h.sketches[sk]? with
  | none => .error .panic
  | some r =>
    if r.sparseList.isSome then
      match h.add r.tmpSet (encodeHash x r.p pp) with
      | .error e => .error e
      | .ok (h1, isNew) => if isNew then h1.maybeToNormal sk else .ok h1
    else
      h.insert sk (u32 (getPosVal x r.p).1) (getPosVal x r.p).2

/-- Method `sk.mergeSparseSketch(other)` on the heap. -/
def Heap.mergeSparseSketch (h : Heap) (sk other : Nat) : Except Abort Heap :=
  match h.sketches[sk]?, h.sketches[other]? with
  | some r, some o =>
    match h.setMerge r.tmpSet (h.tmpSet o) with
    | .error e => .error e
    | .ok h1 =>
      match h1.sparseList o with
      | none => .error .panic
      | some l =>
        match iterate (fun (hh : Heap) k =>
            match hh.add r.tmpSet k with
            | .error e => .error e
            | .ok (hh1, _) => .ok hh1) l.b.length l.b 0 h1 with
        | .error e => .error e
        | .ok h2 => h2.maybeToNormal sk
  | _, _ => .error .panic

/-- The loop `other.tmpSet.ForEach` of `mergeDenseSketch` on the heap. -/
def Heap.insertKeys (sk p : Nat) : List Nat → Heap → Except Abort Heap
  | [], h => .ok h
  | k :: ks, h =>
    match h.insert sk (decodeHash k p pp).1 (decodeHash k p pp).2 with
    | .error e => .error e
    | .ok h1 => Heap.insertKeys sk p ks h1

/-- Method `sk.mergeDenseSketch(other)` on the heap.  The loop over
`other.regs` writes the backing array of `sk.regs` in place; it reads an
element of `other.regs` before any write at the same index. -/
def Heap.mergeDenseSketch (h : Heap) (sk other : Nat) : Except Abort Heap :=
  match h.sketches[sk]? with
  | none => .error .panic
  | some r =>
    match (if r.sparseList.isSome then h.toNormal sk else .ok h) with
    | .error e => .error e
    | .ok h1 =>
      match h1.sketches[sk]?, h1.sketches[other]? with
      | some r1, some o =>
        if o.sparseList.isSome then
          match h1.sparseList o with
          | none => .error .panic
          | some l =>
            match Heap.insertKeys sk o.p (h1.tmpSet o) h1 with
            | .error e => .error e
            | .ok h2 =>
              iterate (fun (hh : Heap) k =>
                hh.insert sk (decodeHash k o.p pp).1 (decodeHash k o.p pp).2) l.b.length l.b 0 h2
        else
          match h1.regs o with
          | none => .ok h1
          | some [] => .ok h1
          | some (v :: vs) =>
            match r1.regs with
            | none => .error .panic
            | some a =>
              match mergeRegsLoop (v :: vs) 0 (h1.arrs.getD a []) with
              | .error e => .error e
              | .ok rs => .ok { h1 with arrs := h1.arrs.set a rs }
      | _, _ => .error .panic

/-- Method `sk.Merge(other)` on the heap; `other = none` is the nil pointer. -/
def Heap.Merge (h : Heap) (sk : Nat) (other : Option Nat) :
    Except Abort (Heap × Option Error) :=
  match other with
  | none => .ok (h, none)
  | some other =>
    match h.sketches[sk]?, h.sketches[other]? with
    | some r, some o =>
      if r.p ≠ o.p then .ok (h, some .precisionsMustBeEqual)
      else
        match (if r.sparseList.isSome && o.sparseList.isSome then h.mergeSparseSketch sk other
          else h.mergeDenseSketch sk other) with
        | .error e => .error e
        | .ok h1 => .ok (h1, none)
    | _, _ => .error .panic

/-- Method `sk.Estimate()` on the heap. -/
def Heap.Estimate (ops : FloatOps) (h : Heap) (sk : Nat) : Except Abort (Heap × Nat) :=
  match h.sketches[sk]? with
  | none => .error .panic
  | some r =>
    if r.sparseList.isSome then
      match h.mergeSparse sk with
      | .error e => .error e
      | .ok h1 =>
        match h1.sketches[sk]? with
        | none => .error .panic
        | some r1 =>
          match h1.sparseList r1 with
          | none => .error .panic
          | some l => .ok (h1, ops.toUint64 (ops.linearCount mp (sub32 mp l.count)))
    else
      let sz := sumAndZeros ops ((h.regs r).getD [])
      let m := ops.ofNat r.m
      let est := ops.div (ops.mul (ops.mul (ops.alpha (ops.ofNat r.m)) m) (ops.sub m sz.2))
        (ops.add sz.1 (ops.beta r.p sz.2))
      .ok (h, ops.toUint64 (ops.add est ops.half))

/-- A call of `InsertHash` or `Merge` with its arguments. -/
inductive Mutation where
  | InsertHash (x : Nat)
  | Merge (other : Option Nat)
deriving DecidableEq, Repr

/-- The heap after one mutating call on the sketch `sk`. -/
def Heap.mutate (h : Heap) (sk : Nat) : Mutation → Except Abort Heap
  | .InsertHash x => h.InsertHash sk x
  | .Merge other =>
    match h.Merge sk other with
    | .error e => .error e
    | .ok (h1, _) => .ok h1

/-- The heap after a sequence of mutating calls on the sketch `sk`. -/
def Heap.mutations (h : Heap) (sk : Nat) : List Mutation → Except Abort Heap
  | [] => .ok h
  | c :: cs =>
    match h.mutate sk c with
    | .error e => .error e
    | .ok h1 => h1.mutations sk cs

/-- The heap is well formed: every address held by a sketch is allocated, and
two different sketches share neither a backing array nor the map of a
temporary set. -/
def Heap.WF (h : Heap) : Prop :=
  (∀ (j : Nat) (r : RSketch), h.sketches[j]? = some r →
    (∀ a, r.regs = some a → a < h.arrs.length) ∧
    (∀ a, r.tmpSet = some a → a < h.sets.length) ∧
    (∀ a, r.sparseList = some a → a < h.lists.length)) ∧
  ∀ (i j : Nat) (ri rj : RSketch), i ≠ j → h.sketches[i]? = some ri →
    h.sketches[j]? = some rj →
    (∀ a, ri.regs = some a → rj.regs ≠ some a) ∧
    (∀ a, ri.tmpSet = some a → rj.tmpSet ≠ some a)

/-- The heap `h1` has the sketches of `h`, and every sketch other than `sk`
has in `h1` the struct and the value it has in `h`. -/
def Heap.Others (h h1 : Heap) (sk : Nat) : Prop :=
  h1.sketches.length = h.sketches.length ∧
    ∀ (j : Nat) (r : RSketch), j ≠ sk → h.sketches[j]? = some r →
      h1.sketches[j]? = some r ∧ h1.load r = h.load r

/-- A field of the struct of `sk` after an assignment: the address it held,
nil, or an address allocated since. -/
def FieldOk (old new : Option Nat) (n n1 : Nat) : Prop :=
  new = old ∨ new = none ∨ ∃ a, new = some a ∧ n ≤ a ∧ a < n1

/-- The heap after `NewSketch(4, true)` on the empty heap: one sparse sketch,
at address 0. -/
def exHeapNew : Heap :=
  ⟨[⟨4, 16, some 0, some 0, none⟩], [], [[]], [⟨0, 0, []⟩]⟩

/-- The heap `exHeapNew` after `InsertHash(5 << 60)` on its sketch: the entry
went through the temporary set into a new compressed list. -/
def exHeap : Heap :=
  ⟨[⟨4, 16, some 1, some 1, none⟩], [], [[1342177361], []],
    [⟨0, 0, []⟩, ⟨1, 1342177361, [209, 128, 128, 128, 5]⟩]⟩

/-- The value of the sketch of `exHeap`. -/
def exSketch : Sketch :=
  ⟨4, 16, [], some ⟨1, 1342177361, [209, 128, 128, 128, 5]⟩, none⟩

/-- Seven mutating calls, among them a merge of the sketch at address 0; on a
sparse sketch of precision 4 that holds the entry of `exSketch` they end in a
promotion to dense. -/
def exMutations : List Mutation :=
  [.InsertHash (7 <<< 59), .Merge (some 0), .InsertHash (9 <<< 58), .InsertHash (11 <<< 57),
    .InsertHash (13 <<< 56), .InsertHash (15 <<< 55), .InsertHash (17 <<< 54)]

/-- The sketch of precision `p` holds exactly the hashes `H`: the entries of
a sparse sketch are the encodings of the hashes of `H`, and every register of a
dense sketch is the largest rank among the hashes of `H` at its index. -/
def Exact (sk : Sketch) (p : Nat) (H : List Nat) : Prop :=
  (∃ L T, sk = sparseSk p L T ∧ GoodS L T ∧
    ∀ k, k ∈ sunion L T ↔ ∃ x ∈ H, encodeHash x p pp = k) ∨
  (∃ rs, sk = denseSk p rs ∧ rs.length = 2 ^ p ∧
    ∀ j, j < 2 ^ p → rs.getD j 0 = maxRank (H.map fun x => getPosVal x p) j)

/-- The registers of the sketch `s` have grown from `rs`: there are as many of
them, and none is smaller. -/
def Grown (rs : List Nat) (s : Sketch) : Prop :=
  ∃ rs1, s.regs = some rs1 ∧ rs1.length = rs.length ∧ ∀ j, rs.getD j 0 ≤ rs1.getD j 0

/-- The pointer `sk` points to a sketch of value `s` in the heap `h`, and the
temporary set of a sparse sketch is an allocated map (as `makeSet` returns
it), not `nilSet`. -/
def Heap.Rep (h : Heap) (sk : Nat) (s : Sketch) : Prop :=
  ∃ r, h.sketches[sk]? = some r ∧ h.load r = s ∧ (r.sparseList.isSome → r.tmpSet.isSome)

/-- The heap `exHeap` after `NewSketch(4, false)`: the sparse sketch at
address 0 and a new dense sketch at address 1. -/
def exHeapMid : Heap :=
  ⟨[⟨4, 16, some 1, some 1, none⟩, ⟨4, 16, none, none, some 0⟩],
    [[0, 0, 0, 0, 0, 0, 0, 0, 0, 0, 0, 0, 0, 0, 0, 0]], [[1342177361], []],
    [⟨0, 0, []⟩, ⟨1, 1342177361, [209, 128, 128, 128, 5]⟩]⟩

/-- The heap `exHeapMid` after `InsertHash(7 << 59)` on its dense sketch. -/
def exHeapTwo : Heap :=
  ⟨[⟨4, 16, some 1, some 1, none⟩, ⟨4, 16, none, none, some 0⟩],
    [[0, 0, 0, 1, 0, 0, 0, 0, 0, 0, 0, 0, 0, 0, 0, 0]], [[1342177361], []],
    [⟨0, 0, []⟩, ⟨1, 1342177361, [209, 128, 128, 128, 5]⟩]⟩

/-- The value of the dense sketch of `exHeapTwo`. -/
def exDenseSketch : Sketch :=
  ⟨4, 16, [], none, some [0, 0, 0, 1, 0, 0, 0, 0, 0, 0, 0, 0, 0, 0, 0, 0]⟩

end HLL

namespace Ingester

/-! ## The fingerprint mapper (pkg/ingester/mapper.go) -/

/-- A Go `string`: the sequence of its bytes. -/
abbrev GoString := List Nat

/-- The constant `maxMappedFP = 1 << 20`. -/
def maxMappedFP : Nat := 1 <<< 20

/-- The variable `separatorString = string([]byte{model.SeparatorByte})`; the
separator byte of `prometheus/common/model` is 255. -/
def separatorString : GoString := [255]

/-- Modelled from the spec: the type `labels.Label` of
`prometheus/prometheus/model/labels` (not under src/), a name and a value. -/
structure Label where
  Name : GoString
  Value : GoString
deriving DecidableEq, Repr

/-- Modelled from the spec: the type `labels.Labels` (not under src/), the
labels of a metric in the order in which `Range` visits them, sorted by name. -/
abbrev Labels := List Label

/-- Modelled from the spec: `ls.IsEmpty()` of `labels.Labels`. -/
def Labels.IsEmpty (ls : Labels) : Bool := ls.isEmpty

/-- Modelled from the spec: `labels.Equal(a, b)`, which compares the two label
lists element by element. -/
def Labels.Equal (a b : Labels) : Bool := decide (a = b)

/-- Modelled from the spec: `sort.Strings` of the Go standard library, which
sorts by the byte-wise lexicographic order of Go strings. -/
def sortStrings (parts : List GoString) : List GoString :=
  parts.insertionSort (fun a b => a ≤ b)

/-- Modelled from the spec: `strings.Join(parts, sep)` of the Go standard
library. -/
def Join (parts : List GoString) (sep : GoString) : GoString := sep.intercalate parts

/-- Function `metricToUniqueString(m)`: `m.Range` appends
`l.Name + separatorString + l.Value` for every label. -/
def metricToUniqueString (m : Labels) : GoString :=
  let parts := m.map fun l => l.Name ++ separatorString ++ l.Value
  Join (sortStrings parts) separatorString

/-- The type `FpMapper`.  A fingerprint (`model.Fingerprint`, a `uint64`) is a
natural number.  A Go map is a partial function on its keys; the mutex is left
out, the calls being sequential.  The field `fpToLabels` is the answer of the
caller's function at the time of a call. -/
structure FpMapper where
  highestMappedFP : Nat
  mappings : Nat → Option (GoString → Option Nat)
  fpToLabels : Nat → Labels

/-- Function `NewFPMapper(fpToLabels)`; `none` is a nil function. -/
def NewFPMapper (fpToLabels : Option (Nat → Labels)) : Except HLL.Abort FpMapper :=
  match fpToLabels with
  | none => .error .panic
  | some f => .ok { highestMappedFP := 0, mappings := fun _ => none, fpToLabels := f }

/-- Method `m.nextMappedFP()`: `highestMappedFP.Inc()` adds one to the 64-bit
counter and returns the new value. -/
def FpMapper.nextMappedFP (m : FpMapper) : Except HLL.Abort (FpMapper × Nat) :=
  let mappedFP := (m.highestMappedFP + 1) % 2 ^ 64
  if mappedFP > maxMappedFP then .error .panic
  else .ok ({ m with highestMappedFP := mappedFP }, mappedFP)

/-- Method `m.maybeAddMapping(fp, collidingMetric)`.  The log calls are left
out. -/
def FpMapper.maybeAddMapping (m : FpMapper) (fp : Nat) (collidingMetric : Labels) :
    Except HLL.Abort (FpMapper × Nat) :=
  let ms := metricToUniqueString collidingMetric
  match m.mappings fp with
  | some mappedFPs =>
    match mappedFPs ms with
    | some mappedFP => .ok (m, mappedFP)
    | none =>
      match m.nextMappedFP with
      | .error e => .error e
      | .ok (m1, mappedFP) =>
        .ok ({ m1 with
          mappings := Function.update m1.mappings fp
            (some (Function.update mappedFPs ms (some mappedFP))) }, mappedFP)
  | none =>
    match m.nextMappedFP with
    | .error e => .error e
    | .ok (m1, mappedFP) =>
      .ok ({ m1 with
        mappings := Function.update m1.mappings fp
          (some (Function.update (fun _ => none) ms (some mappedFP))) }, mappedFP)

/-- Method `m.MapFP(fp, metric)`: the mapper after the call and the
fingerprint returned. -/
def FpMapper.MapFP (m : FpMapper) (fp : Nat) (metric : Labels) :
    Except HLL.Abort (FpMapper × Nat) :=
  if fp ≤ maxMappedFP then m.maybeAddMapping fp metric
  else
    let s := m.fpToLabels fp
    if !s.IsEmpty then
      if Labels.Equal metric s then .ok (m, fp)
      else m.maybeAddMapping fp metric
    else
      match m.mappings fp with
      | some mappedFPs =>
        match mappedFPs (metricToUniqueString metric) with
        | some mappedFP => .ok (m, mappedFP)
        | none => .ok (m, fp)
      | none => .ok (m, fp)

/-- The fingerprint recorded in the mappings table for the raw fingerprint
`fp` and the unique string `ms`, if any: `m.mappings[fp][ms]`. -/
def FpMapper.recorded (m : FpMapper) (fp : Nat) (ms : GoString) : Option Nat :=
  match m.mappings fp with
  | some mappedFPs => mappedFPs ms
  | none => none

/-- The mapper states reached from `NewFPMapper` through `MapFP` calls; the
caller's function `fpToLabels` reads the series in memory, so its answers may
change between two calls. -/
inductive Reached : FpMapper → Prop
  | new (f : Nat → Labels) (m : FpMapper) : NewFPMapper (some f) = .ok m → Reached m
  | call (m m1 : FpMapper) (fp v : Nat) (metric : Labels) :
      Reached m → m.MapFP fp metric = .ok (m1, v) → Reached m1
  | memory (m : FpMapper) (f : Nat → Labels) :
      Reached m → Reached { m with fpToLabels := f }

/-- The invariant of the mapper: the counter is at most `maxMappedFP`, every
recorded fingerprint lies between 1 and the counter, and no fingerprint is
recorded twice. -/
def Inv (m : FpMapper) : Prop :=
  m.highestMappedFP ≤ maxMappedFP ∧
    (∀ fp ms v, m.recorded fp ms = some v → 1 ≤ v ∧ v ≤ m.highestMappedFP) ∧
    ∀ fp ms fp1 ms1 v, m.recorded fp ms = some v → m.recorded fp1 ms1 = some v →
      fp = fp1 ∧ ms = ms1

/-- The fingerprints returned by `k` consecutive calls of `m.nextMappedFP()`,
in order, and the mapper after them. -/
def FpMapper.nextMappedFPs (m : FpMapper) : Nat → Except HLL.Abort (FpMapper × List Nat)
  | 0 => .ok (m, [])
  | k + 1 =>
    match m.nextMappedFP with
    | .error e => .error e
    | .ok (m1, fp) =>
      match m1.nextMappedFPs k with
      | .error e => .error e
      | .ok (m2, fps) => .ok (m2, fp :: fps)

/-- No name and no value of the labels holds the separator byte 255, which
does not occur in valid UTF-8. -/
def Labels.Clean (ls : Labels) : Prop :=
  ∀ l ∈ ls, 255 ∉ l.Name ∧ 255 ∉ l.Value

/-- The label that the part `l.Name + separatorString + l.Value` was made
from, when the name does not hold the separator byte. -/
def partLabel (s : GoString) : Label :=
  ⟨s.takeWhile (· != 255), (s.dropWhile (· != 255)).drop 1⟩

end Ingester

namespace Dataset

/-! ## The column builder and the column reader (pkg/dataobj/internal/dataset)

Only `column_test.go` of this package is under src/: the values, the builder
and the reader that it drives are modelled from the specification. -/

/-- Modelled from the spec: the value types `datasetmd.VALUE_TYPE_*` that a
column can be configured with (the package datasetmd is not under src/). -/
inductive ValueType
  | VALUE_TYPE_UNSPECIFIED
  | VALUE_TYPE_UINT64
  | VALUE_TYPE_BYTE_ARRAY
deriving DecidableEq, Repr

/-- Modelled from the spec: the compression kinds `datasetmd.COMPRESSION_TYPE_*`
(the package datasetmd is not under src/). -/
inductive CompressionType
  | COMPRESSION_TYPE_NONE
  | COMPRESSION_TYPE_ZSTD
deriving DecidableEq, Repr

/-- Modelled from the spec: the encoding kinds `datasetmd.ENCODING_TYPE_*`
(the package datasetmd is not under src/). -/
inductive EncodingType
  | ENCODING_TYPE_PLAIN
deriving DecidableEq, Repr

/-- Modelled from the spec: `Value` (its source file is not under src/), a
tagged nullable scalar.  `nil` is the absent value `Value{}`; of the payload
types, the unsigned integers and the byte arrays are modelled. -/
inductive Value
  | nil
  | uint64 (v : Nat)
  | byteArray (b : List Nat)
deriving DecidableEq, Repr

/-- Modelled from the spec: `ByteArrayValue(b)` (not under src/). -/
def ByteArrayValue (b : List Nat) : Value := .byteArray b

/-- Modelled from the spec: `v.Type()` (not under src/), the discriminant. -/
def Value.Type : Value → ValueType
  | .nil => .VALUE_TYPE_UNSPECIFIED
  | .uint64 _ => .VALUE_TYPE_UINT64
  | .byteArray _ => .VALUE_TYPE_BYTE_ARRAY

/-- Modelled from the spec: `v.IsNil()` (not under src/): the value is absent. -/
def Value.IsNil : Value → Bool
  | .nil => true
  | _ => false

/-- Modelled from the spec: `v.IsZero()` (not under src/): the value is an
explicitly written empty or zero payload. -/
def Value.IsZero : Value → Bool
  | .nil => false
  | .uint64 v => v == 0
  | .byteArray b => b.isEmpty

/-- Modelled from the spec: `v.ByteArray()` (not under src/), the payload of a
byte-array value. -/
def Value.ByteArray : Value → List Nat
  | .byteArray b => b
  | _ => []

/-- Modelled from the spec: the natural ordering of the values of one type
(the comparison of values is not under src/): numeric by value,
byte arrays lexicographic.  Values of different types are not ordered. -/
def Value.Less : Value → Value → Bool
  | .uint64 a, .uint64 b => decide (a < b)
  | .byteArray a, .byteArray b => decide (a < b)
  | _, _ => false

/-- Modelled from the spec: the unsigned variable-length integer that frames
lengths and numbers in the value codec (not under src/), seven bits per byte,
least significant first; `fuel` bounds the number of bytes. -/
def putUvarintAux : Nat → Nat → List Nat
  | 0, n => [n % 128]
  | fuel + 1, n => if n < 128 then [n] else (n % 128 + 128) :: putUvarintAux fuel (n / 128)

/-- Modelled from the spec: the bytes of the variable-length integer `n`. -/
def putUvarint (n : Nat) : List Nat := putUvarintAux n n

/-- Modelled from the spec: reading a variable-length integer from the front of
`data`: the number and the bytes after it, or nothing when `data` ends inside
the number. -/
def uvarint : List Nat → Option (Nat × List Nat)
  | [] => none
  | b :: rest =>
    if b < 128 then some (b, rest)
    else
      match uvarint rest with
      | none => none
      | some (n, rest1) => some (b % 128 + 128 * n, rest1)

/-- The errors of the column builder and reader named by the specification. -/
inductive Error
  | OutOfOrder
  | TypeMismatch
  | AlreadyFlushed
  | CorruptPage (page : Nat)
  | EndOfData
  | InvalidValue
deriving DecidableEq, Repr

/-- Modelled from the spec: `v.MarshalBinary()` (not under src/): the
discriminant followed by the payload. -/
def Value.MarshalBinary : Value → List Nat
  | .nil => [0]
  | .uint64 v => 1 :: putUvarint v
  | .byteArray b => 2 :: b

/-- Modelled from the spec: `v.UnmarshalBinary(data)` (not under src/), the
inverse of `MarshalBinary`; other inputs are rejected. -/
def Value.UnmarshalBinary : List Nat → Except Error Value
  | [0] => .ok .nil
  | 1 :: rest =>
    match uvarint rest with
    | some (v, []) => .ok (.uint64 v)
    | _ => .error .InvalidValue
  | 2 :: b => .ok (.byteArray b)
  | _ => .error .InvalidValue

/-- Modelled from the spec: `StatisticsOptions` (not under src/). -/
structure StatisticsOptions where
  StoreRangeStats : Bool
  StoreCardinalityStats : Bool
deriving DecidableEq, Repr

/-- Modelled from the spec: `BuilderOptions` (not under src/). -/
structure BuilderOptions where
  PageSizeHint : Nat
  Value : ValueType
  Compression : CompressionType
  Encoding : EncodingType
  Statistics : StatisticsOptions
deriving DecidableEq, Repr

/-- Modelled from the spec: the parts of the write and read paths that the
specification leaves to external layers: the zstd compressor and its
decompressor, and the estimate of the uncompressed size of the rows buffered
for a page. -/
structure Codec where
  zstdCompress : List Nat → List Nat
  zstdDecompress : List Nat → Option (List Nat)
  EstimatedSize : List Value → Nat

/-- Modelled from the spec: compression of a page payload with the configured
kind; `COMPRESSION_TYPE_NONE` stores the payload as it is. -/
def Codec.compress (c : Codec) : CompressionType → List Nat → List Nat
  | .COMPRESSION_TYPE_NONE, data => data
  | .COMPRESSION_TYPE_ZSTD, data => c.zstdCompress data

/-- Modelled from the spec: decompression of a page payload. -/
def Codec.decompress (c : Codec) : CompressionType → List Nat → Option (List Nat)
  | .COMPRESSION_TYPE_NONE, data => some data
  | .COMPRESSION_TYPE_ZSTD, data => c.zstdDecompress data

/-- Modelled from the spec: `Statistics` (datasetmd is not under src/): the
serialized smallest and largest value.  The cardinality count is not part of
this model. -/
structure Statistics where
  MinValue : List Nat
  MaxValue : List Nat
deriving DecidableEq, Repr

/-- Modelled from the spec: the `Info` of a page (not under src/). -/
structure PageInfo where
  ValuesCount : Nat
  UncompressedSize : Nat
  CompressedSize : Nat
  Stats : Option Statistics
deriving DecidableEq, Repr

/-- Modelled from the spec: a page (not under src/), its compressed payload and
its `Info`. -/
structure Page where
  Data : List Nat
  Info : PageInfo
deriving DecidableEq, Repr

/-- Modelled from the spec: the `Info` of a column (not under src/); the field
`ValueType` is the field `Type` of the source. -/
structure ColumnInfo where
  ValueType : ValueType
  Encoding : EncodingType
  Compression : CompressionType
  RowsCount : Nat
  ValuesCount : Nat
  UncompressedSize : Nat
  CompressedSize : Nat
  Statistics : Option Statistics
deriving DecidableEq, Repr

/-- Modelled from the spec: the column that `Flush` returns (not under src/). -/
structure Column where
  Info : ColumnInfo
  Pages : List Page
deriving DecidableEq, Repr

/-- Modelled from the spec: the plain encoding of the row slots of a page (not
under src/): every slot is the length of its serialized value followed by
the serialized value, a null slot holding the serialized nil value. -/
def encodeValues (rows : List Value) : List Nat :=
  rows.flatMap fun v => putUvarint v.MarshalBinary.length ++ v.MarshalBinary

/-- Modelled from the spec: the uncompressed payload of a page: the number of
row slots followed by their plain encoding. -/
def encodeRows (rows : List Value) : List Nat :=
  putUvarint rows.length ++ encodeValues rows

/-- Modelled from the spec: decoding `n` row slots from the front of `data`:
the values and the bytes after them, or nothing when the data is truncated or
a value is malformed. -/
def decodeValues : Nat → List Nat → Option (List Value × List Nat)
  | 0, data => some ([], data)
  | n + 1, data =>
    match uvarint data with
    | none => none
    | some (len, rest) =>
      if rest.length < len then none
      else
        match Value.UnmarshalBinary (rest.take len) with
        | .error _ => none
        | .ok v =>
          match decodeValues n (rest.drop len) with
          | none => none
          | some (vs, rest1) => some (v :: vs, rest1)

/-- Modelled from the spec: decoding the uncompressed payload of a page into its
row slots; bytes left over make the page corrupt. -/
def decodeRows (data : List Nat) : Option (List Value) :=
  match uvarint data with
  | none => none
  | some (n, rest) =>
    match decodeValues n rest with
    | some (vs, []) => some vs
    | _ => none

/-- Modelled from the spec: decompressing and decoding a page into its row
slots. -/
def Page.decode (c : Codec) (kind : CompressionType) (pg : Page) : Option (List Value) :=
  match c.decompress kind pg.Data with
  | none => none
  | some raw => decodeRows raw

/-- Modelled from the spec: the range accumulator of the statistics collector
(not under src/): the smallest and the largest value observed, both nil until
the first value that is neither nil nor zero. -/
structure rangeStats where
  min : Value
  max : Value
deriving DecidableEq, Repr

/-- The range accumulator that has observed nothing. -/
def rangeStats.empty : rangeStats := ⟨.nil, .nil⟩

/-- Modelled from the spec: range tracking: a nil or zero value never updates
the range, the first other value seeds both bounds, and a later value replaces
a bound when it lies outside of it. -/
def rangeStats.observe (s : rangeStats) (v : Value) : rangeStats :=
  if v.IsNil || v.IsZero then s
  else if s.min.IsNil then ⟨v, v⟩
  else ⟨if v.Less s.min then v else s.min, if s.max.Less v then v else s.max⟩

/-- Modelled from the spec: merging the statistics of a page into the
column-level accumulator: the bounds of the page are observed. -/
def rangeStats.merge (s page : rangeStats) : rangeStats :=
  (s.observe page.min).observe page.max

/-- Modelled from the spec: the serialized form of a range, whose bounds are
encoded with the value codec. -/
def rangeStats.serialize (s : rangeStats) : Statistics :=
  ⟨s.min.MarshalBinary, s.max.MarshalBinary⟩

/-- Modelled from the spec: the column builder (not under src/): its options,
the number of row slots appended so far, the pages cut so far, the row slots
buffered for the page in progress, the range accumulators of the page and of
the column, and whether `Flush` has been called. -/
structure ColumnBuilder where
  opts : BuilderOptions
  rows : Nat
  pages : List Page
  buf : List Value
  pageStats : rangeStats
  colStats : rangeStats
  flushed : Bool
deriving DecidableEq, Repr

/-- Modelled from the spec: `NewColumnBuilder(name, opts)` (not under src/).
The specification names no failure of the construction. -/
def NewColumnBuilder (_name : List Nat) (opts : BuilderOptions) : Except Error ColumnBuilder :=
  .ok ⟨opts, 0, [], [], rangeStats.empty, rangeStats.empty, false⟩

/-- The number of values among the row slots that are neither nil nor zero. -/
def countValues (rows : List Value) : Nat :=
  (rows.filter fun v => !(v.IsNil || v.IsZero)).length

/-- Modelled from the spec: cutting the page in progress: the buffered row
slots are encoded and compressed, the page is recorded with its `Info`, its
statistics are merged into the column-level accumulator and a new empty page
is started. -/
def ColumnBuilder.cutPage (c : Codec) (cb : ColumnBuilder) : ColumnBuilder :=
  let raw := encodeRows cb.buf
  let data := c.compress cb.opts.Compression raw
  let info : PageInfo :=
    { ValuesCount := countValues cb.buf
      UncompressedSize := raw.length
      CompressedSize := data.length
      Stats := if cb.opts.Statistics.StoreRangeStats then some cb.pageStats.serialize else none }
  { cb with
    pages := cb.pages ++ [⟨data, info⟩]
    buf := []
    pageStats := rangeStats.empty
    colStats := cb.colStats.merge cb.pageStats }

/-- Modelled from the spec: buffering a value for the row `row` in the page in
progress: the row slots of the gap before `row` are buffered as nil values,
then the value; the value is passed to the range accumulator of the page when
range statistics are configured. -/
def ColumnBuilder.buffer (cb : ColumnBuilder) (row : Nat) (value : Value) : ColumnBuilder :=
  { cb with
    rows := row + 1
    buf := cb.buf ++ List.replicate (row - cb.rows) Value.nil ++ [value]
    pageStats :=
      if cb.opts.Statistics.StoreRangeStats then cb.pageStats.observe value
      else cb.pageStats }

/-- Modelled from the spec: `cb.Append(row, value)` (not under src/).  The row
index must not lie before the row slots already appended, and a value that is
not nil must have the type of the column.  With a page size hint of 0 every
page holds one appended value: the page in progress is cut before the value
is buffered; with a positive hint the page is cut once its estimated size
meets or exceeds the hint. -/
def ColumnBuilder.Append (c : Codec) (cb : ColumnBuilder) (row : Nat) (value : Value) :
    Except Error ColumnBuilder :=
  if cb.flushed then .error .AlreadyFlushed
  else if row < cb.rows then .error .OutOfOrder
  else if !value.IsNil && value.Type != cb.opts.Value then .error .TypeMismatch
  else
    let cb1 := if cb.opts.PageSizeHint = 0 ∧ cb.buf ≠ [] then cb.cutPage c else cb
    let cb2 := cb1.buffer row value
    if 0 < cb.opts.PageSizeHint ∧ cb.opts.PageSizeHint ≤ c.EstimatedSize cb2.buf then
      .ok (cb2.cutPage c)
    else .ok cb2

/-- Modelled from the spec: `cb.Flush()` (not under src/): the page in progress
is cut even if it is empty, and the column is returned with its `Info`; a
second call fails. -/
def ColumnBuilder.Flush (c : Codec) (cb : ColumnBuilder) : Except Error (ColumnBuilder × Column) :=
  if cb.flushed then .error .AlreadyFlushed
  else
    let cb1 := cb.cutPage c
    let info : ColumnInfo :=
      { ValueType := cb1.opts.Value
        Encoding := cb1.opts.Encoding
        Compression := cb1.opts.Compression
        RowsCount := cb1.rows
        ValuesCount := (cb1.pages.map fun pg => pg.Info.ValuesCount).sum
        UncompressedSize := (cb1.pages.map fun pg => pg.Info.UncompressedSize).sum
        CompressedSize := (cb1.pages.map fun pg => pg.Info.CompressedSize).sum
        Statistics :=
          if cb1.opts.Statistics.StoreRangeStats then some cb1.colStats.serialize else none }
    .ok ({ cb1 with flushed := true }, ⟨info, cb1.pages⟩)

/-- The loop `for i, s := range in` of the tests: `Append(row, v)` for the
values in order, at the rows `row`, `row + 1`, and so on. -/
def ColumnBuilder.AppendAll (c : Codec) (cb : ColumnBuilder) : Nat → List Value →
    Except Error ColumnBuilder
  | _, [] => .ok cb
  | row, v :: vs =>
    match cb.Append c row v with
    | .error e => .error e
    | .ok cb1 => cb1.AppendAll c (row + 1) vs

/-- Modelled from the spec: the column reader (not under src/): the column, the
index of the next page to open, and the values of the current page that have
not been returned yet. -/
structure columnReader where
  col : Column
  pageIdx : Nat
  cur : List Value
deriving DecidableEq, Repr

/-- Modelled from the spec: `newColumnReader(col)` (not under src/). -/
def newColumnReader (col : Column) : columnReader := ⟨col, 0, []⟩

/-- Modelled from the spec: `r.Read(ctx, buffer)` for a buffer of `n` slots
(not under src/): the reader after the call, the values written to the front
of the buffer and the error.  The values come from the current page; when it
has none left the next page is opened, which fails with `CorruptPage` when it
cannot be decoded; after the last page the call returns `EndOfData`. -/
def columnReader.Read (c : Codec) (r : columnReader) (n : Nat) :
    columnReader × List Value × Option Error :=
  match r.cur with
  | _ :: _ => ({ r with cur := r.cur.drop n }, r.cur.take n, none)
  | [] =>
    match r.col.Pages.drop r.pageIdx with
    | [] => (r, [], some .EndOfData)
    | pg :: _ =>
      match pg.decode c r.col.Info.Compression with
      | none => (r, [], some (.CorruptPage r.pageIdx))
      | some rows =>
        ({ r with pageIdx := r.pageIdx + 1, cur := rows.drop n }, rows.take n, none)

/-- The read loop of `TestColumnBuilder_ReadWrite` with a buffer of `n` slots:
`Read` is called until it returns `EndOfData`, a call that returns no value
and no error is retried, and any other error ends the loop.  The result is
`none` when `fuel` calls did not reach the end. -/
def columnReader.readAll (c : Codec) (n : Nat) : Nat → columnReader →
    Option (Except Error (List Value))
  | 0, _ => none
  | fuel + 1, r =>
    match r.Read c n with
    | (_, _, some .EndOfData) => some (.ok [])
    | (_, _, some e) => some (.error e)
    | (r1, vs, none) =>
      match readAll c n fuel r1 with
      | none => none
      | some (.error e) => some (.error e)
      | some (.ok ws) => some (.ok (vs ++ ws))

/-- The payload that `TestColumnBuilder_ReadWrite` takes from a value read
back: empty for a nil or zero value, the byte array otherwise. -/
def payloadOf (v : Value) : List Nat :=
  if v.IsNil || v.IsZero then [] else v.ByteArray

/-- The byte arrays of the values that are neither nil nor zero. -/
def nonEmpty (vs : List Value) : List (List Nat) :=
  vs.filterMap fun v =>
    match v with
    | .byteArray b => if b = [] then none else some b
    | _ => none

/-- The values `mn` and `mx` are the range of the byte arrays `bs` in the
lexicographic order: both are nil when there is no byte array, and otherwise
they are the smallest and the largest of the byte arrays. -/
def IsRange (mn mx : Value) (bs : List (List Nat)) : Prop :=
  (bs = [] ∧ mn = .nil ∧ mx = .nil) ∨
  (∃ a b, mn = .byteArray a ∧ mx = .byteArray b ∧ a ∈ bs ∧ b ∈ bs ∧
    ∀ x ∈ bs, a ≤ x ∧ x ≤ b)

/-- The compressor of the codec is undone by its decompressor. -/
def Codec.Lawful (c : Codec) : Prop :=
  ∀ data, c.zstdDecompress (c.zstdCompress data) = some data

/-- The page `pg` of a column built with the options `opts` holds the row
slots `rows`: it decodes to them, it counts their values, and with range
statistics its `Stats` are the serialized range of their byte arrays. -/
def PageOk (c : Codec) (opts : BuilderOptions) (pg : Page) (rows : List Value) : Prop :=
  pg.decode c opts.Compression = some rows ∧ pg.Info.ValuesCount = countValues rows ∧
  (opts.Statistics.StoreRangeStats = true →
    ∃ s : rangeStats, pg.Info.Stats = some s.serialize ∧ IsRange s.min s.max (nonEmpty rows))

/-- The builder `cb` with the options `opts` has not been flushed, its pages
hold the row slots `rowss`, page by page, and with range statistics its
accumulators hold the range of the buffered row slots and the range of the row
slots of the pages. -/
def Stores (c : Codec) (opts : BuilderOptions) (cb : ColumnBuilder)
    (rowss : List (List Value)) : Prop :=
  cb.opts = opts ∧ cb.flushed = false ∧ cb.rows = (rowss.flatten ++ cb.buf).length ∧
  List.Forall₂ (PageOk c opts) cb.pages rowss ∧
  (opts.Statistics.StoreRangeStats = true →
    IsRange cb.pageStats.min cb.pageStats.max (nonEmpty cb.buf) ∧
    IsRange cb.colStats.min cb.colStats.max (nonEmpty rowss.flatten))

end Dataset

namespace HLL

/-! ## General lemmas -/

theorem u32_shift (p : Nat) (h : p ≤ 18) : u32 (1 <<< p) = 2 ^ p := by
  unfold u32
  rw [Nat.one_shiftLeft]
  apply Nat.mod_eq_of_lt
  calc 2 ^ p ≤ 2 ^ 18 := Nat.pow_le_pow_right (by norm_num) h
    _ < 2 ^ 32 := by norm_num

/-! ### Register arrays -/

theorem getD_set_max (rs : List Nat) (i r j : Nat) (hj : j < rs.length) :
    (rs.set i (max r (rs.getD i 0))).getD j 0 =
      if i = j then max r (rs.getD j 0) else rs.getD j 0 := by
  by_cases h : i = j
  · subst h
    simp [List.getD_eq_getElem?_getD, List.getElem?_set, hj]
  · simp [List.getD_eq_getElem?_getD, List.getElem?_set, h]

theorem list_ext_getD (a b : List Nat) (hl : a.length = b.length)
    (h : ∀ j, j < a.length → a.getD j 0 = b.getD j 0) : a = b := by
  apply List.ext_getElem hl
  intro j h1 h2
  have := h j h1
  simpa [List.getD_eq_getElem?_getD, List.getElem?_eq_getElem h1, List.getElem?_eq_getElem h2]
    using this

theorem maxRank_append (es fs : List (Nat × Nat)) (j : Nat) :
    maxRank (es ++ fs) j = max (maxRank es j) (maxRank fs j) := by
  induction es with
  | nil => simp [maxRank]
  | cons e es ih =>
    simp only [maxRank, List.cons_append, List.foldr_cons] at ih ⊢
    split
    · rw [ih, max_assoc]
    · exact ih

/-- Folding register updates over a list of (index, rank) pairs. -/
theorem foldl_insert_spec (es : List (Nat × Nat)) (rs : List Nat) :
    (es.foldl (fun rs e => rs.set e.1 (max e.2 (rs.getD e.1 0))) rs).length = rs.length ∧
    ∀ j, j < rs.length →
      (es.foldl (fun rs e => rs.set e.1 (max e.2 (rs.getD e.1 0))) rs).getD j 0 =
        max (rs.getD j 0) (maxRank es j) := by
  induction es generalizing rs with
  | nil => simp [maxRank]
  | cons e es ih =>
    obtain ⟨h1, h2⟩ := ih (rs.set e.1 (max e.2 (rs.getD e.1 0)))
    simp only [List.foldl_cons]
    refine ⟨by simpa using h1, ?_⟩
    intro j hj
    rw [h2 j (by simpa using hj), getD_set_max rs _ _ _ hj]
    simp only [maxRank, List.foldr_cons]
    split
    · rw [max_comm e.2, max_assoc]
    · rfl

theorem getD_set_eq (rs : List Nat) (i v j : Nat) (hi : i < rs.length) :
    (rs.set i v).getD j 0 = if i = j then v else rs.getD j 0 := by
  by_cases h : i = j
  · subst h
    simp [List.getD_eq_getElem?_getD, List.getElem?_set, hi]
  · simp [List.getD_eq_getElem?_getD, List.getElem?_set, h]

theorem mergeStep_spec (regs : List Nat) (i v : Nat) (hi : i < regs.length) :
    (if v > regs.getD i 0 then regs.set i v else regs).length = regs.length ∧
    ∀ j, (if v > regs.getD i 0 then regs.set i v else regs).getD j 0 =
      if i = j then max (regs.getD j 0) v else regs.getD j 0 := by
  by_cases hv : v > regs.getD i 0
  · rw [if_pos hv]
    refine ⟨by simp, fun j => ?_⟩
    rw [getD_set_eq regs i v j hi]
    by_cases h : i = j
    · subst h
      rw [if_pos rfl, if_pos rfl, max_eq_right (le_of_lt hv)]
    · rw [if_neg h, if_neg h]
  · rw [if_neg hv]
    refine ⟨rfl, fun j => ?_⟩
    by_cases h : i = j
    · subst h
      rw [if_pos rfl, max_eq_left (not_lt.mp hv)]
    · rw [if_neg h]

theorem mergeRegsLoop_spec (vs : List Nat) (i : Nat) (regs : List Nat)
    (h : i + vs.length ≤ regs.length) :
    ∃ out, mergeRegsLoop vs i regs = .ok out ∧ out.length = regs.length ∧
      ∀ j, j < regs.length → out.getD j 0 =
        if i ≤ j ∧ j < i + vs.length then max (regs.getD j 0) (vs.getD (j - i) 0)
        else regs.getD j 0 := by
  induction vs generalizing i regs with
  | nil => exact ⟨regs, rfl, rfl, fun j _ => by simp⟩
  | cons v vs ih =>
    simp only [List.length_cons] at h ⊢
    have hi : i < regs.length := by omega
    obtain ⟨hl', hg'⟩ := mergeStep_spec regs i v hi
    simp only [mergeRegsLoop, hi, if_true]
    obtain ⟨out, ho, hl, hs⟩ := ih (i + 1) (if v > regs.getD i 0 then regs.set i v else regs)
      (by rw [hl']; omega)
    refine ⟨out, ho, by rw [hl, hl'], ?_⟩
    intro j hj
    rw [hs j (by rw [hl']; exact hj), hg' j]
    by_cases hij : i = j
    · subst hij
      have h1 : ¬ (i + 1 ≤ i ∧ i < i + 1 + vs.length) := by omega
      have h2 : i ≤ i ∧ i < i + (vs.length + 1) := by omega
      rw [if_neg h1, if_pos rfl, if_pos h2, Nat.sub_self]
      rfl
    · rw [if_neg hij]
      by_cases hlt : i + 1 ≤ j ∧ j < i + 1 + vs.length
      · have h2 : i ≤ j ∧ j < i + (vs.length + 1) := by omega
        obtain ⟨d, rfl⟩ : ∃ d, j = i + 1 + d := ⟨j - (i + 1), by omega⟩
        have e1 : i + 1 + d - (i + 1) = d := by omega
        have e2 : i + 1 + d - i = d + 1 := by omega
        rw [if_pos hlt, if_pos h2, e1, e2]
        rfl
      · have h2 : ¬ (i ≤ j ∧ j < i + (vs.length + 1)) := by omega
        rw [if_neg hlt, if_neg h2]

/-! ### Dense sketches -/

theorem wrap_sub (N a b : Nat) (hb : b ≤ a) (ha : a < N) : (a + N - b % N) % N = a - b := by
  rw [Nat.mod_eq_of_lt (lt_of_le_of_lt hb ha)]
  have : a + N - b = (a - b) + N := by omega
  rw [this, Nat.add_mod_right, Nat.mod_eq_of_lt (by omega)]

theorem sub64_pow (p : Nat) (hp : p < 64) : sub64 (u64 (1 <<< p)) 1 = 2 ^ p - 1 := by
  have h1 : 2 ^ p < 2 ^ 64 := Nat.pow_lt_pow_right (by norm_num) hp
  have h0 : 0 < 2 ^ p := Nat.pos_pow_of_pos _ (by norm_num)
  unfold sub64 u64
  rw [Nat.one_shiftLeft, Nat.mod_eq_of_lt h1]
  exact wrap_sub _ _ _ h0 h1

theorem getPosVal_fst_lt (x p : Nat) (hp : p < 64) : (getPosVal x p).1 < 2 ^ p := by
  have h0 : 0 < 2 ^ p := Nat.pos_pow_of_pos _ (by norm_num)
  simp only [getPosVal, bextr]
  rw [sub64_pow p hp]
  exact Nat.and_lt_two_pow _ (by omega)

theorem getPosVal_fst_u32 (x p : Nat) (hp : p ≤ 18) :
    u32 (getPosVal x p).1 = (getPosVal x p).1 ∧ (getPosVal x p).1 < 2 ^ p := by
  have h := getPosVal_fst_lt x p (by omega)
  refine ⟨?_, h⟩
  unfold u32
  apply Nat.mod_eq_of_lt
  calc (getPosVal x p).1 < 2 ^ p := h
    _ ≤ 2 ^ 18 := Nat.pow_le_pow_right (by norm_num) hp
    _ < 2 ^ 32 := by norm_num

/-- The (index, rank) pair that `InsertHash` writes into a dense sketch. -/
theorem InsertHash_dense (sk : Sketch) (rs : List Nat) (x : Nat)
    (hs : sk.sparseList = none) (hr : sk.regs = some rs) (hl : rs.length = 2 ^ sk.p)
    (hp : sk.p ≤ 18) :
    sk.InsertHash x = .ok { sk with
      regs := some (rs.set (getPosVal x sk.p).1
        (max (getPosVal x sk.p).2 (rs.getD (getPosVal x sk.p).1 0))) } := by
  obtain ⟨h1, h2⟩ := getPosVal_fst_u32 x sk.p hp
  simp only [Sketch.InsertHash, Sketch.sparse, hs, Option.isSome_none, Bool.false_eq_true, if_false,
    Sketch.insert, hr, h1, hl, h2, if_true]

theorem InsertHashes_dense (xs : List Nat) (sk : Sketch) (rs : List Nat)
    (hs : sk.sparseList = none) (hr : sk.regs = some rs) (hl : rs.length = 2 ^ sk.p)
    (hp : sk.p ≤ 18) :
    sk.InsertHashes xs = .ok { sk with
      regs := some ((xs.map fun x => getPosVal x sk.p).foldl
        (fun rs e => rs.set e.1 (max e.2 (rs.getD e.1 0))) rs) } := by
  induction xs generalizing sk rs with
  | nil =>
    obtain ⟨p, m, t, sl, rg⟩ := sk
    simp only at hr
    subst hr
    rfl
  | cons x xs ih =>
    simp only [Sketch.InsertHashes, InsertHash_dense sk rs x hs hr hl hp]
    rw [ih { sk with regs := some (rs.set (getPosVal x sk.p).1
        (max (getPosVal x sk.p).2 (rs.getD (getPosVal x sk.p).1 0))) } _ hs rfl
      (by simpa using hl) hp]
    rfl

theorem dense_merge_regs (p : Nat) (A B C : List Nat) (m : Nat) (t : set)
    (la : A.length = 2 ^ p) (lb : B.length = 2 ^ p) (lc : C.length = 2 ^ p)
    (h : ∀ j, j < 2 ^ p → C.getD j 0 = max (A.getD j 0) (B.getD j 0)) :
    Sketch.Merge ⟨p, m, t, none, some A⟩ (some ⟨p, m, t, none, some B⟩) =
      .ok (⟨p, m, t, none, some C⟩, none) := by
  have h0 : 0 < 2 ^ p := Nat.pos_pow_of_pos _ (by norm_num)
  obtain ⟨out, ho, hlo, hgo⟩ := mergeRegsLoop_spec B 0 A (by omega)
  have hout : out = C := by
    apply list_ext_getD _ _ (by omega)
    intro j hj
    have hjB : 0 ≤ j ∧ j < 0 + B.length := by omega
    rw [hgo j (by omega), h j (by omega), if_pos hjB, Nat.sub_zero]
  subst hout
  have hB : B ≠ [] := by
    intro h
    rw [h] at lb
    simp at lb
    omega
  obtain ⟨v, vs, rfl⟩ := List.exists_cons_of_ne_nil hB
  simp [Sketch.Merge, Sketch.sparse, Sketch.mergeDenseSketch, ho]

theorem readKeys_cons (v w : Nat) (t : List Nat) (n i : Nat) (s : set) (h : 1 ≤ i) :
    readKeys (v :: t) n i s = readKeys (w :: t) n i s := by
  induction n generalizing i s with
  | zero => rfl
  | succ n ih =>
    obtain ⟨k, rfl⟩ : ∃ k, i = k + 1 := ⟨i - 1, by omega⟩
    simp only [readKeys, subslice, List.length_cons, List.take_succ_cons, List.drop_succ_cons]
    split
    · rfl
    · split
      · rfl
      · exact ih _ _ (by omega)

/-! ### Bit arithmetic of the variable-length encoding -/

theorem and_7f (x : Nat) : x &&& 0x7f = x % 128 :=
  Nat.and_pow_two_sub_one_eq_mod x 7

theorem and_mask_eq_zero_iff (x : Nat) (hx : x < 2 ^ 32) : x &&& 0xffffff80 = 0 ↔ x < 128 := by
  constructor
  · intro h
    have h1 : x &&& (0xffffff80 ||| 0x7f) = x := by
      have : (0xffffff80 ||| 0x7f : Nat) = 2 ^ 32 - 1 := by decide
      rw [this, Nat.and_pow_two_sub_one_eq_mod, Nat.mod_eq_of_lt hx]
    rw [Nat.and_or_distrib_left, h, and_7f, Nat.zero_or] at h1
    have := Nat.mod_lt x (show 128 > 0 by norm_num)
    omega
  · intro h
    have h1 : x = x &&& 0x7f := by rw [and_7f, Nat.mod_eq_of_lt h]
    rw [h1, Nat.and_assoc]
    have : (0x7f &&& 0xffffff80 : Nat) = 0 := by decide
    rw [this, Nat.and_zero]

theorem byte_facts : ∀ y < 128, (y ||| 0x80) &&& 0x80 ≠ 0 ∧ (y ||| 0x80) &&& 0x7f = y ∧
    (y ||| 0x80) < 256 ∧ y &&& 0x80 = 0 := by
  decide

theorem shift_or_split (x k : Nat) :
    ((x % 128) <<< (k * 7)) ||| ((x >>> 7) <<< ((k + 1) * 7)) = x <<< (k * 7) := by
  have h1 : (k + 1) * 7 = k * 7 + 7 := by ring
  have hp : 2 ^ (k * 7 + 7) = 2 ^ (k * 7) * 128 := by rw [Nat.pow_add]
  have hb : x % 128 * 2 ^ (k * 7) < 2 ^ (k * 7 + 7) := by
    rw [hp, Nat.mul_comm]
    exact Nat.mul_lt_mul_of_pos_left (Nat.mod_lt _ (by norm_num)) (Nat.pos_pow_of_pos _ (by norm_num))
  rw [h1, Nat.shiftRight_eq_div_pow, Nat.shiftLeft_eq, Nat.shiftLeft_eq, Nat.shiftLeft_eq,
    Nat.or_comm, Nat.mul_comm (x / 2 ^ 7), ← Nat.mul_add_lt_is_or hb, hp]
  have := Nat.div_add_mod x 128
  have e : (2 : Nat) ^ 7 = 128 := by norm_num
  rw [e]
  calc 2 ^ (k * 7) * 128 * (x / 128) + x % 128 * 2 ^ (k * 7)
      = (128 * (x / 128) + x % 128) * 2 ^ (k * 7) := by ring
    _ = x * 2 ^ (k * 7) := by rw [this]

theorem shift_div_le (x k : Nat) : (x >>> 7) <<< ((k + 1) * 7) ≤ x <<< (k * 7) := by
  have h1 : (k + 1) * 7 = k * 7 + 7 := by ring
  rw [h1, Nat.shiftRight_eq_div_pow, Nat.shiftLeft_eq, Nat.shiftLeft_eq, Nat.pow_add]
  have e : (2 : Nat) ^ 7 = 128 := by norm_num
  rw [e]
  calc x / 128 * (2 ^ (k * 7) * 128) = (x / 128 * 128) * 2 ^ (k * 7) := by ring
    _ ≤ x * 2 ^ (k * 7) := Nat.mul_le_mul_right _ (Nat.div_mul_le_self x 128)

theorem le_shiftLeft (x s : Nat) : x ≤ x <<< s := by
  rw [Nat.shiftLeft_eq]
  exact Nat.le_mul_of_pos_right _ (Nat.pos_pow_of_pos _ (by norm_num))

theorem AppendAux_append (n : Nat) (v : List Nat) (x : Nat) :
    variableLengthList.AppendAux n v x = v ++ variableLengthList.AppendAux n [] x := by
  induction n generalizing v x with
  | zero => simp [variableLengthList.AppendAux]
  | succ n ih =>
    simp only [variableLengthList.AppendAux]
    split
    · rw [ih, ih ([] ++ _)]
      simp
    · simp

theorem AppendAux_ne_nil (n : Nat) (x : Nat) : variableLengthList.AppendAux n [] x ≠ [] := by
  cases n with
  | zero => simp [variableLengthList.AppendAux]
  | succ n =>
    simp only [variableLengthList.AppendAux]
    split
    · rw [AppendAux_append]
      simp
    · simp

theorem AppendAux_bytes (n : Nat) (x : Nat) :
    ∀ b ∈ variableLengthList.AppendAux n [] x, b < 256 := by
  induction n generalizing x with
  | zero =>
    intro b hb
    simp only [variableLengthList.AppendAux, List.nil_append, List.mem_singleton] at hb
    rw [hb]
    exact Nat.mod_lt _ (by norm_num)
  | succ n ih =>
    intro b hb
    simp only [variableLengthList.AppendAux] at hb
    split at hb
    · rw [AppendAux_append] at hb
      simp only [List.nil_append, List.singleton_append, List.mem_cons] at hb
      rcases hb with hb | hb
      · rw [hb]
        exact Nat.mod_lt _ (by norm_num)
      · exact ih _ b hb
    · simp only [List.nil_append, List.mem_singleton] at hb
      rw [hb]
      exact Nat.mod_lt _ (by norm_num)

theorem AppendAux_length (n : Nat) (x : Nat) :
    (variableLengthList.AppendAux n [] x).length ≤ n + 1 := by
  induction n generalizing x with
  | zero => simp [variableLengthList.AppendAux]
  | succ n ih =>
    simp only [variableLengthList.AppendAux]
    split
    · rw [AppendAux_append]
      have := ih (x >>> 7)
      simp
      omega
    · simp

theorem decode_single (x acc k : Nat) (tail : List Nat) (hx : x <<< (k * 7) < 2 ^ 32)
    (h : x < 128) :
    variableLengthList.decode (u8 (x &&& 0x7f) :: tail) acc k =
      .ok (acc ||| (x <<< (k * 7)), tail) := by
  have e1 : u8 (x &&& 0x7f) = x := by
    rw [and_7f, Nat.mod_eq_of_lt h]
    exact Nat.mod_eq_of_lt (by omega)
  have e2 : x &&& 0x80 = 0 := (byte_facts x h).2.2.2
  simp only [e1, variableLengthList.decode, e2, ne_eq, not_true_eq_false, if_false]
  rw [u32, Nat.mod_eq_of_lt hx]

/-- Reading back a value written by `variableLengthList.Append`. -/
theorem decode_AppendAux (n x acc k : Nat) (tail : List Nat)
    (hx : x <<< (k * 7) < 2 ^ 32) (hn : x < 2 ^ (7 * (n + 1))) :
    variableLengthList.decode (variableLengthList.AppendAux n [] x ++ tail) acc k =
      .ok (acc ||| (x <<< (k * 7)), tail) := by
  induction n generalizing x acc k with
  | zero =>
    simp only [variableLengthList.AppendAux, List.nil_append, List.singleton_append]
    exact decode_single x acc k tail hx (by simpa using hn)
  | succ n ih =>
    have hx32 : x < 2 ^ 32 := lt_of_le_of_lt (le_shiftLeft x _) hx
    simp only [variableLengthList.AppendAux]
    by_cases hm : x &&& 0xffffff80 = 0
    · simp only [hm, ne_eq, not_true_eq_false, if_false, List.nil_append, List.singleton_append]
      exact decode_single x acc k tail hx ((and_mask_eq_zero_iff x hx32).1 hm)
    · simp only [hm, ne_eq, not_false_eq_true, if_true, List.nil_append]
      rw [AppendAux_append, List.append_assoc]
      have hb := byte_facts (x % 128) (Nat.mod_lt _ (by norm_num))
      have e1 : u8 ((x &&& 0x7f) ||| 0x80) = (x % 128) ||| 0x80 := by
        rw [and_7f]
        exact Nat.mod_eq_of_lt hb.2.2.1
      rw [e1]
      simp only [List.singleton_append, List.cons_append, List.nil_append, List.append_eq,
        variableLengthList.decode, hb.1, ne_eq, not_false_eq_true, if_true, hb.2.1]
      have hlt : (x % 128) <<< (k * 7) < 2 ^ 32 := by
        rw [Nat.shiftLeft_eq] at hx ⊢
        calc x % 128 * 2 ^ (k * 7) ≤ x * 2 ^ (k * 7) :=
              Nat.mul_le_mul_right _ (Nat.mod_le _ _)
          _ < 2 ^ 32 := hx
      have hx7 : (x >>> 7) <<< ((k + 1) * 7) < 2 ^ 32 :=
        lt_of_le_of_lt (shift_div_le x k) hx
      have hn7 : x >>> 7 < 2 ^ (7 * (n + 1)) := by
        rw [Nat.shiftRight_eq_div_pow]
        apply Nat.div_lt_of_lt_mul
        have : 2 ^ 7 * 2 ^ (7 * (n + 1)) = 2 ^ (7 * (n + 1 + 1)) := by
          rw [← Nat.pow_add]
          congr 1
          ring
        rw [this]
        exact hn
      rw [ih (x >>> 7) _ (k + 1) hx7 hn7, u32, Nat.mod_eq_of_lt hlt, Nat.or_assoc,
        shift_or_split]

/-! ### The compressed list as the list of its entries -/

theorem u32_lt (x : Nat) : u32 x < 2 ^ 32 := Nat.mod_lt _ (by norm_num)

theorem u32_of_lt (x : Nat) (h : x < 2 ^ 32) : u32 x = x := Nat.mod_eq_of_lt h

theorem sub32_lt (a b : Nat) : sub32 a b < 2 ^ 32 := Nat.mod_lt _ (by norm_num)

theorem sub32_add (x last : Nat) (hx : x < 2 ^ 32) (hl : last < 2 ^ 32) :
    u32 (sub32 x last + last) = x := by
  unfold u32 sub32
  rw [Nat.mod_eq_of_lt hl]
  norm_num at hx hl ⊢
  omega

theorem Append_eq (v : List Nat) (x : Nat) :
    variableLengthList.Append v x = v ++ variableLengthList.Append [] x := by
  unfold variableLengthList.Append
  exact AppendAux_append 4 v _

theorem Append_ne_nil (x : Nat) : variableLengthList.Append [] x ≠ [] :=
  AppendAux_ne_nil 4 _

theorem Append_length (x : Nat) :
    1 ≤ (variableLengthList.Append [] x).length ∧ (variableLengthList.Append [] x).length ≤ 5 := by
  refine ⟨?_, AppendAux_length 4 _⟩
  have := Append_ne_nil x
  cases h : variableLengthList.Append [] x with
  | nil => exact absurd h this
  | cons a l => simp

theorem decode_Append (d : Nat) (tail : List Nat) (hd : d < 2 ^ 32) :
    variableLengthList.decode (variableLengthList.Append [] d ++ tail) 0 0 = .ok (d, tail) := by
  unfold variableLengthList.Append
  rw [u32_of_lt d hd, decode_AppendAux 4 d 0 0 tail (by simpa using hd)
    (lt_of_lt_of_le hd (by norm_num))]
  simp

theorem deltaBytes_cons_ne_nil (last x : Nat) (xs : List Nat) :
    ∃ b rest, deltaBytes last (x :: xs) = b :: rest := by
  unfold deltaBytes
  cases h : variableLengthList.Append [] (sub32 (u32 x) last) with
  | nil => exact absurd h (Append_ne_nil _)
  | cons a l => exact ⟨a, l ++ deltaBytes (u32 x) xs, rfl⟩

theorem deltaBytes_length (last : Nat) (L : List Nat) :
    L.length ≤ (deltaBytes last L).length ∧ (deltaBytes last L).length ≤ 5 * L.length := by
  induction L generalizing last with
  | nil => simp [deltaBytes]
  | cons x xs ih =>
    have h1 := Append_length (sub32 (u32 x) last)
    have h2 := ih (u32 x)
    simp only [deltaBytes, List.length_append, List.length_cons]
    omega

theorem deltaBytes_bytes (last : Nat) (L : List Nat) : ∀ b ∈ deltaBytes last L, b < 256 := by
  induction L generalizing last with
  | nil => simp [deltaBytes]
  | cons x xs ih =>
    intro b hb
    simp only [deltaBytes, List.mem_append] at hb
    rcases hb with hb | hb
    · exact AppendAux_bytes 4 _ b hb
    · exact ih _ b hb

/-- Decoding the first entry of an encoded run of entries. -/
theorem decode_deltaBytes (last x : Nat) (xs tail : List Nat) (hx : x < 2 ^ 32)
    (hl : last < 2 ^ 32) :
    compressedList.decode (deltaBytes last (x :: xs) ++ tail) last =
      .ok (x, deltaBytes x xs ++ tail) := by
  simp only [deltaBytes, compressedList.decode, List.append_assoc, u32_of_lt x hx]
  rw [decode_Append _ _ (sub32_lt _ _)]
  simp only [sub32_add x last hx hl]

theorem foldl_Append_b (L : List Nat) (c : compressedList) :
    (L.foldl compressedList.Append c).b = c.b ++ deltaBytes c.last L := by
  induction L generalizing c with
  | nil => simp [deltaBytes]
  | cons x xs ih =>
    rw [List.foldl_cons, ih]
    simp only [compressedList.Append, deltaBytes]
    rw [Append_eq, List.append_assoc]

theorem encList_b (L : List Nat) : (encList L).b = deltaBytes 0 L := by
  unfold encList
  rw [foldl_Append_b]
  rfl

theorem foldl_Append_count (L : List Nat) (c : compressedList) :
    (L.foldl compressedList.Append c).count = u32 (c.count + L.length) ∨
      (L = [] ∧ (L.foldl compressedList.Append c).count = c.count) := by
  induction L generalizing c with
  | nil => right; exact ⟨rfl, rfl⟩
  | cons x xs ih =>
    left
    rw [List.foldl_cons]
    rcases ih (c.Append x) with h | ⟨h1, h2⟩
    · rw [h]
      simp only [compressedList.Append, u32, List.length_cons]
      omega
    · subst h1
      simp [compressedList.Append]

theorem encList_count (L : List Nat) : (encList L).count = u32 L.length := by
  unfold encList
  rcases foldl_Append_count L (newCompressedList 0) with h | ⟨h1, h2⟩
  · rw [h]
    simp [newCompressedList]
  · subst h1
    rfl

theorem foldl_Append_typed (L : List Nat) (c : compressedList)
    (hc : c.count < 2 ^ 32 ∧ c.last < 2 ^ 32) :
    (L.foldl compressedList.Append c).count < 2 ^ 32 ∧
      (L.foldl compressedList.Append c).last < 2 ^ 32 := by
  induction L generalizing c with
  | nil => exact hc
  | cons x xs ih => exact ih _ ⟨u32_lt _, u32_lt _⟩

/-- A loop over the iterator of a list that holds the entries `L` runs `step`
on the entries in order. -/
theorem iterate_deltaBytes {σ : Type} (step : σ → Nat → Except Abort σ) (L : List Nat)
    (last fuel : Nat) (s : σ) (hL : ∀ x ∈ L, x < 2 ^ 32) (hl : last < 2 ^ 32)
    (hf : (deltaBytes last L).length ≤ fuel) :
    iterate step fuel (deltaBytes last L) last s = foldSteps step L s := by
  induction L generalizing last fuel s with
  | nil => cases fuel <;> simp [deltaBytes, iterate, foldSteps]
  | cons x xs ih =>
    have hx : x < 2 ^ 32 := hL x (by simp)
    obtain ⟨b, rest, hb⟩ := deltaBytes_cons_ne_nil last x xs
    have hdec := decode_deltaBytes last x xs [] hx hl
    simp only [List.append_nil] at hdec
    cases fuel with
    | zero =>
      rw [hb] at hf
      simp at hf
    | succ fuel =>
      have hlen : (deltaBytes x xs).length ≤ fuel := by
        have h1 := Append_length (sub32 x last)
        simp only [deltaBytes, List.length_append, u32_of_lt x hx] at hf
        omega
      rw [hb] at hdec ⊢
      simp only [iterate, hdec, foldSteps]
      cases hs : step s x with
      | error e => rfl
      | ok s' => exact ih x fuel s' (fun y hy => hL y (by simp [hy])) hx hlen

/-- The loop of `mergeSparse` on a list that holds the strictly increasing
entries `Lr` and on strictly increasing keys `K`: it appends a strictly
increasing list `M` whose members are those of `Lr` and `K`. -/
theorem mergeSparseLoop_spec (n : Nat) : ∀ (Lr K : List Nat) (last fuel : Nat)
    (c : compressedList), Lr.length + K.length ≤ n → Lr.Sorted (· < ·) → K.Sorted (· < ·) →
    (∀ x ∈ Lr, x < 2 ^ 32) → last < 2 ^ 32 → (deltaBytes last Lr).length + K.length ≤ fuel →
    ∃ M : List Nat, mergeSparseLoop fuel (deltaBytes last Lr) last K c =
        .ok (M.foldl compressedList.Append c) ∧ M.Sorted (· < ·) ∧
      (∀ x, x ∈ M ↔ x ∈ Lr ∨ x ∈ K) := by
  induction n with
  | zero =>
    intro Lr K last fuel c hn _ _ _ _ _
    have h1 : Lr = [] := List.length_eq_zero.mp (by omega)
    have h2 : K = [] := List.length_eq_zero.mp (by omega)
    subst h1 h2
    refine ⟨[], ?_, List.sorted_nil, fun y => by simp⟩
    cases fuel <;> simp [deltaBytes, mergeSparseLoop]
  | succ n ih =>
    intro Lr K last fuel c hn hLs hKs hL hl hf
    cases Lr with
    | nil =>
      cases K with
      | nil =>
        refine ⟨[], ?_, List.sorted_nil, fun y => by simp⟩
        cases fuel <;> simp [deltaBytes, mergeSparseLoop]
      | cons k ks =>
        cases fuel with
        | zero => simp at hf
        | succ fuel =>
          obtain ⟨M, hM, hs, hmem⟩ := ih [] ks last fuel (c.Append k) (by simpa using hn)
            List.sorted_nil (List.Sorted.of_cons hKs) (by simp) hl
            (by simpa [deltaBytes] using hf)
          refine ⟨k :: M, ?_, ?_, ?_⟩
          · simpa [deltaBytes, mergeSparseLoop] using hM
          · refine List.sorted_cons.mpr ⟨fun y hy => ?_, hs⟩
            have := (hmem y).1 hy
            simp only [List.not_mem_nil, false_or] at this
            exact List.rel_of_sorted_cons hKs y this
          · intro y
            simp [hmem y]
    | cons x xs =>
      have hx : x < 2 ^ 32 := hL x (by simp)
      have hxs : ∀ y ∈ xs, y < 2 ^ 32 := fun y hy => hL y (by simp [hy])
      obtain ⟨b, rest, hb⟩ := deltaBytes_cons_ne_nil last x xs
      have hdec := decode_deltaBytes last x xs [] hx hl
      simp only [List.append_nil] at hdec
      have hlen : (deltaBytes last (x :: xs)).length =
          (variableLengthList.Append [] (sub32 x last)).length + (deltaBytes x xs).length := by
        simp only [deltaBytes, List.length_append, u32_of_lt x hx]
      have h1 := Append_length (sub32 x last)
      cases fuel with
      | zero =>
        rw [hb] at hf
        simp at hf
      | succ fuel =>
        cases K with
        | nil =>
          obtain ⟨M, hM, hs, hmem⟩ := ih xs [] x fuel (c.Append x) (by simpa using hn)
            (List.Sorted.of_cons hLs) List.sorted_nil hxs hx (by simp at hf ⊢; omega)
          refine ⟨x :: M, ?_, ?_, ?_⟩
          · rw [hb] at hdec ⊢
            simpa [mergeSparseLoop, hdec] using hM
          · refine List.sorted_cons.mpr ⟨fun y hy => ?_, hs⟩
            have := (hmem y).1 hy
            simp only [List.not_mem_nil, or_false] at this
            exact List.rel_of_sorted_cons hLs y this
          · intro y
            simp [hmem y]
        | cons k ks =>
          rw [hb] at hdec
          by_cases e1 : x = k
          · subst e1
            obtain ⟨M, hM, hs, hmem⟩ := ih xs ks x fuel (c.Append x)
              (by simp at hn ⊢; omega)
              (List.Sorted.of_cons hLs) (List.Sorted.of_cons hKs) hxs hx
              (by simp at hf ⊢; omega)
            refine ⟨x :: M, ?_, ?_, ?_⟩
            · rw [hb]
              simpa [mergeSparseLoop, hdec] using hM
            · refine List.sorted_cons.mpr ⟨fun y hy => ?_, hs⟩
              rcases (hmem y).1 hy with h | h
              · exact List.rel_of_sorted_cons hLs y h
              · exact List.rel_of_sorted_cons hKs y h
            · intro y
              simp only [List.mem_cons, hmem y]
              tauto
          · by_cases e2 : x > k
            · obtain ⟨M, hM, hs, hmem⟩ := ih (x :: xs) ks last fuel (c.Append k)
                (by simp at hn ⊢; omega) hLs (List.Sorted.of_cons hKs) hL hl
                (by simp at hf ⊢; omega)
              refine ⟨k :: M, ?_, ?_, ?_⟩
              · rw [hb] at hM ⊢
                simpa [mergeSparseLoop, hdec, e1, e2] using hM
              · refine List.sorted_cons.mpr ⟨fun y hy => ?_, hs⟩
                rcases (hmem y).1 hy with h | h
                · rcases List.mem_cons.1 h with h | h
                  · omega
                  · have := List.rel_of_sorted_cons hLs y h
                    omega
                · exact List.rel_of_sorted_cons hKs y h
              · intro y
                simp only [List.mem_cons, hmem y]
                tauto
            · obtain ⟨M, hM, hs, hmem⟩ := ih xs (k :: ks) x fuel (c.Append x)
                (by simp at hn ⊢; omega) (List.Sorted.of_cons hLs) hKs hxs hx
                (by simp at hf ⊢; omega)
              refine ⟨x :: M, ?_, ?_, ?_⟩
              · rw [hb]
                simpa [mergeSparseLoop, hdec, e1, e2] using hM
              · refine List.sorted_cons.mpr ⟨fun y hy => ?_, hs⟩
                rcases (hmem y).1 hy with h | h
                · exact List.rel_of_sorted_cons hLs y h
                · rcases List.mem_cons.1 h with h | h
                  · omega
                  · have := List.rel_of_sorted_cons hKs y h
                    omega
              · intro y
                simp only [List.mem_cons, hmem y]
                tauto

/-! ### Sorted unions -/

theorem sunion_sorted (L T : List Nat) : (sunion L T).Sorted (· < ·) := by
  unfold sunion
  have h1 : (((L ++ T).dedup).insertionSort (· ≤ ·)).Sorted (· ≤ ·) := List.sorted_insertionSort _ _
  have h2 : (((L ++ T).dedup).insertionSort (· ≤ ·)).Nodup :=
    (List.perm_insertionSort _ _).nodup_iff.mpr (List.nodup_dedup _)
  exact h1.lt_of_le h2

theorem mem_sunion (L T : List Nat) (x : Nat) : x ∈ sunion L T ↔ x ∈ L ∨ x ∈ T := by
  unfold sunion
  rw [(List.perm_insertionSort _ _).mem_iff, List.mem_dedup, List.mem_append]

theorem sorted_lt_unique (M N : List Nat) (hM : M.Sorted (· < ·)) (hN : N.Sorted (· < ·))
    (h : ∀ x, x ∈ M ↔ x ∈ N) : M = N := by
  apply List.eq_of_perm_of_sorted ((List.perm_ext_iff_of_nodup hM.nodup hN.nodup).mpr h) hM hN

theorem sunion_unique (L T M : List Nat) (hM : M.Sorted (· < ·))
    (h : ∀ x, x ∈ M ↔ x ∈ L ∨ x ∈ T) : M = sunion L T :=
  sorted_lt_unique _ _ hM (sunion_sorted L T) (fun x => by rw [h, mem_sunion])

theorem sunion_nil (L : List Nat) (hL : L.Sorted (· < ·)) : sunion L [] = L :=
  (sunion_unique L [] L hL (fun x => by simp)).symm

theorem sunion_congr (L T L' T' : List Nat) (h : ∀ x, (x ∈ L ∨ x ∈ T) ↔ (x ∈ L' ∨ x ∈ T')) :
    sunion L T = sunion L' T' :=
  sunion_unique L' T' _ (sunion_sorted L T) (fun x => by rw [mem_sunion, h])

theorem sunion_lt (L T : List Nat) (hL : ∀ x ∈ L, x < 2 ^ 32) (hT : ∀ x ∈ T, x < 2 ^ 32) :
    ∀ x ∈ sunion L T, x < 2 ^ 32 := by
  intro x hx
  rcases (mem_sunion L T x).1 hx with h | h
  · exact hL x h
  · exact hT x h

theorem sunion_length (L T : List Nat) : (sunion L T).length ≤ L.length + T.length := by
  unfold sunion
  rw [List.length_insertionSort]
  calc ((L ++ T).dedup).length ≤ (L ++ T).length := (List.dedup_sublist _).length_le
    _ = L.length + T.length := List.length_append _ _

/-! ### Rank maxima depend on the members only -/

theorem le_maxRank (es : List (Nat × Nat)) (e : Nat × Nat) (h : e ∈ es) :
    e.2 ≤ maxRank es e.1 := by
  induction es with
  | nil => simp at h
  | cons a as ih =>
    simp only [maxRank, List.foldr_cons]
    rcases List.mem_cons.1 h with h | h
    · subst h
      simp
    · have := ih h
      simp only [maxRank] at this
      split
      · exact le_trans this (le_max_right _ _)
      · exact this

theorem maxRank_mem (es : List (Nat × Nat)) (j : Nat) :
    maxRank es j = 0 ∨ (j, maxRank es j) ∈ es := by
  induction es with
  | nil => left; rfl
  | cons a as ih =>
    simp only [maxRank, List.foldr_cons]
    by_cases h : a.1 = j
    · simp only [h, if_true]
      rcases le_total a.2 (maxRank as j) with hle | hle
      · simp only [maxRank] at hle ih
        rw [max_eq_right hle]
        rcases ih with ih | ih
        · left; exact ih
        · right; exact List.mem_cons_of_mem _ ih
      · simp only [maxRank] at hle
        rw [max_eq_left hle]
        right
        rw [← h]
        exact List.mem_cons_self _ _
    · simp only [h, if_false]
      simp only [maxRank] at ih
      rcases ih with ih | ih
      · left; exact ih
      · right; exact List.mem_cons_of_mem _ ih

theorem maxRank_le_of_subset (es fs : List (Nat × Nat)) (h : ∀ e, e ∈ es → e ∈ fs) (j : Nat) :
    maxRank es j ≤ maxRank fs j := by
  rcases maxRank_mem es j with h0 | hm
  · rw [h0]
    exact Nat.zero_le _
  · exact le_maxRank fs (j, maxRank es j) (h _ hm)

theorem maxRank_congr (es fs : List (Nat × Nat)) (h : ∀ e, e ∈ es ↔ e ∈ fs) (j : Nat) :
    maxRank es j = maxRank fs j :=
  le_antisymm (maxRank_le_of_subset es fs (fun e => (h e).1) j)
    (maxRank_le_of_subset fs es (fun e => (h e).2) j)

/-! ### Sparse sketches -/

theorem sub32_pow (p : Nat) (hp : p < 32) : sub32 (u32 (1 <<< p)) 1 = 2 ^ p - 1 := by
  have h1 : 2 ^ p < 2 ^ 32 := Nat.pow_lt_pow_right (by norm_num) hp
  have h0 : 0 < 2 ^ p := Nat.pos_pow_of_pos _ (by norm_num)
  unfold sub32 u32
  rw [Nat.one_shiftLeft, Nat.mod_eq_of_lt h1]
  exact wrap_sub _ _ _ h0 h1

theorem decodeHash_fst_lt (k p : Nat) (hp : p < 32) : (decodeHash k p pp).1 < 2 ^ p := by
  have h0 : 0 < 2 ^ p := Nat.pos_pow_of_pos _ (by norm_num)
  simp only [decodeHash, getIndex, bextr32]
  rw [sub32_pow p hp]
  split <;> exact Nat.and_lt_two_pow _ (by omega)

theorem decodeHash_snd_lt (k p : Nat) : (decodeHash k p pp).2 < 256 := by
  simp only [decodeHash]
  split
  · exact Nat.mod_lt _ (by norm_num)
  · exact Nat.mod_lt _ (by norm_num)

theorem regs_set_good (p : Nat) (rs : List Nat) (i r : Nat) (h : GoodD p rs) (hr : r < 256) :
    GoodD p (rs.set i (max r (rs.getD i 0))) := by
  refine ⟨by simpa using h.1, fun y hy => ?_⟩
  rcases List.mem_or_eq_of_mem_set hy with hy | hy
  · exact h.2 y hy
  · rw [hy]
    apply max_lt hr
    by_cases hi : i < rs.length
    · rw [List.getD_eq_getElem _ _ hi]
      exact h.2 _ (List.getElem_mem _)
    · rw [List.getD_eq_default _ _ (by omega)]
      norm_num

theorem regsOf_good (p : Nat) (M rs : List Nat) (h : GoodD p rs) : GoodD p (regsOf p M rs) := by
  unfold regsOf
  induction M generalizing rs with
  | nil => exact h
  | cons k ks ih =>
    simp only [List.map_cons, List.foldl_cons]
    exact ih _ (regs_set_good p rs _ _ h (decodeHash_snd_lt k p))

theorem regsOf_getD (p : Nat) (M rs : List Nat) (j : Nat) (hj : j < rs.length) :
    (regsOf p M rs).getD j 0 =
      max (rs.getD j 0) (maxRank (M.map fun k => decodeHash k p pp) j) :=
  (foldl_insert_spec _ rs).2 j hj

theorem regsOf_append (p : Nat) (M N rs : List Nat) :
    regsOf p (M ++ N) rs = regsOf p N (regsOf p M rs) := by
  simp [regsOf, List.foldl_append]

/-- Inserting the decoded entries of `M` into a dense register array never
leaves its bounds. -/
theorem foldSteps_insert (p q : Nat) (hq : q < 32) (step : Sketch → Nat → Except Abort Sketch)
    (hstep : ∀ s k, s.p = p → step s k = s.insert (decodeHash k q pp).1 (decodeHash k q pp).2)
    (M : List Nat) (m : Nat) (T : set) (sl : Option compressedList) (rs : List Nat)
    (hl : rs.length = 2 ^ q) :
    foldSteps step M ⟨p, m, T, sl, some rs⟩ = .ok ⟨p, m, T, sl, some (regsOf q M rs)⟩ := by
  induction M generalizing rs with
  | nil => rfl
  | cons k ks ih =>
    have hi : (decodeHash k q pp).1 < rs.length := by
      rw [hl]
      exact decodeHash_fst_lt k q hq
    simp only [foldSteps, hstep ⟨p, m, T, sl, some rs⟩ k rfl, Sketch.insert, hi, if_true]
    rw [ih _ (by simpa using hl)]
    rfl

theorem insertKeys_eq (p : Nat) (ks : List Nat) (sk : Sketch) :
    insertKeys p ks sk =
      foldSteps (fun s k => s.insert (decodeHash k p pp).1 (decodeHash k p pp).2) ks sk := by
  induction ks generalizing sk with
  | nil => rfl
  | cons k ks ih =>
    simp only [insertKeys, foldSteps]
    cases sk.insert (decodeHash k p pp).1 (decodeHash k p pp).2 with
    | error e => rfl
    | ok s => exact ih s

theorem encList_typed (L : List Nat) : (encList L).count < 2 ^ 32 ∧ (encList L).last < 2 ^ 32 :=
  foldl_Append_typed L _ ⟨by simp [newCompressedList], by simp [newCompressedList]⟩

/-- `mergeSparse` on a well-formed sparse sketch: the compressed list then
holds the sorted union of the old entries and the temporary set, which is
emptied. -/
theorem mergeSparse_sparseSk (p : Nat) (L T : List Nat) (h : GoodS L T) :
    (sparseSk p L T).mergeSparse = .ok (sparseSk p (sunion L T) []) := by
  obtain ⟨hL, hLb, hT, hTb⟩ := h
  by_cases hT0 : T = []
  · subst hT0
    rw [sunion_nil L hL]
    simp [Sketch.mergeSparse, sparseSk, set.Len]
  · have hlen : ¬ (set.Len T = 0) := by
      simpa [set.Len] using hT0
    have hKs : (List.insertionSort (· ≤ ·) T).Sorted (· < ·) :=
      (List.sorted_insertionSort _ _).lt_of_le
        ((List.perm_insertionSort _ _).nodup_iff.mpr hT)
    obtain ⟨M, hM, hMs, hmem⟩ := mergeSparseLoop_spec _ L (List.insertionSort (· ≤ ·) T) 0
      ((deltaBytes 0 L).length + (List.insertionSort (· ≤ ·) T).length)
      (newCompressedList (4 * set.Len T + (encList L).Len)) le_rfl hL hKs hLb (by norm_num)
      le_rfl
    have hMu : M = sunion L T := by
      apply sunion_unique L T M hMs
      intro x
      rw [hmem x, (List.perm_insertionSort _ _).mem_iff]
    subst hMu
    simp only [Sketch.mergeSparse, sparseSk, hlen, if_false, encList_b]
    rw [hM]
    rfl

theorem iterate_encList {σ : Type} (step : σ → Nat → Except Abort σ) (L : List Nat) (s : σ)
    (hL : ∀ x ∈ L, x < 2 ^ 32) :
    iterate step (encList L).b.length (encList L).b 0 s = foldSteps step L s := by
  rw [encList_b]
  exact iterate_deltaBytes step L 0 _ s hL (by norm_num) le_rfl

/-- `toNormal` on a well-formed sparse sketch: the registers are those of the
decoded entries of the sorted union. -/
theorem toNormal_sparseSk (p : Nat) (hp : p ≤ 18) (L T : List Nat) (h : GoodS L T) :
    (sparseSk p L T).toNormal =
      .ok (denseSk p (regsOf p (sunion L T) (List.replicate (2 ^ p) 0))) := by
  have h1 : (if set.Len (sparseSk p L T).tmpSet > 0 then (sparseSk p L T).mergeSparse
      else .ok (sparseSk p L T)) = .ok (sparseSk p (sunion L T) []) := by
    by_cases hT : T = []
    · subst hT
      simp [sparseSk, set.Len, sunion_nil L h.1]
    · have : set.Len (sparseSk p L T).tmpSet > 0 := by
        simpa [sparseSk, set.Len, List.length_pos] using hT
      rw [if_pos this]
      exact mergeSparse_sparseSk p L T h
  unfold Sketch.toNormal
  rw [h1]
  simp only [sparseSk]
  rw [iterate_encList _ _ _ (sunion_lt L T h.2.1 h.2.2.2),
    foldSteps_insert p p (by omega) _ (fun s k hs => by simp only [hs]) _ _ _ _ _ (by simp)]
  rfl

/-- `maybeToNormal` on a well-formed sparse sketch. -/
theorem maybeToNormal_sparseSk (p : Nat) (hp : p ≤ 18) (L T : List Nat) (h : GoodS L T) :
    (sparseSk p L T).maybeToNormal =
      .ok (if u32 (u32 T.length * 100) > 2 ^ p then
          if u32 (deltaBytes 0 (sunion L T)).length > 2 ^ p then
            denseSk p (regsOf p (sunion L T) (List.replicate (2 ^ p) 0))
          else sparseSk p (sunion L T) []
        else sparseSk p L T) := by
  unfold Sketch.maybeToNormal
  by_cases h1 : u32 (u32 T.length * 100) > 2 ^ p
  · have h1' : u32 (u32 (set.Len (sparseSk p L T).tmpSet) * 100) > (sparseSk p L T).m := h1
    rw [if_pos h1', if_pos h1, mergeSparse_sparseSk p L T h]
    simp only [sparseSk, compressedList.Len, encList_b]
    by_cases h2 : u32 (deltaBytes 0 (sunion L T)).length > 2 ^ p
    · rw [if_pos h2, if_pos h2]
      have := toNormal_sparseSk p hp (sunion L T) [] ⟨sunion_sorted L T,
        sunion_lt L T h.2.1 h.2.2.2, List.nodup_nil, by simp⟩
      rw [sunion_nil _ (sunion_sorted L T)] at this
      exact this
    · rw [if_neg h2, if_neg h2]
  · have h1' : ¬ u32 (u32 (set.Len (sparseSk p L T).tmpSet) * 100) > (sparseSk p L T).m := h1
    rw [if_neg h1', if_neg h1]

/-- `InsertHash` on a well-formed sparse sketch. -/
theorem InsertHash_sparseSk (p : Nat) (L T : List Nat) (x : Nat) :
    (sparseSk p L T).InsertHash x =
      if encodeHash x p pp ∈ T then .ok (sparseSk p L T)
      else (sparseSk p L (T ++ [encodeHash x p pp])).maybeToNormal := by
  by_cases hk : encodeHash x p pp ∈ T
  · simp [Sketch.InsertHash, sparseSk, Sketch.sparse, set.add, hk]
  · simp [Sketch.InsertHash, sparseSk, Sketch.sparse, set.add, hk]

theorem encodeHash_lt (x p : Nat) : encodeHash x p pp < 2 ^ 32 := by
  simp only [encodeHash]
  split
  · exact Nat.or_lt_two_pow (Nat.or_lt_two_pow (u32_lt _) (u32_lt _)) (by norm_num)
  · exact u32_lt _

theorem GoodS_add (L T : List Nat) (k : Nat) (h : GoodS L T) (hk : k ∉ T) (hlt : k < 2 ^ 32) :
    GoodS L (T ++ [k]) := by
  refine ⟨h.1, h.2.1, ?_, ?_⟩
  · rw [List.nodup_append]
    exact ⟨h.2.2.1, List.nodup_singleton k, by simpa using hk⟩
  · intro y hy
    rcases List.mem_append.1 hy with hy | hy
    · exact h.2.2.2 y hy
    · simp only [List.mem_singleton] at hy
      rw [hy]
      exact hlt

/-- `Estimate` on a well-formed sparse sketch: the temporary set is merged and
the linear-counting estimate is taken on the number of entries. -/
theorem Estimate_sparseSk (ops : FloatOps) (p : Nat) (L T : List Nat) (h : GoodS L T) :
    (sparseSk p L T).Estimate ops =
      .ok (sparseSk p (sunion L T) [],
        ops.toUint64 (ops.linearCount mp (sub32 mp (u32 (sunion L T).length)))) := by
  unfold Sketch.Estimate
  have hs : (sparseSk p L T).sparse = true := rfl
  rw [if_pos hs, mergeSparse_sparseSk p L T h]
  simp only [sparseSk, encList_count]

/-- `Estimate` on a dense sketch leaves it as it is. -/
theorem Estimate_denseSk (ops : FloatOps) (p : Nat) (rs : List Nat) :
    ∃ v, (denseSk p rs).Estimate ops = .ok (denseSk p rs, v) := by
  unfold Sketch.Estimate
  have hs : ¬ ((denseSk p rs).sparse = true) := by simp [denseSk, Sketch.sparse]
  rw [if_neg hs]
  exact ⟨_, rfl⟩

/-! ### The temporary set as a list -/

theorem set_add_fst (T : List Nat) (k : Nat) :
    (set.add T k).1 = if k ∈ T then T else T ++ [k] := by
  unfold set.add
  split <;> rfl

theorem set_Merge_cons (T : List Nat) (k : Nat) (ks : List Nat) :
    set.Merge T (k :: ks) = set.Merge (if k ∈ T then T else T ++ [k]) ks := by
  simp only [set.Merge, List.foldl_cons, set_add_fst]

theorem set_Merge_nil (T : List Nat) : set.Merge T [] = T := rfl

theorem set_Merge_spec (ks T : List Nat) (hT : T.Nodup) :
    (set.Merge T ks).Nodup ∧ (∀ x, x ∈ set.Merge T ks ↔ x ∈ T ∨ x ∈ ks) ∧
      T.length ≤ (set.Merge T ks).length ∧ (set.Merge T ks).length ≤ T.length + ks.length := by
  induction ks generalizing T with
  | nil => simp [set_Merge_nil, hT]
  | cons k ks ih =>
    rw [set_Merge_cons]
    by_cases hk : k ∈ T
    · rw [if_pos hk]
      obtain ⟨h1, h2, h3, h4⟩ := ih T hT
      refine ⟨h1, fun x => ?_, h3, by simp; omega⟩
      rw [h2 x, List.mem_cons]
      constructor
      · rintro (h | h)
        · exact Or.inl h
        · exact Or.inr (Or.inr h)
      · rintro (h | h | h)
        · exact Or.inl h
        · exact Or.inl (h ▸ hk)
        · exact Or.inr h
    · rw [if_neg hk]
      have hn : (T ++ [k]).Nodup := by
        rw [List.nodup_append]
        exact ⟨hT, List.nodup_singleton k, by simpa using hk⟩
      obtain ⟨h1, h2, h3, h4⟩ := ih (T ++ [k]) hn
      refine ⟨h1, fun x => ?_, by simp at h3; omega, by simp at h4 ⊢; omega⟩
      rw [h2 x, List.mem_append, List.mem_singleton, List.mem_cons]
      tauto

theorem nodup_length_eq (A B : List Nat) (hA : A.Nodup) (hB : B.Nodup)
    (h : ∀ x, x ∈ A ↔ x ∈ B) : A.length = B.length :=
  ((List.perm_ext_iff_of_nodup hA hB).mpr h).length_eq

theorem sunion_nil_left_length (T : List Nat) (hT : T.Nodup) : (sunion [] T).length = T.length :=
  nodup_length_eq _ _ (sunion_sorted [] T).nodup hT (fun x => by simp [mem_sunion])

theorem no_trigger_14 (n : Nat) (h : n ≤ 163) : ¬ (u32 (u32 n * 100) > 2 ^ 14) := by
  have h1 : u32 n = n := u32_of_lt n (by norm_num; omega)
  have h2 : u32 (n * 100) = n * 100 := u32_of_lt _ (by norm_num; omega)
  rw [h1, h2]
  norm_num
  omega

/-- A sparse sketch of precision 14 with an empty compressed list keeps
collecting encodings in its temporary set as long as they are at most 163. -/
theorem InsertHashes_small (xs : List Nat) (T : List Nat) (h : GoodS [] T)
    (hlen : (set.Merge T (xs.map fun x => encodeHash x 14 pp)).length ≤ 163) :
    (sparseSk 14 [] T).InsertHashes xs =
      .ok (sparseSk 14 [] (set.Merge T (xs.map fun x => encodeHash x 14 pp))) := by
  induction xs generalizing T with
  | nil => rfl
  | cons x xs ih =>
    rw [List.map_cons, set_Merge_cons] at hlen ⊢
    simp only [Sketch.InsertHashes, InsertHash_sparseSk]
    by_cases hk : encodeHash x 14 pp ∈ T
    · rw [if_pos hk] at hlen ⊢
      simp only [if_pos hk]
      exact ih T h hlen
    · rw [if_neg hk] at hlen ⊢
      simp only [if_neg hk]
      have hg := GoodS_add [] T _ h hk (encodeHash_lt x 14)
      have h3 := (set_Merge_spec (xs.map fun x => encodeHash x 14 pp) _ hg.2.2.1).2.2.1
      have hsmall : (T ++ [encodeHash x 14 pp]).length ≤ 163 := le_trans h3 hlen
      have hno : ¬ (u32 (u32 (T ++ [encodeHash x 14 pp]).length * 100) > 2 ^ 14) :=
        no_trigger_14 _ hsmall
      rw [maybeToNormal_sparseSk 14 (by norm_num) _ _ hg, if_neg hno]
      exact ih _ hg hlen

/-! ### Linear counting in exact arithmetic -/

theorem linearCount_floor (n : Nat) (hn : n ≤ 100) :
    ⌊(2 ^ 25 : ℝ) * Real.log ((2 ^ 25 : ℝ) / ((2 ^ 25 - n : Nat) : ℝ))⌋₊ = n := by
  have hM : (0 : ℝ) < 2 ^ 25 := by positivity
  have hc : ((2 ^ 25 - n : Nat) : ℝ) = (2 ^ 25 : ℝ) - n := by
    rw [Nat.cast_sub (by norm_num; omega)]
    norm_num
  have hn' : (n : ℝ) ≤ 100 := by exact_mod_cast hn
  have hd : (0 : ℝ) < (2 ^ 25 : ℝ) - n := by norm_num; linarith
  have hy : (0 : ℝ) < (2 ^ 25 : ℝ) / ((2 ^ 25 : ℝ) - n) := div_pos hM hd
  rw [hc, Nat.floor_eq_iff (mul_nonneg hM.le (Real.log_nonneg (by
    rw [le_div_iff₀ hd]
    linarith [Nat.cast_nonneg (α := ℝ) n])))]
  constructor
  · have h1 := Real.one_sub_inv_le_log_of_pos hy
    rw [inv_div] at h1
    have h2 : (n : ℝ) = 2 ^ 25 * (1 - ((2 ^ 25 : ℝ) - n) / 2 ^ 25) := by
      field_simp
    calc (n : ℝ) = 2 ^ 25 * (1 - ((2 ^ 25 : ℝ) - n) / 2 ^ 25) := h2
      _ ≤ 2 ^ 25 * Real.log ((2 ^ 25 : ℝ) / ((2 ^ 25 : ℝ) - n)) :=
        mul_le_mul_of_nonneg_left h1 hM.le
  · have h1 := Real.log_le_sub_one_of_pos hy
    have h2 : (2 ^ 25 : ℝ) / ((2 ^ 25 : ℝ) - n) - 1 = n / ((2 ^ 25 : ℝ) - n) := by
      field_simp
    rw [h2] at h1
    have h3 : (2 ^ 25 : ℝ) * (n / ((2 ^ 25 : ℝ) - n)) < n + 1 := by
      rw [← mul_div_assoc, div_lt_iff₀ hd]
      have : (n : ℝ) * n ≤ 100 * 100 := mul_le_mul hn' hn' (Nat.cast_nonneg n) (by norm_num)
      nlinarith
    calc (2 ^ 25 : ℝ) * Real.log ((2 ^ 25 : ℝ) / ((2 ^ 25 : ℝ) - n))
        ≤ 2 ^ 25 * (n / ((2 ^ 25 : ℝ) - n)) := mul_le_mul_of_nonneg_left h1 hM.le
      _ < n + 1 := h3

/-! ### Merging -/

theorem foldSteps_add (M : List Nat) (p m : Nat) (T : List Nat) (sl : Option compressedList)
    (rg : Option (List Nat)) :
    foldSteps (fun (s : Sketch) k => .ok { s with tmpSet := (set.add s.tmpSet k).1 }) M
        ⟨p, m, T, sl, rg⟩ = .ok ⟨p, m, set.Merge T M, sl, rg⟩ := by
  induction M generalizing T with
  | nil => rfl
  | cons k ks ih =>
    simp only [foldSteps]
    rw [ih]
    rfl

/-- `mergeSparseSketch` on well-formed sparse sketches: the temporary set
receives the other's temporary set and entries, then `maybeToNormal` runs. -/
theorem mergeSparseSketch_sparseSk (p q : Nat) (L T L1 T1 : List Nat) (h1 : GoodS L1 T1) :
    (sparseSk p L T).mergeSparseSketch (sparseSk q L1 T1) =
      (sparseSk p L (set.Merge (set.Merge T T1) L1)).maybeToNormal := by
  unfold Sketch.mergeSparseSketch
  simp only [sparseSk]
  rw [iterate_encList _ _ _ h1.2.1, foldSteps_add]

theorem GoodS_merge (L T L1 T1 : List Nat) (h : GoodS L T) (h1 : GoodS L1 T1) :
    GoodS L (set.Merge (set.Merge T T1) L1) ∧
      (∀ x, x ∈ set.Merge (set.Merge T T1) L1 ↔ x ∈ T ∨ x ∈ T1 ∨ x ∈ L1) ∧
      (set.Merge (set.Merge T T1) L1).length ≤ T.length + T1.length + L1.length := by
  obtain ⟨a1, a2, a3, a4⟩ := set_Merge_spec T1 T h.2.2.1
  obtain ⟨b1, b2, b3, b4⟩ := set_Merge_spec L1 (set.Merge T T1) a1
  have hmem : ∀ x, x ∈ set.Merge (set.Merge T T1) L1 ↔ x ∈ T ∨ x ∈ T1 ∨ x ∈ L1 := by
    intro x
    rw [b2 x, a2 x, or_assoc]
  refine ⟨⟨h.1, h.2.1, b1, fun k hk => ?_⟩, hmem, by omega⟩
  rcases (hmem k).1 hk with hk | hk | hk
  · exact h.2.2.2 k hk
  · exact h1.2.2.2 k hk
  · exact h1.2.1 k hk

theorem regsOf_length (p : Nat) (M rs : List Nat) : (regsOf p M rs).length = rs.length :=
  (foldl_insert_spec _ rs).1

theorem zipWith_max_spec (A B : List Nat) (h : A.length = B.length) :
    (List.zipWith max A B).length = A.length ∧
      ∀ j, j < A.length → (List.zipWith max A B).getD j 0 = max (A.getD j 0) (B.getD j 0) := by
  refine ⟨by simp [h], fun j hj => ?_⟩
  have hjB : j < B.length := by omega
  rw [List.getD_eq_getElem _ _ (by simp [h]; omega), List.getD_eq_getElem _ _ hj,
    List.getD_eq_getElem _ _ hjB, List.getElem_zipWith]

theorem zipWith_max_good (p : Nat) (A B : List Nat) (hA : GoodD p A) (hB : GoodD p B) :
    GoodD p (List.zipWith max A B) := by
  refine ⟨by simp [hA.1, hB.1], fun r hr => ?_⟩
  obtain ⟨i, hi, rfl⟩ := List.getElem_of_mem hr
  rw [List.getElem_zipWith]
  exact max_lt (hA.2 _ (List.getElem_mem _)) (hB.2 _ (List.getElem_mem _))

/-- `Merge` of two dense sketches: the element-wise maximum. -/
theorem Merge_dense_dense (p : Nat) (A B : List Nat) (hA : A.length = 2 ^ p)
    (hB : B.length = 2 ^ p) :
    (denseSk p A).Merge (some (denseSk p B)) = .ok (denseSk p (List.zipWith max A B), none) := by
  obtain ⟨h1, h2⟩ := zipWith_max_spec A B (by omega)
  exact dense_merge_regs p A B _ _ _ hA hB (by omega) (fun j hj => h2 j (by omega))

/-- `Merge` of a sparse sketch into a dense one: the decoded entries of the
temporary set, then of the compressed list, are inserted. -/
theorem Merge_dense_sparse (p : Nat) (hp : p ≤ 18) (A L T : List Nat) (hA : A.length = 2 ^ p)
    (h : GoodS L T) :
    (denseSk p A).Merge (some (sparseSk p L T)) =
      .ok (denseSk p (regsOf p L (regsOf p T A)), none) := by
  have e1 : insertKeys p T (denseSk p A) = .ok (denseSk p (regsOf p T A)) := by
    rw [insertKeys_eq]
    exact foldSteps_insert p p (by omega) _ (fun s k _ => rfl) T _ _ _ A hA
  have e2 : iterate (fun (s : Sketch) k =>
      s.insert (decodeHash k p pp).1 (decodeHash k p pp).2) (encList L).b.length (encList L).b 0
      (denseSk p (regsOf p T A)) = .ok (denseSk p (regsOf p L (regsOf p T A))) := by
    rw [iterate_encList _ _ _ h.2.1]
    exact foldSteps_insert p p (by omega) _ (fun s k _ => rfl) L _ _ _ _
      (by rw [regsOf_length, hA])
  simp only [Sketch.Merge, ne_eq, sparseSk, denseSk, not_true_eq_false, if_false, Sketch.sparse,
    Option.isSome_none, Bool.false_and, Bool.false_eq_true, Sketch.mergeDenseSketch]
  simp only [denseSk] at e1 e2
  rw [e1]
  simp only
  rw [e2]

/-- `Merge` of a dense sketch into a sparse one: the receiver is promoted, then
the element-wise maximum is taken. -/
theorem Merge_sparse_dense (p : Nat) (hp : p ≤ 18) (L T B : List Nat) (h : GoodS L T)
    (hB : B.length = 2 ^ p) :
    (sparseSk p L T).Merge (some (denseSk p B)) =
      .ok (denseSk p (List.zipWith max (regsOf p (sunion L T) (List.replicate (2 ^ p) 0)) B),
        none) := by
  have hl : (regsOf p (sunion L T) (List.replicate (2 ^ p) 0)).length = 2 ^ p := by
    rw [regsOf_length]
    simp
  have e := Merge_dense_dense p _ B hl hB
  have t := toNormal_sparseSk p hp L T h
  simp only [Sketch.Merge, ne_eq, not_true_eq_false, if_false, Sketch.sparse, denseSk,
    Option.isSome_none, Bool.false_and, Bool.and_false, Bool.false_eq_true,
    Sketch.mergeDenseSketch] at e ⊢
  have hs : (sparseSk p L T).sparseList.isSome = true := rfl
  have hpq : (sparseSk p L T).p = p := rfl
  simp only [hs, hpq, if_true, not_true_eq_false, if_false, t, denseSk]
  exact e

/-- `Merge` of two sparse sketches. -/
theorem Merge_sparse_sparse (p : Nat) (L T L1 T1 : List Nat) (h1 : GoodS L1 T1) (s : Sketch)
    (hs : (sparseSk p L (set.Merge (set.Merge T T1) L1)).maybeToNormal = .ok s) :
    (sparseSk p L T).Merge (some (sparseSk p L1 T1)) = .ok (s, none) := by
  rw [← mergeSparseSketch_sparseSk p p L T L1 T1 h1] at hs
  have hs2 : (sparseSk p L T).sparse = true := rfl
  have hs3 : (sparseSk p L1 T1).sparse = true := rfl
  have hp : (sparseSk p L T).p = (sparseSk p L1 T1).p := rfl
  simp only [Sketch.Merge, ne_eq, hp, not_true_eq_false, if_false, hs2, hs3, Bool.and_self,
    if_true, hs]

/-! ### The invariant of built sketches -/

theorem pow_le_18 (p : Nat) (hp : p ≤ 18) : 2 ^ p ≤ 262144 := by
  calc 2 ^ p ≤ 2 ^ 18 := Nat.pow_le_pow_right (by norm_num) hp
    _ = 262144 := by norm_num

theorem zeros_good (p : Nat) : GoodD p (List.replicate (2 ^ p) 0) :=
  ⟨by simp, fun r hr => by rw [List.eq_of_mem_replicate hr]; norm_num⟩

/-- `maybeToNormal` keeps the invariant when the temporary set is not huge. -/
theorem maybeToNormal_inv (p : Nat) (hp4 : 4 ≤ p) (hp : p ≤ 18) (L T : List Nat) (h : GoodS L T)
    (hT : T.length ≤ 2 ^ 20) (hb : (deltaBytes 0 L).length ≤ 2 ^ p) :
    ∃ s, (sparseSk p L T).maybeToNormal = .ok s ∧ InvB s := by
  have h18 := pow_le_18 p hp
  rw [maybeToNormal_sparseSk p hp L T h]
  refine ⟨_, rfl, p, hp4, hp, ?_⟩
  by_cases h1 : u32 (u32 T.length * 100) > 2 ^ p
  · rw [if_pos h1]
    by_cases h2 : u32 (deltaBytes 0 (sunion L T)).length > 2 ^ p
    · rw [if_pos h2]
      exact Or.inr ⟨_, rfl, regsOf_good p _ _ (zeros_good p)⟩
    · rw [if_neg h2]
      refine Or.inl ⟨_, _, rfl, ⟨sunion_sorted L T, sunion_lt L T h.2.1 h.2.2.2,
        List.nodup_nil, by simp⟩, by simp, ?_⟩
      have h3 := (deltaBytes_length 0 (sunion L T)).2
      have h4 := sunion_length L T
      have h5 := (deltaBytes_length 0 L).1
      have h6 : u32 (deltaBytes 0 (sunion L T)).length = (deltaBytes 0 (sunion L T)).length :=
        u32_of_lt _ (by norm_num at hT ⊢; omega)
      rw [h6] at h2
      omega
  · rw [if_neg h1]
    refine Or.inl ⟨_, _, rfl, h, ?_, hb⟩
    have h6 : u32 T.length = T.length := u32_of_lt _ (by norm_num at hT ⊢; omega)
    have h7 : u32 (T.length * 100) = T.length * 100 :=
      u32_of_lt _ (by norm_num at hT ⊢; omega)
    rw [h6, h7] at h1
    omega

theorem NewSketch_eq (p : Nat) (sparse : Bool) (sk : Sketch) (h : NewSketch p sparse = .ok sk) :
    4 ≤ p ∧ p ≤ 18 ∧
      sk = if sparse then sparseSk p [] [] else denseSk p (List.replicate (2 ^ p) 0) := by
  unfold NewSketch at h
  by_cases hp : p < 4 ∨ p > 18
  · simp [hp] at h
  · have h18 : p ≤ 18 := by omega
    simp only [hp, if_false, u32_shift p h18] at h
    refine ⟨by omega, h18, ?_⟩
    cases sparse
    · simp only [Bool.false_eq_true, if_false, Except.ok.injEq] at h ⊢
      exact h.symm
    · simp only [if_true, Except.ok.injEq] at h ⊢
      exact h.symm

theorem InsertHash_inv (sk sk1 : Sketch) (x : Nat) (h : InvB sk)
    (hi : sk.InsertHash x = .ok sk1) : InvB sk1 := by
  obtain ⟨p, hp4, hp, hc⟩ := h
  have h18 := pow_le_18 p hp
  rcases hc with ⟨L, T, rfl, hg, hT, hb⟩ | ⟨rs, rfl, hg⟩
  · rw [InsertHash_sparseSk] at hi
    by_cases hk : encodeHash x p pp ∈ T
    · rw [if_pos hk] at hi
      cases hi
      exact ⟨p, hp4, hp, Or.inl ⟨L, T, rfl, hg, hT, hb⟩⟩
    · rw [if_neg hk] at hi
      obtain ⟨s, hs, hinv⟩ := maybeToNormal_inv p hp4 hp L _
        (GoodS_add L T _ hg hk (encodeHash_lt x p)) (by simp; omega) hb
      rw [hs] at hi
      cases hi
      exact hinv
  · have := InsertHash_dense (denseSk p rs) rs x rfl rfl hg.1 hp
    rw [this] at hi
    cases hi
    exact ⟨p, hp4, hp, Or.inr ⟨_, rfl, regs_set_good p rs _ _ hg
      (Nat.mod_lt _ (by norm_num))⟩⟩

theorem InvB_p (sk : Sketch) (h : InvB sk) :
    4 ≤ sk.p ∧ sk.p ≤ 18 ∧
      ((∃ L T, sk = sparseSk sk.p L T ∧ GoodS L T ∧ T.length * 100 ≤ 2 ^ sk.p ∧
          (deltaBytes 0 L).length ≤ 2 ^ sk.p) ∨
        (∃ rs, sk = denseSk sk.p rs ∧ GoodD sk.p rs)) := by
  obtain ⟨p, hp4, hp, hc⟩ := h
  rcases hc with ⟨L, T, rfl, hg, hT, hb⟩ | ⟨rs, rfl, hg⟩
  · exact ⟨hp4, hp, Or.inl ⟨L, T, rfl, hg, hT, hb⟩⟩
  · exact ⟨hp4, hp, Or.inr ⟨rs, rfl, hg⟩⟩

theorem Merge_inv (sk sk1 o : Sketch) (e : Option Error) (h : InvB sk) (ho : InvB o)
    (hm : sk.Merge (some o) = .ok (sk1, e)) : InvB sk1 := by
  by_cases hpq : sk.p = o.p
  · obtain ⟨hp4, hp, hc⟩ := InvB_p sk h
    obtain ⟨-, -, hco⟩ := InvB_p o ho
    rw [← hpq] at hco
    have h18 := pow_le_18 sk.p hp
    generalize sk.p = p at *
    rcases hc with ⟨L, T, rfl, hg, hT, hb⟩ | ⟨rs, rfl, hg⟩ <;>
      rcases hco with ⟨L1, T1, rfl, hg1, hT1, hb1⟩ | ⟨rs1, rfl, hg1⟩
    · obtain ⟨g, -, hlen⟩ := GoodS_merge L T L1 T1 hg hg1
      have h5 := (deltaBytes_length 0 L1).1
      obtain ⟨s, hs, hinv⟩ := maybeToNormal_inv p hp4 hp L _ g
        (by norm_num; omega) hb
      rw [Merge_sparse_sparse p L T L1 T1 hg1 s hs] at hm
      cases hm
      exact hinv
    · rw [Merge_sparse_dense p hp L T rs1 hg hg1.1] at hm
      cases hm
      exact ⟨p, hp4, hp, Or.inr ⟨_, rfl, zipWith_max_good p _ _
        (regsOf_good p _ _ (zeros_good p)) hg1⟩⟩
    · rw [Merge_dense_sparse p hp rs L1 T1 hg.1 hg1] at hm
      cases hm
      exact ⟨p, hp4, hp, Or.inr ⟨_, rfl, regsOf_good p _ _ (regsOf_good p _ _ hg)⟩⟩
    · rw [Merge_dense_dense p rs rs1 hg.1 hg1.1] at hm
      cases hm
      exact ⟨p, hp4, hp, Or.inr ⟨_, rfl, zipWith_max_good p _ _ hg hg1⟩⟩
  · simp only [Sketch.Merge, ne_eq, hpq, not_false_eq_true, if_true, Except.ok.injEq,
      Prod.mk.injEq] at hm
    rw [← hm.1]
    exact h

theorem Built_inv (sk : Sketch) (h : Built sk) : InvB sk := by
  induction h with
  | new p sparse sk hn =>
    obtain ⟨hp4, hp, rfl⟩ := NewSketch_eq p sparse sk hn
    refine ⟨p, hp4, hp, ?_⟩
    cases sparse
    · exact Or.inr ⟨_, rfl, zeros_good p⟩
    · exact Or.inl ⟨[], [], rfl, ⟨List.sorted_nil, by simp, List.nodup_nil, by simp⟩,
        by simp, by simp [deltaBytes]⟩
  | insert sk sk1 x _ hi ih => exact InsertHash_inv sk sk1 x ih hi
  | merge sk sk1 other e _ _ hm ih iho =>
    cases other with
    | none =>
      simp only [Sketch.Merge, Except.ok.injEq, Prod.mk.injEq] at hm
      rw [← hm.1]
      exact ih
    | some o => exact Merge_inv sk sk1 o e ih (iho o rfl) hm

/-! ### Binary encoding -/

theorem be32_length (x : Nat) : (be32 x).length = 4 := rfl

theorem Uint32_be32 (x : Nat) (rest : List Nat) (hx : x < 2 ^ 32) :
    Uint32 (be32 x ++ rest) = .ok x := by
  simp only [be32, Uint32, List.cons_append, List.nil_append, u8, Nat.shiftRight_eq_div_pow,
    Nat.shiftLeft_eq]
  congr 1
  have h3 : x % 2 ^ 8 < 2 ^ 8 := Nat.mod_lt _ (by norm_num)
  have h2 : x / 2 ^ 8 % 2 ^ 8 < 2 ^ 8 := Nat.mod_lt _ (by norm_num)
  have h1 : x / 2 ^ 16 % 2 ^ 8 < 2 ^ 8 := Nat.mod_lt _ (by norm_num)
  have e1 : x % 2 ^ 8 ||| x / 2 ^ 8 % 2 ^ 8 * 2 ^ 8 = 2 ^ 8 * (x / 2 ^ 8 % 2 ^ 8) + x % 2 ^ 8 := by
    rw [Nat.or_comm, Nat.mul_comm, Nat.mul_add_lt_is_or h3]
  have b1 : 2 ^ 8 * (x / 2 ^ 8 % 2 ^ 8) + x % 2 ^ 8 < 2 ^ 16 := by
    norm_num at h2 h3 ⊢
    omega
  have e2 : 2 ^ 8 * (x / 2 ^ 8 % 2 ^ 8) + x % 2 ^ 8 ||| x / 2 ^ 16 % 2 ^ 8 * 2 ^ 16 =
      2 ^ 16 * (x / 2 ^ 16 % 2 ^ 8) + (2 ^ 8 * (x / 2 ^ 8 % 2 ^ 8) + x % 2 ^ 8) := by
    rw [Nat.or_comm, Nat.mul_comm, Nat.mul_add_lt_is_or b1]
  have b2 : 2 ^ 16 * (x / 2 ^ 16 % 2 ^ 8) + (2 ^ 8 * (x / 2 ^ 8 % 2 ^ 8) + x % 2 ^ 8) < 2 ^ 24 := by
    norm_num at h1 h2 h3 ⊢
    omega
  rw [e1, e2, Nat.or_comm, Nat.mul_comm, ← Nat.mul_add_lt_is_or b2]
  norm_num at hx ⊢
  omega

theorem set_Merge_disjoint (T S : List Nat) (hT : T.Nodup) (hd : ∀ x ∈ T, x ∉ S) :
    set.Merge S T = S ++ T := by
  induction T generalizing S with
  | nil => simp [set_Merge_nil]
  | cons k ks ih =>
    have hk : k ∉ S := hd k (by simp)
    have hd2 : ∀ x ∈ ks, x ∉ S ++ [k] := by
      intro x hx
      rw [List.mem_append, List.mem_singleton]
      rintro (h | h)
      · exact hd x (by simp [hx]) h
      · subst h
        exact (List.nodup_cons.1 hT).1 hx
    rw [set_Merge_cons, if_neg hk, ih (S ++ [k]) (List.Nodup.of_cons hT) hd2]
    simp

/-- Reading back the temporary-set entries written by `set.AppendBinary`. -/
theorem readKeys_flatMap (T : List Nat) (pre post : List Nat) (S : List Nat)
    (hT : ∀ k ∈ T, k < 2 ^ 32) :
    readKeys (pre ++ T.flatMap be32 ++ post) T.length pre.length S = .ok (set.Merge S T) := by
  induction T generalizing pre S with
  | nil => rfl
  | cons k ks ih =>
    have hk : k < 2 ^ 32 := hT k (by simp)
    have hs : subslice (pre ++ (k :: ks).flatMap be32 ++ post) pre.length (pre.length + 4) =
        .ok (be32 k) := by
      unfold subslice
      have hlen : pre.length ≤ pre.length + 4 ∧
          pre.length + 4 ≤ (pre ++ (k :: ks).flatMap be32 ++ post).length := by
        simp [List.flatMap_cons, be32_length]
      have hl : List.drop pre.length
          (List.take (pre.length + 4) (pre ++ (k :: ks).flatMap be32 ++ post)) = be32 k := by
        have h4 : 4 ≤ (be32 k).length := Nat.le_refl 4
        rw [List.flatMap_cons, List.append_assoc, List.append_assoc, List.take_append,
          List.drop_left, List.take_append_of_le_length h4]
        rfl
      rw [if_pos hlen, hl]
    have hu : Uint32 (be32 k) = .ok k := by
      have := Uint32_be32 k [] hk
      simpa using this
    simp only [List.length_cons, readKeys, hs, hu, set_add_fst]
    have hpre : pre ++ (k :: ks).flatMap be32 ++ post = (pre ++ be32 k) ++ ks.flatMap be32 ++ post := by
      simp [List.flatMap_cons]
    have hl : pre.length + 4 = (pre ++ be32 k).length := by simp [be32_length]
    rw [hpre, hl, ih (pre ++ be32 k) _ (fun y hy => hT y (by simp [hy])), set_Merge_cons]

theorem NewSketch_ok (p : Nat) (hp4 : 4 ≤ p) (hp : p ≤ 18) (sparse : Bool) :
    NewSketch p sparse =
      .ok (if sparse then sparseSk p [] [] else denseSk p (List.replicate (2 ^ p) 0)) := by
  have h : ¬ (p < 4 ∨ p > 18) := by omega
  cases sparse <;> simp [NewSketch, h, u32_shift p hp, sparseSk, denseSk, encList, makeSet, nilSet]

theorem fresh_step (r : Sketch) (hr : Fresh r) (p : Nat) (hp4 : 4 ≤ p) (hp : p ≤ 18)
    (sparse : Bool) :
    ∃ sk1, (if r.needsNew p then NewSketch p sparse
        else (.ok r : Except Error Sketch)) = .ok sk1 ∧ sk1.p = p ∧ sk1.m = 2 ^ p ∧
      (sparse = true → sk1.sparseList = some ⟨0, 0, []⟩ ∧ sk1.regs = none) := by
  have hN : ∃ sk1, NewSketch p sparse = .ok sk1 ∧ sk1.p = p ∧ sk1.m = 2 ^ p ∧
      (sparse = true → sk1.sparseList = some ⟨0, 0, []⟩ ∧ sk1.regs = none) := by
    refine ⟨_, NewSketch_ok p hp4 hp sparse, ?_, ?_, ?_⟩
    · cases sparse <;> rfl
    · cases sparse <;> rfl
    · intro hs
      subst hs
      exact ⟨rfl, rfl⟩
  rcases hr with rfl | ⟨q, s, hq⟩
  · have : Sketch.zero.needsNew p = true := by
      simp [Sketch.needsNew, Sketch.zero]
      omega
    rw [if_pos this]
    exact hN
  · obtain ⟨hq4, hq18, rfl⟩ := NewSketch_eq q s r hq
    by_cases hqp : q = p
    · subst hqp
      cases s
      · have : (denseSk q (List.replicate (2 ^ q) 0)).needsNew q = true := by
          simp [Sketch.needsNew, denseSk]
        simp only [Bool.false_eq_true, if_false, this, if_true]
        exact hN
      · refine ⟨sparseSk q [] [], ?_, rfl, rfl, fun _ => ⟨rfl, rfl⟩⟩
        simp [Sketch.needsNew, sparseSk, set.Len, encList, newCompressedList,
          compressedList.Len]
    · have : (if s = true then sparseSk q [] []
          else denseSk q (List.replicate (2 ^ q) 0)).needsNew p = true := by
        cases s <;> simp [Sketch.needsNew, sparseSk, denseSk, hqp]
      rw [if_pos this]
      exact hN

/-- Decoding the encoding of a well-formed dense sketch into a fresh receiver. -/
theorem Unmarshal_Marshal_dense (r : Sketch) (hr : Fresh r) (p : Nat) (hp4 : 4 ≤ p)
    (hp : p ≤ 18) (rs : List Nat) (hg : GoodD p rs) :
    r.UnmarshalBinary (denseSk p rs).MarshalBinary = .ok (denseSk p rs, none) := by
  obtain ⟨sk1, h1, h2, h3, -⟩ := fresh_step r hr p hp4 hp false
  have hm : (denseSk p rs).MarshalBinary =
      2 :: p :: 0 :: 0 :: (be32 rs.length ++ rs) := by
    have : rs.map u8 = rs := by
      conv_rhs => rw [← List.map_id rs]
      apply List.map_congr_left
      intro a ha
      exact Nat.mod_eq_of_lt (hg.2 a ha)
    simp [Sketch.MarshalBinary, Sketch.AppendBinary, denseSk, version, Sketch.lenRegs, this]
  rw [hm]
  have hp1 : p ≠ 1 := by omega
  simp only [Sketch.UnmarshalBinary, List.length_cons, List.getD_cons_zero, List.getD_cons_succ,
    be32, List.cons_append, List.nil_append]
  have e0 : ¬ (rs.length + 1 + 1 + 1 + 1 + 1 + 1 + 1 + 1 < 8) := by omega
  have e1 : decide ((0 : Nat) = 1) = false := by decide
  have e2 : ¬ ((2 : Nat) = 1) := by decide
  rw [if_neg e0, e1, h1]
  simp only [Bool.false_eq_true, if_false, e2, Sketch.unmarshalBinaryV2, List.drop_succ_cons,
    List.drop_zero, h2, h3, denseSk, nilSet]

theorem flatMap_be32_length (T : List Nat) : (T.flatMap be32).length = 4 * T.length := by
  induction T with
  | nil => rfl
  | cons k ks ih =>
    rw [List.flatMap_cons, List.length_append, ih, be32_length, List.length_cons]
    omega

/-- Decoding the encoding of a compressed list. -/
theorem compressedList_roundtrip (l v0 : compressedList)
    (h : l.count < 2 ^ 32 ∧ l.last < 2 ^ 32 ∧ l.b.length < 2 ^ 32) :
    compressedList.UnmarshalBinary (some v0)
        (be32 l.count ++ (be32 l.last ++ (be32 l.b.length ++ l.b))) = .ok (some l, none) := by
  have e0 : ¬ ((be32 l.count ++ (be32 l.last ++ (be32 l.b.length ++ l.b))).length < 12) := by
    simp [be32_length]
    omega
  have d4 : (be32 l.count ++ (be32 l.last ++ (be32 l.b.length ++ l.b))).drop 4 =
      be32 l.last ++ (be32 l.b.length ++ l.b) := rfl
  have d8 : (be32 l.count ++ (be32 l.last ++ (be32 l.b.length ++ l.b))).drop 8 =
      be32 l.b.length ++ l.b := rfl
  have d12 : (be32 l.count ++ (be32 l.last ++ (be32 l.b.length ++ l.b))).drop 12 = l.b := rfl
  unfold compressedList.UnmarshalBinary
  rw [if_neg e0]
  simp only [d4, d8, d12, Uint32_be32 _ _ h.1, Uint32_be32 _ _ h.2.1, Uint32_be32 _ _ h.2.2]
  have e1 : ¬ (u32 l.b.length < l.b.length) := by
    rw [u32_of_lt _ h.2.2]
    omega
  rw [if_neg e1, List.take_length]

/-- Decoding the encoding of a well-formed sparse sketch into a fresh receiver. -/
theorem Unmarshal_Marshal_sparse (r : Sketch) (hr : Fresh r) (p : Nat) (hp4 : 4 ≤ p)
    (hp : p ≤ 18) (L T : List Nat) (hg : GoodS L T) (hT : T.length < 2 ^ 29)
    (hb : (deltaBytes 0 L).length < 2 ^ 32) :
    r.UnmarshalBinary (sparseSk p L T).MarshalBinary = .ok (sparseSk p L T, none) := by
  obtain ⟨sk1, h1, h2, h3, h4⟩ := fresh_step r hr p hp4 hp true
  obtain ⟨h5, h6⟩ := h4 rfl
  have hm : (sparseSk p L T).MarshalBinary =
      ([2, p, 0, 1] ++ be32 T.length) ++ T.flatMap be32 ++
        (be32 (encList L).count ++ (be32 (encList L).last ++
          (be32 (encList L).b.length ++ (encList L).b))) := by
    simp [Sketch.MarshalBinary, Sketch.AppendBinary, sparseSk, version, set.AppendBinary,
      compressedList.AppendBinary, set.Len]
  have hlen : ¬ ((sparseSk p L T).MarshalBinary.length < 8) := by
    rw [hm]
    simp [be32_length]
  have g0 : (sparseSk p L T).MarshalBinary.getD 0 0 = 2 := by rw [hm]; rfl
  have g1 : (sparseSk p L T).MarshalBinary.getD 1 0 = p := by rw [hm]; rfl
  have g3 : (sparseSk p L T).MarshalBinary.getD 3 0 = 1 := by rw [hm]; rfl
  have hT32 : T.length < 2 ^ 32 := lt_trans hT (by norm_num)
  have u4 : Uint32 ((sparseSk p L T).MarshalBinary.drop 4) = .ok T.length := by
    rw [hm]
    have : ([2, p, 0, 1] ++ be32 T.length ++ T.flatMap be32 ++
        (be32 (encList L).count ++ (be32 (encList L).last ++
          (be32 (encList L).b.length ++ (encList L).b)))).drop 4 =
        be32 T.length ++ (T.flatMap be32 ++
        (be32 (encList L).count ++ (be32 (encList L).last ++
          (be32 (encList L).b.length ++ (encList L).b)))) := by
      simp
    rw [this, Uint32_be32 _ _ hT32]
  have ts : u32 (u32 (T.length * 4) + 8) = T.length * 4 + 8 := by
    have a : u32 (T.length * 4) = T.length * 4 := u32_of_lt _ (by norm_num at hT ⊢; omega)
    rw [a]
    exact u32_of_lt _ (by norm_num at hT ⊢; omega)
  have rk : readKeys (sparseSk p L T).MarshalBinary ((T.length * 4 + 8 - 8 + 3) / 4) 8
      (makeSet T.length) = .ok T := by
    have n : (T.length * 4 + 8 - 8 + 3) / 4 = T.length := by omega
    have := readKeys_flatMap T ([2, p, 0, 1] ++ be32 T.length)
      (be32 (encList L).count ++ (be32 (encList L).last ++
          (be32 (encList L).b.length ++ (encList L).b))) [] hg.2.2.2
    rw [set_Merge_disjoint T [] hg.2.2.1 (by simp)] at this
    rw [hm, n]
    exact this
  have sf : sliceFrom (sparseSk p L T).MarshalBinary (T.length * 4 + 8) =
      .ok (be32 (encList L).count ++ (be32 (encList L).last ++
          (be32 (encList L).b.length ++ (encList L).b))) := by
    rw [hm]
    unfold sliceFrom
    have hl : ([2, p, 0, 1] ++ be32 T.length ++ T.flatMap be32).length = T.length * 4 + 8 := by
      rw [List.length_append, flatMap_be32_length]
      simp [be32_length]
      omega
    rw [if_pos (by rw [List.length_append, hl]; omega), ← hl, List.drop_left]
  have cl := compressedList_roundtrip (encList L) ⟨0, 0, []⟩
    ⟨(encList_typed L).1, (encList_typed L).2, by rw [encList_b]; exact hb⟩
  unfold Sketch.UnmarshalBinary
  rw [if_neg hlen]
  simp only [g0, g1, g3, decide_True, h1, if_true, u4, ts, rk, sf, h5, cl, h2, h3, h6]
  rfl

/-! ### Merge order -/

theorem GoodS_sunion (L T : List Nat) (h : GoodS L T) : GoodS (sunion L T) [] :=
  ⟨sunion_sorted L T, sunion_lt L T h.2.1 h.2.2.2, List.nodup_nil, by simp⟩

/-- The outcomes of `maybeToNormal` on a well-formed sparse sketch: a dense
sketch with the registers of the entries, or a sparse sketch with the same
entries. -/
theorem maybeToNormal_cases (p : Nat) (hp : p ≤ 18) (L T : List Nat) (h : GoodS L T) :
    ∃ s, (sparseSk p L T).maybeToNormal = .ok s ∧
      (s = denseSk p (regsOf p (sunion L T) (List.replicate (2 ^ p) 0)) ∨
        ∃ L1 T1, s = sparseSk p L1 T1 ∧ GoodS L1 T1 ∧ sunion L1 T1 = sunion L T) := by
  rw [maybeToNormal_sparseSk p hp L T h]
  refine ⟨_, rfl, ?_⟩
  by_cases h1 : u32 (u32 T.length * 100) > 2 ^ p
  · rw [if_pos h1]
    by_cases h2 : u32 (deltaBytes 0 (sunion L T)).length > 2 ^ p
    · rw [if_pos h2]
      exact Or.inl rfl
    · rw [if_neg h2]
      exact Or.inr ⟨_, _, rfl, GoodS_sunion L T h, sunion_nil _ (sunion_sorted L T)⟩
  · rw [if_neg h1]
    exact Or.inr ⟨L, T, rfl, h, rfl⟩

/-- Sparse sketches with the same entries have the same estimate. -/
theorem Estimate_sparse_congr (ops : FloatOps) (p q : Nat) (L T L1 T1 : List Nat)
    (h : GoodS L T) (h1 : GoodS L1 T1) (he : sunion L T = sunion L1 T1) :
    ∃ s1 s2 v, (sparseSk p L T).Estimate ops = .ok (s1, v) ∧
      (sparseSk q L1 T1).Estimate ops = .ok (s2, v) := by
  have e1 := Estimate_sparseSk ops p L T h
  have e2 := Estimate_sparseSk ops q L1 T1 h1
  rw [← he] at e2
  exact ⟨_, _, _, e1, e2⟩

theorem Estimate_self (ops : FloatOps) (sk : Sketch) (h : InvW sk) :
    ∃ s1 s2 v, sk.Estimate ops = .ok (s1, v) ∧ sk.Estimate ops = .ok (s2, v) := by
  obtain ⟨p, -, -, hc⟩ := h
  rcases hc with ⟨L, T, rfl, hg⟩ | ⟨rs, rfl, -⟩
  · exact ⟨_, _, _, Estimate_sparseSk ops p L T hg, Estimate_sparseSk ops p L T hg⟩
  · obtain ⟨v, hv⟩ := Estimate_denseSk ops p rs
    exact ⟨_, _, _, hv, hv⟩

theorem InsertHash_total (sk : Sketch) (x : Nat) (h : InvW sk) :
    ∃ sk1, sk.InsertHash x = .ok sk1 ∧ InvW sk1 := by
  obtain ⟨p, hp4, hp, hc⟩ := h
  rcases hc with ⟨L, T, rfl, hg⟩ | ⟨rs, rfl, hg⟩
  · rw [InsertHash_sparseSk]
    by_cases hk : encodeHash x p pp ∈ T
    · rw [if_pos hk]
      exact ⟨_, rfl, p, hp4, hp, Or.inl ⟨L, T, rfl, hg⟩⟩
    · rw [if_neg hk]
      obtain ⟨s, hs, hcase⟩ := maybeToNormal_cases p hp L _
        (GoodS_add L T _ hg hk (encodeHash_lt x p))
      refine ⟨s, hs, p, hp4, hp, ?_⟩
      rcases hcase with rfl | ⟨L1, T1, rfl, hg1, -⟩
      · exact Or.inr ⟨_, rfl, regsOf_good p _ _ (zeros_good p)⟩
      · exact Or.inl ⟨L1, T1, rfl, hg1⟩
  · rw [InsertHash_dense (denseSk p rs) rs x rfl rfl hg.1 hp]
    exact ⟨_, rfl, p, hp4, hp, Or.inr ⟨_, rfl, regs_set_good p rs _ _ hg
      (Nat.mod_lt _ (by norm_num))⟩⟩

theorem InsertHashes_InvW (xs : List Nat) (z sk : Sketch) (h : InvW z)
    (hi : z.InsertHashes xs = .ok sk) : InvW sk ∧ sk.p = z.p := by
  induction xs generalizing z with
  | nil =>
    simp only [Sketch.InsertHashes, Except.ok.injEq] at hi
    subst hi
    exact ⟨h, rfl⟩
  | cons x xs ih =>
    obtain ⟨s, hs, hinv⟩ := InsertHash_total z x h
    have hp : s.p = z.p := by
      obtain ⟨p, -, hp, hc⟩ := h
      rcases hc with ⟨L, T, rfl, hg⟩ | ⟨rs, rfl, hg⟩
      · rw [InsertHash_sparseSk] at hs
        by_cases hk : encodeHash x p pp ∈ T
        · rw [if_pos hk] at hs
          cases hs
          rfl
        · rw [if_neg hk] at hs
          obtain ⟨s', hs', hcase⟩ := maybeToNormal_cases p hp L _
            (GoodS_add L T _ hg hk (encodeHash_lt x p))
          rw [hs'] at hs
          cases hs
          rcases hcase with rfl | ⟨L1, T1, rfl, -, -⟩ <;> rfl
      · rw [InsertHash_dense (denseSk p rs) rs x rfl rfl hg.1 hp] at hs
        cases hs
        rfl
    simp only [Sketch.InsertHashes, hs] at hi
    obtain ⟨h1, h2⟩ := ih s hinv hi
    exact ⟨h1, h2.trans hp⟩

theorem NewSketch_InvW (p : Nat) (sparse : Bool) (z : Sketch) (h : NewSketch p sparse = .ok z) :
    InvW z ∧ z.p = p := by
  obtain ⟨hp4, hp, rfl⟩ := NewSketch_eq p sparse z h
  cases sparse
  · exact ⟨⟨p, hp4, hp, Or.inr ⟨_, rfl, zeros_good p⟩⟩, rfl⟩
  · exact ⟨⟨p, hp4, hp, Or.inl ⟨[], [], rfl, List.sorted_nil, by simp, List.nodup_nil,
      by simp⟩⟩, rfl⟩

theorem replicate_getD (n j : Nat) : (List.replicate n 0).getD j 0 = 0 := by
  by_cases h : j < n
  · rw [List.getD_eq_getElem _ _ (by simpa using h)]
    simp
  · rw [List.getD_eq_default _ _ (by simpa using h)]

theorem maxRank_sunion (p : Nat) (L T : List Nat) (j : Nat) :
    maxRank ((sunion L T).map fun k => decodeHash k p pp) j =
      max (maxRank (T.map fun k => decodeHash k p pp) j)
        (maxRank (L.map fun k => decodeHash k p pp) j) := by
  rw [← maxRank_append, ← List.map_append]
  apply maxRank_congr
  intro e
  simp only [List.mem_map, mem_sunion, List.mem_append]
  constructor
  · rintro ⟨k, hk, rfl⟩
    exact ⟨k, hk.symm, rfl⟩
  · rintro ⟨k, hk, rfl⟩
    exact ⟨k, hk.symm, rfl⟩

/-- Folding a sparse sketch into dense registers gives the same registers as
promoting it first and taking the element-wise maximum. -/
theorem regs_mixed (p : Nat) (A L T : List Nat) (hA : A.length = 2 ^ p) :
    regsOf p L (regsOf p T A) =
      List.zipWith max (regsOf p (sunion L T) (List.replicate (2 ^ p) 0)) A := by
  have hz : (regsOf p (sunion L T) (List.replicate (2 ^ p) 0)).length = 2 ^ p := by
    rw [regsOf_length]
    simp
  obtain ⟨z1, z2⟩ := zipWith_max_spec _ A (hz.trans hA.symm)
  apply list_ext_getD
  · rw [regsOf_length, regsOf_length, z1, hz, hA]
  · intro j hj
    rw [regsOf_length, regsOf_length] at hj
    rw [regsOf_getD p L _ j (by rw [regsOf_length]; exact hj), regsOf_getD p T A j hj,
      z2 j (by rw [hz, ← hA]; exact hj),
      regsOf_getD p _ _ j (by simpa using (by omega : j < 2 ^ p)), replicate_getD,
      maxRank_sunion, Nat.zero_max, max_assoc, max_comm]

theorem zipWith_max_comm (A B : List Nat) : List.zipWith max A B = List.zipWith max B A :=
  List.zipWith_comm_of_comm _ (fun x y => max_comm x y) A B

/-- Merging two well-formed sketches of the same precision in either order. -/
theorem Merge_order (A B : Sketch) (hA : InvW A) (hB : InvW B) (hp : A.p = B.p) :
    ∃ sAB sBA, A.Merge (some B) = .ok (sAB, none) ∧ B.Merge (some A) = .ok (sBA, none) ∧
      ((A.sparse = false ∨ B.sparse = false) → sAB.sparse = false ∧ sBA.sparse = false) ∧
      (sAB.sparse = sBA.sparse → ∀ ops : FloatOps, ∃ s1 s2 v,
        sAB.Estimate ops = .ok (s1, v) ∧ sBA.Estimate ops = .ok (s2, v)) := by
  obtain ⟨p, hp4, hp18, hcA⟩ := hA
  obtain ⟨q, -, -, hcB⟩ := hB
  have hd : ∀ rs : List Nat, GoodD p rs → ∀ ops : FloatOps, ∃ s1 s2 v,
      (denseSk p rs).Estimate ops = .ok (s1, v) ∧ (denseSk p rs).Estimate ops = .ok (s2, v) :=
    fun rs hg ops => Estimate_self ops _ ⟨p, hp4, hp18, Or.inr ⟨rs, rfl, hg⟩⟩
  rcases hcA with ⟨L, T, rfl, hg⟩ | ⟨rs, rfl, hg⟩ <;>
    rcases hcB with ⟨L1, T1, rfl, hg1⟩ | ⟨rs1, rfl, hg1⟩
  · have hpq : p = q := hp
    subst hpq
    obtain ⟨g, m1, -⟩ := GoodS_merge L T L1 T1 hg hg1
    obtain ⟨g', m2, -⟩ := GoodS_merge L1 T1 L T hg1 hg
    have hU : sunion L1 (set.Merge (set.Merge T1 T) L) =
        sunion L (set.Merge (set.Merge T T1) L1) := by
      apply sunion_congr
      intro x
      rw [m1 x, m2 x]
      tauto
    obtain ⟨s, hs, hc⟩ := maybeToNormal_cases p hp18 L _ g
    obtain ⟨s', hs', hc'⟩ := maybeToNormal_cases p hp18 L1 _ g'
    rw [hU] at hc'
    refine ⟨s, s', Merge_sparse_sparse p L T L1 T1 hg1 s hs,
      Merge_sparse_sparse p L1 T1 L T hg s' hs', fun h => ?_, fun hm ops => ?_⟩
    · rcases h with h | h <;> simp [sparseSk, Sketch.sparse] at h
    · rcases hc with rfl | ⟨La, Ta, rfl, ga, ea⟩ <;> rcases hc' with rfl | ⟨Lb, Tb, rfl, gb, eb⟩
      · exact hd _ (regsOf_good p _ _ (zeros_good p)) ops
      · simp [sparseSk, denseSk, Sketch.sparse] at hm
      · simp [sparseSk, denseSk, Sketch.sparse] at hm
      · exact Estimate_sparse_congr ops p p La Ta Lb Tb ga gb (ea.trans eb.symm)
  · have hpq : p = q := hp
    subst hpq
    have e1 := Merge_sparse_dense p hp18 L T rs1 hg hg1.1
    have e2 := Merge_dense_sparse p hp18 rs1 L T hg1.1 hg
    rw [regs_mixed p rs1 L T hg1.1] at e2
    exact ⟨_, _, e1, e2, fun _ => ⟨rfl, rfl⟩, fun _ ops =>
      hd _ (zipWith_max_good p _ _ (regsOf_good p _ _ (zeros_good p)) hg1) ops⟩
  · have hpq : p = q := hp
    subst hpq
    have e1 := Merge_sparse_dense p hp18 L1 T1 rs hg1 hg.1
    have e2 := Merge_dense_sparse p hp18 rs L1 T1 hg.1 hg1
    rw [regs_mixed p rs L1 T1 hg.1] at e2
    exact ⟨_, _, e2, e1, fun _ => ⟨rfl, rfl⟩, fun _ ops =>
      hd _ (zipWith_max_good p _ _ (regsOf_good p _ _ (zeros_good p)) hg) ops⟩
  · have hpq : p = q := hp
    subst hpq
    have e1 := Merge_dense_dense p rs rs1 hg.1 hg1.1
    have e2 := Merge_dense_dense p rs1 rs hg1.1 hg.1
    rw [zipWith_max_comm rs1 rs] at e2
    exact ⟨_, _, e1, e2, fun _ => ⟨rfl, rfl⟩, fun _ ops =>
      hd _ (zipWith_max_good p _ _ hg hg1) ops⟩

/-! ### Leading zeros -/

theorem countLZ_le (k w : Nat) : countLZ k w ≤ k := by
  induction k with
  | zero => simp [countLZ]
  | succ k ih =>
    simp only [countLZ]
    split
    · omega
    · omega

theorem countLZ_zero (k : Nat) : countLZ k 0 = k := by
  induction k with
  | zero => rfl
  | succ k ih => simp [countLZ, ih]

theorem lt_of_testBit_false (a k : Nat) (ha : a < 2 ^ (k + 1)) (hb : a.testBit k = false) :
    a < 2 ^ k := by
  apply Nat.lt_pow_two_of_testBit
  intro i hi
  rcases Nat.eq_or_lt_of_le hi with h | h
  · rw [← h]
    exact hb
  · exact Nat.testBit_lt_two_pow (lt_of_lt_of_le ha (Nat.pow_le_pow_right (by norm_num) h))

/-- The leading zeros of `a * 2^s + b`, the bits of `a` above those of `b`. -/
theorem countLZ_split (k s a b : Nat) (hb : b < 2 ^ s) (ha : a < 2 ^ k) :
    countLZ (k + s) (a * 2 ^ s + b) = if a = 0 then k + countLZ s b else countLZ k a := by
  induction k with
  | zero =>
    have : a = 0 := by simpa using ha
    subst this
    simp
  | succ k ih =>
    have e : k + 1 + s = (k + s) + 1 := by omega
    have hbit : (a * 2 ^ s + b).testBit (k + s) = a.testBit k := by
      rw [Nat.mul_comm, Nat.testBit_mul_pow_two_add a hb]
      have : ¬ (k + s < s) := by omega
      rw [if_neg this, Nat.add_sub_cancel]
    rw [e]
    simp only [countLZ, hbit]
    by_cases ht : a.testBit k = true
    · have hne : a ≠ 0 := by
        intro h
        rw [h] at ht
        simp at ht
      rw [if_pos ht, if_neg hne, if_pos ht]
    · have hf : a.testBit k = false := by simpa using ht
      have hlt := lt_of_testBit_false a k ha hf
      rw [if_neg ht, ih hlt, if_neg ht]
      by_cases h0 : a = 0
      · rw [if_pos h0, if_pos h0]
        omega
      · rw [if_neg h0, if_neg h0]

theorem countLZ_pow (k : Nat) : countLZ (k + 1) (2 ^ k) = 0 := by
  simp [countLZ, Nat.testBit_two_pow_self]

theorem countLZ_pad (d k t : Nat) (ht : t < 2 ^ k) : countLZ (d + k) t = d + countLZ k t := by
  have := countLZ_split d k 0 t ht (Nat.pos_pow_of_pos _ (by norm_num))
  simpa using this

/-! ### Bit fields as quotients and remainders -/

theorem u64_lt (x : Nat) : u64 x < 2 ^ 64 := Nat.mod_lt _ (by norm_num)

theorem u64_of_lt (x : Nat) (h : x < 2 ^ 64) : u64 x = x := Nat.mod_eq_of_lt h

theorem bextr_eq (v s len : Nat) (h : len < 64) : bextr v s len = u64 v / 2 ^ s % 2 ^ len := by
  unfold bextr
  rw [sub64_pow len h, Nat.and_pow_two_sub_one_eq_mod, Nat.shiftRight_eq_div_pow]

theorem bextr32_eq (v s len : Nat) (h : len < 32) :
    bextr32 v s len = u32 v / 2 ^ s % 2 ^ len := by
  unfold bextr32
  rw [sub32_pow len h, Nat.and_pow_two_sub_one_eq_mod, Nat.shiftRight_eq_div_pow]

theorem sub8_eq (a b : Nat) (hb : b ≤ a) (ha : a < 256) : sub8 a b = a - b :=
  wrap_sub 256 a b hb ha

theorem or_eq_add (a s b : Nat) (hb : b < 2 ^ s) : a * 2 ^ s ||| b = a * 2 ^ s + b := by
  rw [Nat.mul_comm, Nat.mul_add_lt_is_or hb]

/-! ### Sparse encoding against direct position and rank -/

/-- The leading zeros of the low 39 bits, as `encodeHash` counts them. -/
theorem countLZ_low (lo : Nat) (hlo : lo < 2 ^ 39) :
    countLZ 64 (lo * 2 ^ 25 + (2 ^ 25 - 1)) = if lo = 0 then 39 else countLZ 39 lo := by
  have h := countLZ_split 39 25 lo (2 ^ 25 - 1) (by norm_num) hlo
  have e : countLZ 25 (2 ^ 25 - 1) = 0 := by decide
  rw [e] at h
  exact h

theorem encodeHash_core (p hi t lo : Nat) (hp4 : 4 ≤ p) (hp : p ≤ 18) (hhi : hi < 2 ^ p)
    (ht : t < 2 ^ (25 - p)) (hlo : lo < 2 ^ 39) :
    encodeHash ((hi * 2 ^ (25 - p) + t) * 2 ^ 39 + lo) p pp =
      if t = 0 then
        (hi * 2 ^ (25 - p) + t) * 128 + (((if lo = 0 then 39 else countLZ 39 lo) + 1) * 2 + 1)
      else (hi * 2 ^ (25 - p) + t) * 2 := by
  have hX : (hi * 2 ^ (25 - p) + t) * 2 ^ 39 + lo < 2 ^ 64 := by
    interval_cases p <;> simp only [Nat.reducePow, Nat.reduceSub] at * <;> omega
  have b : ((hi * 2 ^ (25 - p) + t) * 2 ^ 39 + lo) / 2 ^ 39 % 2 ^ 25 = hi * 2 ^ (25 - p) + t := by
    interval_cases p <;> simp only [Nat.reducePow, Nat.reduceSub] at * <;> omega
  have c : ((hi * 2 ^ (25 - p) + t) * 2 ^ 39 + lo) / 2 ^ 39 % 2 ^ (25 - p) = t := by
    interval_cases p <;> simp only [Nat.reducePow, Nat.reduceSub] at * <;> omega
  have d : ((hi * 2 ^ (25 - p) + t) * 2 ^ 39 + lo) / 2 ^ 0 % 2 ^ 39 = lo := by
    interval_cases p <;> simp only [Nat.reducePow, Nat.reduceSub] at * <;> omega
  have hidx : hi * 2 ^ (25 - p) + t < 2 ^ 25 := by
    interval_cases p <;> simp only [Nat.reducePow, Nat.reduceSub] at * <;> omega
  have s1 : sub8 64 pp = 39 := by decide
  have s2 : sub8 pp p = 25 - p := sub8_eq 25 p (by omega) (by norm_num)
  have hz := countLZ_le 39 lo
  simp only [encodeHash, s1, s2]
  rw [bextr_eq _ 39 pp (by decide), bextr_eq _ 39 (25 - p) (by omega), u64_of_lt _ hX]
  simp only [pp, b, c]
  by_cases ht0 : t = 0
  · rw [if_pos ht0, if_pos ht0]
    rw [bextr_eq _ 0 39 (by norm_num), u64_of_lt _ hX, d, sub64_pow 25 (by norm_num)]
    simp only [Nat.shiftLeft_eq]
    rw [u64_of_lt (lo * 2 ^ 25) (by norm_num at hlo ⊢; omega),
      or_eq_add lo 25 _ (by norm_num)]
    unfold LeadingZeros64
    rw [u64_of_lt _ (by norm_num at hlo ⊢; omega), countLZ_low lo hlo]
    have hzz : (if lo = 0 then 39 else countLZ 39 lo) + 1 ≤ 40 := by
      split <;> omega
    generalize (if lo = 0 then 39 else countLZ 39 lo) + 1 = zeros at hzz ⊢
    rw [u32_of_lt _ (lt_of_lt_of_le hidx (by norm_num)),
      u32_of_lt _ (by norm_num at hidx ⊢; omega), u32_of_lt _ (by norm_num; omega),
      Nat.or_assoc]
    have h1 : zeros * 2 ^ 1 ||| 1 = zeros * 2 + 1 := by
      rw [or_eq_add zeros 1 1 (by norm_num)]
      norm_num
    rw [h1, show (128 : Nat) = 2 ^ 7 by norm_num, or_eq_add _ 7 _ (by norm_num; omega)]
  · rw [if_neg ht0, if_neg ht0, Nat.shiftLeft_eq,
      u32_of_lt _ (lt_of_lt_of_le hidx (by norm_num)),
      u32_of_lt _ (by norm_num at hidx ⊢; omega)]

theorem u8_of_lt (x : Nat) (h : x < 256) : u8 x = x := Nat.mod_eq_of_lt h

theorem decodeHash_odd (p hi zeros : Nat) (hp4 : 4 ≤ p) (hp : p ≤ 18) (hhi : hi < 2 ^ p)
    (hz : zeros ≤ 40) :
    decodeHash (hi * 2 ^ (25 - p) * 128 + (zeros * 2 + 1)) p pp = (hi, zeros + 25 - p) := by
  have hk : hi * 2 ^ (25 - p) * 128 + (zeros * 2 + 1) < 2 ^ 32 := by
    interval_cases p <;> simp only [Nat.reducePow, Nat.reduceSub] at * <;> omega
  have h1 : (hi * 2 ^ (25 - p) * 128 + (zeros * 2 + 1)) % 2 = 1 := by omega
  have fj : (hi * 2 ^ (25 - p) * 128 + (zeros * 2 + 1)) / 2 ^ 1 % 2 ^ 6 = zeros := by
    interval_cases p <;> simp only [Nat.reducePow, Nat.reduceSub] at * <;> omega
  have fh : (hi * 2 ^ (25 - p) * 128 + (zeros * 2 + 1)) / 2 ^ (32 - p) % 2 ^ p = hi := by
    interval_cases p <;> simp only [Nat.reducePow, Nat.reduceSub] at * <;> omega
  have s1 : sub8 32 p = 32 - p := sub8_eq 32 p (by omega) (by norm_num)
  simp only [decodeHash, getIndex, u32_of_lt _ hk, Nat.and_one_is_mod, h1, if_true]
  rw [bextr32_eq _ 1 6 (by norm_num), bextr32_eq _ _ p (by omega), u32_of_lt _ hk, fj, s1, fh,
    u8_of_lt zeros (by omega)]
  simp only [pp]
  rw [u8_of_lt _ (by omega), sub8_eq _ p (by omega) (by omega)]

theorem decodeHash_even (p hi t : Nat) (hp4 : 4 ≤ p) (hp : p ≤ 18) (hhi : hi < 2 ^ p)
    (ht : t < 2 ^ (25 - p)) (ht0 : t ≠ 0) :
    decodeHash ((hi * 2 ^ (25 - p) + t) * 2) p pp = (hi, countLZ (25 - p) t + 1) := by
  have hk : (hi * 2 ^ (25 - p) + t) * 2 < 2 ^ 32 := by
    interval_cases p <;> simp only [Nat.reducePow, Nat.reduceSub] at * <;> omega
  have h1 : ¬ ((hi * 2 ^ (25 - p) + t) * 2 % 2 = 1) := by omega
  have fg : (hi * 2 ^ (25 - p) + t) * 2 * 2 ^ (6 + p) % 2 ^ 32 = t * 2 ^ (7 + p) := by
    interval_cases p <;> simp only [Nat.reducePow, Nat.reduceSub, Nat.reduceAdd] at * <;> omega
  have fi : (hi * 2 ^ (25 - p) + t) * 2 / 2 ^ (26 - p) % 2 ^ p = hi := by
    interval_cases p <;> simp only [Nat.reducePow, Nat.reduceSub] at * <;> omega
  have hV : t * 2 ^ (7 + p) < 2 ^ 64 := by
    interval_cases p <;> simp only [Nat.reducePow, Nat.reduceSub, Nat.reduceAdd] at * <;> omega
  have ht57 : t < 2 ^ (57 - p) :=
    lt_of_lt_of_le ht (Nat.pow_le_pow_right (by norm_num) (by omega))
  have s1 : u8 (sub8 pp p + 1) = 26 - p := by
    rw [show pp = 25 from rfl, sub8_eq 25 p (by omega) (by norm_num), u8_of_lt _ (by omega)]
    omega
  have s2 : sub8 (u8 (sub8 32 pp + p)) 1 = 6 + p := by
    rw [show sub8 32 pp = 7 by decide, u8_of_lt _ (by omega), sub8_eq _ 1 (by omega) (by omega)]
    omega
  have c1 := countLZ_split (57 - p) (7 + p) t 0 (Nat.pos_pow_of_pos _ (by norm_num)) ht57
  rw [show 57 - p + (7 + p) = 64 by omega, Nat.add_zero, if_neg ht0] at c1
  have c2 := countLZ_pad 32 (25 - p) t ht
  rw [show 32 + (25 - p) = 57 - p by omega] at c2
  have hc := countLZ_le (25 - p) t
  simp only [decodeHash, getIndex, u32_of_lt _ hk, Nat.and_one_is_mod, h1, if_false, s1, s2]
  rw [bextr32_eq _ _ p (by omega), u32_of_lt _ hk, fi, Nat.shiftLeft_eq]
  unfold LeadingZeros64 u32
  rw [fg, u64_of_lt _ hV, c1, c2, show 32 + countLZ (25 - p) t - 31 = countLZ (25 - p) t + 1 by
    omega, u8_of_lt _ (by omega)]

theorem getPosVal_core (p hi t lo : Nat) (hp4 : 4 ≤ p) (hp : p ≤ 18) (hhi : hi < 2 ^ p)
    (ht : t < 2 ^ (25 - p)) (hlo : lo < 2 ^ 39) :
    getPosVal ((hi * 2 ^ (25 - p) + t) * 2 ^ 39 + lo) p =
      (hi, if t = 0 then (if lo = 0 then 39 else countLZ 39 lo) + 1 + 25 - p
        else countLZ (25 - p) t + 1) := by
  have hX : (hi * 2 ^ (25 - p) + t) * 2 ^ 39 + lo < 2 ^ 64 := by
    interval_cases p <;> simp only [Nat.reducePow, Nat.reduceSub] at * <;> omega
  have fe : ((hi * 2 ^ (25 - p) + t) * 2 ^ 39 + lo) / 2 ^ (64 - p) % 2 ^ p = hi := by
    interval_cases p <;> simp only [Nat.reducePow, Nat.reduceSub] at * <;> omega
  have ff : ((hi * 2 ^ (25 - p) + t) * 2 ^ 39 + lo) * 2 ^ p % 2 ^ 64 =
      (t * 2 ^ 39 + lo) * 2 ^ p := by
    interval_cases p <;> simp only [Nat.reducePow, Nat.reduceSub] at * <;> omega
  have hY : t * 2 ^ 39 + lo < 2 ^ (64 - p) := by
    interval_cases p <;> simp only [Nat.reducePow, Nat.reduceSub] at * <;> omega
  have hb : 2 ^ (p - 1) < 2 ^ p := Nat.pow_lt_pow_right (by norm_num) (by omega)
  have hw : (t * 2 ^ 39 + lo) * 2 ^ p + 2 ^ (p - 1) < 2 ^ 64 := by
    interval_cases p <;> simp only [Nat.reducePow, Nat.reduceSub] at * <;> omega
  have s1 : sub8 64 p = 64 - p := sub8_eq 64 p (by omega) (by norm_num)
  have s2 : sub8 p 1 = p - 1 := sub8_eq p 1 (by omega) (by omega)
  have c1 := countLZ_split (64 - p) p (t * 2 ^ 39 + lo) (2 ^ (p - 1)) hb hY
  have c0 : countLZ p (2 ^ (p - 1)) = 0 := by
    have := countLZ_pow (p - 1)
    rwa [show p - 1 + 1 = p by omega] at this
  rw [show 64 - p + p = 64 by omega, c0, Nat.add_zero] at c1
  have c2 := countLZ_split (25 - p) 39 t lo hlo ht
  rw [show 25 - p + 39 = 64 - p by omega] at c2
  have hz := countLZ_le 39 lo
  have hzt := countLZ_le (25 - p) t
  simp only [getPosVal, s1, s2]
  rw [bextr_eq _ _ p (by omega), u64_of_lt _ hX, fe, Nat.shiftLeft_eq, Nat.one_shiftLeft]
  unfold LeadingZeros64
  rw [show u64 (((hi * 2 ^ (25 - p) + t) * 2 ^ 39 + lo) * 2 ^ p) =
      (t * 2 ^ 39 + lo) * 2 ^ p from ff,
    u64_of_lt (2 ^ (p - 1)) (lt_trans hb (Nat.pow_lt_pow_right (by norm_num) (by omega))),
    or_eq_add _ p _ hb, u64_of_lt _ hw, c1]
  congr 1
  by_cases ht0 : t = 0
  · rw [if_pos ht0]
    by_cases hl0 : lo = 0
    · have hY0 : t * 2 ^ 39 + lo = 0 := by rw [ht0, hl0, Nat.zero_mul]
      rw [if_pos hl0, if_pos hY0, u8_of_lt (64 - p) (by omega), u8_of_lt _ (by omega)]
      omega
    · have hne : ¬ (t * 2 ^ 39 + lo = 0) := by omega
      rw [if_neg hl0, if_neg hne, c2, if_pos ht0, u8_of_lt (25 - p + countLZ 39 lo) (by omega),
        u8_of_lt _ (by omega)]
      omega
  · have hne : ¬ (t * 2 ^ 39 + lo = 0) := by
      intro h
      have : t * 2 ^ 39 = 0 := by omega
      simp at this
      exact ht0 this
    rw [if_neg ht0, if_neg hne, c2, if_neg ht0, u8_of_lt (countLZ (25 - p) t) (by omega),
      u8_of_lt _ (by omega)]

/-- The sparse encoding of a hash decodes, at precision `p`, to the position
and rank that `getPosVal` computes from the hash itself. -/
theorem decode_encode (x p : Nat) (hp4 : 4 ≤ p) (hp : p ≤ 18) :
    decodeHash (encodeHash x p pp) p pp = getPosVal x p := by
  have hx : ∃ hi t lo, hi < 2 ^ p ∧ t < 2 ^ (25 - p) ∧ lo < 2 ^ 39 ∧
      u64 x = (hi * 2 ^ (25 - p) + t) * 2 ^ 39 + lo := by
    have h := u64_lt x
    refine ⟨u64 x / 2 ^ (64 - p), u64 x / 2 ^ 39 % 2 ^ (25 - p), u64 x % 2 ^ 39, ?_, ?_, ?_, ?_⟩
    · generalize u64 x = X at h
      interval_cases p <;> simp only [Nat.reducePow, Nat.reduceSub] at * <;> omega
    · exact Nat.mod_lt _ (Nat.pos_pow_of_pos _ (by norm_num))
    · exact Nat.mod_lt _ (by norm_num)
    · generalize u64 x = X at h
      interval_cases p <;> simp only [Nat.reducePow, Nat.reduceSub] at * <;> omega
  have e1 : encodeHash x p pp = encodeHash (u64 x) p pp := by
    simp only [encodeHash, bextr, u64, Nat.mod_mod]
  have e2 : getPosVal x p = getPosVal (u64 x) p := by
    simp only [getPosVal, bextr, u64, Nat.mod_mod]
  obtain ⟨hi, t, lo, hhi, ht, hlo, hX⟩ := hx
  rw [e1, e2, hX, encodeHash_core p hi t lo hp4 hp hhi ht hlo,
    getPosVal_core p hi t lo hp4 hp hhi ht hlo]
  by_cases ht0 : t = 0
  · subst ht0
    rw [if_pos rfl, if_pos rfl, Nat.add_zero]
    have hz := countLZ_le 39 lo
    rw [decodeHash_odd p hi _ hp4 hp hhi (by split <;> omega)]
  · rw [if_neg ht0, if_neg ht0, decodeHash_even p hi t hp4 hp hhi ht ht0]

/-! ### Repeated insertions -/

theorem set_getD_self (rs : List Nat) (i : Nat) (hi : i < rs.length) :
    rs.set i (rs.getD i 0) = rs := by
  apply list_ext_getD _ _ (by simp)
  intro j _
  rw [getD_set_eq rs i _ j hi]
  split
  · next h => rw [h]
  · rfl

theorem regsOf_ge (p : Nat) (hp : p ≤ 18) (U : List Nat) (k : Nat) (hk : k ∈ U) :
    (decodeHash k p pp).2 ≤
      (regsOf p U (List.replicate (2 ^ p) 0)).getD (decodeHash k p pp).1 0 := by
  rw [regsOf_getD p U _ _ (by simpa using decodeHash_fst_lt k p (by omega))]
  exact le_trans (le_maxRank (U.map fun k => decodeHash k p pp) (decodeHash k p pp)
    (List.mem_map.2 ⟨k, hk, rfl⟩)) (le_max_right _ _)

theorem Holds_insert (sk sk1 : Sketch) (H : List Nat) (x : Nat) (h : Holds sk H)
    (hi : sk.InsertHash x = .ok sk1) : Holds sk1 (x :: H) := by
  obtain ⟨p, hp4, hp, hc⟩ := h
  refine ⟨p, hp4, hp, ?_⟩
  rcases hc with ⟨L, T, rfl, hg, hH⟩ | ⟨rs, rfl, hg, hH⟩
  · rw [InsertHash_sparseSk] at hi
    by_cases hk : encodeHash x p pp ∈ T
    · rw [if_pos hk] at hi
      cases hi
      refine Or.inl ⟨L, T, rfl, hg, fun y hy => ?_⟩
      rcases List.mem_cons.1 hy with rfl | hy
      · exact (mem_sunion L T _).2 (Or.inr hk)
      · exact hH y hy
    · rw [if_neg hk] at hi
      obtain ⟨s, hs, hcase⟩ := maybeToNormal_cases p hp L _
        (GoodS_add L T _ hg hk (encodeHash_lt x p))
      rw [hs] at hi
      cases hi
      have hU : ∀ y ∈ x :: H, encodeHash y p pp ∈ sunion L (T ++ [encodeHash x p pp]) := by
        intro y hy
        rw [mem_sunion, List.mem_append, List.mem_singleton]
        rcases List.mem_cons.1 hy with rfl | hy
        · exact Or.inr (Or.inr rfl)
        · rcases (mem_sunion L T _).1 (hH y hy) with h | h
          · exact Or.inl h
          · exact Or.inr (Or.inl h)
      rcases hcase with rfl | ⟨L1, T1, rfl, hg1, he⟩
      · refine Or.inr ⟨_, rfl, regsOf_good p _ _ (zeros_good p), fun y hy => ?_⟩
        have := regsOf_ge p hp _ _ (hU y hy)
        rwa [decode_encode y p hp4 hp] at this
      · refine Or.inl ⟨L1, T1, rfl, hg1, fun y hy => ?_⟩
        rw [he]
        exact hU y hy
  · rw [InsertHash_dense (denseSk p rs) rs x rfl rfl hg.1 hp] at hi
    cases hi
    have hlt : (getPosVal x p).1 < rs.length := by
      rw [hg.1]
      exact getPosVal_fst_lt x p (by omega)
    refine Or.inr ⟨_, rfl, regs_set_good p rs _ _ hg (Nat.mod_lt _ (by norm_num)),
      fun y hy => ?_⟩
    have hy' : (getPosVal y p).1 < rs.length := by
      rw [hg.1]
      exact getPosVal_fst_lt y p (by omega)
    show (getPosVal y p).2 ≤ (rs.set (getPosVal x p).1
      (max (getPosVal x p).2 (rs.getD (getPosVal x p).1 0))).getD (getPosVal y p).1 0
    rw [getD_set_max rs _ _ _ hy']
    rcases List.mem_cons.1 hy with rfl | hy
    · rw [if_pos rfl]
      exact le_max_left _ _
    · split
      · exact le_trans (hH y hy) (le_max_right _ _)
      · exact hH y hy

theorem Holds_estimate (ops : FloatOps) (sk sk1 : Sketch) (H : List Nat) (v : Nat)
    (h : Holds sk H) (he : sk.Estimate ops = .ok (sk1, v)) : Holds sk1 H := by
  obtain ⟨p, hp4, hp, hc⟩ := h
  refine ⟨p, hp4, hp, ?_⟩
  rcases hc with ⟨L, T, rfl, hg, hH⟩ | ⟨rs, rfl, hg, hH⟩
  · rw [Estimate_sparseSk ops p L T hg] at he
    cases he
    refine Or.inl ⟨_, _, rfl, GoodS_sunion L T hg, fun y hy => ?_⟩
    rw [sunion_nil _ (sunion_sorted L T)]
    exact hH y hy
  · obtain ⟨w, hw⟩ := Estimate_denseSk ops p rs
    rw [hw] at he
    cases he
    exact Or.inr ⟨rs, rfl, hg, hH⟩

theorem Reachable_Holds (sk : Sketch) (H : List Nat) (h : Reachable sk H) : Holds sk H := by
  induction h with
  | new p sparse sk hn =>
    obtain ⟨hp4, hp, rfl⟩ := NewSketch_eq p sparse sk hn
    refine ⟨p, hp4, hp, ?_⟩
    cases sparse
    · exact Or.inr ⟨_, rfl, zeros_good p, by simp⟩
    · exact Or.inl ⟨[], [], rfl, ⟨List.sorted_nil, by simp, List.nodup_nil, by simp⟩, by simp⟩
  | insert sk sk1 H x _ hi ih => exact Holds_insert sk sk1 H x ih hi
  | estimate ops sk sk1 H v _ he ih => exact Holds_estimate ops sk sk1 H v ih he

theorem Holds_InvW (sk : Sketch) (H : List Nat) (h : Holds sk H) : InvW sk := by
  obtain ⟨p, hp4, hp, hc⟩ := h
  refine ⟨p, hp4, hp, ?_⟩
  rcases hc with ⟨L, T, rfl, hg, -⟩ | ⟨rs, rfl, hg, -⟩
  · exact Or.inl ⟨L, T, rfl, hg⟩
  · exact Or.inr ⟨rs, rfl, hg⟩

/-! ## Claims C1 to C10 -/

/-- C5: `NewSketch(p, sparse)` returns an error exactly when `p < 4` or
`p > 18`; otherwise it returns a sketch of precision `p` with `m = 2^p`, which
is sparse with an empty temporary set and an empty compressed list when
`sparse` is true, and dense with `2^p` registers all equal to 0 when `sparse`
is false. -/
theorem NewSketch_spec (p : Nat) (sparse : Bool) :
    ((∃ e, NewSketch p sparse = .error e) ↔ (p < 4 ∨ p > 18)) ∧
    (¬ (p < 4 ∨ p > 18) → ∃ sk, NewSketch p sparse = .ok sk ∧ sk.p = p ∧ sk.m = 2 ^ p ∧
      (sparse = true → sk.sparse = true ∧ sk.tmpSet = [] ∧
        sk.sparseList = some ⟨0, 0, []⟩ ∧ sk.regs = none) ∧
      (sparse = false → sk.sparse = false ∧ sk.tmpSet = [] ∧ sk.sparseList = none ∧
        sk.regs = some (List.replicate (2 ^ p) 0))) := by
  constructor
  · unfold NewSketch
    by_cases h : p < 4 ∨ p > 18
    · simp [h]
    · simp only [h, if_false, iff_false]
      cases sparse <;> simp
  · intro h
    have h18 : p ≤ 18 := by omega
    cases sparse <;>
      simp [NewSketch, h, u32_shift p h18, Sketch.sparse, makeSet, nilSet, newCompressedList]

/-- Witness of C5 at precision 14, sparse. -/
theorem NewSketch_spec_witness :
    ∃ sk, NewSketch 14 true = .ok sk ∧ sk.p = 14 ∧ sk.m = 2 ^ 14 ∧
      (true = true → sk.sparse = true ∧ sk.tmpSet = [] ∧
        sk.sparseList = some ⟨0, 0, []⟩ ∧ sk.regs = none) ∧
      (true = false → sk.sparse = false ∧ sk.tmpSet = [] ∧ sk.sparseList = none ∧
        sk.regs = some (List.replicate (2 ^ 14) 0)) :=
  (NewSketch_spec 14 true).2 (by decide)

/-- C4: `Merge` returns an error exactly when `other` is not nil and its
precision differs from the receiver's; the error is the precision error and
the receiver is then unchanged; `Merge(nil)` returns no error and changes
nothing. -/
theorem Merge_error_iff (sk : Sketch) (other : Option Sketch) :
    ((∃ s e, sk.Merge other = .ok (s, some e)) ↔ ∃ o, other = some o ∧ sk.p ≠ o.p) ∧
    (∀ s e, sk.Merge other = .ok (s, some e) → s = sk ∧ e = .precisionsMustBeEqual) ∧
    sk.Merge none = .ok (sk, none) := by
  refine ⟨?_, ?_, rfl⟩
  · cases other with
    | none => simp [Sketch.Merge]
    | some o =>
      by_cases h : sk.p = o.p
      · simp only [Sketch.Merge, h, ne_eq, not_true_eq_false, if_false]
        constructor
        · rintro ⟨s, e, he⟩
          split at he <;> simp at he
        · rintro ⟨o', ho, hne⟩
          cases ho
          exact (hne rfl).elim
      · simp [Sketch.Merge, h]
  · intro s e he
    cases other with
    | none => simp [Sketch.Merge] at he
    | some o =>
      by_cases h : sk.p = o.p
      · simp only [Sketch.Merge, h, ne_eq, not_true_eq_false, if_false] at he
        split at he <;> simp at he
      · simp [Sketch.Merge, h] at he
        exact ⟨he.1.symm, he.2.symm⟩

/-- Witness of C4: merging a sketch of precision 5 into one of precision 4
returns the error and leaves the receiver as it was. -/
theorem Merge_error_iff_witness :
    (⟨4, 16, [], none, some (List.replicate 16 0)⟩ : Sketch).Merge
        (some ⟨5, 32, [], none, some (List.replicate 32 0)⟩) =
      .ok (⟨4, 16, [], none, some (List.replicate 16 0)⟩, some .precisionsMustBeEqual) := by
  obtain ⟨s, e, h⟩ := (Merge_error_iff ⟨4, 16, [], none, some (List.replicate 16 0)⟩
    (some ⟨5, 32, [], none, some (List.replicate 32 0)⟩)).1.2 ⟨_, rfl, by decide⟩
  obtain ⟨h1, h2⟩ := (Merge_error_iff ⟨4, 16, [], none, some (List.replicate 16 0)⟩
    (some ⟨5, 32, [], none, some (List.replicate 32 0)⟩)).2.1 s e h
  rw [h, h1, h2]

/-- C10: on every input of fewer than 8 bytes `UnmarshalBinary` returns
`ErrorTooShort` and leaves the receiving sketch unchanged. -/
theorem UnmarshalBinary_short (sk : Sketch) (data : List Nat) (h : data.length < 8) :
    sk.UnmarshalBinary data = .ok (sk, some .ErrorTooShort) := by
  simp [Sketch.UnmarshalBinary, h]

/-- Witness of C10 on a seven-byte input. -/
theorem UnmarshalBinary_short_witness :
    Sketch.zero.UnmarshalBinary [2, 14, 0, 0, 0, 0, 0] =
      .ok (Sketch.zero, some .ErrorTooShort) :=
  UnmarshalBinary_short Sketch.zero [2, 14, 0, 0, 0, 0, 0] (by decide)

/-- C8, counterexample: an eight-byte dense input whose version byte is 3 is
accepted: `UnmarshalBinary` returns no error and installs a dense sketch of
precision 14 with the (empty) payload as registers. -/
theorem UnmarshalBinary_version_accepted :
    Sketch.zero.UnmarshalBinary [3, 14, 0, 0, 0, 0, 0, 0] =
      .ok (⟨14, 16384, [], none, some []⟩, none) := by
  decide

/-- C8, amended: `UnmarshalBinary` has no unsupported-version error (the type
`Error` has none).  On every input of at least 8 bytes whose version byte is
not 1, the outcome is the one of the same input with version byte 2, for a
dense payload always and for a sparse payload whenever the declared size of
the temporary set does not overflow the 32-bit offset computation. -/
theorem UnmarshalBinary_version (sk : Sketch) (data : List Nat) (h8 : 8 ≤ data.length)
    (hv : data.getD 0 0 ≠ 1)
    (hs : data.getD 3 0 ≠ 1 ∨ ∃ tssz, Uint32 (data.drop 4) = .ok tssz ∧ tssz * 4 + 8 < 2 ^ 32) :
    sk.UnmarshalBinary data = sk.UnmarshalBinary (2 :: data.tail) := by
  match data, h8 with
  | v :: b1 :: b2 :: b3 :: b4 :: b5 :: b6 :: b7 :: rest, _ =>
    simp only [List.getD_cons_zero, List.getD_cons_succ, List.drop_succ_cons, List.drop_zero] at hv hs
    simp only [Sketch.UnmarshalBinary, List.tail_cons, List.length_cons, List.getD_cons_zero,
      List.getD_cons_succ, hv, if_false, List.drop_succ_cons, List.drop_zero]
    have h2 : ¬ ((2 : Nat) = 1) := by decide
    simp only [h2, if_false]
    by_cases hb : b3 = 1
    · subst hb
      simp only [decide_True, if_true]
      rcases hs with hs | ⟨tssz, ht, hlt⟩
      · exact absurd rfl hs
      · rw [ht]
        simp only
        have hu : u32 (u32 (tssz * 4) + 8) = tssz * 4 + 8 := by
          unfold u32
          rw [Nat.mod_eq_of_lt (a := tssz * 4) (by omega), Nat.mod_eq_of_lt hlt]
        rw [hu, readKeys_cons v 2 _ _ 8 _ (by omega)]
        have : sliceFrom (v :: b1 :: b2 :: 1 :: b4 :: b5 :: b6 :: b7 :: rest) (tssz * 4 + 8) =
            sliceFrom (2 :: b1 :: b2 :: 1 :: b4 :: b5 :: b6 :: b7 :: rest) (tssz * 4 + 8) := by
          simp [sliceFrom]
        rw [this]
    · simp [hb, Sketch.unmarshalBinaryV2]

/-- Witness of the amended C8 on the input of the counterexample. -/
theorem UnmarshalBinary_version_witness :
    Sketch.zero.UnmarshalBinary [3, 14, 0, 0, 0, 0, 0, 0] =
      Sketch.zero.UnmarshalBinary (2 :: [3, 14, 0, 0, 0, 0, 0, 0].tail) :=
  UnmarshalBinary_version Sketch.zero [3, 14, 0, 0, 0, 0, 0, 0] (by decide) (by decide)
    (Or.inl (by decide))

/-- C9, failing input: the first 23 bytes of the 24-byte encoding of the dense
sketch of precision 4 are accepted without error and give a sketch with 15
registers; a sparse encoding cut inside its temporary-set entries ends in a
panic (slice bounds out of range). -/
theorem UnmarshalBinary_truncated :
    NewSketch 4 false = .ok ⟨4, 16, [], none, some (List.replicate 16 0)⟩ ∧
    (⟨4, 16, [], none, some (List.replicate 16 0)⟩ : Sketch).MarshalBinary =
      [2, 4, 0, 0, 0, 0, 0, 16, 0, 0, 0, 0, 0, 0, 0, 0, 0, 0, 0, 0, 0, 0, 0, 0] ∧
    Sketch.zero.UnmarshalBinary
        ((⟨4, 16, [], none, some (List.replicate 16 0)⟩ : Sketch).MarshalBinary.take 23) =
      .ok (⟨4, 16, [], none, some (List.replicate 15 0)⟩, none) ∧
    (NewSketch 14 true).toOption.map (fun s => s.InsertHash (1 <<< 39)) =
      some (.ok ⟨14, 16384, [2], some ⟨0, 0, []⟩, none⟩) ∧
    (⟨14, 16384, [2], some ⟨0, 0, []⟩, none⟩ : Sketch).MarshalBinary =
      [2, 14, 0, 1, 0, 0, 0, 1, 0, 0, 0, 2, 0, 0, 0, 0, 0, 0, 0, 0, 0, 0, 0, 0] ∧
    Sketch.zero.UnmarshalBinary
        ((⟨14, 16384, [2], some ⟨0, 0, []⟩, none⟩ : Sketch).MarshalBinary.take 10) =
      .error .panic := by
  decide

/-- C2: for every precision `p` in [4,18] and hash lists `xs`, `ys`, merging
the dense sketch of `ys` into the dense sketch of `xs` succeeds and yields
exactly the register array of the dense sketch of `xs` followed by `ys`. -/
theorem dense_merge_union (p : Nat) (hp : 4 ≤ p ∧ p ≤ 18) (xs ys : List Nat) :
    ∃ z a b c s, NewSketch p false = .ok z ∧ z.InsertHashes xs = .ok a ∧
      z.InsertHashes ys = .ok b ∧ z.InsertHashes (xs ++ ys) = .ok c ∧
      a.Merge (some b) = .ok (s, none) ∧ s.regs = c.regs ∧ s.sparse = false := by
  have hm : u32 (1 <<< p) = 2 ^ p := u32_shift p hp.2
  have hn : NewSketch p false = .ok ⟨p, 2 ^ p, nilSet, none, some (List.replicate (2 ^ p) 0)⟩ := by
    have : ¬ (p < 4 ∨ p > 18) := by omega
    simp [NewSketch, this, hm]
  have hz : (List.replicate (2 ^ p) 0).length = 2 ^ p := by simp
  obtain ⟨la, ga⟩ := foldl_insert_spec (xs.map fun x => getPosVal x p) (List.replicate (2 ^ p) 0)
  obtain ⟨lb, gb⟩ := foldl_insert_spec (ys.map fun x => getPosVal x p) (List.replicate (2 ^ p) 0)
  obtain ⟨lc, gc⟩ := foldl_insert_spec ((xs ++ ys).map fun x => getPosVal x p)
    (List.replicate (2 ^ p) 0)
  rw [hz] at la lb lc ga gb gc
  refine ⟨_, _, _, _, _, hn, InsertHashes_dense xs _ _ rfl rfl hz hp.2,
    InsertHashes_dense ys _ _ rfl rfl hz hp.2, InsertHashes_dense (xs ++ ys) _ _ rfl rfl hz hp.2,
    dense_merge_regs p _ _ _ _ _ la lb lc ?_, rfl, rfl⟩
  intro j hj
  rw [ga j hj, gb j hj, gc j hj, List.map_append, maxRank_append]
  simp

/-- Witness of C2 at precision 4. -/
theorem dense_merge_union_witness :
    ∃ z a b c s, NewSketch 4 false = .ok z ∧ z.InsertHashes [2 ^ 63, 5] = .ok a ∧
      z.InsertHashes [7, 2 ^ 60] = .ok b ∧ z.InsertHashes ([2 ^ 63, 5] ++ [7, 2 ^ 60]) = .ok c ∧
      a.Merge (some b) = .ok (s, none) ∧ s.regs = c.regs ∧ s.sparse = false :=
  dense_merge_union 4 (by decide) [2 ^ 63, 5] [7, 2 ^ 60]

/-- C1: for every sketch built by `NewSketch` (so `4 ≤ p ≤ 18`) followed by
`InsertHash` and `Merge` calls, `UnmarshalBinary` applied to its
`MarshalBinary` on a fresh sketch succeeds and yields a sketch with the same
precision, mode, temporary set, compressed list and registers, hence with the
same `Estimate()`. -/
theorem Unmarshal_Marshal (sk : Sketch) (h : Built sk) (r : Sketch) (hr : Fresh r) :
    ∃ sk1, r.UnmarshalBinary sk.MarshalBinary = .ok (sk1, none) ∧ sk1.p = sk.p ∧
      sk1.sparse = sk.sparse ∧ sk1.tmpSet = sk.tmpSet ∧ sk1.sparseList = sk.sparseList ∧
      sk1.regs = sk.regs ∧ ∀ ops : FloatOps, sk1.Estimate ops = sk.Estimate ops := by
  obtain ⟨p, hp4, hp, hc⟩ := Built_inv sk h
  have h18 := pow_le_18 p hp
  rcases hc with ⟨L, T, rfl, hg, hT, hb⟩ | ⟨rs, rfl, hg⟩
  · exact ⟨_, Unmarshal_Marshal_sparse r hr p hp4 hp L T hg (by norm_num; omega)
      (by norm_num; omega), rfl, rfl, rfl, rfl, rfl, fun _ => rfl⟩
  · exact ⟨_, Unmarshal_Marshal_dense r hr p hp4 hp rs hg, rfl, rfl, rfl, rfl, rfl, fun _ => rfl⟩

/-- Witness of C1: the sparse sketch of precision 14 after one insertion,
decoded into the zero value. -/
theorem Unmarshal_Marshal_witness :
    ∃ sk1, Sketch.zero.UnmarshalBinary
        (⟨14, 16384, [2], some ⟨0, 0, []⟩, none⟩ : Sketch).MarshalBinary = .ok (sk1, none) ∧
      sk1.p = 14 ∧ sk1.sparse = true ∧ sk1.tmpSet = [2] ∧ sk1.sparseList = some ⟨0, 0, []⟩ ∧
      sk1.regs = none ∧
      ∀ ops : FloatOps, sk1.Estimate ops =
        (⟨14, 16384, [2], some ⟨0, 0, []⟩, none⟩ : Sketch).Estimate ops :=
  Unmarshal_Marshal ⟨14, 16384, [2], some ⟨0, 0, []⟩, none⟩
    (Built.insert ⟨14, 16384, [], some ⟨0, 0, []⟩, none⟩ _ (1 <<< 39)
      (Built.new 14 true _ (by decide)) (by decide))
    Sketch.zero (Or.inl rfl)

/-- C6: a sparse sketch of precision 14 into which hashes with exactly `n`
pairwise distinct sparse encodings were inserted, `n ≤ 100`, repetitions
allowed, estimates exactly `n`.  The count of entries is exact; `linearCount`
and the conversion to `uint64` are taken in exact real arithmetic,
`⌊m · ln(m / v)⌋`, on the arguments `m = 2^25` and `2^25 - 100 ≤ v ≤ 2^25`
that the estimate uses. -/
theorem sparse_estimate_exact (ops : FloatOps)
    (hlc : ∀ v : Nat, 2 ^ 25 - 100 ≤ v → v ≤ 2 ^ 25 → ops.toUint64 (ops.linearCount (2 ^ 25) v) =
      ⌊(2 ^ 25 : ℝ) * Real.log ((2 ^ 25 : ℝ) / (v : ℝ))⌋₊)
    (xs : List Nat) (n : Nat)
    (hn : ((xs.map fun x => encodeHash x 14 pp).dedup).length = n) (h100 : n ≤ 100) :
    ∃ z sk sk1, NewSketch 14 true = .ok z ∧ z.InsertHashes xs = .ok sk ∧
      sk.Estimate ops = .ok (sk1, n) := by
  have hz : NewSketch 14 true = .ok (sparseSk 14 [] []) := by decide
  have hg : GoodS [] [] := ⟨List.sorted_nil, by simp, List.nodup_nil, by simp⟩
  obtain ⟨h1, h2, -, -⟩ := set_Merge_spec (xs.map fun x => encodeHash x 14 pp) [] List.nodup_nil
  have hlen : (set.Merge [] (xs.map fun x => encodeHash x 14 pp)).length = n := by
    rw [← hn]
    exact nodup_length_eq _ _ h1 (List.nodup_dedup _) (fun x => by simp [h2 x])
  have hgT : GoodS [] (set.Merge [] (xs.map fun x => encodeHash x 14 pp)) := by
    refine ⟨List.sorted_nil, by simp, h1, fun k hk => ?_⟩
    rcases (h2 k).1 hk with h | h
    · simp at h
    · obtain ⟨x, -, rfl⟩ := List.mem_map.1 h
      exact encodeHash_lt x 14
  refine ⟨_, _, sparseSk 14 (sunion [] (set.Merge [] (xs.map fun x => encodeHash x 14 pp))) [],
    hz, InsertHashes_small xs [] hg (by omega), ?_⟩
  rw [Estimate_sparseSk ops 14 _ _ hgT, sunion_nil_left_length _ h1, hlen]
  have hmp : mp = 2 ^ 25 := by decide
  have hu : u32 n = n := u32_of_lt n (by norm_num; omega)
  have hs : sub32 (2 ^ 25) n = 2 ^ 25 - n := wrap_sub _ _ _ (by norm_num; omega) (by norm_num)
  rw [hmp, hu, hs, hlc _ (by norm_num; omega) (Nat.sub_le _ _), linearCount_floor n h100]

/-- Witness of C6: three insertions with two distinct encodings, estimated in
exact real arithmetic. -/
theorem sparse_estimate_exact_witness :
    ∃ z sk sk1, NewSketch 14 true = .ok z ∧
      z.InsertHashes [1 <<< 39, 3 <<< 39, 1 <<< 39] = .ok sk ∧
      sk.Estimate
        { F := ℝ, ofNat := fun n => (n : ℝ), half := 1 / 2, add := fun a b => a + b,
          sub := fun a b => a - b, mul := fun a b => a * b, div := fun a b => a / b,
          Pow := fun a b => a ^ b, toUint64 := fun a => ⌊a⌋₊, alpha := fun a => a,
          beta := fun _ a => a,
          linearCount := fun m v => (m : ℝ) * Real.log ((m : ℝ) / (v : ℝ)) } = .ok (sk1, 2) :=
  sparse_estimate_exact _ (fun v _ _ => by norm_num) [1 <<< 39, 3 <<< 39, 1 <<< 39] 2 (by decide)
    (by decide)

set_option maxRecDepth 100000 in
/-- C3, counterexample: two sparse sketches of precision 7 built by `NewSketch`
and `InsertHash`.  `A.Merge(B)` leaves `A` sparse with 43 entries, so its
estimate is the linear count of 43 entries; `B.Merge(A)` promotes `B` to a
dense sketch with two non-zero registers, whose estimate comes from the dense
estimator.  Equality of the two estimates does not follow from the code: it
fails for the operations that count exactly. -/
theorem Merge_order_modes_differ :
    NewSketch 7 true = .ok ⟨7, 128, [], some ⟨0, 0, []⟩, none⟩ ∧
    (⟨7, 128, [], some ⟨0, 0, []⟩, none⟩ : Sketch).InsertHashes cexHashes = .ok cexA ∧
    (⟨7, 128, [], some ⟨0, 0, []⟩, none⟩ : Sketch).InsertHashes
      [(262144 + 12 * 8192) <<< 39] = .ok cexB ∧
    cexA.Merge (some cexB) = .ok (cexA, none) ∧
    cexB.Merge (some cexA) = .ok (cexDense, none) ∧
    cexA.sparse = true ∧ cexDense.sparse = false ∧
    (∀ ops : FloatOps, (cexA.Estimate ops).map Prod.snd =
      .ok (ops.toUint64 (ops.linearCount mp (sub32 mp 43)))) ∧
    ∃ ops : FloatOps,
      (cexA.Estimate ops).map Prod.snd = .ok 43 ∧ (cexDense.Estimate ops).map Prod.snd = .ok 2 := by
  refine ⟨by decide, by decide, by decide, by decide, by decide, rfl, rfl, fun ops => rfl, ?_⟩
  exact ⟨
    { F := Nat, ofNat := fun n => n, half := 0, add := fun a b => a + b,
      sub := fun a b => a - b, mul := fun a b => a * b, div := fun a b => a / b,
      Pow := fun a b => a ^ b, toUint64 := fun a => a % 2 ^ 64, alpha := fun _ => 1,
      beta := fun _ _ => 0, linearCount := fun m v => m - v },
    by decide, by decide⟩

/-- C3, amended: for two sketches `A` and `B` of the same precision, each
built by `NewSketch` and `InsertHash` in either mode, `A.Merge(B)` and
`B.Merge(A)` both succeed; when `A` or `B` is dense both results are dense;
and whenever the two results are in the same mode they return the same
`Estimate()`. -/
theorem Merge_order_estimate (p : Nat) (sA sB : Bool) (zA zB A B : Sketch) (xs ys : List Nat)
    (hzA : NewSketch p sA = .ok zA) (hA : zA.InsertHashes xs = .ok A)
    (hzB : NewSketch p sB = .ok zB) (hB : zB.InsertHashes ys = .ok B) :
    ∃ sAB sBA, A.Merge (some B) = .ok (sAB, none) ∧ B.Merge (some A) = .ok (sBA, none) ∧
      ((A.sparse = false ∨ B.sparse = false) → sAB.sparse = false ∧ sBA.sparse = false) ∧
      (sAB.sparse = sBA.sparse → ∀ ops : FloatOps, ∃ s1 s2 v,
        sAB.Estimate ops = .ok (s1, v) ∧ sBA.Estimate ops = .ok (s2, v)) := by
  obtain ⟨iA, pA⟩ := NewSketch_InvW p sA zA hzA
  obtain ⟨iB, pB⟩ := NewSketch_InvW p sB zB hzB
  obtain ⟨jA, qA⟩ := InsertHashes_InvW xs zA A iA hA
  obtain ⟨jB, qB⟩ := InsertHashes_InvW ys zB B iB hB
  exact Merge_order A B jA jB (by rw [qA, qB, pA, pB])

set_option maxRecDepth 100000 in
/-- Witness of the amended C3: a sparse and a dense sketch of precision 7. -/
theorem Merge_order_estimate_witness :
    ∃ sAB sBA, cexB.Merge (some ⟨7, 128, [], none, some (55 :: List.replicate 127 0)⟩) =
        .ok (sAB, none) ∧
      (⟨7, 128, [], none, some (55 :: List.replicate 127 0)⟩ : Sketch).Merge (some cexB) =
        .ok (sBA, none) ∧
      ((cexB.sparse = false ∨
          (⟨7, 128, [], none, some (55 :: List.replicate 127 0)⟩ : Sketch).sparse = false) →
        sAB.sparse = false ∧ sBA.sparse = false) ∧
      (sAB.sparse = sBA.sparse → ∀ ops : FloatOps, ∃ s1 s2 v,
        sAB.Estimate ops = .ok (s1, v) ∧ sBA.Estimate ops = .ok (s2, v)) :=
  Merge_order_estimate 7 true false ⟨7, 128, [], some ⟨0, 0, []⟩, none⟩
    ⟨7, 128, [], none, some (List.replicate 128 0)⟩ cexB
    ⟨7, 128, [], none, some (55 :: List.replicate 127 0)⟩ [(262144 + 12 * 8192) <<< 39] [5]
    (by decide) (by decide) (by decide) (by decide)

/-- C7, amended: in every state reachable from `NewSketch` through `InsertHash`
and `Estimate` calls, inserting again a hash that was already inserted
succeeds, and it does not change the value returned by `Estimate()` unless
this call promotes the sketch from sparse to dense (the mode is unchanged). -/
theorem reinsert_estimate (sk : Sketch) (H : List Nat) (x : Nat) (h : Reachable sk H)
    (hx : x ∈ H) :
    ∃ sk1, sk.InsertHash x = .ok sk1 ∧
      (sk1.sparse = sk.sparse → ∀ ops : FloatOps, ∃ s1 s2 v,
        sk.Estimate ops = .ok (s1, v) ∧ sk1.Estimate ops = .ok (s2, v)) := by
  have hh := Reachable_Holds sk H h
  have hw := Holds_InvW sk H hh
  obtain ⟨p, hp4, hp, hc⟩ := hh
  rcases hc with ⟨L, T, rfl, hg, hH⟩ | ⟨rs, rfl, hg, hH⟩
  · rw [InsertHash_sparseSk]
    by_cases hk : encodeHash x p pp ∈ T
    · rw [if_pos hk]
      exact ⟨_, rfl, fun _ ops => Estimate_self ops _ hw⟩
    · rw [if_neg hk]
      have hg2 := GoodS_add L T _ hg hk (encodeHash_lt x p)
      obtain ⟨s, hs, hcase⟩ := maybeToNormal_cases p hp L _ hg2
      refine ⟨s, hs, fun hm ops => ?_⟩
      rcases hcase with rfl | ⟨L1, T1, rfl, hg1, he⟩
      · simp [sparseSk, denseSk, Sketch.sparse] at hm
      · have hkL : encodeHash x p pp ∈ L := by
          rcases (mem_sunion L T _).1 (hH x hx) with h1 | h1
          · exact h1
          · exact absurd h1 hk
        have hU : sunion L T = sunion L1 T1 := by
          rw [he]
          apply sunion_congr
          intro y
          rw [List.mem_append, List.mem_singleton]
          constructor
          · rintro (h1 | h1)
            · exact Or.inl h1
            · exact Or.inr (Or.inl h1)
          · rintro (h1 | h1 | h1)
            · exact Or.inl h1
            · exact Or.inr h1
            · exact Or.inl (h1 ▸ hkL)
        exact Estimate_sparse_congr ops p p L T L1 T1 hg hg1 hU
  · have hlt : (getPosVal x p).1 < rs.length := by
      rw [hg.1]
      exact getPosVal_fst_lt x p (by omega)
    rw [InsertHash_dense (denseSk p rs) rs x rfl rfl hg.1 hp]
    have e : rs.set (getPosVal x p).1 (max (getPosVal x p).2 (rs.getD (getPosVal x p).1 0)) =
        rs := by
      rw [max_eq_right (hH x hx)]
      exact set_getD_self rs _ hlt
    refine ⟨_, rfl, fun _ ops => ?_⟩
    show ∃ s1 s2 v, (denseSk p rs).Estimate ops = .ok (s1, v) ∧
      Sketch.Estimate ops ⟨p, 2 ^ p, [], none, some (rs.set (getPosVal x p).1
        (max (getPosVal x p).2 (rs.getD (getPosVal x p).1 0)))⟩ = .ok (s2, v)
    rw [e]
    exact Estimate_self ops _ hw

/-- Witness of the amended C7: the sparse sketch of precision 7 after one
insertion, and the same hash inserted again. -/
theorem reinsert_estimate_witness :
    ∃ sk1, cexB.InsertHash ((262144 + 12 * 8192) <<< 39) = .ok sk1 ∧
      (sk1.sparse = cexB.sparse → ∀ ops : FloatOps, ∃ s1 s2 v,
        cexB.Estimate ops = .ok (s1, v) ∧ sk1.Estimate ops = .ok (s2, v)) :=
  reinsert_estimate cexB [(262144 + 12 * 8192) <<< 39] ((262144 + 12 * 8192) <<< 39)
    (Reachable.insert ⟨7, 128, [], some ⟨0, 0, []⟩, none⟩ _ [] _
      (Reachable.new 7 true _ (by decide)) (by decide))
    (by decide)

set_option maxRecDepth 100000 in
/-- C7, counterexample: the sparse sketch of precision 7 after `InsertHash` of
the 43 hashes of `cexHashes` holds 42 entries in its compressed list and one
in its temporary set, and estimates by the linear count of 43 entries.
Inserting the first of these hashes again adds its encoding to the temporary
set, which passes the 1% threshold; the merged list has 129 bytes, more than
`m = 128`, and the sketch is promoted to a dense sketch with two non-zero
registers, whose estimate comes from the dense estimator. -/
theorem reinsert_promotes :
    NewSketch 7 true = .ok ⟨7, 128, [], some ⟨0, 0, []⟩, none⟩ ∧
    (⟨7, 128, [], some ⟨0, 0, []⟩, none⟩ : Sketch).InsertHashes cexHashes = .ok cexA ∧
    (8192 <<< 39) ∈ cexHashes ∧
    cexA.InsertHash (8192 <<< 39) = .ok cexDense ∧
    cexA.sparse = true ∧ cexDense.sparse = false ∧
    (∀ ops : FloatOps, (cexA.Estimate ops).map Prod.snd =
      .ok (ops.toUint64 (ops.linearCount mp (sub32 mp 43)))) ∧
    ∃ ops : FloatOps,
      (cexA.Estimate ops).map Prod.snd = .ok 43 ∧ (cexDense.Estimate ops).map Prod.snd = .ok 2 := by
  refine ⟨by decide, by decide, by decide, by decide, rfl, rfl, fun ops => rfl, ?_⟩
  exact ⟨
    { F := Nat, ofNat := fun n => n, half := 0, add := fun a b => a + b,
      sub := fun a b => a - b, mul := fun a b => a * b, div := fun a b => a / b,
      Pow := fun a b => a ^ b, toUint64 := fun a => a % 2 ^ 64, alpha := fun _ => 1,
      beta := fun _ _ => 0, linearCount := fun m v => m - v },
    by decide, by decide⟩

/-! ## Lemmas for the claims C11 to C16 -/

theorem promoted_sparseSk (p : Nat) (hp : p ≤ 18) (L T : List Nat) (h : GoodS L T) :
    (sparseSk p L T).promoted =
      .ok (denseSk p (regsOf p (sunion L T) (List.replicate (2 ^ p) 0))) := by
  rw [Sketch.promoted, if_pos (by rfl)]
  exact toNormal_sparseSk p hp L T h

theorem promoted_denseSk (p : Nat) (rs : List Nat) :
    (denseSk p rs).promoted = .ok (denseSk p rs) := rfl

theorem foldSteps_collect (L acc : List Nat) :
    foldSteps (fun (acc : List Nat) k => .ok (acc ++ [k])) L acc = .ok (acc ++ L) := by
  induction L generalizing acc with
  | nil => simp [foldSteps]
  | cons x xs ih => simp [foldSteps, ih]

theorem entries_sparseSk (p : Nat) (L T : List Nat) (h : GoodS L T) :
    (sparseSk p L T).entries = .ok (T ++ L) := by
  simp only [Sketch.entries, sparseSk]
  rw [iterate_encList _ L [] h.2.1, foldSteps_collect]
  simp

theorem iterate_keeps {σ : Type} (P : σ → Prop) (step : σ → Nat → Except Abort σ)
    (hstep : ∀ s k s1, P s → step s k = .ok s1 → P s1) (fuel : Nat) (rest : List Nat)
    (last : Nat) (s s1 : σ) (hs : P s) (h : iterate step fuel rest last s = .ok s1) : P s1 := by
  induction fuel generalizing rest last s with
  | zero =>
    cases rest with
    | nil => simp only [iterate, Except.ok.injEq] at h; exact h ▸ hs
    | cons b r => simp [iterate] at h
  | succ n ih =>
    cases rest with
    | nil => simp only [iterate, Except.ok.injEq] at h; exact h ▸ hs
    | cons b r =>
      simp only [iterate] at h
      split at h
      · simp at h
      · split at h
        · simp at h
        · rename_i s2 hstep2
          exact ih _ _ s2 (hstep _ _ _ hs hstep2) h

theorem insert_keeps (sk sk1 : Sketch) (i r : Nat) (h : sk.insert i r = .ok sk1) :
    sk1.sparseList = sk.sparseList := by
  simp only [Sketch.insert] at h
  split at h
  · simp at h
  · split at h
    · simp only [Except.ok.injEq] at h; subst h; rfl
    · simp at h

theorem insertKeys_keeps (p : Nat) (ks : List Nat) (sk sk1 : Sketch)
    (h : insertKeys p ks sk = .ok sk1) : sk1.sparseList = sk.sparseList := by
  induction ks generalizing sk with
  | nil => simp only [insertKeys, Except.ok.injEq] at h; subst h; rfl
  | cons k ks ih =>
    simp only [insertKeys] at h
    split at h
    · simp at h
    · rename_i s2 h2
      rw [ih s2 h, insert_keeps _ _ _ _ h2]

theorem mergeDenseSketch_dense (sk o sk1 : Sketch) (hn : sk.sparseList = none)
    (h : sk.mergeDenseSketch o = .ok sk1) : sk1.sparseList = none := by
  have hd : sk.sparse = false := by simp [Sketch.sparse, hn]
  simp only [Sketch.mergeDenseSketch, hd, Bool.false_eq_true, if_false] at h
  split at h
  · split at h
    · simp at h
    · rename_i s3 h3
      exact iterate_keeps (fun s : Sketch => s.sparseList = none) _
        (fun s k s1 hs hst => (insert_keeps _ _ _ _ hst).trans hs) _ _ _ _ _
        ((insertKeys_keeps _ _ _ _ h3).trans hn) h
  · split at h
    · simp only [Except.ok.injEq] at h; subst h; exact hn
    · simp only [Except.ok.injEq] at h; subst h; exact hn
    · split at h
      · simp at h
      · split at h
        · simp at h
        · simp only [Except.ok.injEq] at h; subst h; exact hn

theorem Merge_dense (sk sk1 : Sketch) (other : Option Sketch) (e : Option Error)
    (hn : sk.sparseList = none) (h : sk.Merge other = .ok (sk1, e)) :
    sk1.sparseList = none := by
  have hd : sk.sparse = false := by simp [Sketch.sparse, hn]
  cases other with
  | none =>
    simp only [Sketch.Merge, Except.ok.injEq, Prod.mk.injEq] at h
    rw [← h.1]; exact hn
  | some o =>
    simp only [Sketch.Merge, hd, Bool.false_and, Bool.false_eq_true, if_false] at h
    split at h
    · simp only [Except.ok.injEq, Prod.mk.injEq] at h
      rw [← h.1]; exact hn
    · split at h
      · simp at h
      · rename_i s2 h2
        simp only [Except.ok.injEq, Prod.mk.injEq] at h
        rw [← h.1]
        exact mergeDenseSketch_dense sk o s2 hn h2

theorem call_dense (ops : FloatOps) (hash : List Nat → Nat) (sk sk1 : Sketch) (c : Call)
    (hd : sk.sparse = false) (h : sk.call ops hash c = .ok sk1) : sk1.sparse = false := by
  have hn : sk.sparseList = none := by
    cases hsl : sk.sparseList with
    | none => rfl
    | some l => simp [Sketch.sparse, hsl] at hd
  suffices hs : sk1.sparseList = none by simp [Sketch.sparse, hs]
  have hI : ∀ x, sk.InsertHash x = .ok sk1 → sk1.sparseList = none := by
    intro x hx
    simp only [Sketch.InsertHash, hd, Bool.false_eq_true, if_false] at hx
    rw [insert_keeps _ _ _ _ hx, hn]
  cases c with
  | InsertHash x => exact hI x h
  | Insert e => exact hI _ h
  | Estimate =>
    simp only [Sketch.call, Sketch.Estimate, hd, Bool.false_eq_true, if_false,
      Except.ok.injEq] at h
    subst h; exact hn
  | Clone =>
    simp only [Sketch.call, Except.ok.injEq] at h
    subst h
    simp [Sketch.Clone, compressedList.Clone, hn]
  | Merge other =>
    simp only [Sketch.call] at h
    cases hm : sk.Merge other with
    | error e => simp [hm] at h
    | ok r =>
      obtain ⟨s2, e⟩ := r
      simp only [hm, Except.ok.injEq] at h
      subst h
      exact Merge_dense sk s2 other e hn hm

theorem calls_dense (ops : FloatOps) (hash : List Nat → Nat) (cs : List Call) (sk sk1 : Sketch)
    (hd : sk.sparse = false) (h : sk.calls ops hash cs = .ok sk1) : sk1.sparse = false := by
  induction cs generalizing sk with
  | nil => simp only [Sketch.calls, Except.ok.injEq] at h; subst h; exact hd
  | cons c cs ih =>
    simp only [Sketch.calls] at h
    split at h
    · simp at h
    · rename_i s2 h2
      exact ih s2 (call_dense ops hash sk s2 c hd h2) h

theorem InvW_p (sk : Sketch) (p : Nat) (h : (∃ L T, sk = sparseSk p L T ∧ GoodS L T) ∨
    (∃ rs, sk = denseSk p rs ∧ GoodD p rs)) : sk.p = p := by
  rcases h with ⟨L, T, rfl, _⟩ | ⟨rs, rfl, _⟩ <;> rfl

theorem Clone_denseSk (p : Nat) (rs : List Nat) (h : GoodD p rs) :
    (denseSk p rs).Clone = denseSk p rs := by
  cases rs with
  | nil =>
    have := h.1
    simp at this
    exact absurd this.symm (by positivity)
  | cons r rs => rfl

theorem Merge_InvW_dense (sk o : Sketch) (h : InvW sk) (hd : sk.sparse = false) (ho : InvW o) :
    ∃ sk1 e, sk.Merge (some o) = .ok (sk1, e) ∧ InvW sk1 := by
  by_cases hp : sk.p = o.p
  · obtain ⟨p, hp4, hp18, ha⟩ := h
    obtain ⟨q, hq4, hq18, hb⟩ := ho
    have h1 := InvW_p sk p ha
    have h2 := InvW_p o q hb
    have hpq : p = q := by rw [← h1, ← h2]; exact hp
    subst hpq
    rcases ha with ⟨L, T, rfl, hg⟩ | ⟨A, rfl, hA⟩
    · simp [sparseSk, Sketch.sparse] at hd
    rcases hb with ⟨L1, T1, rfl, hg1⟩ | ⟨B, rfl, hB⟩
    · exact ⟨_, _, Merge_dense_sparse p hp18 A L1 T1 hA.1 hg1,
        ⟨p, hp4, hp18, Or.inr ⟨_, rfl, regsOf_good p _ _ (regsOf_good p _ _ hA)⟩⟩⟩
    · exact ⟨_, _, Merge_dense_dense p A B hA.1 hB.1,
        ⟨p, hp4, hp18, Or.inr ⟨_, rfl, zipWith_max_good p A B hA hB⟩⟩⟩
  · exact ⟨sk, some .precisionsMustBeEqual, by simp [Sketch.Merge, hp], h⟩

theorem call_dense_total (ops : FloatOps) (hash : List Nat → Nat) (sk : Sketch) (c : Call)
    (h : InvW sk) (hd : sk.sparse = false) (hc : ∀ o, c = .Merge (some o) → InvW o) :
    ∃ sk1, sk.call ops hash c = .ok sk1 ∧ InvW sk1 := by
  cases c with
  | InsertHash x => exact InsertHash_total sk x h
  | Insert e => exact InsertHash_total sk (hash e) h
  | Estimate =>
    refine ⟨sk, ?_, h⟩
    simp [Sketch.call, Sketch.Estimate, hd]
  | Clone =>
    obtain ⟨p, hp4, hp18, ha⟩ := h
    rcases ha with ⟨L, T, rfl, hg⟩ | ⟨A, rfl, hA⟩
    · simp [sparseSk, Sketch.sparse] at hd
    · exact ⟨denseSk p A, by simp [Sketch.call, Clone_denseSk p A hA],
        ⟨p, hp4, hp18, Or.inr ⟨A, rfl, hA⟩⟩⟩
  | Merge other =>
    cases other with
    | none => exact ⟨sk, by simp [Sketch.call, Sketch.Merge], h⟩
    | some o =>
      obtain ⟨sk1, e, hm, hi⟩ := Merge_InvW_dense sk o h hd (hc o rfl)
      exact ⟨sk1, by simp [Sketch.call, hm], hi⟩

/-! ### Shared storage -/

theorem getD_set_ne {α : Type} (l : List α) (a b : Nat) (v d : α) (h : a ≠ b) :
    (l.set a v).getD b d = l.getD b d := by
  simp [List.getD_eq_getElem?_getD, List.getElem?_set_ne h]

theorem getD_append_lt {α : Type} (l x : List α) (a : Nat) (d : α) (h : a < l.length) :
    (l ++ x).getD a d = l.getD a d := by
  simp [List.getD_eq_getElem?_getD, List.getElem?_append_left h]

theorem Others_refl (h : Heap) (sk : Nat) : h.Others h sk :=
  ⟨rfl, fun _ _ _ hr => ⟨hr, rfl⟩⟩

theorem Others_trans (h h1 h2 : Heap) (sk : Nat) (a : h.Others h1 sk) (b : h1.Others h2 sk) :
    h.Others h2 sk := by
  refine ⟨b.1.trans a.1, fun j r hj hr => ?_⟩
  obtain ⟨x1, x2⟩ := a.2 j r hj hr
  obtain ⟨y1, y2⟩ := b.2 j r hj x1
  exact ⟨y1, y2.trans x2⟩

/-- Writing the backing array of the registers of `sk` in place. -/
theorem write_arr (h : Heap) (sk : Nat) (r : RSketch) (a : Nat) (v : List Nat) (hw : h.WF)
    (hr : h.sketches[sk]? = some r) (ha : r.regs = some a) :
    Heap.WF { h with arrs := h.arrs.set a v } ∧ h.Others { h with arrs := h.arrs.set a v } sk := by
  refine ⟨⟨fun j rj hj => ?_, hw.2⟩, rfl, fun j rj hne hj => ⟨hj, ?_⟩⟩
  · have := hw.1 j rj hj
    exact ⟨by simpa using this.1, this.2.1, this.2.2⟩
  · have hd := (hw.2 sk j r rj (Ne.symm hne) hr hj).1 a ha
    simp only [Heap.load, Heap.tmpSet, Heap.sparseList, Heap.regs]
    congr 1
    cases hb : rj.regs with
    | none => rfl
    | some b =>
      have : a ≠ b := fun e => hd (by rw [hb, e])
      simp only [Option.map_some']
      rw [getD_set_ne _ _ _ _ _ this]

/-- Writing the map of the temporary set of `sk` in place. -/
theorem write_set (h : Heap) (sk : Nat) (r : RSketch) (t : Nat) (v : set) (hw : h.WF)
    (hr : h.sketches[sk]? = some r) (ht : r.tmpSet = some t) :
    Heap.WF { h with sets := h.sets.set t v } ∧ h.Others { h with sets := h.sets.set t v } sk := by
  refine ⟨⟨fun j rj hj => ?_, hw.2⟩, rfl, fun j rj hne hj => ⟨hj, ?_⟩⟩
  · have := hw.1 j rj hj
    exact ⟨this.1, by simpa using this.2.1, this.2.2⟩
  · have hd := (hw.2 sk j r rj (Ne.symm hne) hr hj).2 t ht
    simp only [Heap.load, Heap.tmpSet, Heap.sparseList, Heap.regs]
    congr 1
    cases hb : rj.tmpSet with
    | none => rfl
    | some b =>
      have : t ≠ b := fun e => hd (by rw [hb, e])
      exact getD_set_ne _ _ _ _ _ this

/-- Allocating objects and assigning fields of the struct of `sk`. -/
theorem realloc (h h1 : Heap) (sk : Nat) (r r1 : RSketch) (hw : h.WF)
    (hr : h.sketches[sk]? = some r) (hs : h1.sketches = h.sketches.set sk r1)
    (hA : ∃ A, h1.arrs = h.arrs ++ A) (hS : ∃ S, h1.sets = h.sets ++ S)
    (hL : ∃ L, h1.lists = h.lists ++ L)
    (f1 : FieldOk r.regs r1.regs h.arrs.length h1.arrs.length)
    (f2 : FieldOk r.tmpSet r1.tmpSet h.sets.length h1.sets.length)
    (f3 : FieldOk r.sparseList r1.sparseList h.lists.length h1.lists.length) :
    h1.WF ∧ h.Others h1 sk := by
  obtain ⟨A, hA⟩ := hA
  obtain ⟨S, hS⟩ := hS
  obtain ⟨L, hL⟩ := hL
  have hsk : sk < h.sketches.length := by
    rcases Nat.lt_or_ge sk h.sketches.length with c | c
    · exact c
    · rw [List.getElem?_eq_none c] at hr; simp at hr
  have lA : h.arrs.length ≤ h1.arrs.length := by rw [hA]; simp
  have lS : h.sets.length ≤ h1.sets.length := by rw [hS]; simp
  have lL : h.lists.length ≤ h1.lists.length := by rw [hL]; simp
  have get1 : ∀ j, h1.sketches[j]? = if j = sk then some r1 else h.sketches[j]? := by
    intro j
    rw [hs]
    by_cases c : j = sk
    · subst c; simp [hsk]
    · rw [if_neg c, List.getElem?_set_ne (Ne.symm c)]
  have ok : ∀ (old new : Option Nat) (n n1 : Nat), FieldOk old new n n1 → n ≤ n1 →
      (∀ a, old = some a → a < n) → ∀ a, new = some a → a < n1 := by
    intro old new n n1 f hn ho a ha
    rcases f with f | f | ⟨b, f, _, f3⟩
    · exact lt_of_lt_of_le (ho a (f ▸ ha)) hn
    · rw [f] at ha; simp at ha
    · rw [f] at ha; simp only [Option.some.injEq] at ha; omega
  have dj : ∀ (old new other : Option Nat) (n n1 : Nat), FieldOk old new n n1 →
      (∀ a, other = some a → a < n) → (∀ a, old = some a → other ≠ some a) →
      ∀ a, new = some a → other ≠ some a := by
    intro old new other n n1 f ho hd a ha
    rcases f with f | f | ⟨b, f, f2, _⟩
    · exact hd a (f ▸ ha)
    · rw [f] at ha; simp at ha
    · rw [f] at ha; simp only [Option.some.injEq] at ha
      intro e
      have := ho a e
      omega
  refine ⟨⟨fun j rj hj => ?_, fun i j ri rj hij hi hj => ?_⟩, ?_, fun j rj hne hj => ?_⟩
  · rw [get1] at hj
    split at hj
    · simp only [Option.some.injEq] at hj
      subst hj
      have := hw.1 sk r hr
      exact ⟨ok _ _ _ _ f1 lA this.1, ok _ _ _ _ f2 lS this.2.1, ok _ _ _ _ f3 lL this.2.2⟩
    · have := hw.1 j rj hj
      exact ⟨fun a ha => lt_of_lt_of_le (this.1 a ha) lA,
        fun a ha => lt_of_lt_of_le (this.2.1 a ha) lS,
        fun a ha => lt_of_lt_of_le (this.2.2 a ha) lL⟩
  · rw [get1] at hi hj
    by_cases ci : i = sk
    · have cj : j ≠ sk := fun e => hij (ci.trans e.symm)
      rw [if_pos ci] at hi
      rw [if_neg cj] at hj
      simp only [Option.some.injEq] at hi
      subst hi
      have w := hw.2 sk j r rj (Ne.symm cj) hr hj
      have wj := hw.1 j rj hj
      exact ⟨dj _ _ _ _ _ f1 wj.1 w.1, dj _ _ _ _ _ f2 wj.2.1 w.2⟩
    · rw [if_neg ci] at hi
      by_cases cj : j = sk
      · rw [if_pos cj] at hj
        simp only [Option.some.injEq] at hj
        subst hj
        have w := hw.2 sk i r ri (Ne.symm ci) hr hi
        have wi := hw.1 i ri hi
        exact ⟨fun a ha e => dj _ _ _ _ _ f1 wi.1 w.1 a e ha,
          fun a ha e => dj _ _ _ _ _ f2 wi.2.1 w.2 a e ha⟩
      · rw [if_neg cj] at hj
        exact hw.2 i j ri rj hij hi hj
  · rw [hs]; simp
  · refine ⟨by rw [get1, if_neg hne]; exact hj, ?_⟩
    have w := hw.1 j rj hj
    simp only [Heap.load, Heap.tmpSet, Heap.sparseList, Heap.regs]
    congr 1
    · cases hb : rj.tmpSet with
      | none => rfl
      | some b => simp only [hS]; exact getD_append_lt _ _ _ _ (w.2.1 b hb)
    · cases hb : rj.sparseList with
      | none => rfl
      | some b => simp only [hL]; exact List.getElem?_append_left (w.2.2 b hb)
    · cases hb : rj.regs with
      | none => rfl
      | some b =>
        simp only [hA, Option.map_some']
        rw [getD_append_lt _ _ _ _ (w.1 b hb)]

theorem frame_insert (h h1 : Heap) (sk i v : Nat) (hw : h.WF) (hx : h.insert sk i v = .ok h1) :
    (h1.WF ∧ h.Others h1 sk) ∧ h1.sketches = h.sketches := by
  simp only [Heap.insert] at hx
  split at hx
  · simp at hx
  · rename_i r hr
    split at hx
    · simp at hx
    · rename_i a ha
      split at hx
      · simp only [Except.ok.injEq] at hx
        subst hx
        exact ⟨write_arr h sk r a _ hw hr ha, rfl⟩
      · simp at hx

theorem frame_mergeSparse (h h1 : Heap) (sk : Nat) (hw : h.WF) (hx : h.mergeSparse sk = .ok h1) :
    h1.WF ∧ h.Others h1 sk := by
  simp only [Heap.mergeSparse] at hx
  split at hx
  · simp at hx
  · rename_i r hr
    split at hx
    · simp only [Except.ok.injEq] at hx
      subst hx
      exact ⟨hw, Others_refl _ _⟩
    · split at hx
      · simp at hx
      · split at hx
        · simp at hx
        · simp only [Except.ok.injEq] at hx
          subst hx
          exact realloc h _ sk r _ hw hr rfl ⟨[], (List.append_nil _).symm⟩ ⟨_, rfl⟩ ⟨_, rfl⟩
            (Or.inl rfl) (Or.inr (Or.inr ⟨_, rfl, le_rfl, by simp⟩))
            (Or.inr (Or.inr ⟨_, rfl, le_rfl, by simp⟩))

theorem frame_iterate_insert (h h1 : Heap) (sk p fuel : Nat) (rest : List Nat) (last : Nat)
    (hw : h.WF)
    (hx : iterate (fun (hh : Heap) k =>
      hh.insert sk (decodeHash k p pp).1 (decodeHash k p pp).2) fuel rest last h = .ok h1) :
    h1.WF ∧ h.Others h1 sk :=
  iterate_keeps (fun hh : Heap => hh.WF ∧ h.Others hh sk) _
    (fun s _ s1 hs hst =>
      have := (frame_insert s s1 sk _ _ hs.1 hst).1
      ⟨this.1, Others_trans _ _ _ _ hs.2 this.2⟩) fuel rest last h h1
    ⟨hw, Others_refl _ _⟩ hx

theorem frame_toNormal (h h1 : Heap) (sk : Nat) (hw : h.WF) (hx : h.toNormal sk = .ok h1) :
    h1.WF ∧ h.Others h1 sk := by
  simp only [Heap.toNormal] at hx
  split at hx
  · simp at hx
  · rename_i r hr
    split at hx
    · simp at hx
    · rename_i ha hm
      have fa : ha.WF ∧ h.Others ha sk := by
        split at hm
        · exact frame_mergeSparse h ha sk hw hm
        · simp only [Except.ok.injEq] at hm
          subst hm
          exact ⟨hw, Others_refl _ _⟩
      split at hx
      · simp at hx
      · rename_i r1 hr1
        have fb := realloc ha
          { ha with
            arrs := ha.arrs ++ [List.replicate r1.m 0]
            sketches := ha.sketches.set sk { r1 with regs := some ha.arrs.length } }
          sk r1 _ fa.1 hr1 rfl ⟨_, rfl⟩ ⟨[], (List.append_nil _).symm⟩
          ⟨[], (List.append_nil _).symm⟩ (Or.inr (Or.inr ⟨_, rfl, le_rfl, by simp⟩))
          (Or.inl rfl) (Or.inl rfl)
        split at hx
        · simp at hx
        · split at hx
          · simp at hx
          · rename_i h3 hit
            have fc := frame_iterate_insert _ h3 sk _ _ _ _ fb.1 hit
            split at hx
            · simp at hx
            · rename_i r3 hr3
              simp only [Except.ok.injEq] at hx
              subst hx
              have fd := realloc h3
                { h3 with
                  sketches := h3.sketches.set sk { r3 with tmpSet := none, sparseList := none } }
                sk r3 { r3 with tmpSet := none, sparseList := none } fc.1 hr3 rfl ⟨[], (List.append_nil _).symm⟩ ⟨[], (List.append_nil _).symm⟩
                ⟨[], (List.append_nil _).symm⟩ (Or.inl rfl) (Or.inr (Or.inl rfl))
                (Or.inr (Or.inl rfl))
              exact ⟨fd.1, Others_trans _ _ _ _ fa.2
                (Others_trans _ _ _ _ fb.2 (Others_trans _ _ _ _ fc.2 fd.2))⟩

theorem frame_maybeToNormal (h h1 : Heap) (sk : Nat) (hw : h.WF)
    (hx : h.maybeToNormal sk = .ok h1) : h1.WF ∧ h.Others h1 sk := by
  simp only [Heap.maybeToNormal] at hx
  split at hx
  · simp at hx
  · split at hx
    · split at hx
      · simp at hx
      · rename_i ha hm
        have fa := frame_mergeSparse h ha sk hw hm
        split at hx
        · simp at hx
        · split at hx
          · simp at hx
          · split at hx
            · have fb := frame_toNormal ha h1 sk fa.1 hx
              exact ⟨fb.1, Others_trans _ _ _ _ fa.2 fb.2⟩
            · simp only [Except.ok.injEq] at hx
              subst hx
              exact fa
    · simp only [Except.ok.injEq] at hx
      subst hx
      exact ⟨hw, Others_refl _ _⟩

theorem frame_add (h h1 : Heap) (sk : Nat) (r : RSketch) (k : Nat) (b : Bool) (hw : h.WF)
    (hr : h.sketches[sk]? = some r) (hx : h.add r.tmpSet k = .ok (h1, b)) :
    (h1.WF ∧ h.Others h1 sk) ∧ h1.sketches = h.sketches := by
  simp only [Heap.add] at hx
  split at hx
  · simp at hx
  · rename_i t ht
    simp only [Except.ok.injEq, Prod.mk.injEq] at hx
    rw [← hx.1]
    exact ⟨write_set h sk r t _ hw hr ht, rfl⟩

theorem frame_setMerge (h h1 : Heap) (sk : Nat) (r : RSketch) (other : set) (hw : h.WF)
    (hr : h.sketches[sk]? = some r) (hx : h.setMerge r.tmpSet other = .ok h1) :
    (h1.WF ∧ h.Others h1 sk) ∧ h1.sketches = h.sketches := by
  simp only [Heap.setMerge] at hx
  split at hx
  · split at hx
    · simp only [Except.ok.injEq] at hx
      subst hx
      exact ⟨⟨hw, Others_refl _ _⟩, rfl⟩
    · simp at hx
  · rename_i t ht
    simp only [Except.ok.injEq] at hx
    rw [← hx]
    exact ⟨write_set h sk r t _ hw hr ht, rfl⟩

theorem frame_InsertHash (h h1 : Heap) (sk x : Nat) (hw : h.WF)
    (hx : h.InsertHash sk x = .ok h1) : h1.WF ∧ h.Others h1 sk := by
  simp only [Heap.InsertHash] at hx
  split at hx
  · simp at hx
  · rename_i r hr
    split at hx
    · split at hx
      · simp at hx
      · rename_i h2 isNew ha
        have fa := (frame_add h h2 sk r _ isNew hw hr ha).1
        split at hx
        · have fb := frame_maybeToNormal _ h1 sk fa.1 hx
          exact ⟨fb.1, Others_trans _ _ _ _ fa.2 fb.2⟩
        · simp only [Except.ok.injEq] at hx
          subst hx
          exact fa
    · exact (frame_insert h h1 sk _ _ hw hx).1

theorem frame_insertKeys (sk p : Nat) (ks : List Nat) (h h1 : Heap) (hw : h.WF)
    (hx : Heap.insertKeys sk p ks h = .ok h1) : h1.WF ∧ h.Others h1 sk := by
  induction ks generalizing h with
  | nil =>
    simp only [Heap.insertKeys, Except.ok.injEq] at hx
    subst hx
    exact ⟨hw, Others_refl _ _⟩
  | cons k ks ih =>
    simp only [Heap.insertKeys] at hx
    split at hx
    · simp at hx
    · rename_i h2 h2x
      have fa := (frame_insert h h2 sk _ _ hw h2x).1
      have fb := ih h2 fa.1 hx
      exact ⟨fb.1, Others_trans _ _ _ _ fa.2 fb.2⟩

theorem frame_mergeSparseSketch (h h1 : Heap) (sk other : Nat) (hw : h.WF)
    (hx : h.mergeSparseSketch sk other = .ok h1) : h1.WF ∧ h.Others h1 sk := by
  simp only [Heap.mergeSparseSketch] at hx
  split at hx
  · rename_i r o hr ho
    split at hx
    · simp at hx
    · rename_i ha hm
      have fa := frame_setMerge h ha sk r _ hw hr hm
      split at hx
      · simp at hx
      · split at hx
        · simp at hx
        · rename_i h2 hit
          have fb := iterate_keeps
            (fun hh : Heap => (hh.WF ∧ h.Others hh sk) ∧ hh.sketches[sk]? = some r) _
            (fun s k s1 hs hst => by
              split at hst
              · simp at hst
              · rename_i s2 b hadd
                simp only [Except.ok.injEq] at hst
                subst hst
                have := frame_add s s2 sk r k b hs.1.1 hs.2 hadd
                exact ⟨⟨this.1.1, Others_trans _ _ _ _ hs.1.2 this.1.2⟩,
                  by rw [this.2]; exact hs.2⟩)
            _ _ _ _ h2 ⟨fa.1, by rw [fa.2]; exact hr⟩ hit
          have fc := frame_maybeToNormal h2 h1 sk fb.1.1 hx
          exact ⟨fc.1, Others_trans _ _ _ _ fb.1.2 fc.2⟩
  · simp at hx

theorem frame_mergeDenseSketch (h h1 : Heap) (sk other : Nat) (hw : h.WF)
    (hx : h.mergeDenseSketch sk other = .ok h1) : h1.WF ∧ h.Others h1 sk := by
  simp only [Heap.mergeDenseSketch] at hx
  split at hx
  · simp at hx
  · rename_i r hr
    split at hx
    · simp at hx
    · rename_i ha hm
      have fa : ha.WF ∧ h.Others ha sk := by
        split at hm
        · exact frame_toNormal h ha sk hw hm
        · simp only [Except.ok.injEq] at hm
          subst hm
          exact ⟨hw, Others_refl _ _⟩
      split at hx
      · rename_i r1 o hr1 ho
        split at hx
        · split at hx
          · simp at hx
          · split at hx
            · simp at hx
            · rename_i h2 hk
              have fb := frame_insertKeys sk _ _ ha h2 fa.1 hk
              have fc := frame_iterate_insert h2 h1 sk _ _ _ _ fb.1 hx
              exact ⟨fc.1, Others_trans _ _ _ _ fa.2 (Others_trans _ _ _ _ fb.2 fc.2)⟩
        · split at hx
          · simp only [Except.ok.injEq] at hx; subst hx; exact fa
          · simp only [Except.ok.injEq] at hx; subst hx; exact fa
          · split at hx
            · simp at hx
            · rename_i a hra
              split at hx
              · simp at hx
              · rename_i rs _
                simp only [Except.ok.injEq] at hx
                have fb := write_arr ha sk r1 a rs fa.1 hr1 hra
                rw [hx] at fb
                exact ⟨fb.1, Others_trans _ _ _ _ fa.2 fb.2⟩
      · simp at hx

theorem frame_Merge (h h1 : Heap) (sk : Nat) (other : Option Nat) (e : Option Error)
    (hw : h.WF) (hx : h.Merge sk other = .ok (h1, e)) : h1.WF ∧ h.Others h1 sk := by
  cases other with
  | none =>
    simp only [Heap.Merge, Except.ok.injEq, Prod.mk.injEq] at hx
    rw [← hx.1]
    exact ⟨hw, Others_refl _ _⟩
  | some o =>
    simp only [Heap.Merge] at hx
    split at hx
    · split at hx
      · simp only [Except.ok.injEq, Prod.mk.injEq] at hx
        rw [← hx.1]
        exact ⟨hw, Others_refl _ _⟩
      · split at hx
        · simp at hx
        · rename_i h2 hm
          simp only [Except.ok.injEq, Prod.mk.injEq] at hx
          rw [← hx.1]
          split at hm
          · exact frame_mergeSparseSketch h h2 sk o hw hm
          · exact frame_mergeDenseSketch h h2 sk o hw hm
    · simp at hx

theorem frame_mutations (cs : List Mutation) (h h1 : Heap) (sk : Nat) (hw : h.WF)
    (hx : h.mutations sk cs = .ok h1) : h1.WF ∧ h.Others h1 sk := by
  induction cs generalizing h with
  | nil =>
    simp only [Heap.mutations, Except.ok.injEq] at hx
    subst hx
    exact ⟨hw, Others_refl _ _⟩
  | cons c cs ih =>
    simp only [Heap.mutations] at hx
    split at hx
    · simp at hx
    · rename_i h2 hc
      have fa : h2.WF ∧ h.Others h2 sk := by
        cases c with
        | InsertHash x => exact frame_InsertHash h h2 sk x hw hc
        | Merge other =>
          simp only [Heap.mutate] at hc
          cases hm : h.Merge sk other with
          | error e => simp [hm] at hc
          | ok res =>
            obtain ⟨h3, e⟩ := res
            simp only [hm, Except.ok.injEq] at hc
            subst hc
            exact frame_Merge h h3 sk other e hw hm
      have fb := ih h2 fa.1 hx
      exact ⟨fb.1, Others_trans _ _ _ _ fa.2 fb.2⟩

theorem WF_empty : Heap.empty.WF := by
  constructor
  · intro j r hj; simp [Heap.empty] at hj
  · intro i j ri rj _ hi; simp [Heap.empty] at hi

theorem lt_of_getElem? {α : Type} (l : List α) (i : Nat) (x : α) (h : l[i]? = some x) :
    i < l.length := by
  rcases Nat.lt_or_ge i l.length with c | c
  · exact c
  · rw [List.getElem?_eq_none c] at h; simp at h

/-- Appending a sketch whose addresses are nil or newly allocated. -/
theorem alloc_sketch (h h1 : Heap) (r1 : RSketch) (hw : h.WF)
    (hs : h1.sketches = h.sketches ++ [r1])
    (hA : ∃ A, h1.arrs = h.arrs ++ A) (hS : ∃ S, h1.sets = h.sets ++ S)
    (hL : ∃ L, h1.lists = h.lists ++ L)
    (f1 : ∀ a, r1.regs = some a → h.arrs.length ≤ a ∧ a < h1.arrs.length)
    (f2 : ∀ a, r1.tmpSet = some a → h.sets.length ≤ a ∧ a < h1.sets.length)
    (f3 : ∀ a, r1.sparseList = some a → h.lists.length ≤ a ∧ a < h1.lists.length) :
    h1.WF ∧ h1.sketches[h.sketches.length]? = some r1 ∧
      ∀ (j : Nat) (r : RSketch), h.sketches[j]? = some r →
        h1.sketches[j]? = some r ∧ h1.load r = h.load r := by
  obtain ⟨A, hA⟩ := hA
  obtain ⟨S, hS⟩ := hS
  obtain ⟨L, hL⟩ := hL
  have lA : h.arrs.length ≤ h1.arrs.length := by rw [hA]; simp
  have lS : h.sets.length ≤ h1.sets.length := by rw [hS]; simp
  have lL : h.lists.length ≤ h1.lists.length := by rw [hL]; simp
  have old : ∀ (j : Nat) (r : RSketch), h.sketches[j]? = some r → h1.sketches[j]? = some r := by
    intro j r hj
    rw [hs, List.getElem?_append_left (lt_of_getElem? _ _ _ hj)]
    exact hj
  have new : h1.sketches[h.sketches.length]? = some r1 := by
    rw [hs]; simp
  have cases1 : ∀ (j : Nat) (r : RSketch), h1.sketches[j]? = some r →
      h.sketches[j]? = some r ∨ (j = h.sketches.length ∧ r = r1) := by
    intro j r hj
    rw [hs] at hj
    rcases Nat.lt_or_ge j h.sketches.length with c | c
    · rw [List.getElem?_append_left c] at hj
      exact Or.inl hj
    · have hl := lt_of_getElem? _ _ _ hj
      simp only [List.length_append, List.length_singleton] at hl
      have hj' : j = h.sketches.length := by omega
      subst hj'
      simp only [List.getElem?_concat_length, Option.some.injEq] at hj
      exact Or.inr ⟨rfl, hj.symm⟩
  refine ⟨⟨fun j r hj => ?_, fun i j ri rj hij hi hj => ?_⟩, new, fun j r hj => ⟨old j r hj, ?_⟩⟩
  · rcases cases1 j r hj with c | ⟨_, rfl⟩
    · have := hw.1 j r c
      exact ⟨fun a ha => lt_of_lt_of_le (this.1 a ha) lA,
        fun a ha => lt_of_lt_of_le (this.2.1 a ha) lS,
        fun a ha => lt_of_lt_of_le (this.2.2 a ha) lL⟩
    · exact ⟨fun a ha => (f1 a ha).2, fun a ha => (f2 a ha).2, fun a ha => (f3 a ha).2⟩
  · rcases cases1 i ri hi with ci | ⟨ci, rfl⟩
    · rcases cases1 j rj hj with cj | ⟨cj, rfl⟩
      · exact hw.2 i j ri rj hij ci cj
      · have wi := hw.1 i ri ci
        refine ⟨fun a ha e => ?_, fun a ha e => ?_⟩
        · have := (f1 a e).1
          have := wi.1 a ha
          omega
        · have := (f2 a e).1
          have := wi.2.1 a ha
          omega
    · rcases cases1 j rj hj with cj | ⟨cj, rfl⟩
      · have wj := hw.1 j rj cj
        refine ⟨fun a ha e => ?_, fun a ha e => ?_⟩
        · have := (f1 a ha).1
          have := wj.1 a e
          omega
        · have := (f2 a ha).1
          have := wj.2.1 a e
          omega
      · exact absurd (ci.trans cj.symm) hij
  · have w := hw.1 j r hj
    simp only [Heap.load, Heap.tmpSet, Heap.sparseList, Heap.regs]
    congr 1
    · cases hb : r.tmpSet with
      | none => rfl
      | some b => simp only [hS]; exact getD_append_lt _ _ _ _ (w.2.1 b hb)
    · cases hb : r.sparseList with
      | none => rfl
      | some b => simp only [hL]; exact List.getElem?_append_left (w.2.2 b hb)
    · cases hb : r.regs with
      | none => rfl
      | some b =>
        simp only [hA, Option.map_some']
        rw [getD_append_lt _ _ _ _ (w.1 b hb)]

theorem NewSketch_WF (h h1 : Heap) (p : Nat) (sparse : Bool) (sk : Nat) (hw : h.WF)
    (hx : h.NewSketch p sparse = .ok (h1, sk)) : h1.WF := by
  simp only [Heap.NewSketch] at hx
  split at hx
  · simp at hx
  · split at hx
    · simp only [Except.ok.injEq, Prod.mk.injEq] at hx
      exact (alloc_sketch h h1 ⟨p, u32 (1 <<< p), some h.sets.length, some h.lists.length, none⟩
        hw (by rw [← hx.1]) ⟨[], by rw [← hx.1]; exact (List.append_nil _).symm⟩
        ⟨_, by rw [← hx.1]⟩ ⟨_, by rw [← hx.1]⟩
        (fun a ha => by simp at ha)
        (fun a ha => by
          simp only [Option.some.injEq] at ha; subst ha; rw [← hx.1]; simp)
        (fun a ha => by
          simp only [Option.some.injEq] at ha; subst ha; rw [← hx.1]; simp)).1
    · simp only [Except.ok.injEq, Prod.mk.injEq] at hx
      exact (alloc_sketch h h1 ⟨p, u32 (1 <<< p), none, none, some h.arrs.length⟩
        hw (by rw [← hx.1]) ⟨_, by rw [← hx.1]⟩
        ⟨[], by rw [← hx.1]; exact (List.append_nil _).symm⟩
        ⟨[], by rw [← hx.1]; exact (List.append_nil _).symm⟩
        (fun a ha => by
          simp only [Option.some.injEq] at ha; subst ha; rw [← hx.1]; simp)
        (fun a ha => by simp at ha) (fun a ha => by simp at ha)).1

theorem cloneRegs_spec (h : Heap) (r : RSketch) :
    (∃ A, (h.cloneRegs r).1 = h.arrs ++ A) ∧
      (∀ a, (h.cloneRegs r).2 = some a → h.arrs.length ≤ a ∧ a < (h.cloneRegs r).1.length) ∧
      ∀ (h1 : Heap) (r1 : RSketch), h1.arrs = (h.cloneRegs r).1 → r1.regs = (h.cloneRegs r).2 →
        h1.regs r1 = (h.load r).Clone.regs := by
  simp only [Heap.cloneRegs, Heap.load, Sketch.Clone]
  cases h.regs r with
  | none =>
    exact ⟨⟨[], (List.append_nil _).symm⟩, fun a ha => by simp at ha,
      fun h1 r1 _ e2 => by simp [Heap.regs, e2]⟩
  | some rs =>
    cases rs with
    | nil =>
      exact ⟨⟨[], (List.append_nil _).symm⟩, fun a ha => by simp at ha,
        fun h1 r1 _ e2 => by simp [Heap.regs, e2]⟩
    | cons v vs =>
      refine ⟨⟨_, rfl⟩, fun a ha => ?_, fun h1 r1 e1 e2 => ?_⟩
      · simp only [Option.some.injEq] at ha; subst ha; simp
      · simp [Heap.regs, e1, e2, List.getD_eq_getElem?_getD]

theorem cloneSet_spec (h : Heap) (r : RSketch) :
    (∃ S, (h.cloneSet r).1 = h.sets ++ S) ∧
      (∀ a, (h.cloneSet r).2 = some a → h.sets.length ≤ a ∧ a < (h.cloneSet r).1.length) ∧
      ∀ (h1 : Heap) (r1 : RSketch), h1.sets = (h.cloneSet r).1 → r1.tmpSet = (h.cloneSet r).2 →
        h1.tmpSet r1 = (h.load r).Clone.tmpSet := by
  simp only [Heap.cloneSet, Heap.load, Sketch.Clone, set.Clone, Heap.tmpSet]
  cases r.tmpSet with
  | none =>
    exact ⟨⟨[], (List.append_nil _).symm⟩, fun a ha => by simp at ha,
      fun h1 r1 _ e2 => by simp [e2]⟩
  | some t =>
    refine ⟨⟨_, rfl⟩, fun a ha => ?_, fun h1 r1 e1 e2 => ?_⟩
    · simp only [Option.some.injEq] at ha; subst ha; simp
    · simp [e1, e2, List.getD_eq_getElem?_getD]

theorem cloneList_spec (h : Heap) (r : RSketch) :
    (∃ L, (h.cloneList r).1 = h.lists ++ L) ∧
      (∀ a, (h.cloneList r).2 = some a →
        h.lists.length ≤ a ∧ a < (h.cloneList r).1.length) ∧
      ∀ (h1 : Heap) (r1 : RSketch), h1.lists = (h.cloneList r).1 →
        r1.sparseList = (h.cloneList r).2 →
        h1.sparseList r1 = (h.load r).Clone.sparseList := by
  simp only [Heap.cloneList, Heap.load, Sketch.Clone, compressedList.Clone]
  cases h.sparseList r with
  | none =>
    exact ⟨⟨[], (List.append_nil _).symm⟩, fun a ha => by simp at ha,
      fun h1 r1 _ e2 => by simp [Heap.sparseList, e2]⟩
  | some l =>
    refine ⟨⟨_, rfl⟩, fun a ha => ?_, fun h1 r1 e1 e2 => ?_⟩
    · simp only [Option.some.injEq] at ha; subst ha; simp
    · simp [Heap.sparseList, e1, e2]

theorem Clone_spec (h : Heap) (sk : Nat) (r : RSketch) (hw : h.WF)
    (hr : h.sketches[sk]? = some r) :
    ∃ h1 rc, h.Clone sk = .ok (h1, h.sketches.length) ∧ h1.WF ∧
      h1.sketches[h.sketches.length]? = some rc ∧ h1.load rc = (h.load r).Clone ∧
      ∀ (j : Nat) (rj : RSketch), h.sketches[j]? = some rj →
        h1.sketches[j]? = some rj ∧ h1.load rj = h.load rj := by
  obtain ⟨a1, a2, a3⟩ := cloneRegs_spec h r
  obtain ⟨b1, b2, b3⟩ := cloneSet_spec h r
  obtain ⟨c1, c2, c3⟩ := cloneList_spec h r
  simp only [Heap.Clone, hr]
  refine ⟨_, { r with
      regs := (h.cloneRegs r).2
      tmpSet := (h.cloneSet r).2
      sparseList := (h.cloneList r).2 }, rfl, ?_⟩
  have key := alloc_sketch h
    { sketches := h.sketches ++
        [{ r with
          regs := (h.cloneRegs r).2
          tmpSet := (h.cloneSet r).2
          sparseList := (h.cloneList r).2 }]
      arrs := (h.cloneRegs r).1
      sets := (h.cloneSet r).1
      lists := (h.cloneList r).1 }
    { r with
      regs := (h.cloneRegs r).2
      tmpSet := (h.cloneSet r).2
      sparseList := (h.cloneList r).2 } hw rfl a1 b1 c1 a2 b2 c2
  refine ⟨key.1, key.2.1, ?_, key.2.2⟩
  have e1 := a3 _ _ (rfl : Heap.arrs
    { sketches := h.sketches ++
        [{ r with
          regs := (h.cloneRegs r).2
          tmpSet := (h.cloneSet r).2
          sparseList := (h.cloneList r).2 }]
      arrs := (h.cloneRegs r).1
      sets := (h.cloneSet r).1
      lists := (h.cloneList r).1 } = _) (rfl : RSketch.regs
    { r with
      regs := (h.cloneRegs r).2
      tmpSet := (h.cloneSet r).2
      sparseList := (h.cloneList r).2 } = _)
  have e2 := b3 _ _ (rfl : Heap.sets
    { sketches := h.sketches ++
        [{ r with
          regs := (h.cloneRegs r).2
          tmpSet := (h.cloneSet r).2
          sparseList := (h.cloneList r).2 }]
      arrs := (h.cloneRegs r).1
      sets := (h.cloneSet r).1
      lists := (h.cloneList r).1 } = _) (rfl : RSketch.tmpSet
    { r with
      regs := (h.cloneRegs r).2
      tmpSet := (h.cloneSet r).2
      sparseList := (h.cloneList r).2 } = _)
  have e3 := c3 _ _ (rfl : Heap.lists
    { sketches := h.sketches ++
        [{ r with
          regs := (h.cloneRegs r).2
          tmpSet := (h.cloneSet r).2
          sparseList := (h.cloneList r).2 }]
      arrs := (h.cloneRegs r).1
      sets := (h.cloneSet r).1
      lists := (h.cloneList r).1 } = _) (rfl : RSketch.sparseList
    { r with
      regs := (h.cloneRegs r).2
      tmpSet := (h.cloneSet r).2
      sparseList := (h.cloneList r).2 } = _)
  show Sketch.mk _ _ _ _ _ = _
  rw [e1, e2, e3]
  rfl

theorem mergeSparse_view (h : Heap) (sk : Nat) (r : RSketch)
    (hr : h.sketches[sk]? = some r) :
    (match h.mergeSparse sk with
      | .error e => Except.error e
      | .ok h1 =>
        match h1.sketches[sk]? with
        | none => .error .panic
        | some r1 => .ok (h1.sparseList r1)) =
      (match (h.load r).mergeSparse with
      | .error e => Except.error e
      | .ok s1 => .ok s1.sparseList) := by
  have hsk := lt_of_getElem? _ _ _ hr
  by_cases h0 : set.Len (h.tmpSet r) = 0
  · simp [Heap.mergeSparse, Sketch.mergeSparse, h0, Heap.load, hr]
  · cases hl : h.sparseList r with
    | none => simp [Heap.mergeSparse, Sketch.mergeSparse, h0, Heap.load, hr, hl]
    | some l =>
      simp only [Heap.mergeSparse, Sketch.mergeSparse, hr, Heap.load, if_neg h0, hl]
      generalize mergeSparseLoop _ _ _ _ _ = res
      cases res with
      | error e => rfl
      | ok newList => simp [List.getElem?_set, hsk, Heap.sparseList]

theorem Estimate_view (ops : FloatOps) (h : Heap) (sk : Nat) (r : RSketch) (hw : h.WF)
    (hr : h.sketches[sk]? = some r) :
    (h.Estimate ops sk).map Prod.snd = ((h.load r).Estimate ops).map Prod.snd := by
  have key := mergeSparse_view h sk r hr
  simp only [Heap.Estimate, hr, Sketch.Estimate]
  cases hs : r.sparseList with
  | none =>
    have : (h.load r).sparse = false := by simp [Heap.load, Sketch.sparse, Heap.sparseList, hs]
    simp only [this, Option.isSome_none, Bool.false_eq_true, if_false]
    rfl
  | some a =>
    have ha := (hw.1 sk r hr).2.2 a hs
    have : (h.load r).sparse = true := by
      simp [Heap.load, Sketch.sparse, Heap.sparseList, hs, List.getElem?_eq_getElem ha]
    simp only [this, Option.isSome_some, if_true]
    cases hm : h.mergeSparse sk with
    | error e =>
      rw [hm] at key
      cases hp : (h.load r).mergeSparse with
      | error e1 =>
        rw [hp] at key
        simp only [Except.error.injEq] at key
        subst key
        rfl
      | ok s1 => rw [hp] at key; simp at key
    | ok h1 =>
      rw [hm] at key
      simp only at key ⊢
      cases hr1 : h1.sketches[sk]? with
      | none =>
        rw [hr1] at key
        cases hp : (h.load r).mergeSparse with
        | error e1 =>
          rw [hp] at key
          simp only [Except.error.injEq] at key
          rw [← key]; rfl
        | ok s1 => rw [hp] at key; simp at key
      | some r1 =>
        rw [hr1] at key
        cases hp : (h.load r).mergeSparse with
        | error e1 => rw [hp] at key; simp at key
        | ok s1 =>
          rw [hp] at key
          simp only [Except.ok.injEq] at key
          simp only [key]
          cases s1.sparseList <;> rfl

theorem frame_Estimate (ops : FloatOps) (h h1 : Heap) (sk v : Nat) (hw : h.WF)
    (hx : h.Estimate ops sk = .ok (h1, v)) : h1.WF ∧ h.Others h1 sk := by
  simp only [Heap.Estimate] at hx
  split at hx
  · simp at hx
  · split at hx
    · split at hx
      · simp at hx
      · rename_i h2 hm
        split at hx
        · simp at hx
        · split at hx
          · simp at hx
          · simp only [Except.ok.injEq, Prod.mk.injEq] at hx
            rw [← hx.1]
            exact frame_mergeSparse h h2 sk hw hm
    · simp only [Except.ok.injEq, Prod.mk.injEq] at hx
      rw [← hx.1]
      exact ⟨hw, Others_refl _ _⟩

/-! ## Claims C11 to C16 -/

/-- C11: for every sketch the output of `MarshalBinary` begins with the four
bytes `[2, p, 0, f]`, where `f` is 1 for a sparse sketch and 0 for a dense one,
so the first byte is never 1.  For a dense sketch the output is these four
bytes, the register count in four bytes, most significant first, and the
registers one byte each: its length is `8 + len(regs)`, the four bytes at
offset 4 read back as the register count, and the bytes from offset 8 on are
the registers. -/
theorem MarshalBinary_layout (sk : Sketch) :
    sk.MarshalBinary.take 4 = [2, sk.p, 0, if sk.sparse then 1 else 0] ∧
      sk.MarshalBinary.head? = some 2 ∧
      (sk.sparse = false →
        sk.MarshalBinary = [2, sk.p, 0, 0] ++ be32 sk.lenRegs ++ (sk.regs.getD []).map u8 ∧
        sk.MarshalBinary.length = 8 + sk.lenRegs ∧
        (sk.lenRegs < 2 ^ 32 → Uint32 (sk.MarshalBinary.drop 4) = .ok sk.lenRegs) ∧
        ((∀ r ∈ sk.regs.getD [], r < 256) → sk.MarshalBinary.drop 8 = sk.regs.getD [])) := by
  obtain ⟨p, m, t, sl, rg⟩ := sk
  cases sl with
  | some l =>
    simp [Sketch.MarshalBinary, Sketch.AppendBinary, Sketch.sparse, set.AppendBinary,
      compressedList.AppendBinary, version]
  | none =>
    have hlen : (Sketch.mk p m t none rg).lenRegs = (rg.getD []).length := by
      cases rg <;> rfl
    have hm : (Sketch.mk p m t none rg).MarshalBinary =
        [2, p, 0, 0] ++ be32 (rg.getD []).length ++ (rg.getD []).map u8 := by
      simp [Sketch.MarshalBinary, Sketch.AppendBinary, version, hlen]
    refine ⟨by rw [hm]; simp [Sketch.sparse], by rw [hm]; rfl, fun _ => ?_⟩
    rw [hm, hlen]
    refine ⟨rfl, by simp [be32_length]; omega, fun h => ?_, fun h => ?_⟩
    · simpa using Uint32_be32 _ ((rg.getD []).map u8) h
    · have : (rg.getD []).map u8 = rg.getD [] := by
        conv_rhs => rw [← List.map_id (rg.getD [])]
        exact List.map_congr_left fun r hr => u8_of_lt r (h r hr)
      simp [be32, this]


/-- Witness of C11: a dense sketch of precision 4 whose registers hold 3. -/
theorem MarshalBinary_layout_witness :
    (denseSk 4 (List.replicate 16 3)).MarshalBinary =
        [2, (denseSk 4 (List.replicate 16 3)).p, 0, 0] ++
          be32 (denseSk 4 (List.replicate 16 3)).lenRegs ++
          ((denseSk 4 (List.replicate 16 3)).regs.getD []).map u8 ∧
      (denseSk 4 (List.replicate 16 3)).MarshalBinary.length =
        8 + (denseSk 4 (List.replicate 16 3)).lenRegs ∧
      Uint32 ((denseSk 4 (List.replicate 16 3)).MarshalBinary.drop 4) = .ok 16 ∧
      (denseSk 4 (List.replicate 16 3)).MarshalBinary.drop 8 = List.replicate 16 3 :=
  ⟨((MarshalBinary_layout (denseSk 4 (List.replicate 16 3))).2.2 rfl).1,
    ((MarshalBinary_layout (denseSk 4 (List.replicate 16 3))).2.2 rfl).2.1,
    ((MarshalBinary_layout (denseSk 4 (List.replicate 16 3))).2.2 rfl).2.2.1 (by decide),
    ((MarshalBinary_layout (denseSk 4 (List.replicate 16 3))).2.2 rfl).2.2.2 (by decide)⟩

/-- C12: for two dense sketches `a` and `b` of the same precision whose
register arrays have length `2^p`, `a.Merge(b)` succeeds, changes nothing but
the registers of `a`, and every register of `a` is afterwards the maximum of
its previous value and the register of `b` at the same index. -/
theorem Merge_dense_max (a b : Sketch) (A B : List Nat) (ha : a.sparse = false)
    (hb : b.sparse = false) (hp : a.p = b.p) (hA : a.regs = some A) (hB : b.regs = some B)
    (lA : A.length = 2 ^ a.p) (lB : B.length = 2 ^ b.p) :
    ∃ C, a.Merge (some b) = .ok ({ a with regs := some C }, none) ∧ C.length = 2 ^ a.p ∧
      ∀ i, i < 2 ^ a.p → C.getD i 0 = max (A.getD i 0) (B.getD i 0) := by
  obtain ⟨p, m, t, sl, rg⟩ := a
  obtain ⟨p1, m1, t1, sl1, rg1⟩ := b
  cases sl with
  | some l => simp [Sketch.sparse] at ha
  | none =>
  cases sl1 with
  | some l => simp [Sketch.sparse] at hb
  | none =>
  simp only at hp hA hB lA lB
  subst hp hA hB
  have hBne : B ≠ [] := by
    intro h; rw [h] at lB; simp at lB
    exact absurd lB.symm (by positivity)
  obtain ⟨v, vs, rfl⟩ := List.exists_cons_of_ne_nil hBne
  obtain ⟨out, ho, hl, hg⟩ := mergeRegsLoop_spec (v :: vs) 0 A (by omega)
  refine ⟨out, ?_, hl.trans lA, fun i hi => ?_⟩
  · simp [Sketch.Merge, Sketch.sparse, Sketch.mergeDenseSketch, ho]
  · simp only at hi
    have := hg i (by omega)
    rw [this, if_pos ⟨Nat.zero_le _, by omega⟩]
    simp

/-- Witness of C12: two dense sketches of precision 4. -/
theorem Merge_dense_max_witness :
    ∃ C, (denseSk 4 (List.replicate 16 3)).Merge (some (denseSk 4 (7 :: List.replicate 15 1))) =
        .ok ({ denseSk 4 (List.replicate 16 3) with regs := some C }, none) ∧
      C.length = 2 ^ 4 ∧
      ∀ i, i < 2 ^ 4 →
        C.getD i 0 = max ((List.replicate 16 3).getD i 0) ((7 :: List.replicate 15 1).getD i 0) :=
  Merge_dense_max (denseSk 4 (List.replicate 16 3)) (denseSk 4 (7 :: List.replicate 15 1))
    (List.replicate 16 3) (7 :: List.replicate 15 1) rfl rfl rfl rfl rfl rfl rfl

/-- C13: for two well-formed sketches `a` and `b` of the same precision of
which at least one is dense, `a.Merge(b)` succeeds and leaves `a` dense, and
the registers of `a` are the element-wise maximum of the registers of `a`
promoted to dense and of `b` promoted to dense, a dense sketch counting as
already promoted. -/
theorem Merge_dense_promoted (a b : Sketch) (ha : InvW a) (hb : InvW b) (hp : a.p = b.p)
    (hd : a.sparse = false ∨ b.sparse = false) :
    ∃ a1 pa pb A B C, a.Merge (some b) = .ok (a1, none) ∧ a1.sparse = false ∧
      a.promoted = .ok pa ∧ b.promoted = .ok pb ∧ pa.regs = some A ∧ pb.regs = some B ∧
      a1.regs = some C ∧ A.length = 2 ^ a.p ∧ B.length = 2 ^ a.p ∧ C.length = 2 ^ a.p ∧
      (∀ i, i < 2 ^ a.p → C.getD i 0 = max (A.getD i 0) (B.getD i 0)) := by
  obtain ⟨p, hp4, hp18, ha⟩ := ha
  obtain ⟨q, hq4, hq18, hb⟩ := hb
  have hpq : p = q := by
    rcases ha with ⟨L, T, rfl, _⟩ | ⟨rs, rfl, _⟩ <;>
      rcases hb with ⟨L1, T1, rfl, _⟩ | ⟨rs1, rfl, _⟩ <;> exact hp
  subst hpq
  have key : ∀ A B : List Nat, GoodD p A → GoodD p B →
      (List.zipWith max A B).length = 2 ^ p ∧
      (∀ i, i < 2 ^ p → (List.zipWith max A B).getD i 0 = max (A.getD i 0) (B.getD i 0)) := by
    intro A B hA hB
    have h := zipWith_max_spec A B (by rw [hA.1, hB.1])
    exact ⟨by rw [h.1, hA.1], fun i hi => h.2 i (by rw [hA.1]; exact hi)⟩
  have hz : GoodD p (List.replicate (2 ^ p) 0) := zeros_good p
  rcases ha with ⟨L, T, rfl, hg⟩ | ⟨A, rfl, hA⟩
  · rcases hb with ⟨L1, T1, rfl, hg1⟩ | ⟨B, rfl, hB⟩
    · rcases hd with hd | hd <;> simp [sparseSk, Sketch.sparse] at hd
    · have hA := regsOf_good p (sunion L T) _ hz
      obtain ⟨k1, k2⟩ := key _ B hA hB
      exact ⟨_, _, _, _, B, _, Merge_sparse_dense p hp18 L T B hg hB.1, rfl,
        promoted_sparseSk p hp18 L T hg, promoted_denseSk p B, rfl, rfl, rfl, hA.1, hB.1,
        k1, k2⟩
  · rcases hb with ⟨L1, T1, rfl, hg1⟩ | ⟨B, rfl, hB⟩
    · have hB := regsOf_good p (sunion L1 T1) _ hz
      obtain ⟨k1, k2⟩ := key A _ hA hB
      have hm := Merge_dense_sparse p hp18 A L1 T1 hA.1 hg1
      rw [regs_mixed p A L1 T1 hA.1, zipWith_max_comm] at hm
      exact ⟨_, _, _, A, _, _, hm, rfl,
        promoted_denseSk p A, promoted_sparseSk p hp18 L1 T1 hg1, rfl, rfl, rfl, hA.1, hB.1,
        k1, k2⟩
    · obtain ⟨k1, k2⟩ := key A B hA hB
      exact ⟨_, _, _, A, B, _, Merge_dense_dense p A B hA.1 hB.1, rfl,
        promoted_denseSk p A, promoted_denseSk p B, rfl, rfl, rfl, hA.1, hB.1, k1, k2⟩

/-- Witness of C13: a sparse receiver with one pending entry and a dense
argument, at precision 4. -/
theorem Merge_dense_promoted_witness :
    ∃ a1 pa pb A B C,
      (sparseSk 4 [] [3]).Merge (some (denseSk 4 (List.replicate 16 1))) = .ok (a1, none) ∧
      a1.sparse = false ∧ (sparseSk 4 [] [3]).promoted = .ok pa ∧
      (denseSk 4 (List.replicate 16 1)).promoted = .ok pb ∧ pa.regs = some A ∧
      pb.regs = some B ∧ a1.regs = some C ∧ A.length = 2 ^ 4 ∧ B.length = 2 ^ 4 ∧
      C.length = 2 ^ 4 ∧ ∀ i, i < 2 ^ 4 → C.getD i 0 = max (A.getD i 0) (B.getD i 0) :=
  Merge_dense_promoted (sparseSk 4 [] [3]) (denseSk 4 (List.replicate 16 1))
    ⟨4, by decide, by decide, Or.inl ⟨[], [3], rfl, by simp [GoodS]⟩⟩
    ⟨4, by decide, by decide, Or.inr ⟨List.replicate 16 1, rfl, by simp [GoodD]⟩⟩ rfl (Or.inr rfl)

/-- C15: a dense sketch is still dense after any sequence of `InsertHash`,
`Insert`, `Merge` (successful or failed), `Estimate` and `Clone` calls that
returns; and on a well-formed dense sketch every such sequence returns, the
arguments of `Merge` being nil or well formed. -/
theorem dense_stays_dense (ops : FloatOps) (hash : List Nat → Nat) (sk : Sketch)
    (cs : List Call) (hd : sk.sparse = false) :
    (∀ sk1, sk.calls ops hash cs = .ok sk1 → sk1.sparse = false) ∧
      (InvW sk → (∀ o, Call.Merge (some o) ∈ cs → InvW o) →
        ∃ sk1, sk.calls ops hash cs = .ok sk1 ∧ sk1.sparse = false) := by
  refine ⟨fun sk1 h => calls_dense ops hash cs sk sk1 hd h, fun hw hcs => ?_⟩
  suffices h : ∃ sk1, sk.calls ops hash cs = .ok sk1 by
    obtain ⟨sk1, h1⟩ := h
    exact ⟨sk1, h1, calls_dense ops hash cs sk sk1 hd h1⟩
  induction cs generalizing sk with
  | nil => exact ⟨sk, rfl⟩
  | cons c cs ih =>
    obtain ⟨s2, h2, hw2⟩ := call_dense_total ops hash sk c hw hd
      (fun o ho => hcs o (by rw [ho]; exact List.mem_cons_self _ _))
    obtain ⟨sk1, h1⟩ := ih s2 (call_dense ops hash sk s2 c hd h2) hw2
      (fun o ho => hcs o (List.mem_cons_of_mem _ ho))
    exact ⟨sk1, by simp only [Sketch.calls, h2, h1]⟩

set_option maxRecDepth 100000 in
/-- Witness of C15: a sequence of all five calls on a dense sketch of
precision 4, with a merge of a sparse sketch and a failed merge. -/
theorem dense_stays_dense_witness :
    ∃ sk1, (denseSk 4 (List.replicate 16 0)).calls natOps (fun e => e.sum)
        [.InsertHash (5 <<< 60), .Insert [1, 2], .Merge (some (sparseSk 4 [] [3])),
          .Merge (some (sparseSk 5 [] [])), .Merge none, .Estimate, .Clone] = .ok sk1 ∧
      sk1.sparse = false :=
  (dense_stays_dense natOps (fun e => e.sum) (denseSk 4 (List.replicate 16 0))
    [.InsertHash (5 <<< 60), .Insert [1, 2], .Merge (some (sparseSk 4 [] [3])),
      .Merge (some (sparseSk 5 [] [])), .Merge none, .Estimate, .Clone] rfl).2
    ⟨4, by decide, by decide, Or.inr ⟨List.replicate 16 0, rfl, by simp [GoodD]⟩⟩
    (fun o ho => by
      simp only [List.mem_cons, Call.Merge.injEq, Option.some.injEq, List.mem_singleton,
        reduceCtorEq, false_or, or_false, List.not_mem_nil] at ho
      rcases ho with rfl | rfl
      · exact ⟨4, by decide, by decide, Or.inl ⟨[], [3], rfl, by simp [GoodS]⟩⟩
      · exact ⟨5, by decide, by decide, Or.inl ⟨[], [], rfl, by simp [GoodS]⟩⟩)

/-- C16: in a well-formed heap, `c = sk.Clone()` returns a pointer to a new
sketch with the precision, mode, temporary-set entries, compressed list and
register elements of `sk`, and leaves `sk` as it is; no sequence of
`InsertHash` and `Merge` calls on `c` changes the value of `sk` or what
`Estimate()` returns on `sk`, and no such sequence on `sk` changes the value
of `c` or what `Estimate()` returns on `c`. -/
theorem Clone_independent (ops : FloatOps) (h : Heap) (sk : Nat) (s : Sketch) (hw : h.WF)
    (hv : h.view sk = some s) :
    ∃ h1 c, h.Clone sk = .ok (h1, c) ∧ c ≠ sk ∧ h1.view sk = some s ∧
      h1.view c = some s.Clone ∧
      s.Clone.p = s.p ∧ s.Clone.m = s.m ∧ s.Clone.sparse = s.sparse ∧
      s.Clone.tmpSet = s.tmpSet ∧ s.Clone.sparseList = s.sparseList ∧
      s.Clone.regs.getD [] = s.regs.getD [] ∧
      (∀ cs h2, h1.mutations c cs = .ok h2 →
        h2.view sk = some s ∧
          (h2.Estimate ops sk).map Prod.snd = (h1.Estimate ops sk).map Prod.snd) ∧
      ∀ cs h2, h1.mutations sk cs = .ok h2 →
        h2.view c = some s.Clone ∧
          (h2.Estimate ops c).map Prod.snd = (h1.Estimate ops c).map Prod.snd := by
  simp only [Heap.view] at hv
  cases hr : h.sketches[sk]? with
  | none => simp [hr] at hv
  | some r =>
    simp only [hr, Option.map_some', Option.some.injEq] at hv
    subst hv
    have hsk := lt_of_getElem? _ _ _ hr
    obtain ⟨h1, rc, hc, hw1, hrc, hlc, hold⟩ := Clone_spec h sk r hw hr
    have hr1 := hold sk r hr
    refine ⟨h1, h.sketches.length, hc, by omega, ?_, ?_, rfl, rfl, rfl, rfl, rfl, ?_, ?_, ?_⟩
    · simp [Heap.view, hr1.1, hr1.2]
    · simp [Heap.view, hrc, hlc]
    · simp only [Sketch.Clone]
      cases (h.load r).regs with
      | none => rfl
      | some rs => cases rs <;> rfl
    · intro cs h2 hm
      obtain ⟨hw2, _, ho⟩ := frame_mutations cs h1 h2 _ hw1 hm
      obtain ⟨k1, k2⟩ := ho sk r (by omega) hr1.1
      refine ⟨by simp [Heap.view, k1, k2, hr1.2], ?_⟩
      rw [Estimate_view ops h2 sk r hw2 k1, Estimate_view ops h1 sk r hw1 hr1.1, k2]
    · intro cs h2 hm
      obtain ⟨hw2, _, ho⟩ := frame_mutations cs h1 h2 _ hw1 hm
      obtain ⟨k1, k2⟩ := ho _ rc (by omega) hrc
      refine ⟨by simp [Heap.view, k1, k2, hlc], ?_⟩
      rw [Estimate_view ops h2 _ rc hw2 k1, Estimate_view ops h1 _ rc hw1 hrc, k2]

set_option maxRecDepth 100000 in
/-- Witness of C16: a sparse sketch with one entry is cloned; seven calls on
the copy, which promote it to dense, leave the original as it was. -/
theorem Clone_independent_witness :
    (∃ h1 c, exHeap.Clone 0 = .ok (h1, c) ∧ c ≠ 0 ∧ h1.view 0 = some exSketch ∧
        h1.view c = some exSketch.Clone ∧
        (∀ cs h2, h1.mutations c cs = .ok h2 →
          h2.view 0 = some exSketch ∧
            (h2.Estimate natOps 0).map Prod.snd = (h1.Estimate natOps 0).map Prod.snd)) ∧
      ((exHeap.Clone 0).bind fun hc =>
        (hc.1.mutations hc.2 exMutations).map fun h2 => (h2.view 0, h2.view hc.2)) =
        .ok (some exSketch,
          some ⟨4, 16, [], none, some [2, 2, 2, 1, 0, 61, 0, 0, 0, 0, 0, 0, 0, 0, 0, 0]⟩) := by
  refine ⟨?_, by decide⟩
  obtain ⟨h1, c, a1, a2, a3, a4, _, _, _, _, _, _, a5, _⟩ :=
    Clone_independent natOps exHeap 0 exSketch
      (frame_InsertHash exHeapNew exHeap 0 (5 <<< 60)
        (NewSketch_WF Heap.empty exHeapNew 4 true 0 WF_empty (by decide)) (by decide)).1
      (by decide)
  exact ⟨h1, c, a1, a2, a3, a4, a5⟩

/-! ## Lemmas for the claims C25 to C30 -/

/-- `mergeSparse` on a sparse sketch whose compressed list holds the strictly
increasing entries `L`, whatever its other fields. -/
theorem mergeSparse_encList (sk : Sketch) (L : List Nat) (hs : sk.sparseList = some (encList L))
    (hg : GoodS L sk.tmpSet) (hT : sk.tmpSet ≠ []) :
    sk.mergeSparse =
      .ok { sk with sparseList := some (encList (sunion L sk.tmpSet)), tmpSet := makeSet 0 } := by
  obtain ⟨p, m, T, sl, rg⟩ := sk
  simp only at hs hg hT
  subst hs
  have h := mergeSparse_sparseSk 0 L T hg
  have hlen : ¬ (set.Len T = 0) := by
    simpa [set.Len] using hT
  simp only [Sketch.mergeSparse, sparseSk, hlen, if_false] at h ⊢
  split at h
  · simp at h
  · rename_i newList hm
    simp only [Except.ok.injEq, Sketch.mk.injEq, true_and, Option.some.injEq] at h
    rw [h.2.1]

theorem entries_encList (sk : Sketch) (L : List Nat) (hs : sk.sparseList = some (encList L))
    (hL : ∀ x ∈ L, x < 2 ^ 32) : sk.entries = .ok (sk.tmpSet ++ L) := by
  simp only [Sketch.entries, hs]
  rw [iterate_encList _ L [] hL, foldSteps_collect]
  simp

theorem maxRank_eq_zero (es : List (Nat × Nat)) (j : Nat) (h : ∀ e ∈ es, e.1 ≠ j) :
    maxRank es j = 0 := by
  rcases maxRank_mem es j with c | c
  · exact c
  · exact absurd rfl (h _ c)

theorem maxRank_cons (e : Nat × Nat) (es : List (Nat × Nat)) (j : Nat) :
    maxRank (e :: es) j = if e.1 = j then max e.2 (maxRank es j) else maxRank es j := rfl

/-- The registers that promotion computes from the entries of a sparse sketch
holding exactly the hashes `H`. -/
theorem regsOf_exact (p : Nat) (hp4 : 4 ≤ p) (hp : p ≤ 18) (M : List Nat) (H : List Nat)
    (hM : ∀ k, k ∈ M ↔ ∃ x ∈ H, encodeHash x p pp = k) (j : Nat) (hj : j < 2 ^ p) :
    (regsOf p M (List.replicate (2 ^ p) 0)).getD j 0 =
      maxRank (H.map fun x => getPosVal x p) j := by
  rw [regsOf_getD p M _ j (by simpa using hj), replicate_getD, Nat.zero_max]
  apply maxRank_congr
  intro e
  simp only [List.mem_map]
  constructor
  · rintro ⟨k, hk, rfl⟩
    obtain ⟨x, hx, rfl⟩ := (hM k).1 hk
    exact ⟨x, hx, (decode_encode x p hp4 hp).symm⟩
  · rintro ⟨x, hx, rfl⟩
    exact ⟨encodeHash x p pp, (hM _).2 ⟨x, hx, rfl⟩, decode_encode x p hp4 hp⟩

theorem Exact_insert (sk : Sketch) (p : Nat) (hp4 : 4 ≤ p) (hp : p ≤ 18) (H : List Nat)
    (h : Exact sk p H) (x : Nat) :
    ∃ sk1, sk.InsertHash x = .ok sk1 ∧ Exact sk1 p (H ++ [x]) := by
  rcases h with ⟨L, T, rfl, hg, hm⟩ | ⟨rs, rfl, hl, hr⟩
  · rw [InsertHash_sparseSk]
    by_cases hk : encodeHash x p pp ∈ T
    · rw [if_pos hk]
      refine ⟨_, rfl, Or.inl ⟨L, T, rfl, hg, fun k => ?_⟩⟩
      rw [hm k]
      constructor
      · rintro ⟨y, hy, rfl⟩
        exact ⟨y, List.mem_append_left _ hy, rfl⟩
      · rintro ⟨y, hy, rfl⟩
        rcases List.mem_append.1 hy with hy | hy
        · exact ⟨y, hy, rfl⟩
        · rw [List.mem_singleton.1 hy]
          exact (hm _).1 ((mem_sunion L T _).2 (Or.inr hk))
    · have hg1 := GoodS_add L T _ hg hk (encodeHash_lt x p)
      have hm1 : ∀ k, k ∈ sunion L (T ++ [encodeHash x p pp]) ↔
          ∃ y ∈ H ++ [x], encodeHash y p pp = k := by
        intro k
        rw [mem_sunion, List.mem_append, List.mem_singleton, ← or_assoc, ← mem_sunion, hm k]
        constructor
        · rintro (⟨y, hy, rfl⟩ | rfl)
          · exact ⟨y, List.mem_append_left _ hy, rfl⟩
          · exact ⟨x, by simp, rfl⟩
        · rintro ⟨y, hy, rfl⟩
          rcases List.mem_append.1 hy with hy | hy
          · exact Or.inl ⟨y, hy, rfl⟩
          · rw [List.mem_singleton.1 hy]
            exact Or.inr rfl
      rw [if_neg hk, maybeToNormal_sparseSk p hp L _ hg1]
      refine ⟨_, rfl, ?_⟩
      split
      · split
        · exact Or.inr ⟨_, rfl, by rw [regsOf_length]; simp,
            fun j hj => regsOf_exact p hp4 hp _ _ hm1 j hj⟩
        · refine Or.inl ⟨_, [], rfl, GoodS_sunion L _ hg1, fun k => ?_⟩
          rw [sunion_nil _ (sunion_sorted L _)]
          exact hm1 k
      · exact Or.inl ⟨L, _, rfl, hg1, hm1⟩
  · rw [InsertHash_dense (denseSk p rs) rs x rfl rfl hl hp]
    refine ⟨_, rfl, Or.inr ⟨_, rfl, by simpa using hl, fun j hj => ?_⟩⟩
    have e : (List.map (fun x => getPosVal x p) (H ++ [x])) =
        List.map (fun x => getPosVal x p) H ++ [getPosVal x p] := by simp
    rw [e, maxRank_append, getD_set_max rs _ _ j (by omega), ← hr j hj]
    simp only [denseSk, maxRank_cons]
    by_cases hi : (getPosVal x p).1 = j
    · simp [hi, maxRank, Nat.max_comm]
    · simp [hi, maxRank]

theorem Exact_inserts (xs : List Nat) (sk : Sketch) (p : Nat) (hp4 : 4 ≤ p) (hp : p ≤ 18)
    (H : List Nat) (h : Exact sk p H) :
    ∃ sk1, sk.InsertHashes xs = .ok sk1 ∧ Exact sk1 p (H ++ xs) := by
  induction xs generalizing sk H with
  | nil => exact ⟨sk, rfl, by simpa using h⟩
  | cons x xs ih =>
    obtain ⟨s1, h1, e1⟩ := Exact_insert sk p hp4 hp H h x
    obtain ⟨s2, h2, e2⟩ := ih s1 (H ++ [x]) e1
    refine ⟨s2, ?_, by simpa using e2⟩
    simp only [Sketch.InsertHashes, h1]
    exact h2

theorem Exact_promoted (sk : Sketch) (p : Nat) (hp4 : 4 ≤ p) (hp : p ≤ 18) (H : List Nat)
    (h : Exact sk p H) :
    ∃ rs, sk.promoted = .ok (denseSk p rs) ∧ rs.length = 2 ^ p ∧
      ∀ j, j < 2 ^ p → rs.getD j 0 = maxRank (H.map fun x => getPosVal x p) j := by
  rcases h with ⟨L, T, rfl, hg, hm⟩ | ⟨rs, rfl, hl, hr⟩
  · rw [promoted_sparseSk p hp L T hg]
    exact ⟨_, rfl, by rw [regsOf_length]; simp, fun j hj => regsOf_exact p hp4 hp _ _ hm j hj⟩
  · exact ⟨rs, rfl, hl, hr⟩

/-! ## Claims C25 to C30 -/

/-- C25: for every sparse sketch whose compressed list holds the strictly
increasing entries `L` and whose temporary set has no repetition (entries are
32-bit values), `mergeSparse` returns a sketch whose compressed list holds a
strictly increasing list `M` of entries, the members of `M` being exactly the
entries of `L` and of the temporary set; the count field is the length of `M`,
the temporary set is empty, and precision, `m` and registers are unchanged.
When the temporary set is empty the sketch is unchanged. -/
theorem mergeSparse_sorted_merge (sk : Sketch) (L : List Nat)
    (hs : sk.sparseList = some (encList L)) (hg : GoodS L sk.tmpSet) :
    ∃ sk1 M, sk.mergeSparse = .ok sk1 ∧ sk1.sparseList = some (encList M) ∧
      sk1.entries = .ok M ∧ M.Sorted (· < ·) ∧ (∀ k, k ∈ M ↔ k ∈ L ∨ k ∈ sk.tmpSet) ∧
      (M.length < 2 ^ 32 → (encList M).count = M.length) ∧ sk1.tmpSet = [] ∧
      sk1.p = sk.p ∧ sk1.m = sk.m ∧ sk1.regs = sk.regs ∧ (sk.tmpSet = [] → sk1 = sk) := by
  by_cases hT : sk.tmpSet = []
  · refine ⟨sk, L, by simp [Sketch.mergeSparse, set.Len, hT], hs, ?_, hg.1,
      fun k => by simp [hT], fun hl => ?_, hT, rfl, rfl, rfl, fun _ => rfl⟩
    · rw [entries_encList sk L hs hg.2.1, hT]; rfl
    · rw [encList_count]; exact Nat.mod_eq_of_lt hl
  · have hlt := sunion_lt L sk.tmpSet hg.2.1 hg.2.2.2
    refine ⟨_, sunion L sk.tmpSet, mergeSparse_encList sk L hs hg hT, rfl, ?_,
      sunion_sorted _ _, mem_sunion _ _, fun hl => ?_, rfl, rfl, rfl, rfl,
      fun h => absurd h hT⟩
    · rw [entries_encList _ (sunion L sk.tmpSet) rfl hlt]; rfl
    · rw [encList_count]; exact Nat.mod_eq_of_lt hl

/-- C25, an instance: the list entry 3 and the temporary set 81, 3, 7 at
precision 14. -/
theorem mergeSparse_sorted_merge_witness :
    ∃ sk1 M, (sparseSk 14 [3] [81, 3, 7]).mergeSparse = .ok sk1 ∧
      sk1.sparseList = some (encList M) ∧ sk1.entries = .ok M ∧ M.Sorted (· < ·) ∧
      (∀ k, k ∈ M ↔ k ∈ [3] ∨ k ∈ (sparseSk 14 [3] [81, 3, 7]).tmpSet) ∧
      (M.length < 2 ^ 32 → (encList M).count = M.length) ∧ sk1.tmpSet = [] ∧
      sk1.p = (sparseSk 14 [3] [81, 3, 7]).p ∧ sk1.m = (sparseSk 14 [3] [81, 3, 7]).m ∧
      sk1.regs = (sparseSk 14 [3] [81, 3, 7]).regs ∧
      ((sparseSk 14 [3] [81, 3, 7]).tmpSet = [] → sk1 = sparseSk 14 [3] [81, 3, 7]) :=
  mergeSparse_sorted_merge (sparseSk 14 [3] [81, 3, 7]) [3] rfl (by simp [GoodS, sparseSk])

/-- C26, counterexample: at precision 14 the hashes 0 and 2^38 are encoded as
81 and 3, which both decode to index 0, with the ranks 51 and 12.  After
`InsertHash` of both on a new sparse sketch, `mergeSparse` leaves a compressed
list with the two entries 3 and 81: two entries for index 0, one of them with
rank 12, which is not the maximum 51. -/
theorem mergeSparse_same_index :
    NewSketch 14 true = .ok ⟨14, 16384, [], some ⟨0, 0, []⟩, none⟩ ∧
      (⟨14, 16384, [], some ⟨0, 0, []⟩, none⟩ : Sketch).InsertHashes [0, 1 <<< 38] =
        .ok ⟨14, 16384, [81, 3], some ⟨0, 0, []⟩, none⟩ ∧
      (⟨14, 16384, [81, 3], some ⟨0, 0, []⟩, none⟩ : Sketch).mergeSparse =
        .ok ⟨14, 16384, [], some ⟨2, 81, [3, 78]⟩, none⟩ ∧
      (⟨14, 16384, [], some ⟨2, 81, [3, 78]⟩, none⟩ : Sketch).entries = .ok [3, 81] ∧
      decodeHash 3 14 pp = (0, 12) ∧ decodeHash 81 14 pp = (0, 51) := by
  decide

/-- C26, amended: after `mergeSparse` the compressed list is strictly
increasing, so it holds every encoded value at most once, and its entries are
exactly the entries of the old list and of the temporary set: entries with
the same index and different ranks are all kept.  For every index the maximum
rank among the entries of the new list is the maximum rank among the entries
of the old list and of the temporary set that decode to that index.  Entries
are merged by their encoded value, not by their index. -/
theorem mergeSparse_dedup (sk : Sketch) (L : List Nat)
    (hs : sk.sparseList = some (encList L)) (hg : GoodS L sk.tmpSet) :
    ∃ sk1 M, sk.mergeSparse = .ok sk1 ∧ sk1.sparseList = some (encList M) ∧
      sk1.entries = .ok M ∧ M.Sorted (· < ·) ∧ M.Nodup ∧
      (∀ k, k ∈ M ↔ k ∈ L ∨ k ∈ sk.tmpSet) ∧
      ∀ p j, maxRank (M.map fun k => decodeHash k p pp) j =
        max (maxRank (sk.tmpSet.map fun k => decodeHash k p pp) j)
          (maxRank (L.map fun k => decodeHash k p pp) j) := by
  by_cases hT : sk.tmpSet = []
  · refine ⟨sk, L, by simp [Sketch.mergeSparse, set.Len, hT], hs, ?_, hg.1, hg.1.nodup,
      fun k => by simp [hT], fun p j => ?_⟩
    · rw [entries_encList sk L hs hg.2.1, hT]; rfl
    · simp [hT, maxRank]
  · have hlt := sunion_lt L sk.tmpSet hg.2.1 hg.2.2.2
    refine ⟨_, sunion L sk.tmpSet, mergeSparse_encList sk L hs hg hT, rfl, ?_,
      sunion_sorted _ _, (sunion_sorted _ _).nodup, mem_sunion _ _,
      fun p j => maxRank_sunion p L sk.tmpSet j⟩
    rw [entries_encList _ (sunion L sk.tmpSet) rfl hlt]; rfl

/-- C26, an instance: the list entry 3 and the temporary set 81, 3, 7 at
precision 14; 3 and 81 both decode to index 0 and both stay in the list. -/
theorem mergeSparse_dedup_witness :
    ∃ sk1 M, (sparseSk 14 [3] [81, 3, 7]).mergeSparse = .ok sk1 ∧
      sk1.sparseList = some (encList M) ∧ sk1.entries = .ok M ∧ M.Sorted (· < ·) ∧ M.Nodup ∧
      (∀ k, k ∈ M ↔ k ∈ [3] ∨ k ∈ (sparseSk 14 [3] [81, 3, 7]).tmpSet) ∧
      ∀ p j, maxRank (M.map fun k => decodeHash k p pp) j =
        max (maxRank ((sparseSk 14 [3] [81, 3, 7]).tmpSet.map fun k => decodeHash k p pp) j)
          (maxRank ([3].map fun k => decodeHash k p pp) j) :=
  mergeSparse_dedup (sparseSk 14 [3] [81, 3, 7]) [3] rfl (by simp [GoodS, sparseSk])

set_option maxRecDepth 100000 in
/-- C27, counterexample: the sparse sketch of precision 7 (`m = 128`) reached
by `InsertHash` of the 43 hashes of `cexHashes` holds 42 entries in its list
and one in its temporary set.  `InsertHash` of one more hash, whose encoding
is 737280, makes the temporary set hold 2 entries (200 > 128); the merged list
holds 44 entries, not more than `m`, in 132 bytes, and the sketch is promoted
to dense. -/
theorem InsertHash_promotes_few_entries :
    NewSketch 7 true = .ok ⟨7, 128, [], some ⟨0, 0, []⟩, none⟩ ∧
    (⟨7, 128, [], some ⟨0, 0, []⟩, none⟩ : Sketch).InsertHashes cexHashes = .ok cexA ∧
    cexA.sparse = true ∧
    100 * set.Len (set.add cexA.tmpSet (encodeHash ((262144 + 13 * 8192) <<< 39) 7 pp)).1 > 128 ∧
    ({ cexA with tmpSet := cexA.tmpSet ++ [737280] } : Sketch).mergeSparse =
      .ok ⟨7, 128, [], some ⟨44, 737280,
        (List.replicate 31 [128, 128, 1]).flatten ++ [128, 128, 2] ++
          (List.replicate 12 [128, 128, 1]).flatten⟩, none⟩ ∧
    (⟨44, 737280, (List.replicate 31 [128, 128, 1]).flatten ++ [128, 128, 2] ++
      (List.replicate 12 [128, 128, 1]).flatten⟩ : compressedList).Len = 132 ∧
    ((⟨7, 128, [], some ⟨44, 737280,
        (List.replicate 31 [128, 128, 1]).flatten ++ [128, 128, 2] ++
          (List.replicate 12 [128, 128, 1]).flatten⟩, none⟩ : Sketch).entries).map List.length =
      .ok 44 ∧
    cexA.InsertHash ((262144 + 13 * 8192) <<< 39) = .ok cexDense ∧ cexDense.sparse = false := by
  refine ⟨by decide, by decide, rfl, by decide, by decide, by decide, by decide, by decide, rfl⟩

/-- C27, amended: `InsertHash(x)` on a sparse sketch of precision `p` with the
list entries `L` and the temporary set `T` promotes it to dense exactly when
the encoding of `x` is new to the temporary set, the temporary set with it
holds more than 1% of `m` entries (`100 * size > m` in `uint32`), and the byte
length of the merged compressed list, which is what `Len()` returns, is more
than `m`; in every other case the sketch stays sparse. -/
theorem InsertHash_promotes_iff (p : Nat) (hp : p ≤ 18) (L T : List Nat) (h : GoodS L T)
    (x : Nat) :
    ∃ sk1, (sparseSk p L T).InsertHash x = .ok sk1 ∧
      (sk1.sparse = false ↔
        encodeHash x p pp ∉ T ∧ u32 (u32 (T.length + 1) * 100) > 2 ^ p ∧
          u32 (encList (sunion L (T ++ [encodeHash x p pp]))).Len > 2 ^ p) := by
  rw [InsertHash_sparseSk]
  by_cases hk : encodeHash x p pp ∈ T
  · rw [if_pos hk]
    exact ⟨_, rfl, by simp [hk, sparseSk, Sketch.sparse]⟩
  · rw [if_neg hk, maybeToNormal_sparseSk p hp L _ (GoodS_add L T _ h hk (encodeHash_lt x p))]
    refine ⟨_, rfl, ?_⟩
    have hb : (encList (sunion L (T ++ [encodeHash x p pp]))).Len =
        (deltaBytes 0 (sunion L (T ++ [encodeHash x p pp]))).length := by
      rw [compressedList.Len, encList_b]
    rw [hb, List.length_append, List.length_singleton]
    by_cases h1 : u32 (u32 (T.length + 1) * 100) > 2 ^ p
    · by_cases h2 : u32 (deltaBytes 0 (sunion L (T ++ [encodeHash x p pp]))).length > 2 ^ p
      · simp [h1, h2, hk, denseSk, Sketch.sparse]
      · simp [h1, h2, hk, sparseSk, Sketch.sparse]
    · simp [h1, hk, sparseSk, Sketch.sparse]

set_option maxRecDepth 100000 in
/-- C27, an instance: precision 7, the list entry 3, the temporary set 5 and
the hash 0. -/
theorem InsertHash_promotes_witness :
    ∃ sk1, (sparseSk 7 [3] [5]).InsertHash 0 = .ok sk1 ∧
      (sk1.sparse = false ↔
        encodeHash 0 7 pp ∉ [5] ∧ u32 (u32 ([5].length + 1) * 100) > 2 ^ 7 ∧
          u32 (encList (sunion [3] ([5] ++ [encodeHash 0 7 pp]))).Len > 2 ^ 7) :=
  InsertHash_promotes_iff 7 (by decide) [3] [5] (by simp [GoodS]) 0

/-- C28: `toNormal` on a sparse sketch of precision `p ≤ 18` with the entries
`L` in its compressed list and `T` in its temporary set returns a dense sketch
with exactly `2^p` registers, no temporary set and no compressed list;
register `i` is the maximum rank among the entries of `T` and `L` that decode
at precision `p` to index `i`, and 0 when no entry decodes to `i`. -/
theorem toNormal_registers (p : Nat) (hp : p ≤ 18) (L T : List Nat) (h : GoodS L T) :
    ∃ d rs, (sparseSk p L T).toNormal = .ok d ∧ d.regs = some rs ∧ rs.length = 2 ^ p ∧
      d.sparse = false ∧ d.tmpSet = nilSet ∧ d.sparseList = none ∧ d.p = p ∧ d.m = 2 ^ p ∧
      (∀ i, i < 2 ^ p →
        rs.getD i 0 = maxRank ((T ++ L).map fun k => decodeHash k p pp) i) ∧
      ∀ i, i < 2 ^ p → (∀ k ∈ T ++ L, (decodeHash k p pp).1 ≠ i) → rs.getD i 0 = 0 := by
  have key : ∀ i, i < 2 ^ p →
      (regsOf p (sunion L T) (List.replicate (2 ^ p) 0)).getD i 0 =
        maxRank ((T ++ L).map fun k => decodeHash k p pp) i := by
    intro i hi
    rw [regsOf_getD p _ _ i (by simpa using hi), replicate_getD, Nat.zero_max,
      maxRank_sunion, List.map_append, maxRank_append]
  refine ⟨_, _, toNormal_sparseSk p hp L T h, rfl, by simp [regsOf_length], rfl, rfl, rfl,
    rfl, rfl, key, fun i hi hn => ?_⟩
  rw [key i hi]
  apply maxRank_eq_zero
  intro e he
  obtain ⟨k, hk, rfl⟩ := List.mem_map.mp he
  exact hn k hk

/-- C28, an instance: the list entry 3 and the temporary set 81, 7 at
precision 14. -/
theorem toNormal_registers_witness :
    ∃ d rs, (sparseSk 14 [3] [81, 7]).toNormal = .ok d ∧ d.regs = some rs ∧
      rs.length = 2 ^ 14 ∧ d.sparse = false ∧ d.tmpSet = nilSet ∧ d.sparseList = none ∧
      d.p = 14 ∧ d.m = 2 ^ 14 ∧
      (∀ i, i < 2 ^ 14 →
        rs.getD i 0 = maxRank (([81, 7] ++ [3]).map fun k => decodeHash k 14 pp) i) ∧
      ∀ i, i < 2 ^ 14 → (∀ k ∈ [81, 7] ++ [3], (decodeHash k 14 pp).1 ≠ i) → rs.getD i 0 = 0 :=
  toNormal_registers 14 (by decide) [3] [81, 7] (by simp [GoodS])

/-- C29: for every precision `p` in [4, 18] and every list of hashes `xs`,
`NewSketch(p, true)` followed by `InsertHash` of the hashes of `xs` in order
and by the promotion to dense gives the same sketch, with the same register
array, as `NewSketch(p, false)` followed by the same `InsertHash` calls; and
decoding the sparse encoding of any hash at precision `p` gives the index and
the rank that `getPosVal` computes from the hash. -/
theorem sparse_promote_eq_dense (p : Nat) (hp4 : 4 ≤ p) (hp : p ≤ 18) (xs : List Nat) :
    (∃ z sk d z1 d1 rs, NewSketch p true = .ok z ∧ z.InsertHashes xs = .ok sk ∧
      sk.promoted = .ok d ∧ NewSketch p false = .ok z1 ∧ z1.InsertHashes xs = .ok d1 ∧
      d = d1 ∧ d.regs = some rs ∧ d1.regs = some rs ∧ rs.length = 2 ^ p ∧
      ∀ j, j < 2 ^ p → rs.getD j 0 = maxRank (xs.map fun x => getPosVal x p) j) ∧
    ∀ x, decodeHash (encodeHash x p pp) p pp = getPosVal x p := by
  refine ⟨?_, fun x => decode_encode x p hp4 hp⟩
  have e0 : Exact (sparseSk p [] []) p [] :=
    Or.inl ⟨[], [], rfl, ⟨List.sorted_nil, by simp, List.nodup_nil, by simp⟩,
      fun k => by simp [mem_sunion]⟩
  have e1 : Exact (denseSk p (List.replicate (2 ^ p) 0)) p [] :=
    Or.inr ⟨_, rfl, by simp, fun j _ => by rw [replicate_getD]; rfl⟩
  obtain ⟨sk, h1, x1⟩ := Exact_inserts xs _ p hp4 hp [] e0
  obtain ⟨rs, h3, l3, r3⟩ := Exact_promoted sk p hp4 hp _ x1
  have h2 := InsertHashes_dense xs (denseSk p (List.replicate (2 ^ p) 0)) _ rfl rfl
    (by simp [denseSk]) hp
  obtain ⟨l4, r4⟩ := foldl_insert_spec (xs.map fun x => getPosVal x p) (List.replicate (2 ^ p) 0)
  have hrs : rs = (xs.map fun x => getPosVal x p).foldl
      (fun rs e => rs.set e.1 (max e.2 (rs.getD e.1 0))) (List.replicate (2 ^ p) 0) := by
    apply list_ext_getD _ _ (by rw [l3, l4]; simp)
    intro j hj
    rw [l3] at hj
    rw [r3 j hj, r4 j (by simpa using hj), replicate_getD, Nat.zero_max]
    rfl
  rw [NewSketch_ok p hp4 hp true, NewSketch_ok p hp4 hp false]
  refine ⟨_, sk, denseSk p rs, _, denseSk p rs, rs, rfl, h1, h3, rfl, ?_, rfl, rfl, rfl, l3, ?_⟩
  · rw [if_neg (by simp), h2, hrs]
    rfl
  · intro j hj
    rw [r3 j hj]
    rfl

/-- C29, an instance: at precision 14 the hashes 0, 2^38 and 2^63 inserted
into a sparse sketch and promoted, and inserted into a dense sketch. -/
theorem sparse_promote_eq_dense_witness :
    (∃ z sk d z1 d1 rs, NewSketch 14 true = .ok z ∧ z.InsertHashes [0, 2 ^ 38, 2 ^ 63] = .ok sk ∧
      sk.promoted = .ok d ∧ NewSketch 14 false = .ok z1 ∧
      z1.InsertHashes [0, 2 ^ 38, 2 ^ 63] = .ok d1 ∧
      d = d1 ∧ d.regs = some rs ∧ d1.regs = some rs ∧ rs.length = 2 ^ 14 ∧
      ∀ j, j < 2 ^ 14 →
        rs.getD j 0 = maxRank ([0, 2 ^ 38, 2 ^ 63].map fun x => getPosVal x 14) j) ∧
    ∀ x, decodeHash (encodeHash x 14 pp) 14 pp = getPosVal x 14 :=
  sparse_promote_eq_dense 14 (by decide) (by decide) [0, 2 ^ 38, 2 ^ 63]

set_option maxRecDepth 100000 in
/-- C30, failing input: the dense version-2 input `[2, 4, 0, 0, 0, 0, 0, 2]`
followed by 16 bytes of value 7 declares, in the bytes 4 to 7, a register
array of 2 bytes; `UnmarshalBinary` returns nil and installs all 16 following
bytes as registers.  On `[2, 4, 0, 0, 0, 0, 0, 16, 7]` the declared length is
16 and the register array is the one byte that follows. -/
theorem unmarshalBinaryV2_ignores_length :
    Uint32 [0, 0, 0, 2] = .ok 2 ∧
    Sketch.zero.UnmarshalBinary ([2, 4, 0, 0, 0, 0, 0, 2] ++ List.replicate 16 7) =
      .ok (⟨4, 16, [], none, some (List.replicate 16 7)⟩, none) ∧
    Sketch.zero.UnmarshalBinary [2, 4, 0, 0, 0, 0, 0, 16, 7] =
      .ok (⟨4, 16, [], none, some [7]⟩, none) := by
  decide

/-! ## Lemmas for the claims C31 to C36 -/

/-! ### Binary decoding -/

theorem pairs_length {α β : Type} (f g : α → β) (d : List α) :
    (d.flatMap fun v => [f v, g v]).length = 2 * d.length := by
  induction d with
  | nil => rfl
  | cons v d ih =>
    simp only [List.flatMap_cons, List.length_append, ih, List.length_cons, List.length_nil]
    omega

theorem pairs_getD (f g : Nat → Nat) (d : List Nat) (i : Nat) (hi : i < d.length) :
    (d.flatMap fun v => [f v, g v]).getD (2 * i) 0 = f (d.getD i 0) ∧
      (d.flatMap fun v => [f v, g v]).getD (2 * i + 1) 0 = g (d.getD i 0) := by
  induction d generalizing i with
  | nil => simp at hi
  | cons v d ih =>
    cases i with
    | zero => simp [List.flatMap_cons]
    | succ i =>
      have := ih i (by simpa using hi)
      have e1 : 2 * (i + 1) = 2 * i + 1 + 1 := by omega
      have e2 : 2 * (i + 1) + 1 = 2 * i + 1 + 1 + 1 := by omega
      simp only [List.flatMap_cons, List.cons_append, List.nil_append, e1, e2,
        List.getD_cons_succ]
      exact this

theorem high_nibble (v b : Nat) : u8 (u8 (v >>> 4) + b) = (v / 16 + b) % 256 := by
  simp only [u8, Nat.shiftRight_eq_div_pow]
  omega

theorem low_nibble (v b : Nat) :
    u8 (u8 (u8 (v <<< 4) >>> 4) + b) = (v % 16 + b) % 256 := by
  simp only [u8, Nat.shiftRight_eq_div_pow, Nat.shiftLeft_eq]
  omega

/-- The sketch that `UnmarshalBinary` fills: the receiver, or a new sketch
when the receiver has another precision or is in use. -/
theorem fresh_ok (sk : Sketch) (p : Nat) (sparse : Bool)
    (hp : sk.needsNew p = false ∨ (4 ≤ p ∧ p ≤ 18)) :
    ∃ sk1, (if sk.needsNew p then NewSketch p sparse else (.ok sk : Except Error Sketch)) =
      .ok sk1 ∧ sk1.p = p := by
  by_cases hn : sk.needsNew p = true
  · rcases hp with hp | hp
    · rw [hp] at hn
      cases hn
    · rw [if_pos hn, NewSketch_ok p hp.1 hp.2 sparse]
      cases sparse <;> exact ⟨_, rfl, rfl⟩
  · rw [if_neg hn]
    refine ⟨sk, rfl, ?_⟩
    simp only [Sketch.needsNew, Bool.or_eq_true, bne_iff_ne, ne_eq, not_or, not_not] at hn
    exact hn.1.1.1

/-- A round of the loop that reads the temporary set panics when the input
ends before the last entry. -/
theorem readKeys_short (data : List Nat) (n i : Nat) (s : set) (hn : 0 < n)
    (h : data.length < i + 4 * n) : readKeys data n i s = .error .panic := by
  induction n generalizing i s with
  | zero => omega
  | succ n ih =>
    by_cases h4 : i + 4 ≤ data.length
    · have hsub : subslice data i (i + 4) = .ok ((data.take (i + 4)).drop i) := by
        simp [subslice, h4]
      have hlen : ((data.take (i + 4)).drop i).length = 4 := by
        simp only [List.length_drop, List.length_take]
        omega
      obtain ⟨b0, b1, b2, b3, hd⟩ : ∃ b0 b1 b2 b3, (data.take (i + 4)).drop i = [b0, b1, b2, b3] := by
        match hm : (data.take (i + 4)).drop i, hlen with
        | [b0, b1, b2, b3], _ => exact ⟨b0, b1, b2, b3, rfl⟩
      simp only [readKeys, hsub, hd, Uint32]
      exact ih (i + 4) _ (by omega) (by omega)
    · simp [readKeys, subslice, h4]

/-! ### Registers of a dense sketch -/

theorem getD_ge_length (rs : List Nat) (j : Nat) (h : rs.length ≤ j) : rs.getD j 0 = 0 := by
  simp [List.getD_eq_getElem?_getD, List.getElem?_eq_none h]

theorem set_max_ge (rs : List Nat) (i r j : Nat) :
    rs.getD j 0 ≤ (rs.set i (max r (rs.getD i 0))).getD j 0 := by
  by_cases hj : j < rs.length
  · rw [getD_set_max rs i r j hj]
    split
    · exact le_max_right _ _
    · exact le_refl _
  · rw [getD_ge_length rs j (by omega)]
    exact Nat.zero_le _

theorem Grown_refl (s : Sketch) (rs : List Nat) (h : s.regs = some rs) : Grown rs s :=
  ⟨rs, h, rfl, fun _ => le_refl _⟩

/-- A call of `insert` that returns leaves grown registers. -/
theorem Grown_insert (rs : List Nat) (s s1 : Sketch) (i r : Nat) (h : Grown rs s)
    (hi : s.insert i r = .ok s1) : Grown rs s1 := by
  obtain ⟨rs1, h1, h2, h3⟩ := h
  simp only [Sketch.insert, h1] at hi
  split at hi
  · simp only [Except.ok.injEq] at hi
    subst hi
    exact ⟨_, rfl, by simpa using h2, fun j => le_trans (h3 j) (set_max_ge rs1 i r j)⟩
  · simp at hi

theorem Grown_insertKeys (rs : List Nat) (p : Nat) (ks : List Nat) (s s1 : Sketch)
    (h : Grown rs s) (hi : insertKeys p ks s = .ok s1) : Grown rs s1 := by
  induction ks generalizing s with
  | nil =>
    simp only [insertKeys, Except.ok.injEq] at hi
    exact hi ▸ h
  | cons k ks ih =>
    simp only [insertKeys] at hi
    split at hi
    · simp at hi
    · rename_i s2 h2
      exact ih s2 (Grown_insert rs s s2 _ _ h h2) hi

/-- The loop over the registers of a dense argument, when it returns, leaves
as many registers, none smaller. -/
theorem mergeRegsLoop_ge (vs : List Nat) (i : Nat) (regs out : List Nat)
    (h : mergeRegsLoop vs i regs = .ok out) :
    out.length = regs.length ∧ ∀ j, regs.getD j 0 ≤ out.getD j 0 := by
  induction vs generalizing i regs with
  | nil =>
    simp only [mergeRegsLoop, Except.ok.injEq] at h
    subst h
    exact ⟨rfl, fun _ => le_refl _⟩
  | cons v vs ih =>
    simp only [mergeRegsLoop] at h
    split at h
    · rename_i hi
      obtain ⟨h1, h2⟩ := ih _ _ h
      obtain ⟨k1, k2⟩ := mergeStep_spec regs i v hi
      refine ⟨h1.trans k1, fun j => le_trans ?_ (h2 j)⟩
      rw [k2 j]
      split
      · exact le_max_left _ _
      · exact le_refl _
    · simp at h

/-- A call of `mergeDenseSketch` on a dense sketch that returns leaves grown
registers. -/
theorem Grown_mergeDenseSketch (sk o sk1 : Sketch) (rs : List Nat) (hs : sk.sparseList = none)
    (hr : sk.regs = some rs) (h : sk.mergeDenseSketch o = .ok sk1) : Grown rs sk1 := by
  have hsp : sk.sparse = false := by simp [Sketch.sparse, hs]
  simp only [Sketch.mergeDenseSketch, hsp, Bool.false_eq_true, if_false] at h
  cases hl : o.sparseList with
  | some l =>
    simp only [hl] at h
    split at h
    · simp at h
    · rename_i s2 h2
      have g2 := Grown_insertKeys rs _ _ sk s2 (Grown_refl sk rs hr) h2
      exact iterate_keeps (Grown rs) _ (fun s k s1 hs1 hk => Grown_insert rs s s1 _ _ hs1 hk)
        _ _ _ s2 sk1 g2 h
  | none =>
    simp only [hl, hr] at h
    split at h
    · simp only [Except.ok.injEq] at h
      exact h ▸ Grown_refl sk rs hr
    · simp only [Except.ok.injEq] at h
      exact h ▸ Grown_refl sk rs hr
    · split at h
      · simp at h
      · rename_i out ho
        simp only [Except.ok.injEq] at h
        obtain ⟨k1, k2⟩ := mergeRegsLoop_ge _ _ _ _ ho
        exact h ▸ ⟨out, rfl, k1, k2⟩

theorem Grown_Merge (sk sk1 : Sketch) (other : Option Sketch) (e : Option Error)
    (rs : List Nat) (hs : sk.sparseList = none) (hr : sk.regs = some rs)
    (h : sk.Merge other = .ok (sk1, e)) : Grown rs sk1 := by
  have hsp : sk.sparse = false := by simp [Sketch.sparse, hs]
  cases other with
  | none =>
    simp only [Sketch.Merge, Except.ok.injEq, Prod.mk.injEq] at h
    exact h.1 ▸ Grown_refl sk rs hr
  | some o =>
    simp only [Sketch.Merge, hsp, Bool.false_and, Bool.false_eq_true, if_false] at h
    split at h
    · simp only [Except.ok.injEq, Prod.mk.injEq] at h
      exact h.1 ▸ Grown_refl sk rs hr
    · split at h
      · simp at h
      · rename_i s2 h2
        simp only [Except.ok.injEq, Prod.mk.injEq] at h
        exact h.1 ▸ Grown_mergeDenseSketch sk o s2 rs hs hr h2

/-- The register index of a hash is its top `p` bits. -/
theorem getPosVal_fst_top (x p : Nat) (hp : p < 64) :
    (getPosVal x p).1 = x % 2 ^ 64 / 2 ^ (64 - p) := by
  have h1 : (getPosVal x p).1 = bextr x (sub8 64 p) p := rfl
  rw [h1, bextr_eq x _ p hp, sub8_eq 64 p (by omega) (by norm_num)]
  apply Nat.mod_eq_of_lt
  rw [Nat.div_lt_iff_lt_mul (Nat.pos_pow_of_pos _ (by norm_num)), ← pow_add]
  have : p + (64 - p) = 64 := by omega
  rw [this]
  exact Nat.mod_lt _ (by norm_num)

/-! ### The heap against the values -/

theorem getD_set_self {α : Type} (l : List α) (a : Nat) (v d : α) (h : a < l.length) :
    (l.set a v).getD a d = v := by
  simp [List.getD_eq_getElem?_getD, List.getElem?_set, h]

theorem getD_lt_of_ne {α : Type} (l : List (List α)) (a : Nat) (h : l.getD a [] ≠ []) :
    a < l.length := by
  by_contra c
  exact h (by simp [List.getD_eq_getElem?_getD, List.getElem?_eq_none (not_lt.1 c)])

theorem getD_append_self {α : Type} (l : List α) (v d : α) : (l ++ [v]).getD l.length d = v := by
  simp [List.getD_eq_getElem?_getD]

/-- Simulation of a loop over a compressed list: when every step of one loop
that returns is matched by a step of the other, a run that returns is
matched by a run of the other. -/
theorem iterate_sim {σ τ : Type} (R : σ → τ → Prop) (f : σ → Nat → Except Abort σ)
    (g : τ → Nat → Except Abort τ)
    (hfg : ∀ a b k b1, R a b → g b k = .ok b1 → ∃ a1, f a k = .ok a1 ∧ R a1 b1)
    (fuel : Nat) (rest : List Nat) (last : Nat) (a : σ) (b b1 : τ) (hr : R a b)
    (hg : iterate g fuel rest last b = .ok b1) :
    ∃ a1, iterate f fuel rest last a = .ok a1 ∧ R a1 b1 := by
  induction fuel generalizing rest last a b with
  | zero =>
    cases rest with
    | nil =>
      simp only [iterate, Except.ok.injEq] at hg ⊢
      exact ⟨a, rfl, hg ▸ hr⟩
    | cons x xs => simp [iterate] at hg
  | succ n ih =>
    cases rest with
    | nil =>
      simp only [iterate, Except.ok.injEq] at hg ⊢
      exact ⟨a, rfl, hg ▸ hr⟩
    | cons x xs =>
      simp only [iterate] at hg ⊢
      cases hd : compressedList.decode (x :: xs) last with
      | error e => simp [hd] at hg
      | ok v =>
        obtain ⟨k, rest1⟩ := v
        simp only [hd] at hg ⊢
        cases hs : g b k with
        | error e => simp [hs] at hg
        | ok b2 =>
          simp only [hs] at hg
          obtain ⟨a2, h1, h2⟩ := hfg a b k b2 hr hs
          simp only [h1]
          exact ih rest1 k a2 b2 h2 hg

theorem Rep_view (h : Heap) (sk : Nat) (s : Sketch) (hr : h.Rep sk s) : h.view sk = some s := by
  obtain ⟨r, h1, h2, _⟩ := hr
  simp [Heap.view, h1, h2]

/-- In a well-formed heap a sketch is sparse exactly when its `sparseList`
pointer is not nil. -/
theorem sparse_iff (h : Heap) (sk : Nat) (r : RSketch) (hw : h.WF)
    (hr : h.sketches[sk]? = some r) : (h.load r).sparse = r.sparseList.isSome := by
  simp only [Heap.load, Sketch.sparse, Heap.sparseList]
  cases ha : r.sparseList with
  | none => rfl
  | some a =>
    have := (hw.1 sk r hr).2.2 a ha
    simp [List.getElem?_eq_getElem this]

/-- A call of `insert` that returns on the value returns on the heap. -/
theorem sim_insert (h : Heap) (sk : Nat) (s s1 : Sketch) (i v : Nat) (hr : h.Rep sk s)
    (hp : s.insert i v = .ok s1) :
    ∃ h1, h.insert sk i v = .ok h1 ∧ h1.Rep sk s1 ∧ s1.p = s.p := by
  obtain ⟨r, h1, h2, h3⟩ := hr
  subst h2
  simp only [Sketch.insert, Heap.load, Heap.regs] at hp
  cases ha : r.regs with
  | none => simp [ha] at hp
  | some a =>
    simp only [ha, Option.map_some'] at hp
    split at hp
    · rename_i hi
      simp only [Except.ok.injEq] at hp
      subst hp
      have hlt : a < h.arrs.length := getD_lt_of_ne _ _ (fun e => by rw [e] at hi; simp at hi)
      have hx : h.insert sk i v = .ok
          { h with
            arrs := h.arrs.set a
              ((h.arrs.getD a []).set i (max v ((h.arrs.getD a []).getD i 0))) } := by
        simp only [Heap.insert, h1, ha, hi, if_true]
      refine ⟨_, hx, ⟨r, h1, ?_, h3⟩, rfl⟩
      simp only [Heap.load, Heap.regs, Heap.tmpSet, Heap.sparseList, ha, Option.map_some',
        getD_set_self _ _ _ _ hlt]
    · simp at hp

theorem sim_insertKeys (p : Nat) (ks : List Nat) (h : Heap) (sk : Nat) (s s1 : Sketch)
    (hr : h.Rep sk s) (hp : insertKeys p ks s = .ok s1) :
    ∃ h1, Heap.insertKeys sk p ks h = .ok h1 ∧ h1.Rep sk s1 ∧ s1.p = s.p := by
  induction ks generalizing h s with
  | nil =>
    simp only [insertKeys, Except.ok.injEq] at hp
    exact ⟨h, rfl, hp ▸ hr, hp ▸ rfl⟩
  | cons k ks ih =>
    simp only [insertKeys] at hp
    cases hi : s.insert (decodeHash k p pp).1 (decodeHash k p pp).2 with
    | error e => simp [hi] at hp
    | ok s2 =>
      simp only [hi] at hp
      obtain ⟨h2, x1, x2, x3⟩ := sim_insert h sk s s2 _ _ hr hi
      obtain ⟨h3, y1, y2, y3⟩ := ih h2 s2 x2 hp
      exact ⟨h3, by simp only [Heap.insertKeys, x1, y1], y2, y3.trans x3⟩

/-- The loop that inserts the entries of a compressed list, decoded at the
precision `p`. -/
theorem sim_iterate_insert (p : Nat) (fuel : Nat) (rest : List Nat) (last : Nat) (h : Heap)
    (sk : Nat) (s s1 : Sketch) (hr : h.Rep sk s)
    (hp : iterate (fun (t : Sketch) k =>
      t.insert (decodeHash k p pp).1 (decodeHash k p pp).2) fuel rest last s = .ok s1) :
    ∃ h1, iterate (fun (hh : Heap) k =>
      hh.insert sk (decodeHash k p pp).1 (decodeHash k p pp).2) fuel rest last h = .ok h1 ∧
      h1.Rep sk s1 ∧ s1.p = s.p := by
  have := iterate_sim (fun (hh : Heap) (t : Sketch) => hh.Rep sk t ∧ t.p = s.p)
    (fun (hh : Heap) k => hh.insert sk (decodeHash k p pp).1 (decodeHash k p pp).2)
    (fun (t : Sketch) k => t.insert (decodeHash k p pp).1 (decodeHash k p pp).2)
    (fun a b k b1 hab hb => by
      obtain ⟨a1, x1, x2, x3⟩ := sim_insert a sk b b1 _ _ hab.1 hb
      exact ⟨a1, x1, x2, x3.trans hab.2⟩)
    fuel rest last h s s1 ⟨hr, rfl⟩ hp
  obtain ⟨h1, x1, x2, x3⟩ := this
  exact ⟨h1, x1, x2, x3⟩

/-- A call of `mergeSparse` that returns on the value returns on the heap. -/
theorem sim_mergeSparse (h : Heap) (sk : Nat) (s s1 : Sketch) (hr : h.Rep sk s)
    (hp : s.mergeSparse = .ok s1) :
    ∃ h1, h.mergeSparse sk = .ok h1 ∧ h1.Rep sk s1 ∧ s1.p = s.p ∧ s1.m = s.m := by
  obtain ⟨r, h1, h2, h3⟩ := hr
  subst h2
  have hsk := lt_of_getElem? _ _ _ h1
  simp only [Sketch.mergeSparse, Heap.load] at hp
  by_cases hl : set.Len (h.tmpSet r) = 0
  · simp only [hl, if_true, Except.ok.injEq] at hp
    subst hp
    exact ⟨h, by simp only [Heap.mergeSparse, h1, hl, if_true], ⟨r, h1, rfl, h3⟩, rfl, rfl⟩
  · simp only [hl, if_false] at hp
    cases hsl : h.sparseList r with
    | none => simp [hsl] at hp
    | some l =>
      simp only [hsl] at hp
      cases hm : mergeSparseLoop (l.b.length + (List.insertionSort (· ≤ ·) (h.tmpSet r)).length)
          l.b 0 (List.insertionSort (· ≤ ·) (h.tmpSet r))
          (newCompressedList (4 * set.Len (h.tmpSet r) + l.Len)) with
      | error e =>
        rw [hm] at hp
        cases hp
      | ok newList =>
        rw [hm] at hp
        simp only [Except.ok.injEq] at hp
        subst hp
        have hx : h.mergeSparse sk = .ok
            { h with
              lists := h.lists ++ [newList]
              sets := h.sets ++ [makeSet 0]
              sketches := h.sketches.set sk
                { r with sparseList := some h.lists.length, tmpSet := some h.sets.length } } := by
          simp only [Heap.mergeSparse, h1, hl, if_false, hsl, hm]
        refine ⟨_, hx,
          ⟨{ r with sparseList := some h.lists.length, tmpSet := some h.sets.length },
            by simp [hsk], ?_, fun _ => rfl⟩, rfl, rfl⟩
        simp only [Heap.load, Heap.tmpSet, Heap.sparseList, Heap.regs, getD_append_self,
          List.getElem?_concat_length]

/-- The loop of `toNormal` decodes at the precision of the sketch, which the
loop does not change. -/
theorem iterate_fixed_p (p fuel : Nat) (rest : List Nat) (last : Nat) (s s1 : Sketch)
    (hs : s.p = p)
    (hp : iterate (fun (t : Sketch) k =>
      t.insert (decodeHash k t.p pp).1 (decodeHash k t.p pp).2) fuel rest last s = .ok s1) :
    iterate (fun (t : Sketch) k =>
      t.insert (decodeHash k p pp).1 (decodeHash k p pp).2) fuel rest last s = .ok s1 := by
  obtain ⟨a1, x1, x2, _⟩ := iterate_sim (fun (a b : Sketch) => a = b ∧ b.p = p)
    (fun (t : Sketch) k => t.insert (decodeHash k p pp).1 (decodeHash k p pp).2)
    (fun (t : Sketch) k => t.insert (decodeHash k t.p pp).1 (decodeHash k t.p pp).2)
    (fun a b k b1 hab hb => by
      obtain ⟨rfl, hbp⟩ := hab
      simp only [hbp] at hb
      refine ⟨b1, hb, rfl, ?_⟩
      simp only [Sketch.insert] at hb
      split at hb
      · cases hb
      · split at hb
        · simp only [Except.ok.injEq] at hb
          rw [← hb]
          exact hbp
        · cases hb)
    fuel rest last s s s1 ⟨rfl, hs⟩ hp
  rw [x1, x2]

/-- A call of `toNormal` that returns on the value returns on the heap. -/
theorem sim_toNormal (h : Heap) (sk : Nat) (s s1 : Sketch) (hr : h.Rep sk s)
    (hp : s.toNormal = .ok s1) :
    ∃ h1, h.toNormal sk = .ok h1 ∧ h1.Rep sk s1 ∧ s1.p = s.p := by
  have hr0 := hr
  obtain ⟨r, h1, h2, h3⟩ := hr
  simp only [Sketch.toNormal] at hp
  -- the merge of the temporary set
  cases hA : (if set.Len s.tmpSet > 0 then s.mergeSparse else .ok s) with
  | error e => simp [hA] at hp
  | ok sA =>
    simp only [hA] at hp
    have hstep : ∃ hA1, (if set.Len (h.tmpSet r) > 0 then h.mergeSparse sk else .ok h) = .ok hA1 ∧
        hA1.Rep sk sA ∧ sA.p = s.p := by
      have ht : h.tmpSet r = s.tmpSet := by rw [← h2]; rfl
      rw [ht]
      by_cases c : set.Len s.tmpSet > 0
      · rw [if_pos c] at hA ⊢
        obtain ⟨hA1, x1, x2, x3, _⟩ := sim_mergeSparse h sk s sA hr0 hA
        exact ⟨hA1, x1, x2, x3⟩
      · rw [if_neg c] at hA ⊢
        simp only [Except.ok.injEq] at hA
        subst hA
        exact ⟨h, rfl, hr0, rfl⟩
    obtain ⟨hA1, eA, ⟨r1, k1, k2, k3⟩, pA⟩ := hstep
    have hsk := lt_of_getElem? _ _ _ k1
    -- the new register array
    split at hp
    · cases hp
    · rename_i l hl
      split at hp
      · cases hp
      · rename_i s3 hit
        simp only [Except.ok.injEq] at hp
        subst hp
        have hrep2 : Heap.Rep
            { hA1 with
              arrs := hA1.arrs ++ [List.replicate r1.m 0]
              sketches := hA1.sketches.set sk { r1 with regs := some hA1.arrs.length } }
            sk { sA with regs := some (List.replicate sA.m 0) } := by
          refine ⟨{ r1 with regs := some hA1.arrs.length }, by simp [hsk], ?_, k3⟩
          rw [← k2]
          simp only [Heap.load, Heap.tmpSet, Heap.sparseList, Heap.regs, Option.map_some',
            getD_append_self]
        have hl2 : Heap.sparseList
            { hA1 with
              arrs := hA1.arrs ++ [List.replicate r1.m 0]
              sketches := hA1.sketches.set sk { r1 with regs := some hA1.arrs.length } }
            { r1 with regs := some hA1.arrs.length } = some l := by
          rw [← hl, ← k2]
          rfl
        have hp1 : sA.p = r1.p := by rw [← k2]; rfl
        have hit1 := iterate_fixed_p r1.p _ _ _
          { sA with regs := some (List.replicate sA.m 0) } _ hp1 hit
        obtain ⟨h3a, y1, ⟨r3, z1, z2, z3⟩, y3⟩ := sim_iterate_insert r1.p _ _ _ _ sk _ s3 hrep2 hit1
        have hsk3 := lt_of_getElem? _ _ _ z1
        have hx : h.toNormal sk = .ok
            { h3a with
              sketches := h3a.sketches.set sk { r3 with tmpSet := none, sparseList := none } } := by
          simp only [Heap.toNormal, h1, eA, k1, hl2, y1, z1]
        refine ⟨_, hx, ⟨{ r3 with tmpSet := none, sparseList := none }, by simp [hsk3], ?_,
          fun c => by simp at c⟩, ?_⟩
        · rw [← z2]
          simp only [Heap.load, Heap.tmpSet, Heap.sparseList, Heap.regs]
        · exact y3.trans pA

/-- A call of `maybeToNormal` that returns on the value returns on the heap. -/
theorem sim_maybeToNormal (h : Heap) (sk : Nat) (s s1 : Sketch) (hr : h.Rep sk s)
    (hp : s.maybeToNormal = .ok s1) :
    ∃ h1, h.maybeToNormal sk = .ok h1 ∧ h1.Rep sk s1 ∧ s1.p = s.p := by
  have hr0 := hr
  obtain ⟨r, h1, h2, h3⟩ := hr
  have ht : h.tmpSet r = s.tmpSet := by rw [← h2]; rfl
  have hm : r.m = s.m := by rw [← h2]; rfl
  simp only [Sketch.maybeToNormal] at hp
  by_cases c : u32 (u32 (set.Len s.tmpSet) * 100) > s.m
  · rw [if_pos c] at hp
    split at hp
    · cases hp
    · rename_i sA hA
      obtain ⟨hA1, x1, x2, _, _⟩ := sim_mergeSparse h sk s sA hr0 hA
      obtain ⟨r1, k1, k2, k3⟩ := x2
      have hl1 : hA1.sparseList r1 = sA.sparseList := by rw [← k2]; rfl
      have hm1 : r1.m = sA.m := by rw [← k2]; rfl
      split at hp
      · cases hp
      · rename_i l hl
        by_cases c2 : u32 l.Len > sA.m
        · rw [if_pos c2] at hp
          obtain ⟨hB, y1, y2, y3⟩ := sim_toNormal hA1 sk sA s1 ⟨r1, k1, k2, k3⟩ hp
          refine ⟨hB, ?_, y2, ?_⟩
          · simp only [Heap.maybeToNormal, h1, ht, hm, c, if_true, x1, k1, hl1, hl, hm1, c2, y1]
          · rw [y3]
            simp only [Sketch.mergeSparse] at hA
            split at hA
            · simp only [Except.ok.injEq] at hA
              rw [hA]
            · split at hA
              · cases hA
              · split at hA
                · cases hA
                · simp only [Except.ok.injEq] at hA
                  rw [← hA]
        · rw [if_neg c2] at hp
          simp only [Except.ok.injEq] at hp
          subst hp
          refine ⟨hA1, ?_, ⟨r1, k1, k2, k3⟩, ?_⟩
          · simp only [Heap.maybeToNormal, h1, ht, hm, c, if_true, x1, k1, hl1, hl, hm1, c2,
              if_false]
          · obtain ⟨_, _, _, q, _⟩ := sim_mergeSparse h sk s sA hr0 hA
            exact q
  · rw [if_neg c] at hp
    simp only [Except.ok.injEq] at hp
    subst hp
    exact ⟨h, by simp only [Heap.maybeToNormal, h1, ht, hm, c, if_false], hr0, rfl⟩

/-- Writing the map of the temporary set of a sketch in place changes its
value in the temporary set only. -/
theorem load_set (h : Heap) (r : RSketch) (t : Nat) (v : set) (ht : r.tmpSet = some t)
    (hlt : t < h.sets.length) :
    Heap.load { h with sets := h.sets.set t v } r = { h.load r with tmpSet := v } := by
  simp only [Heap.load, Heap.tmpSet, Heap.sparseList, Heap.regs, ht, getD_set_self _ _ _ _ hlt]

/-- A call of `mergeSparseSketch` on a sparse sketch that returns on the values
returns on the heap. -/
theorem sim_mergeSparseSketch (h : Heap) (sk other : Nat) (s o s1 : Sketch) (hw : h.WF)
    (hr : h.Rep sk s) (ho : h.view other = some o) (hs : s.sparse = true)
    (hp : s.mergeSparseSketch o = .ok s1) :
    ∃ h1, h.mergeSparseSketch sk other = .ok h1 ∧ h1.Rep sk s1 ∧ s1.p = s.p := by
  obtain ⟨r, h1, h2, h3⟩ := hr
  obtain ⟨ro, g1, g2⟩ : ∃ ro, h.sketches[other]? = some ro ∧ h.load ro = o := by
    simp only [Heap.view, Option.map_eq_some'] at ho
    exact ho
  have hsp : r.sparseList.isSome = true := by
    rw [← sparse_iff h sk r hw h1, h2]
    exact hs
  obtain ⟨t, ht⟩ := Option.isSome_iff_exists.1 (h3 hsp)
  have hlt : t < h.sets.length := (hw.1 sk r h1).2.1 t ht
  have hts : h.sets.getD t [] = s.tmpSet := by
    rw [← h2]
    simp only [Heap.load, Heap.tmpSet, ht]
  simp only [Sketch.mergeSparseSketch] at hp
  split at hp
  · cases hp
  · rename_i l hl
    split at hp
    · cases hp
    · rename_i s2 hit
      have hl1 : Heap.sparseList
          { h with sets := h.sets.set t (set.Merge (h.sets.getD t []) (h.tmpSet ro)) } ro =
          some l := by
        rw [← hl, ← g2]
        rfl
      obtain ⟨h2a, y1, y2⟩ := iterate_sim
        (fun (hh : Heap) (u : Sketch) =>
          hh.sketches[sk]? = some r ∧ hh.load r = u ∧ t < hh.sets.length)
        (fun (hh : Heap) k =>
          match hh.add r.tmpSet k with
          | .error e => .error e
          | .ok (hh1, _) => .ok hh1)
        (fun (u : Sketch) k => .ok { u with tmpSet := (set.add u.tmpSet k).1 })
        (fun a b k b1 hab hb => by
          obtain ⟨q1, q2, q3⟩ := hab
          simp only [Except.ok.injEq] at hb
          subst hb
          refine ⟨{ a with sets := a.sets.set t (set.add (a.sets.getD t []) k).1 },
            by simp only [Heap.add, ht], q1, ?_, by simpa using q3⟩
          rw [load_set a r t _ ht q3, ← q2]
          simp only [Heap.load, Heap.tmpSet, ht])
        l.b.length l.b 0
        { h with sets := h.sets.set t (set.Merge (h.sets.getD t []) (h.tmpSet ro)) }
        { s with tmpSet := set.Merge s.tmpSet o.tmpSet } s2
        ⟨h1, by
          rw [load_set h r t _ ht hlt, h2, hts, ← g2]
          rfl, by simpa using hlt⟩ hit
      obtain ⟨h3a, z1, z2, z3⟩ := sim_maybeToNormal h2a sk s2 s1 ⟨r, y2.1, y2.2.1, h3⟩ hp
      simp only [ht] at y1
      refine ⟨h3a, ?_, z2, ?_⟩
      · simp only [Heap.mergeSparseSketch, h1, g1, Heap.setMerge, ht, hl1]
        have step : ∀ x : Except Abort Heap, x = .ok h2a →
            (match x with
              | .error e => Except.error e
              | .ok hh => hh.maybeToNormal sk) = .ok h3a := by
          intro x hx
          subst hx
          exact z1
        exact step _ y1
      · rw [z3]
        exact iterate_keeps (fun (u : Sketch) => u.p = s.p)
          (fun (u : Sketch) k => .ok { u with tmpSet := (set.add u.tmpSet k).1 })
          (fun u k u1 hu hk => by
            have hk1 := Except.ok.inj hk
            rw [← hk1]
            exact hu) _ _ _ { s with tmpSet := set.Merge s.tmpSet o.tmpSet } s2 rfl hit

/-- A call of `mergeDenseSketch` that returns on the values returns on the heap,
for an argument that is another sketch. -/
theorem sim_mergeDenseSketch (h : Heap) (sk other : Nat) (s o s1 : Sketch) (hw : h.WF)
    (hne : other ≠ sk) (hr : h.Rep sk s) (ho : h.view other = some o)
    (hp : s.mergeDenseSketch o = .ok s1) :
    ∃ h1, h.mergeDenseSketch sk other = .ok h1 ∧ h1.Rep sk s1 := by
  have hr0 := hr
  obtain ⟨r, h1, h2, h3⟩ := hr
  obtain ⟨ro, g1, g2⟩ : ∃ ro, h.sketches[other]? = some ro ∧ h.load ro = o := by
    simp only [Heap.view, Option.map_eq_some'] at ho
    exact ho
  have hsp : s.sparse = r.sparseList.isSome := by rw [← h2]; exact sparse_iff h sk r hw h1
  simp only [Sketch.mergeDenseSketch] at hp
  split at hp
  · cases hp
  · rename_i sA hA
    -- the promotion of the receiver
    have hstep : ∃ hA1, (if r.sparseList.isSome then h.toNormal sk else .ok h) = .ok hA1 ∧
        hA1.Rep sk sA ∧ hA1.WF ∧ hA1.sketches[other]? = some ro ∧ hA1.load ro = o := by
      rw [hsp] at hA
      by_cases c : r.sparseList.isSome = true
      · rw [if_pos c] at hA ⊢
        obtain ⟨hA1, x1, x2, _⟩ := sim_toNormal h sk s sA hr0 hA
        obtain ⟨w1, w2⟩ := frame_toNormal h hA1 sk hw x1
        obtain ⟨w3, w4⟩ := w2.2 other ro hne g1
        exact ⟨hA1, x1, x2, w1, w3, w4.trans g2⟩
      · rw [if_neg c] at hA ⊢
        simp only [Except.ok.injEq] at hA
        subst hA
        exact ⟨h, rfl, hr0, hw, g1, g2⟩
    obtain ⟨hA1, eA, repA, wA, gA1, gA2⟩ := hstep
    obtain ⟨r1, k1, k2, k3⟩ := repA
    have hso : o.sparse = ro.sparseList.isSome := by
      rw [← gA2]
      exact sparse_iff hA1 other ro wA gA1
    have hol : hA1.sparseList ro = o.sparseList := by rw [← gA2]; rfl
    have hot : hA1.tmpSet ro = o.tmpSet := by rw [← gA2]; rfl
    have hor : hA1.regs ro = o.regs := by rw [← gA2]; rfl
    have hop : ro.p = o.p := by rw [← gA2]; rfl
    split at hp
    · -- a sparse argument
      rename_i l hl
      have c : ro.sparseList.isSome = true := by
        rw [← hso]
        simp [Sketch.sparse, hl]
      split at hp
      · cases hp
      · rename_i s2 hk
        obtain ⟨h2a, y1, y2, _⟩ := sim_insertKeys o.p o.tmpSet hA1 sk sA s2 ⟨r1, k1, k2, k3⟩ hk
        obtain ⟨h3a, z1, z2, _⟩ := sim_iterate_insert o.p _ _ _ h2a sk s2 s1 y2 hp
        refine ⟨h3a, ?_, z2⟩
        simp only [Heap.mergeDenseSketch, h1, eA, k1, gA1, c, if_true, hol, hl, hot, hop, y1, z1]
    · -- a dense argument
      rename_i hl
      have c : ro.sparseList.isSome = false := by
        rw [← hso]
        simp [Sketch.sparse, hl]
      split at hp
      · rename_i hreg
        simp only [Except.ok.injEq] at hp
        subst hp
        refine ⟨hA1, ?_, ⟨r1, k1, k2, k3⟩⟩
        simp only [Heap.mergeDenseSketch, h1, eA, k1, gA1, c, Bool.false_eq_true, if_false, hor, hreg]
      · rename_i hreg
        simp only [Except.ok.injEq] at hp
        subst hp
        refine ⟨hA1, ?_, ⟨r1, k1, k2, k3⟩⟩
        simp only [Heap.mergeDenseSketch, h1, eA, k1, gA1, c, Bool.false_eq_true, if_false, hor, hreg]
      · rename_i v vs hreg
        split at hp
        · cases hp
        · rename_i rs hrs
          split at hp
          · cases hp
          · rename_i out hout
            simp only [Except.ok.injEq] at hp
            subst hp
            have hrs1 : hA1.regs r1 = some rs := by rw [← hrs, ← k2]; rfl
            obtain ⟨a, ha, hga⟩ : ∃ a, r1.regs = some a ∧ hA1.arrs.getD a [] = rs := by
              simp only [Heap.regs, Option.map_eq_some'] at hrs1
              exact hrs1
            have hlt : a < hA1.arrs.length := (wA.1 sk r1 k1).1 a ha
            have hx : h.mergeDenseSketch sk other = .ok { hA1 with arrs := hA1.arrs.set a out } := by
              simp only [Heap.mergeDenseSketch, h1, eA, k1, gA1, c, Bool.false_eq_true, if_false, hor, hreg, ha,
                hga,
                hout]
            refine ⟨_, hx, ⟨r1, k1, ?_, k3⟩⟩
            rw [← k2]
            simp only [Heap.load, Heap.tmpSet, Heap.sparseList, Heap.regs, ha, Option.map_some',
              getD_set_self _ _ _ _ hlt]

/-- A call of `Merge` that returns on the values returns on the heap, with the
same error value, for an argument that is another sketch. -/
theorem sim_Merge (h : Heap) (sk other : Nat) (s o s1 : Sketch) (e : Option Error) (hw : h.WF)
    (hne : other ≠ sk) (hr : h.Rep sk s) (ho : h.view other = some o)
    (hp : s.Merge (some o) = .ok (s1, e)) :
    ∃ h1, h.Merge sk (some other) = .ok (h1, e) ∧ h1.Rep sk s1 := by
  have hr0 := hr
  obtain ⟨r, h1, h2, h3⟩ := hr
  obtain ⟨ro, g1, g2⟩ : ∃ ro, h.sketches[other]? = some ro ∧ h.load ro = o := by
    simp only [Heap.view, Option.map_eq_some'] at ho
    exact ho
  have hsp : s.sparse = r.sparseList.isSome := by rw [← h2]; exact sparse_iff h sk r hw h1
  have hso : o.sparse = ro.sparseList.isSome := by rw [← g2]; exact sparse_iff h other ro hw g1
  have hrp : r.p = s.p := by rw [← h2]; rfl
  have hop : ro.p = o.p := by rw [← g2]; rfl
  simp only [Sketch.Merge] at hp
  by_cases c : s.p ≠ o.p
  · rw [if_pos c] at hp
    simp only [Except.ok.injEq, Prod.mk.injEq] at hp
    obtain ⟨rfl, rfl⟩ := hp
    refine ⟨h, ?_, hr0⟩
    simp only [Heap.Merge, h1, g1, hrp, hop]
    rw [if_pos c]
  · rw [if_neg c] at hp
    split at hp
    · cases hp
    · rename_i s2 hm
      simp only [Except.ok.injEq, Prod.mk.injEq] at hp
      obtain ⟨rfl, rfl⟩ := hp
      by_cases c2 : (s.sparse && o.sparse) = true
      · rw [if_pos c2] at hm
        have cs : s.sparse = true := by
          simp only [Bool.and_eq_true] at c2
          exact c2.1
        obtain ⟨h1a, x1, x2, _⟩ := sim_mergeSparseSketch h sk other s o s2 hw hr0 ho cs hm
        refine ⟨h1a, ?_, x2⟩
        rw [hsp, hso] at c2
        simp only [Heap.Merge, h1, g1, hrp, hop]
        rw [if_neg c, if_pos c2, x1]
      · rw [if_neg c2] at hm
        obtain ⟨h1a, x1, x2⟩ := sim_mergeDenseSketch h sk other s o s2 hw hne hr0 ho hm
        refine ⟨h1a, ?_, x2⟩
        rw [hsp, hso] at c2
        simp only [Heap.Merge, h1, g1, hrp, hop]
        rw [if_neg c, if_neg c2, x1]

/-- The heap `exHeapTwo` is well formed. -/
theorem exHeapTwo_WF : exHeapTwo.WF :=
  (frame_InsertHash exHeapMid exHeapTwo 1 (7 <<< 59)
    (NewSketch_WF exHeap exHeapMid 4 false 1
      (frame_InsertHash exHeapNew exHeap 0 (5 <<< 60)
        (NewSketch_WF Heap.empty exHeapNew 4 true 0 WF_empty (by decide)) (by decide)).1
      (by decide)) (by decide)).1

/-! ## Claims C31 to C36 -/

/-- C31, counterexample: the nine bytes 1, 3, 0, 0, 0, 0, 0, 0, 18 are a dense
version-1 input with one payload byte, and their precision byte is 3.  On a
zero sketch `UnmarshalBinary` asks `NewSketch(3, false)` for a new sketch,
returns its error and leaves the receiver as it was: no register is decoded
from the payload byte. -/
theorem UnmarshalBinary_precision_checked :
    ([1, 3, 0, 0, 0, 0, 0, 0, 18] : List Nat).length = 9 ∧
      Sketch.zero.needsNew 3 = true ∧
      NewSketch 3 false = .error .precisionRange ∧
      Sketch.zero.UnmarshalBinary [1, 3, 0, 0, 0, 0, 0, 0, 18] =
        .ok (Sketch.zero, some .precisionRange) ∧
      Sketch.zero.regs = none := by
  decide

/-- C31, amended: let the input have at least 8 bytes, version byte 1 and a
byte 3 other than 1 (a dense payload).  When the receiver cannot be reused
and the precision byte lies outside [4, 18], `UnmarshalBinary` returns the
error of `NewSketch` and leaves the receiver unchanged.  In every other case
(the receiver is reused, or the precision byte lies in [4, 18]) it returns
nil and leaves a dense sketch with two registers for each of the
`k = len(data) - 8` payload bytes: register `2i` is the high nibble of
payload byte `i` (the byte divided by 16) plus the base byte `b = data[2]`,
register `2i + 1` is its low nibble (the byte modulo 16) plus `b`, both
modulo 256. -/
theorem unmarshalBinaryV1_expands (sk : Sketch) (data : List Nat) (hl : 8 ≤ data.length)
    (hv : data.getD 0 0 = 1) (hd : data.getD 3 0 ≠ 1) :
    (sk.needsNew (data.getD 1 0) = true ∧ (data.getD 1 0 < 4 ∨ 18 < data.getD 1 0) →
      sk.UnmarshalBinary data = .ok (sk, some .precisionRange)) ∧
    (sk.needsNew (data.getD 1 0) = false ∨ (4 ≤ data.getD 1 0 ∧ data.getD 1 0 ≤ 18) →
      ∃ sk1 rs, sk.UnmarshalBinary data = .ok (sk1, none) ∧ sk1.regs = some rs ∧
        sk1.sparseList = none ∧ sk1.tmpSet = nilSet ∧ sk1.p = data.getD 1 0 ∧
        rs.length = 2 * (data.length - 8) ∧
        ∀ i, i < data.length - 8 →
          rs.getD (2 * i) 0 = (data.getD (8 + i) 0 / 16 + data.getD 2 0) % 256 ∧
          rs.getD (2 * i + 1) 0 = (data.getD (8 + i) 0 % 16 + data.getD 2 0) % 256) := by
  have hl' : ¬ data.length < 8 := by omega
  refine ⟨fun ⟨hn, hr⟩ => ?_, fun hp => ?_⟩
  · have he : NewSketch (data.getD 1 0) false = .error .precisionRange := by
      rw [NewSketch, if_pos hr]
    simp only [Sketch.UnmarshalBinary, hl', if_false, hd, decide_False, hn, if_true, he]
  · obtain ⟨sk1, h1, hp1⟩ := fresh_ok sk (data.getD 1 0) false hp
    simp only [Sketch.UnmarshalBinary, hl', if_false, hd, decide_False, h1, Bool.false_eq_true,
      hv, if_true, Sketch.unmarshalBinaryV1]
    refine ⟨_, _, rfl, rfl, rfl, rfl, hp1, ?_, fun i hi => ?_⟩
    · rw [pairs_length, List.length_drop]
    · have hi' : i < (data.drop 8).length := by rw [List.length_drop]; exact hi
      obtain ⟨e1, e2⟩ := pairs_getD (fun v => u8 (u8 (v >>> 4) + data.getD 2 0))
        (fun v => u8 (u8 (u8 (v <<< 4) >>> 4) + data.getD 2 0)) (data.drop 8) i hi'
      have hg : (data.drop 8).getD i 0 = data.getD (8 + i) 0 := by
        simp [List.getD_eq_getElem?_getD, List.getElem?_drop]
      rw [e1, e2, hg, high_nibble, low_nibble]
      exact ⟨rfl, rfl⟩

/-- C31, an instance: the version-1 payload bytes 0x12 and 0xf3 with base 2
on a zero sketch of precision 0 are expanded to four registers, and the same
bytes with the precision byte 3 are refused with the zero sketch unchanged. -/
theorem unmarshalBinaryV1_expands_witness :
    (∃ sk1 rs, Sketch.zero.UnmarshalBinary [1, 0, 2, 0, 0, 0, 0, 0, 18, 243] = .ok (sk1, none) ∧
      sk1.regs = some rs ∧ sk1.sparseList = none ∧ sk1.tmpSet = nilSet ∧
      sk1.p = [1, 0, 2, 0, 0, 0, 0, 0, 18, 243].getD 1 0 ∧
      rs.length = 2 * ([1, 0, 2, 0, 0, 0, 0, 0, 18, 243].length - 8) ∧
      ∀ i, i < [1, 0, 2, 0, 0, 0, 0, 0, 18, 243].length - 8 →
        rs.getD (2 * i) 0 = ([1, 0, 2, 0, 0, 0, 0, 0, 18, 243].getD (8 + i) 0 / 16 +
          [1, 0, 2, 0, 0, 0, 0, 0, 18, 243].getD 2 0) % 256 ∧
        rs.getD (2 * i + 1) 0 = ([1, 0, 2, 0, 0, 0, 0, 0, 18, 243].getD (8 + i) 0 % 16 +
          [1, 0, 2, 0, 0, 0, 0, 0, 18, 243].getD 2 0) % 256) ∧
      Sketch.zero.UnmarshalBinary [1, 3, 2, 0, 0, 0, 0, 0, 18, 243] =
        .ok (Sketch.zero, some .precisionRange) :=
  ⟨(unmarshalBinaryV1_expands Sketch.zero [1, 0, 2, 0, 0, 0, 0, 0, 18, 243] (by decide)
      (by decide) (by decide)).2 (Or.inl (by decide)),
    (unmarshalBinaryV1_expands Sketch.zero [1, 3, 2, 0, 0, 0, 0, 0, 18, 243] (by decide)
      (by decide) (by decide)).1 ⟨by decide, Or.inl (by decide)⟩⟩

set_option maxRecDepth 100000 in
/-- C32, failing input: the dense sketch returned by `NewSketch(4, false)` is
reachable; `UnmarshalBinary` of the 11 bytes `[2, 4, 0, 0, 0, 0, 0, 3, 1, 2, 3]`
on it returns nil and leaves a dense sketch of precision 4 (`m = 16`) with 3
registers.  On that sketch `InsertHash(5 << 60)`, whose register index is 5,
panics (index out of range), and so does `Merge` of a dense sketch with 16
registers.  A version-1 input with one payload byte leaves 2 registers. -/
theorem UnmarshalBinary_breaks_invariant :
    NewSketch 4 false = .ok ⟨4, 16, [], none, some (List.replicate 16 0)⟩ ∧
    (⟨4, 16, [], none, some (List.replicate 16 0)⟩ : Sketch).UnmarshalBinary
        [2, 4, 0, 0, 0, 0, 0, 3, 1, 2, 3] = .ok (⟨4, 16, [], none, some [1, 2, 3]⟩, none) ∧
    (getPosVal (5 <<< 60) 4).1 = 5 ∧
    (⟨4, 16, [], none, some [1, 2, 3]⟩ : Sketch).InsertHash (5 <<< 60) = .error .panic ∧
    (⟨4, 16, [], none, some [1, 2, 3]⟩ : Sketch).Merge
        (some ⟨4, 16, [], none, some (List.replicate 16 0)⟩) = .error .panic ∧
    (⟨4, 16, [], none, some (List.replicate 16 0)⟩ : Sketch).UnmarshalBinary
        [1, 4, 0, 0, 0, 0, 0, 0, 18] = .ok (⟨4, 16, [], none, some [1, 2]⟩, none) := by
  decide

/-- C33, failing inputs: for every input of at least 8 bytes whose byte 3 is 1
(a sparse payload), whose precision byte is accepted by the receiver, and
whose bytes 4 to 7 declare a temporary set of `tssz` entries that ends after
the end of the input (`len(data) < uint32(tssz * 4 + 8)`), `UnmarshalBinary`
panics: the loop that reads the entries slices `data[i:i+4]` past the end of
the input.  The call returns neither nil nor an error. -/
theorem UnmarshalBinary_reads_past_end (sk : Sketch) (data : List Nat) (tssz : Nat)
    (hl : 8 ≤ data.length) (hs : data.getD 3 0 = 1)
    (hp : sk.needsNew (data.getD 1 0) = false ∨ (4 ≤ data.getD 1 0 ∧ data.getD 1 0 ≤ 18))
    (ht : Uint32 (data.drop 4) = .ok tssz)
    (hshort : data.length < u32 (u32 (tssz * 4) + 8)) :
    sk.UnmarshalBinary data = .error .panic := by
  obtain ⟨sk1, h1, _⟩ := fresh_ok sk (data.getD 1 0) true hp
  have hl' : ¬ data.length < 8 := by omega
  have hr := readKeys_short data ((u32 (u32 (tssz * 4) + 8) - 8 + 3) / 4) 8 (makeSet tssz)
    (by omega) (by omega)
  simp only [Sketch.UnmarshalBinary, hl', if_false, hs, decide_True, h1, if_true, ht, hr]

/-- C33, an instance: the 8-byte header of a sparse sketch of precision 14
that declares one temporary-set entry and holds none. -/
theorem UnmarshalBinary_reads_past_end_witness :
    Sketch.zero.UnmarshalBinary [2, 14, 0, 1, 0, 0, 0, 1] = .error .panic :=
  UnmarshalBinary_reads_past_end Sketch.zero [2, 14, 0, 1, 0, 0, 0, 1] 1 (by decide) (by decide)
    (Or.inr (by decide)) (by decide) (by decide)

/-- C34: in a well-formed heap, where different sketches share no storage,
`sk.Merge(other)` for a pointer `other` to another sketch leaves the value of
`other` (precision, mode, temporary set, compressed list, registers) and its
struct as they were, whenever the call returns, whatever the two modes and
precisions.  The call returns whenever `Merge` returns on the two values, with
the same error value and the receiver that `Merge` gives on the values; this
is the case for every two well-formed sketches. -/
theorem Merge_keeps_argument (h : Heap) (sk other : Nat) (o : Sketch) (hw : h.WF)
    (hne : other ≠ sk) (ho : h.view other = some o) :
    (∀ h1 e, h.Merge sk (some other) = .ok (h1, e) →
      h1.view other = some o ∧ h1.sketches[other]? = h.sketches[other]?) ∧
    (∀ s, h.Rep sk s → ∀ s1 e, s.Merge (some o) = .ok (s1, e) →
      ∃ h1, h.Merge sk (some other) = .ok (h1, e) ∧ h1.view sk = some s1 ∧
        h1.view other = some o) ∧
    (∀ s, h.Rep sk s → InvW s → InvW o →
      ∃ h1 e, h.Merge sk (some other) = .ok (h1, e) ∧ h1.view other = some o) := by
  obtain ⟨ro, g1, g2⟩ : ∃ ro, h.sketches[other]? = some ro ∧ h.load ro = o := by
    simp only [Heap.view, Option.map_eq_some'] at ho
    exact ho
  have key : ∀ h1 e, h.Merge sk (some other) = .ok (h1, e) →
      h1.view other = some o ∧ h1.sketches[other]? = h.sketches[other]? := by
    intro h1 e hx
    obtain ⟨_, w2⟩ := frame_Merge h h1 sk (some other) e hw hx
    obtain ⟨w3, w4⟩ := w2.2 other ro hne g1
    exact ⟨by simp [Heap.view, w3, w4, g2], by rw [w3, g1]⟩
  have sim : ∀ s, h.Rep sk s → ∀ s1 e, s.Merge (some o) = .ok (s1, e) →
      ∃ h1, h.Merge sk (some other) = .ok (h1, e) ∧ h1.view sk = some s1 ∧
        h1.view other = some o := by
    intro s hs s1 e hm
    obtain ⟨h1, x1, x2⟩ := sim_Merge h sk other s o s1 e hw hne hs ho hm
    exact ⟨h1, x1, Rep_view h1 sk s1 x2, (key h1 e x1).1⟩
  refine ⟨key, sim, fun s hs ws wo => ?_⟩
  by_cases c : s.p = o.p
  · obtain ⟨s1, _, m1, _⟩ := Merge_order s o ws wo c
    obtain ⟨h1, x1, _, x3⟩ := sim s hs s1 none m1
    exact ⟨h1, none, x1, x3⟩
  · have m1 : s.Merge (some o) = .ok (s, some .precisionsMustBeEqual) := by
      simp [Sketch.Merge, c]
    obtain ⟨h1, x1, _, x3⟩ := sim s hs s _ m1
    exact ⟨h1, _, x1, x3⟩

set_option maxRecDepth 100000 in
/-- C34, an instance: in the heap `exHeapTwo` the sparse sketch at address 0
merges the dense sketch at address 1 and is promoted to dense, and the dense
sketch merges the sparse one; the argument keeps its value in both calls. -/
theorem Merge_keeps_argument_witness :
    (∀ h1 e, exHeapTwo.Merge 0 (some 1) = .ok (h1, e) →
      h1.view 1 = some exDenseSketch ∧ h1.sketches[1]? = exHeapTwo.sketches[1]?) ∧
    (exHeapTwo.Merge 0 (some 1)).map (fun x => (x.1.view 0, x.1.view 1, x.2)) =
      .ok (some ⟨4, 16, [], none, some [0, 0, 0, 1, 0, 61, 0, 0, 0, 0, 0, 0, 0, 0, 0, 0]⟩,
        some exDenseSketch, none) ∧
    (exHeapTwo.Merge 1 (some 0)).map (fun x => (x.1.view 1, x.1.view 0, x.2)) =
      .ok (some ⟨4, 16, [], none, some [0, 0, 0, 1, 0, 61, 0, 0, 0, 0, 0, 0, 0, 0, 0, 0]⟩,
        some exSketch, none) :=
  ⟨(Merge_keeps_argument exHeapTwo 0 1 exDenseSketch exHeapTwo_WF (by decide) (by decide)).1,
    by decide, by decide⟩

/-- C35: on a dense sketch, every `InsertHash` that returns and every `Merge`
that returns (with any argument, whether it returns an error or not) leaves
as many registers as before, none smaller than before; `InsertHash(x)` leaves
every register other than the one at the index of `x` as it is, and this
index is the top `p` bits of the 64-bit hash.  On a well-formed dense sketch
`InsertHash` always returns, and `Merge` returns nil for every well-formed
argument of the same precision. -/
theorem dense_registers_grow (sk : Sketch) (rs : List Nat) (hs : sk.sparseList = none)
    (hr : sk.regs = some rs) :
    (∀ x sk1, sk.InsertHash x = .ok sk1 →
      ∃ rs1, sk1.regs = some rs1 ∧ rs1.length = rs.length ∧
        (∀ j, rs.getD j 0 ≤ rs1.getD j 0) ∧
        ∀ j, j ≠ u32 (getPosVal x sk.p).1 → rs1.getD j 0 = rs.getD j 0) ∧
    (∀ x, sk.p < 64 → (getPosVal x sk.p).1 = x % 2 ^ 64 / 2 ^ (64 - sk.p)) ∧
    (∀ other sk1 e, sk.Merge other = .ok (sk1, e) →
      ∃ rs1, sk1.regs = some rs1 ∧ rs1.length = rs.length ∧ ∀ j, rs.getD j 0 ≤ rs1.getD j 0) ∧
    (InvW sk → (∀ x, ∃ sk1, sk.InsertHash x = .ok sk1) ∧
      ∀ o, InvW o → o.p = sk.p → ∃ sk1, sk.Merge (some o) = .ok (sk1, none)) := by
  have hsp : sk.sparse = false := by simp [Sketch.sparse, hs]
  refine ⟨fun x sk1 hx => ?_, fun x hp => getPosVal_fst_top x sk.p hp,
    fun other sk1 e hm => Grown_Merge sk sk1 other e rs hs hr hm, fun hw => ⟨fun x => ?_,
      fun o ho hop => ?_⟩⟩
  · simp only [Sketch.InsertHash, hsp, Bool.false_eq_true, if_false, Sketch.insert, hr] at hx
    split at hx
    · simp only [Except.ok.injEq] at hx
      subst hx
      refine ⟨_, rfl, by simp, fun j => set_max_ge rs _ _ j, fun j hj => ?_⟩
      exact getD_set_ne rs _ j _ 0 (Ne.symm hj)
    · simp at hx
  · obtain ⟨sk1, h1, _⟩ := InsertHash_total sk x hw
    exact ⟨sk1, h1⟩
  · obtain ⟨sk1, e, h1, _⟩ := Merge_InvW_dense sk o hw hsp ho
    refine ⟨sk1, ?_⟩
    have he : e = none := by
      simp only [Sketch.Merge, hop, ne_eq, not_true_eq_false, if_false] at h1
      split at h1
      · simp at h1
      · simp only [Except.ok.injEq, Prod.mk.injEq] at h1
        exact h1.2.symm
    rw [h1, he]

/-- C35, an instance: the dense sketch of precision 4 with the registers 1 to
16. -/
theorem dense_registers_grow_witness :
    (∀ x sk1, (denseSk 4 (List.range' 1 16)).InsertHash x = .ok sk1 →
      ∃ rs1, sk1.regs = some rs1 ∧ rs1.length = (List.range' 1 16).length ∧
        (∀ j, (List.range' 1 16).getD j 0 ≤ rs1.getD j 0) ∧
        ∀ j, j ≠ u32 (getPosVal x (denseSk 4 (List.range' 1 16)).p).1 →
          rs1.getD j 0 = (List.range' 1 16).getD j 0) ∧
    (∀ x, (denseSk 4 (List.range' 1 16)).p < 64 →
      (getPosVal x (denseSk 4 (List.range' 1 16)).p).1 =
        x % 2 ^ 64 / 2 ^ (64 - (denseSk 4 (List.range' 1 16)).p)) ∧
    (∀ other sk1 e, (denseSk 4 (List.range' 1 16)).Merge other = .ok (sk1, e) →
      ∃ rs1, sk1.regs = some rs1 ∧ rs1.length = (List.range' 1 16).length ∧
        ∀ j, (List.range' 1 16).getD j 0 ≤ rs1.getD j 0) ∧
    (InvW (denseSk 4 (List.range' 1 16)) →
      (∀ x, ∃ sk1, (denseSk 4 (List.range' 1 16)).InsertHash x = .ok sk1) ∧
      ∀ o, InvW o → o.p = (denseSk 4 (List.range' 1 16)).p →
        ∃ sk1, (denseSk 4 (List.range' 1 16)).Merge (some o) = .ok (sk1, none)) :=
  dense_registers_grow (denseSk 4 (List.range' 1 16)) (List.range' 1 16) rfl rfl

/-- C36: for every well-formed sketch, `Estimate()` returns, and a second
`Estimate()` right after it returns the same value and leaves the sketch as
the first call left it.  The first call keeps the mode, the precision, `m`
and the registers; a dense sketch is unchanged; on a sparse sketch the
entries after the call (all in the compressed list, strictly increasing, the
temporary set being empty) are as a set the entries before the call
(temporary set and compressed list), and a sketch with an empty temporary set
is unchanged. -/
theorem Estimate_repeatable (ops : FloatOps) (sk : Sketch) (h : InvW sk) :
    ∃ sk1 v, sk.Estimate ops = .ok (sk1, v) ∧ sk1.Estimate ops = .ok (sk1, v) ∧
      sk1.sparse = sk.sparse ∧ sk1.p = sk.p ∧ sk1.m = sk.m ∧ sk1.regs = sk.regs ∧
      (sk.sparse = false → sk1 = sk) ∧
      (sk.sparse = true → ∃ E E1, sk.entries = .ok E ∧ sk1.entries = .ok E1 ∧
        (∀ k, k ∈ E1 ↔ k ∈ E) ∧ sk1.tmpSet = [] ∧ E1.Sorted (· < ·) ∧
        (sk.tmpSet = [] → sk1 = sk)) := by
  obtain ⟨p, _, _, ⟨L, T, rfl, hg⟩ | ⟨rs, rfl, hg⟩⟩ := h
  · have hg1 := GoodS_sunion L T hg
    refine ⟨_, _, Estimate_sparseSk ops p L T hg, ?_, rfl, rfl, rfl, rfl, fun hh => ?_,
      fun _ => ⟨_, _, entries_sparseSk p L T hg, entries_sparseSk p _ _ hg1, fun k => ?_, rfl,
        ?_, fun hT => ?_⟩⟩
    · rw [Estimate_sparseSk ops p _ _ hg1, sunion_nil _ (sunion_sorted L T)]
    · simp [sparseSk, Sketch.sparse] at hh
    · simp only [List.nil_append, mem_sunion, List.mem_append]
      exact or_comm
    · simpa using sunion_sorted L T
    · simp only [sparseSk] at hT
      subst hT
      rw [sunion_nil L hg.1]
  · obtain ⟨v, hv⟩ := Estimate_denseSk ops p rs
    exact ⟨_, v, hv, hv, rfl, rfl, rfl, rfl, fun _ => rfl, fun hh => by
      simp [denseSk, Sketch.sparse] at hh⟩

/-- C36, an instance: a sparse sketch of precision 14 with the entry 3 in its
list and the entries 81 and 7 pending. -/
theorem Estimate_repeatable_witness :
    ∃ sk1 v, (sparseSk 14 [3] [81, 7]).Estimate natOps = .ok (sk1, v) ∧
      sk1.Estimate natOps = .ok (sk1, v) ∧
      sk1.sparse = (sparseSk 14 [3] [81, 7]).sparse ∧ sk1.p = (sparseSk 14 [3] [81, 7]).p ∧
      sk1.m = (sparseSk 14 [3] [81, 7]).m ∧ sk1.regs = (sparseSk 14 [3] [81, 7]).regs ∧
      ((sparseSk 14 [3] [81, 7]).sparse = false → sk1 = sparseSk 14 [3] [81, 7]) ∧
      ((sparseSk 14 [3] [81, 7]).sparse = true → ∃ E E1,
        (sparseSk 14 [3] [81, 7]).entries = .ok E ∧ sk1.entries = .ok E1 ∧
        (∀ k, k ∈ E1 ↔ k ∈ E) ∧ sk1.tmpSet = [] ∧ E1.Sorted (· < ·) ∧
        ((sparseSk 14 [3] [81, 7]).tmpSet = [] → sk1 = sparseSk 14 [3] [81, 7])) :=
  Estimate_repeatable natOps (sparseSk 14 [3] [81, 7])
    ⟨14, by decide, by decide, Or.inl ⟨[3], [81, 7], rfl, by simp [GoodS]⟩⟩

end HLL

namespace Ingester

/-! ## Lemmas on the fingerprint mapper -/

theorem recorded_update (m : FpMapper) (fp : Nat) (ms : GoString) (v h : Nat)
    (f : Nat → Labels) (fp1 : Nat) (ms1 : GoString) :
    FpMapper.recorded
      { highestMappedFP := h,
        mappings := Function.update m.mappings fp
          (some (Function.update ((m.mappings fp).getD fun _ => none) ms (some v))),
        fpToLabels := f } fp1 ms1 =
      if fp1 = fp ∧ ms1 = ms then some v else m.recorded fp1 ms1 := by
  simp only [FpMapper.recorded]
  by_cases h1 : fp1 = fp
  · subst h1
    simp only [Function.update_same, true_and]
    by_cases h2 : ms1 = ms
    · subst h2; simp
    · simp only [Function.update_noteq h2, if_neg h2]
      cases m.mappings fp1 <;> rfl
  · simp [Function.update_noteq h1, h1]

theorem maybeAddMapping_old (m : FpMapper) (fp : Nat) (metric : Labels) (v : Nat)
    (h : m.recorded fp (metricToUniqueString metric) = some v) :
    m.maybeAddMapping fp metric = .ok (m, v) := by
  simp only [FpMapper.recorded] at h
  simp only [FpMapper.maybeAddMapping]
  cases hm : m.mappings fp with
  | none => simp [hm] at h
  | some mp =>
    simp only [hm] at h
    simp [h]

theorem maybeAddMapping_new (m : FpMapper) (fp : Nat) (metric : Labels)
    (h : m.recorded fp (metricToUniqueString metric) = none) :
    m.maybeAddMapping fp metric =
      if (m.highestMappedFP + 1) % 2 ^ 64 > maxMappedFP then .error .panic
      else .ok (
        { highestMappedFP := (m.highestMappedFP + 1) % 2 ^ 64,
          mappings := Function.update m.mappings fp
            (some (Function.update ((m.mappings fp).getD fun _ => none)
              (metricToUniqueString metric) (some ((m.highestMappedFP + 1) % 2 ^ 64)))),
          fpToLabels := m.fpToLabels }, (m.highestMappedFP + 1) % 2 ^ 64) := by
  simp only [FpMapper.recorded] at h
  simp only [FpMapper.maybeAddMapping, FpMapper.nextMappedFP]
  generalize (m.highestMappedFP + 1) % 2 ^ 64 = w
  cases hm : m.mappings fp with
  | none => by_cases hx : w > maxMappedFP <;> simp [hx]
  | some mp =>
    simp only [hm] at h
    by_cases hx : w > maxMappedFP <;> simp [hx, h]

theorem maybeAddMapping_again (m m1 : FpMapper) (fp v : Nat) (metric : Labels)
    (h : m.maybeAddMapping fp metric = .ok (m1, v)) :
    m1.recorded fp (metricToUniqueString metric) = some v := by
  cases hr : m.recorded fp (metricToUniqueString metric) with
  | some w =>
    rw [maybeAddMapping_old m fp metric w hr] at h
    simp only [Except.ok.injEq, Prod.mk.injEq] at h
    rw [← h.1, ← h.2]; exact hr
  | none =>
    rw [maybeAddMapping_new m fp metric hr] at h
    split at h
    · simp at h
    · simp only [Except.ok.injEq, Prod.mk.injEq] at h
      rw [← h.1, ← h.2, recorded_update]
      simp

theorem maybeAddMapping_labels (m m1 : FpMapper) (fp v : Nat) (metric : Labels)
    (h : m.maybeAddMapping fp metric = .ok (m1, v)) : m1.fpToLabels = m.fpToLabels := by
  cases hr : m.recorded fp (metricToUniqueString metric) with
  | some w =>
    rw [maybeAddMapping_old m fp metric w hr] at h
    simp only [Except.ok.injEq, Prod.mk.injEq] at h
    rw [← h.1]
  | none =>
    rw [maybeAddMapping_new m fp metric hr] at h
    split at h
    · simp at h
    · simp only [Except.ok.injEq, Prod.mk.injEq] at h
      rw [← h.1]

theorem maybeAddMapping_inv (m m1 : FpMapper) (fp v : Nat) (metric : Labels)
    (hi : Inv m) (h : m.maybeAddMapping fp metric = .ok (m1, v)) : Inv m1 := by
  cases hr : m.recorded fp (metricToUniqueString metric) with
  | some w =>
    rw [maybeAddMapping_old m fp metric w hr] at h
    simp only [Except.ok.injEq, Prod.mk.injEq] at h
    rw [← h.1]; exact hi
  | none =>
    rw [maybeAddMapping_new m fp metric hr] at h
    split at h
    · simp at h
    · rename_i hx
      simp only [Except.ok.injEq, Prod.mk.injEq] at h
      obtain ⟨h1, h2⟩ := h
      subst h1
      obtain ⟨i1, i2, i3⟩ := hi
      have hmax : maxMappedFP = 2 ^ 20 := by decide
      rw [hmax] at hx i1
      have hv : (m.highestMappedFP + 1) % 2 ^ 64 = m.highestMappedFP + 1 :=
        Nat.mod_eq_of_lt (by omega)
      rw [hv] at hx ⊢
      refine ⟨by rw [hmax]; show m.highestMappedFP + 1 ≤ 2 ^ 20; omega, ?_, ?_⟩
      · intro fp1 ms1 w hw
        rw [recorded_update] at hw
        show 1 ≤ w ∧ w ≤ m.highestMappedFP + 1
        split at hw
        · simp only [Option.some.injEq] at hw
          omega
        · have := i2 fp1 ms1 w hw
          omega
      · intro fp1 ms1 fp2 ms2 w hw1 hw2
        rw [recorded_update] at hw1 hw2
        split at hw1
        · rename_i c1
          simp only [Option.some.injEq] at hw1
          split at hw2
          · rename_i c2
            exact ⟨c1.1.trans c2.1.symm, c1.2.trans c2.2.symm⟩
          · have := (i2 fp2 ms2 w hw2).2
            omega
        · split at hw2
          · simp only [Option.some.injEq] at hw2
            have := (i2 fp1 ms1 w hw1).2
            omega
          · exact i3 fp1 ms1 fp2 ms2 w hw1 hw2

theorem MapFP_cases (m : FpMapper) (fp : Nat) (metric : Labels) :
    ((fp ≤ maxMappedFP ∨ (m.fpToLabels fp ≠ [] ∧ metric ≠ m.fpToLabels fp)) ∧
        m.MapFP fp metric = m.maybeAddMapping fp metric) ∨
      (maxMappedFP < fp ∧ m.fpToLabels fp ≠ [] ∧ metric = m.fpToLabels fp ∧
        m.MapFP fp metric = .ok (m, fp)) ∨
      (maxMappedFP < fp ∧ m.fpToLabels fp = [] ∧
        m.MapFP fp metric =
          .ok (m, (m.recorded fp (metricToUniqueString metric)).getD fp)) := by
  unfold FpMapper.MapFP
  by_cases h : fp ≤ maxMappedFP
  · left; rw [if_pos h]; exact ⟨Or.inl h, rfl⟩
  · rw [if_neg h]
    have h' : maxMappedFP < fp := by omega
    cases hs : m.fpToLabels fp with
    | nil =>
      right; right
      refine ⟨h', rfl, ?_⟩
      simp only [Labels.IsEmpty, List.isEmpty_nil, Bool.not_true, Bool.false_eq_true, if_false,
        FpMapper.recorded]
      cases m.mappings fp with
      | none => rfl
      | some mp => cases hq : mp (metricToUniqueString metric) <;> simp [hq]
    | cons l ls =>
      simp only [Labels.IsEmpty, List.isEmpty_cons, Bool.not_false, if_true]
      by_cases h2 : metric = l :: ls
      · right; left
        exact ⟨h', by simp, h2, by simp [Labels.Equal, h2]⟩
      · left
        exact ⟨Or.inr ⟨by simp, h2⟩, by simp [Labels.Equal, h2]⟩

theorem MapFP_inv (m m1 : FpMapper) (fp v : Nat) (metric : Labels)
    (hi : Inv m) (h : m.MapFP fp metric = .ok (m1, v)) : Inv m1 := by
  rcases MapFP_cases m fp metric with ⟨_, e⟩ | ⟨_, _, _, e⟩ | ⟨_, _, e⟩
  · rw [e] at h; exact maybeAddMapping_inv m m1 fp v metric hi h
  · rw [e] at h
    simp only [Except.ok.injEq, Prod.mk.injEq] at h
    rw [← h.1]; exact hi
  · rw [e] at h
    simp only [Except.ok.injEq, Prod.mk.injEq] at h
    rw [← h.1]; exact hi

theorem Reached_inv (m : FpMapper) (h : Reached m) : Inv m := by
  induction h with
  | new f m hm =>
    simp only [NewFPMapper, Except.ok.injEq] at hm
    subst hm
    exact ⟨Nat.zero_le _, by simp [FpMapper.recorded], by simp [FpMapper.recorded]⟩
  | call m m1 fp v metric _ hc ih => exact MapFP_inv m m1 fp v metric ih hc
  | memory m f _ ih => exact ih

theorem maybeAddMapping_keeps (m m1 : FpMapper) (fp v : Nat) (metric : Labels) (fp1 : Nat)
    (ms1 : GoString) (w : Nat) (hw : m.recorded fp1 ms1 = some w)
    (h : m.maybeAddMapping fp metric = .ok (m1, v)) : m1.recorded fp1 ms1 = some w := by
  cases hr : m.recorded fp (metricToUniqueString metric) with
  | some u =>
    rw [maybeAddMapping_old m fp metric u hr] at h
    simp only [Except.ok.injEq, Prod.mk.injEq] at h
    rw [← h.1]; exact hw
  | none =>
    rw [maybeAddMapping_new m fp metric hr] at h
    split at h
    · simp at h
    · simp only [Except.ok.injEq, Prod.mk.injEq] at h
      rw [← h.1, recorded_update, if_neg]
      · exact hw
      · rintro ⟨rfl, rfl⟩
        rw [hr] at hw
        simp at hw

/-! ## Claims C17 to C20 -/

/-- C17, counterexample: on a new mapper whose `fpToLabels` knows no series,
`MapFP` returns the raw fingerprint `2^20 + 1` itself for two different
metrics with different unique strings, and leaves the mapper as it is. -/
theorem MapFP_not_unique :
    ∃ m : FpMapper, NewFPMapper (some fun _ => []) = .ok m ∧
      ([⟨[97], [49]⟩] : Labels) ≠ [⟨[97], [50]⟩] ∧
      metricToUniqueString [⟨[97], [49]⟩] ≠ metricToUniqueString [⟨[97], [50]⟩] ∧
      m.MapFP (2 ^ 20 + 1) [⟨[97], [49]⟩] = .ok (m, 2 ^ 20 + 1) ∧
      m.MapFP (2 ^ 20 + 1) [⟨[97], [50]⟩] = .ok (m, 2 ^ 20 + 1) :=
  ⟨_, rfl, by decide, by decide, rfl, rfl⟩

/-- C17, amended: in every mapper state reached from `NewFPMapper` through
`MapFP` calls, for a raw fingerprint `fp` that lies in the reserved space or
for which `fpToLabels` returns a non-empty label set, and two metrics with
different unique strings, two consecutive calls `MapFP(fp, metric1)` and
`MapFP(fp, metric2)` that return, return different fingerprints. -/
theorem MapFP_unique (m m1 m2 : FpMapper) (fp v1 v2 : Nat) (metric1 metric2 : Labels)
    (hm : Reached m) (hne : metricToUniqueString metric1 ≠ metricToUniqueString metric2)
    (hfp : fp ≤ maxMappedFP ∨ (m.fpToLabels fp).IsEmpty = false)
    (h1 : m.MapFP fp metric1 = .ok (m1, v1)) (h2 : m1.MapFP fp metric2 = .ok (m2, v2)) :
    v1 ≠ v2 := by
  have hi := Reached_inv m hm
  have hi1 := MapFP_inv m m1 fp v1 metric1 hi h1
  have hi2 := MapFP_inv m1 m2 fp v2 metric2 hi1 h2
  have hl : m1.fpToLabels = m.fpToLabels := by
    rcases MapFP_cases m fp metric1 with ⟨_, e⟩ | ⟨_, _, _, e⟩ | ⟨_, _, e⟩
    · rw [e] at h1; exact maybeAddMapping_labels m m1 fp v1 metric1 h1
    · rw [e] at h1
      simp only [Except.ok.injEq, Prod.mk.injEq] at h1
      rw [← h1.1]
    · rw [e] at h1
      simp only [Except.ok.injEq, Prod.mk.injEq] at h1
      rw [← h1.1]
  have hnotC : ∀ x : FpMapper, x.fpToLabels = m.fpToLabels →
      ¬ (maxMappedFP < fp ∧ x.fpToLabels fp = []) := by
    rintro x hx ⟨c1, c2⟩
    rcases hfp with hfp | hfp
    · omega
    · rw [hx] at c2
      simp [c2, Labels.IsEmpty] at hfp
  rcases MapFP_cases m fp metric1 with ⟨_, e1⟩ | ⟨a1, b1, c1, e1⟩ | ⟨a1, b1, _⟩
  · rw [e1] at h1
    have r1 := maybeAddMapping_again m m1 fp v1 metric1 h1
    rcases MapFP_cases m1 fp metric2 with ⟨_, e2⟩ | ⟨a2, b2, c2, e2⟩ | ⟨a2, b2, _⟩
    · rw [e2] at h2
      have r2 := maybeAddMapping_again m1 m2 fp v2 metric2 h2
      have r1' := maybeAddMapping_keeps m1 m2 fp v2 metric2 fp _ v1 r1 h2
      intro hv
      rw [hv] at r1'
      exact hne (hi2.2.2 _ _ _ _ _ r1' r2).2
    · rw [e2] at h2
      simp only [Except.ok.injEq, Prod.mk.injEq] at h2
      have := (hi1.2.1 _ _ _ r1).2
      have := hi1.1
      omega
    · exact absurd ⟨a2, b2⟩ (hnotC m1 hl)
  · rw [e1] at h1
    simp only [Except.ok.injEq, Prod.mk.injEq] at h1
    obtain ⟨rfl, rfl⟩ := h1
    rcases MapFP_cases m fp metric2 with ⟨_, e2⟩ | ⟨a2, b2, c2, e2⟩ | ⟨a2, b2, _⟩
    · rw [e2] at h2
      have r2 := maybeAddMapping_again m m2 fp v2 metric2 h2
      have := (hi2.2.1 _ _ _ r2).2
      have := hi2.1
      omega
    · exact absurd (by rw [c1, c2]) hne
    · exact absurd ⟨a2, b2⟩ (hnotC m rfl)
  · exact absurd ⟨a1, b1⟩ (hnotC m rfl)

/-- Witness of the amended C17: the metric in memory keeps the raw
fingerprint, the colliding metric is mapped to 1. -/
theorem MapFP_unique_witness :
    FpMapper.MapFP ⟨0, fun _ => none, fun _ => [⟨[97], [49]⟩]⟩ (2 ^ 20 + 5) [⟨[97], [49]⟩] =
        .ok (⟨0, fun _ => none, fun _ => [⟨[97], [49]⟩]⟩, 2 ^ 20 + 5) ∧
      FpMapper.MapFP ⟨0, fun _ => none, fun _ => [⟨[97], [49]⟩]⟩ (2 ^ 20 + 5) [⟨[97], [50]⟩] =
        .ok (⟨1, Function.update (fun _ => none) (2 ^ 20 + 5)
          (some (Function.update (fun _ => none) (metricToUniqueString [⟨[97], [50]⟩])
            (some 1))), fun _ => [⟨[97], [49]⟩]⟩, 1) ∧
      2 ^ 20 + 5 ≠ 1 := by
  have h1 : FpMapper.MapFP ⟨0, fun _ => none, fun _ => [⟨[97], [49]⟩]⟩ (2 ^ 20 + 5)
      [⟨[97], [49]⟩] = .ok (⟨0, fun _ => none, fun _ => [⟨[97], [49]⟩]⟩, 2 ^ 20 + 5) := by
    simp [FpMapper.MapFP, maxMappedFP, Labels.IsEmpty, Labels.Equal]
  have h2 : FpMapper.MapFP ⟨0, fun _ => none, fun _ => [⟨[97], [49]⟩]⟩ (2 ^ 20 + 5)
      [⟨[97], [50]⟩] = .ok (⟨1, Function.update (fun _ => none) (2 ^ 20 + 5)
          (some (Function.update (fun _ => none) (metricToUniqueString [⟨[97], [50]⟩])
            (some 1))), fun _ => [⟨[97], [49]⟩]⟩, 1) := by
    simp [FpMapper.MapFP, maxMappedFP, Labels.IsEmpty, Labels.Equal, FpMapper.maybeAddMapping,
      FpMapper.nextMappedFP]
  exact ⟨h1, h2, MapFP_unique _ _ _ _ _ _ _ _ (Reached.new (fun _ => [⟨[97], [49]⟩]) _ rfl)
    (by decide) (Or.inr rfl) h1 h2⟩

/-- C19: for `fp > maxMappedFP`, when `fpToLabels(fp)` is non-empty and equal
to the metric, or is empty and no mapping is recorded for the raw fingerprint
and the metric, `MapFP` returns `fp` itself and leaves the mapper, with its
mappings table and its counter, as it is. -/
theorem MapFP_passthrough (m : FpMapper) (fp : Nat) (metric : Labels) (hfp : maxMappedFP < fp)
    (h : ((m.fpToLabels fp).IsEmpty = false ∧ Labels.Equal metric (m.fpToLabels fp) = true) ∨
      ((m.fpToLabels fp).IsEmpty = true ∧
        m.recorded fp (metricToUniqueString metric) = none)) :
    m.MapFP fp metric = .ok (m, fp) := by
  rcases MapFP_cases m fp metric with ⟨c, _⟩ | ⟨_, _, _, e⟩ | ⟨_, c, e⟩
  · exfalso
    rcases c with c | ⟨c1, c2⟩
    · omega
    · rcases h with ⟨_, h2⟩ | ⟨h1, _⟩
      · simp only [Labels.Equal, decide_eq_true_eq] at h2
        exact c2 h2
      · simp only [Labels.IsEmpty, List.isEmpty_iff] at h1
        exact c1 h1
  · exact e
  · rcases h with ⟨h1, _⟩ | ⟨_, h2⟩
    · simp [Labels.IsEmpty, c] at h1
    · rw [e, h2]; rfl

/-- Witness of C19: the metric in memory under the raw fingerprint. -/
theorem MapFP_passthrough_witness :
    ∃ m : FpMapper, NewFPMapper (some fun _ => [⟨[97], [49]⟩]) = .ok m ∧
      m.MapFP (2 ^ 20 + 5) [⟨[97], [49]⟩] = .ok (m, 2 ^ 20 + 5) :=
  ⟨⟨0, fun _ => none, fun _ => [⟨[97], [49]⟩]⟩, rfl,
    MapFP_passthrough ⟨0, fun _ => none, fun _ => [⟨[97], [49]⟩]⟩ (2 ^ 20 + 5) [⟨[97], [49]⟩]
      (by decide) (Or.inl ⟨rfl, by decide⟩)⟩

/-- C20: in every mapper state a call `MapFP(fp, metric)` either returns, and
then a second call with the same arguments and the same `fpToLabels` returns
the same fingerprint and leaves the mapper, with its mappings table and its
counter, as the first call left it; or it panics because the reserved
fingerprints are used up. -/
theorem MapFP_again (m : FpMapper) (fp : Nat) (metric : Labels) :
    (∃ m1 v, m.MapFP fp metric = .ok (m1, v) ∧ m1.MapFP fp metric = .ok (m1, v)) ∨
      (m.MapFP fp metric = .error .panic ∧
        maxMappedFP < (m.highestMappedFP + 1) % 2 ^ 64) := by
  rcases MapFP_cases m fp metric with ⟨c, e⟩ | ⟨_, _, _, e⟩ | ⟨_, _, e⟩
  · cases hmm : m.maybeAddMapping fp metric with
    | error x =>
      right
      cases hr : m.recorded fp (metricToUniqueString metric) with
      | some u => rw [maybeAddMapping_old m fp metric u hr] at hmm; simp at hmm
      | none =>
        rw [maybeAddMapping_new m fp metric hr] at hmm
        split at hmm
        · rename_i hx
          simp only [Except.error.injEq] at hmm
          exact ⟨by rw [e, maybeAddMapping_new m fp metric hr, if_pos hx], hx⟩
        · simp at hmm
    | ok r =>
      obtain ⟨m1, v⟩ := r
      left
      refine ⟨m1, v, e.trans hmm, ?_⟩
      have hl := maybeAddMapping_labels m m1 fp v metric hmm
      have hrec := maybeAddMapping_again m m1 fp v metric hmm
      rcases MapFP_cases m1 fp metric with ⟨_, e2⟩ | ⟨a2, b2, c2, _⟩ | ⟨a2, b2, _⟩
      · rw [e2]; exact maybeAddMapping_old m1 fp metric v hrec
      · rw [hl] at b2 c2
        rcases c with c | ⟨_, c⟩
        · omega
        · exact absurd c2 c
      · rw [hl] at b2
        rcases c with c | ⟨c, _⟩
        · omega
        · exact absurd b2 c
  · left; exact ⟨m, fp, e, e⟩
  · left; exact ⟨m, _, e, e⟩

/-- C18: in every mapper state reached from `NewFPMapper` through `MapFP`
calls, for `fp ≤ maxMappedFP` the result of `MapFP` does not depend on
`fpToLabels`; a fingerprint recorded for the raw fingerprint and the metric is
returned, the mapper unchanged; when none is recorded and fewer than `2^20`
fingerprints are allocated, the next fingerprint is allocated, recorded and
returned, the other records unchanged; the fingerprint returned lies between 1
and `2^20`; and when none is recorded and all `2^20` are allocated the call
panics. -/
theorem MapFP_reserved (m : FpMapper) (fp : Nat) (metric : Labels) (hm : Reached m)
    (hfp : fp ≤ maxMappedFP) :
    (∀ f : Nat → Labels, FpMapper.MapFP { m with fpToLabels := f } fp metric =
        (m.MapFP fp metric).map fun r => ({ r.1 with fpToLabels := f }, r.2)) ∧
      (∀ v, m.recorded fp (metricToUniqueString metric) = some v →
        m.MapFP fp metric = .ok (m, v) ∧ 1 ≤ v ∧ v ≤ 2 ^ 20) ∧
      (m.recorded fp (metricToUniqueString metric) = none → m.highestMappedFP < 2 ^ 20 →
        ∃ m1, m.MapFP fp metric = .ok (m1, m.highestMappedFP + 1) ∧
          m1.recorded fp (metricToUniqueString metric) = some (m.highestMappedFP + 1) ∧
          m1.highestMappedFP = m.highestMappedFP + 1 ∧
          (∀ fp1 ms1, ¬ (fp1 = fp ∧ ms1 = metricToUniqueString metric) →
            m1.recorded fp1 ms1 = m.recorded fp1 ms1) ∧
          1 ≤ m.highestMappedFP + 1 ∧ m.highestMappedFP + 1 ≤ 2 ^ 20) ∧
      (m.recorded fp (metricToUniqueString metric) = none → ¬ m.highestMappedFP < 2 ^ 20 →
        m.MapFP fp metric = .error .panic) := by
  have hi := Reached_inv m hm
  have hmax : maxMappedFP = 2 ^ 20 := by decide
  have e : ∀ x : FpMapper, x.MapFP fp metric = x.maybeAddMapping fp metric := by
    intro x; simp [FpMapper.MapFP, hfp]
  have h1 := hi.1
  rw [hmax] at h1
  refine ⟨fun f => ?_, fun v hv => ?_, fun hn hlt => ?_, fun hn hge => ?_⟩
  · rw [e, e]
    cases hr : m.recorded fp (metricToUniqueString metric) with
    | some u =>
      rw [maybeAddMapping_old m fp metric u hr, maybeAddMapping_old _ fp metric u (by exact hr)]
      rfl
    | none =>
      rw [maybeAddMapping_new m fp metric hr, maybeAddMapping_new _ fp metric (by exact hr)]
      split <;> rfl
  · rw [e, maybeAddMapping_old m fp metric v hv]
    have := hi.2.1 _ _ _ hv
    exact ⟨rfl, by omega, by omega⟩
  · have hv : (m.highestMappedFP + 1) % 2 ^ 64 = m.highestMappedFP + 1 :=
      Nat.mod_eq_of_lt (by omega)
    rw [e, maybeAddMapping_new m fp metric hn, hv, if_neg (by rw [hmax]; omega)]
    refine ⟨_, rfl, ?_, rfl, fun fp1 ms1 hne => ?_, by omega, by omega⟩
    · rw [recorded_update]; simp
    · rw [recorded_update, if_neg hne]
  · have hh : m.highestMappedFP = 2 ^ 20 := by omega
    rw [e, maybeAddMapping_new m fp metric hn, if_pos]
    rw [hh, hmax]
    decide

/-- Witness of C18: the first allocation on a new mapper, for the raw
fingerprint 7. -/
theorem MapFP_reserved_witness :
    ∃ m1 : FpMapper,
      FpMapper.MapFP ⟨0, fun _ => none, fun _ => []⟩ 7 [⟨[97], [49]⟩] = .ok (m1, 0 + 1) ∧
        m1.recorded 7 (metricToUniqueString [⟨[97], [49]⟩]) = some (0 + 1) := by
  obtain ⟨m1, h1, h2, _⟩ :=
    (MapFP_reserved ⟨0, fun _ => none, fun _ => []⟩ 7 [⟨[97], [49]⟩]
      (Reached.new (fun _ => []) _ rfl) (by decide)).2.2.1 rfl (by decide)
  exact ⟨m1, h1, h2⟩

/-! ## Lemmas for the claims C21 and C22 -/

theorem nextMappedFPs_spec (k : Nat) (m : FpMapper) (h : m.highestMappedFP ≤ 2 ^ 20) :
    (m.highestMappedFP + k ≤ 2 ^ 20 →
      m.nextMappedFPs k =
        .ok ({ m with highestMappedFP := m.highestMappedFP + k },
          List.range' (m.highestMappedFP + 1) k)) ∧
    (2 ^ 20 < m.highestMappedFP + k → m.nextMappedFPs k = .error .panic) := by
  induction k generalizing m with
  | zero => exact ⟨fun _ => rfl, fun c => by omega⟩
  | succ k ih =>
    have hmax : maxMappedFP = 2 ^ 20 := by decide
    by_cases c : m.highestMappedFP + 1 ≤ 2 ^ 20
    · have hv : (m.highestMappedFP + 1) % 2 ^ 64 = m.highestMappedFP + 1 :=
        Nat.mod_eq_of_lt (by omega)
      have hn : m.nextMappedFP =
          .ok ({ m with highestMappedFP := m.highestMappedFP + 1 }, m.highestMappedFP + 1) := by
        simp only [FpMapper.nextMappedFP, hv, hmax]
        rw [if_neg (by omega)]
      have := ih { m with highestMappedFP := m.highestMappedFP + 1 } c
      simp only at this
      refine ⟨fun c1 => ?_, fun c2 => ?_⟩
      · simp only [FpMapper.nextMappedFPs, hn]
        rw [this.1 (by omega)]
        simp only [List.range'_succ, Nat.add_assoc, Nat.add_comm 1 k]
      · simp only [FpMapper.nextMappedFPs, hn]
        rw [this.2 (by omega)]
    · have hh : m.highestMappedFP = 2 ^ 20 := by omega
      refine ⟨fun c1 => by omega, fun _ => ?_⟩
      simp only [FpMapper.nextMappedFPs, FpMapper.nextMappedFP, hh, hmax]
      rfl

/-- The part of a label: `l.Name + separatorString + l.Value`. -/
theorem partLabel_part (l : Label) (h : 255 ∉ l.Name) :
    partLabel (l.Name ++ separatorString ++ l.Value) = l := by
  have hp : ∀ x ∈ l.Name, (x != 255) = true := by
    intro x hx
    simp only [bne_iff_ne, ne_eq]
    rintro rfl
    exact h hx
  simp only [partLabel, separatorString, List.append_assoc]
  rw [List.takeWhile_append_of_pos hp, List.dropWhile_append_of_pos hp]
  simp

theorem intercalate_one {α : Type} (sep x : List α) : sep.intercalate [x] = x := by
  simp [List.intercalate]

theorem intercalate_two {α : Type} (sep x y : List α) (r : List (List α)) :
    sep.intercalate (x :: y :: r) = x ++ sep ++ sep.intercalate (y :: r) := by
  simp [List.intercalate, List.intersperse]

/-- The names and values of the labels, in order. -/
theorem join_parts (a : Labels) (h : a ≠ []) :
    Join (a.map fun l => l.Name ++ separatorString ++ l.Value) separatorString =
      separatorString.intercalate (a.flatMap fun l => [l.Name, l.Value]) := by
  induction a with
  | nil => exact absurd rfl h
  | cons l r ih =>
    cases r with
    | nil =>
      simp only [Join, List.map_cons, List.map_nil, intercalate_one, List.flatMap_cons,
        List.flatMap_nil, List.append_nil, intercalate_two, List.append_assoc]
    | cons l2 r2 =>
      have := ih (by simp)
      simp only [Join, List.map_cons, List.flatMap_cons, List.cons_append, List.nil_append,
        intercalate_two, List.append_assoc] at this ⊢
      rw [this]

theorem toks_inj (a b : Labels)
    (h : (a.flatMap fun l => [l.Name, l.Value]) = b.flatMap fun l => [l.Name, l.Value]) :
    a = b := by
  induction a generalizing b with
  | nil =>
    cases b with
    | nil => rfl
    | cons l r => simp at h
  | cons l r ih =>
    cases b with
    | nil => simp at h
    | cons l2 r2 =>
      simp only [List.flatMap_cons, List.cons_append, List.nil_append, List.cons.injEq] at h
      obtain ⟨h1, h2, h3⟩ := h
      rw [ih r2 h3]
      congr 1
      cases l; cases l2
      simp only at h1 h2
      rw [h1, h2]

theorem join_ne_nil (a : Labels) (h : a ≠ []) :
    Join (a.map fun l => l.Name ++ separatorString ++ l.Value) separatorString ≠ [] := by
  cases a with
  | nil => exact absurd rfl h
  | cons l r =>
    cases r with
    | nil => simp [Join, intercalate_one, separatorString]
    | cons l2 r2 => simp [Join, intercalate_two, separatorString]

theorem join_inj (a b : Labels) (ha : a.Clean) (hb : b.Clean)
    (h : Join (a.map fun l => l.Name ++ separatorString ++ l.Value) separatorString =
      Join (b.map fun l => l.Name ++ separatorString ++ l.Value) separatorString) : a = b := by
  by_cases a0 : a = []
  · by_cases b0 : b = []
    · rw [a0, b0]
    · subst a0
      exact absurd h.symm (join_ne_nil b b0)
  · by_cases b0 : b = []
    · subst b0
      exact absurd h (join_ne_nil a a0)
    · rw [join_parts a a0, join_parts b b0] at h
      have clean : ∀ c : Labels, c.Clean → ∀ s ∈ c.flatMap (fun l => [l.Name, l.Value]),
          (255 : Nat) ∉ s := by
        intro c hc s hs
        simp only [List.mem_flatMap, List.mem_cons, List.mem_singleton, List.not_mem_nil,
          or_false] at hs
        obtain ⟨l, hl, rfl | rfl⟩ := hs
        · exact (hc l hl).1
        · exact (hc l hl).2
      have ne : ∀ c : Labels, c ≠ [] → (c.flatMap fun l => [l.Name, l.Value]) ≠ [] := by
        intro c hc
        cases c with
        | nil => exact absurd rfl hc
        | cons l r => simp
      have sa := List.splitOn_intercalate _ 255 (clean a ha) (ne a a0)
      have sb := List.splitOn_intercalate _ 255 (clean b hb) (ne b b0)
      simp only [separatorString] at h
      rw [h, sb] at sa
      exact toks_inj a b sa.symm

/-- The sorted parts of clean labels are the parts of a rearrangement. -/
theorem sorted_parts (a : Labels) (ha : a.Clean) :
    ∃ a1 : Labels, a1.Perm a ∧ a1.Clean ∧
      sortStrings (a.map fun l => l.Name ++ separatorString ++ l.Value) =
        a1.map fun l => l.Name ++ separatorString ++ l.Value := by
  have hp : (sortStrings (a.map fun l => l.Name ++ separatorString ++ l.Value)).Perm
      (a.map fun l => l.Name ++ separatorString ++ l.Value) := List.perm_insertionSort _ _
  have h1 := hp.map partLabel
  have h2 : (a.map fun l => l.Name ++ separatorString ++ l.Value).map partLabel = a := by
    rw [List.map_map]
    conv_rhs => rw [← List.map_id a]
    exact List.map_congr_left fun l hl => partLabel_part l (ha l hl).1
  rw [h2] at h1
  refine ⟨_, h1, fun l hl => ha l (h1.mem_iff.mp hl), ?_⟩
  rw [List.map_map]
  conv_lhs => rw [← List.map_id (sortStrings _)]
  refine List.map_congr_left fun s hs => ?_
  obtain ⟨l, hl, rfl⟩ := List.mem_map.mp (hp.mem_iff.mp hs)
  simp only [id, Function.comp, partLabel_part l (ha l hl).1]

theorem metricToUniqueString_perm (a b : Labels) (h : a.Perm b) :
    metricToUniqueString a = metricToUniqueString b := by
  simp only [metricToUniqueString]
  congr 1
  exact List.eq_of_perm_of_sorted
    (((List.perm_insertionSort _ _).trans (h.map _)).trans (List.perm_insertionSort _ _).symm)
    (List.sorted_insertionSort (fun a b : GoString => a ≤ b) _)
    (List.sorted_insertionSort (fun a b : GoString => a ≤ b) _)

/-! ## Claims C21 and C22 -/

/-- C21: on a mapper returned by `NewFPMapper`, `k` consecutive calls of
`nextMappedFP` return the fingerprints 1, 2, ..., `k` in this order and leave
`highestMappedFP = k`, for every `k ≤ 2^20 = maxMappedFP`; a sequence of more
than `2^20` calls ends in the panic of the call that would pass `maxMappedFP`,
which returns neither a fingerprint nor an error value. -/
theorem nextMappedFP_in_order (f : Nat → Labels) (m : FpMapper)
    (hm : NewFPMapper (some f) = .ok m) (k : Nat) :
    (k ≤ 2 ^ 20 →
      m.nextMappedFPs k = .ok ({ m with highestMappedFP := k }, List.range' 1 k)) ∧
    (2 ^ 20 < k → m.nextMappedFPs k = .error .panic) := by
  simp only [NewFPMapper, Except.ok.injEq] at hm
  subst hm
  have := nextMappedFPs_spec k ⟨0, fun _ => none, f⟩ (Nat.zero_le _)
  simpa using this

/-- C21, an instance: three allocations on a new mapper return 1, 2 and 3, and
`2^20 + 1` allocations panic. -/
theorem nextMappedFP_in_order_witness :
    (FpMapper.nextMappedFPs ⟨0, fun _ => none, fun _ => []⟩ 3).map Prod.snd = .ok [1, 2, 3] ∧
      (FpMapper.nextMappedFPs ⟨0, fun _ => none, fun _ => []⟩ (2 ^ 20 + 1)).map Prod.snd =
        .error .panic := by
  have h := nextMappedFP_in_order (fun _ => []) ⟨0, fun _ => none, fun _ => []⟩ rfl
  rw [(h 3).1 (by decide), (h (2 ^ 20 + 1)).2 (by decide)]
  exact ⟨rfl, rfl⟩

/-- C22, counterexample: the label set with the one label of name `a\xffb`
and value `c` and the label set with the one label of name `a` and value
`b\xffc` are different label sets, and `metricToUniqueString` gives the same
string for both: the separator byte 255 inside a name or a value is read as
the end of the name. -/
theorem metricToUniqueString_separator :
    ¬ List.Perm ([⟨[97, 255, 98], [99]⟩] : Labels) [⟨[97], [98, 255, 99]⟩] ∧
      metricToUniqueString [⟨[97, 255, 98], [99]⟩] =
        metricToUniqueString [⟨[97], [98, 255, 99]⟩] := by
  refine ⟨fun h => ?_, by decide⟩
  have := h.eq_singleton
  simp at this

/-- C22, amended: `metricToUniqueString` gives the same string for the same
labels, in whatever order the labels are visited; and for label sets whose
names and values do not hold the separator byte 255 (the byte occurs in no
valid UTF-8 string), `metricToUniqueString(a)` and `metricToUniqueString(b)`
are equal if and only if `a` and `b` hold the same labels. -/
theorem metricToUniqueString_unique (a b : Labels) :
    (a.Perm b → metricToUniqueString a = metricToUniqueString b) ∧
      (a.Clean → b.Clean →
        (metricToUniqueString a = metricToUniqueString b ↔ a.Perm b)) := by
  refine ⟨metricToUniqueString_perm a b, fun ha hb =>
    ⟨fun h => ?_, metricToUniqueString_perm a b⟩⟩
  obtain ⟨a1, pa, ca, ea⟩ := sorted_parts a ha
  obtain ⟨b1, pb, cb, eb⟩ := sorted_parts b hb
  simp only [metricToUniqueString, ea, eb] at h
  have := join_inj a1 b1 ca cb h
  subst this
  exact pa.symm.trans pb

/-- C22, an instance: the labels a=1, b=2 in both orders give the same string,
and the label sets a=1 and a=2 give different strings. -/
theorem metricToUniqueString_unique_witness :
    metricToUniqueString [⟨[97], [49]⟩, ⟨[98], [50]⟩] =
        metricToUniqueString [⟨[98], [50]⟩, ⟨[97], [49]⟩] ∧
      metricToUniqueString [⟨[97], [49]⟩] ≠ metricToUniqueString [⟨[97], [50]⟩] :=
  ⟨(metricToUniqueString_unique [⟨[97], [49]⟩, ⟨[98], [50]⟩] [⟨[98], [50]⟩, ⟨[97], [49]⟩]).1
      (List.Perm.swap _ _ _),
    fun h => by
      have := (((metricToUniqueString_unique [⟨[97], [49]⟩] [⟨[97], [50]⟩]).2
        (by simp [Labels.Clean]) (by simp [Labels.Clean])).mp h).eq_singleton
      simp at this⟩

end Ingester

namespace Dataset

/-! ## Lemmas on the column builder and reader -/

theorem uvarint_putAux (fuel n : Nat) (h : n ≤ fuel) (rest : List Nat) :
    uvarint (putUvarintAux fuel n ++ rest) = some (n, rest) := by
  induction fuel generalizing n with
  | zero =>
    obtain rfl : n = 0 := by omega
    simp [putUvarintAux, uvarint]
  | succ f ih =>
    by_cases hn : n < 128
    · simp [putUvarintAux, uvarint, hn]
    · have h1 : ¬ (n % 128 + 128 < 128) := by omega
      have h2 : n / 128 ≤ f := by omega
      simp only [putUvarintAux, hn, if_false, List.cons_append, uvarint, h1, ih _ h2]
      have : (n % 128 + 128) % 128 + 128 * (n / 128) = n := by omega
      rw [this]

theorem uvarint_put (n : Nat) (rest : List Nat) : uvarint (putUvarint n ++ rest) = some (n, rest) :=
  uvarint_putAux n n (le_refl n) rest

/-- The value codec round-trips every value. -/
theorem unmarshal_marshal (v : Value) : Value.UnmarshalBinary v.MarshalBinary = .ok v := by
  cases v with
  | nil => rfl
  | uint64 n =>
    have h := uvarint_put n []
    rw [List.append_nil] at h
    simp [Value.MarshalBinary, Value.UnmarshalBinary, h]
  | byteArray b => simp [Value.MarshalBinary, Value.UnmarshalBinary]

theorem decodeValues_encode (vs : List Value) (rest : List Nat) :
    decodeValues vs.length (encodeValues vs ++ rest) = some (vs, rest) := by
  induction vs with
  | nil => simp [decodeValues, encodeValues]
  | cons v vs ih =>
    have e : encodeValues (v :: vs) ++ rest =
        putUvarint v.MarshalBinary.length ++ (v.MarshalBinary ++ (encodeValues vs ++ rest)) := by
      simp [encodeValues, List.append_assoc]
    rw [e]
    simp only [List.length_cons, decodeValues, uvarint_put]
    have h1 : ¬ ((v.MarshalBinary ++ (encodeValues vs ++ rest)).length < v.MarshalBinary.length) := by
      simp
    simp only [h1, if_false, List.take_left, List.drop_left, unmarshal_marshal, ih]

theorem decodeRows_encode (vs : List Value) : decodeRows (encodeRows vs) = some vs := by
  have h := decodeValues_encode vs []
  rw [List.append_nil] at h
  simp only [decodeRows, encodeRows, uvarint_put, h]

theorem decompress_compress (c : Codec) (hc : c.Lawful) (kind : CompressionType)
    (data : List Nat) : c.decompress kind (c.compress kind data) = some data := by
  cases kind
  · rfl
  · exact hc data

/-! ### Range statistics -/

theorem observe_excluded (s : rangeStats) (v : Value) (h : (v.IsNil || v.IsZero) = true) :
    s.observe v = s := by
  simp [rangeStats.observe, h]

theorem mem_nonEmpty (vs : List Value) (x : List Nat) :
    x ∈ nonEmpty vs ↔ x ≠ [] ∧ Value.byteArray x ∈ vs := by
  simp only [nonEmpty, List.mem_filterMap]
  constructor
  · rintro ⟨v, hv, h⟩
    cases v with
    | nil => simp at h
    | uint64 n => simp at h
    | byteArray b =>
      by_cases hb : b = []
      · simp [hb] at h
      · simp only [hb, if_false, Option.some.injEq] at h
        subst h
        exact ⟨hb, hv⟩
  · rintro ⟨hx, hv⟩
    exact ⟨_, hv, by simp [hx]⟩

theorem nonEmpty_append (a b : List Value) : nonEmpty (a ++ b) = nonEmpty a ++ nonEmpty b := by
  simp [nonEmpty, List.filterMap_append]

theorem nonEmpty_bytes (b : List Nat) :
    nonEmpty [Value.byteArray b] = if b = [] then [] else [b] := by
  by_cases hb : b = [] <;> simp [nonEmpty, hb]

theorem observe_bytes (s : rangeStats) (b : List Nat) (hb : b ≠ []) :
    s.observe (.byteArray b) =
      if s.min.IsNil then ⟨.byteArray b, .byteArray b⟩
      else ⟨if (Value.byteArray b).Less s.min then .byteArray b else s.min,
        if s.max.Less (.byteArray b) then .byteArray b else s.max⟩ := by
  have hz : ¬ ((Value.IsNil (.byteArray b) || Value.IsZero (.byteArray b)) = true) := by
    simp [Value.IsNil, Value.IsZero, hb]
  rw [rangeStats.observe, if_neg hz]

/-- Observing a non-empty byte array extends the range by it. -/
theorem IsRange_observe (s : rangeStats) (bs : List (List Nat)) (b : List Nat) (hb : b ≠ [])
    (h : IsRange s.min s.max bs) :
    IsRange (s.observe (.byteArray b)).min (s.observe (.byteArray b)).max (bs ++ [b]) := by
  obtain ⟨mn, mx⟩ := s
  rw [observe_bytes _ b hb]
  rcases h with ⟨h0, h1, h2⟩ | ⟨a, d, h1, h2, ha, hd, hall⟩
  · simp only at h1 h2
    subst h0 h1 h2
    simp only [Value.IsNil, if_true]
    exact Or.inr ⟨b, b, rfl, rfl, by simp, by simp, fun x hx => by
      simp only [List.nil_append, List.mem_singleton] at hx
      subst hx
      exact ⟨le_refl _, le_refl _⟩⟩
  · simp only at h1 h2
    subst h1 h2
    simp only [Value.IsNil, Value.Less, Bool.false_eq_true, if_false, decide_eq_true_eq]
    have had : a ≤ d := (hall a ha).2
    by_cases h3 : b < a
    · have h4 : ¬ d < b := not_lt.2 (le_trans (le_of_lt h3) had)
      simp only [h3, h4, if_true, if_false]
      refine Or.inr ⟨b, d, rfl, rfl, by simp, by simp [hd], fun x hx => ?_⟩
      rcases List.mem_append.1 hx with hx | hx
      · exact ⟨le_trans (le_of_lt h3) (hall x hx).1, (hall x hx).2⟩
      · rw [List.mem_singleton.1 hx]
        exact ⟨le_refl _, not_lt.1 h4⟩
    · by_cases h4 : d < b
      · simp only [h3, h4, if_true, if_false]
        refine Or.inr ⟨a, b, rfl, rfl, by simp [ha], by simp, fun x hx => ?_⟩
        rcases List.mem_append.1 hx with hx | hx
        · exact ⟨(hall x hx).1, le_trans (hall x hx).2 (le_of_lt h4)⟩
        · rw [List.mem_singleton.1 hx]
          exact ⟨not_lt.1 h3, le_refl _⟩
      · simp only [h3, h4, if_false]
        refine Or.inr ⟨a, d, rfl, rfl, by simp [ha], by simp [hd], fun x hx => ?_⟩
        rcases List.mem_append.1 hx with hx | hx
        · exact hall x hx
        · rw [List.mem_singleton.1 hx]
          exact ⟨not_lt.1 h3, not_lt.1 h4⟩

/-- The range depends on the members of the list only. -/
theorem IsRange_of_bounds (mn mx : Value) (A B : List (List Nat)) (h : IsRange mn mx A)
    (hA : A ≠ []) (hsub : ∀ x ∈ A, x ∈ B)
    (hB : ∀ x ∈ B, ∃ y ∈ A, ∃ z ∈ A, y ≤ x ∧ x ≤ z) : IsRange mn mx B := by
  rcases h with ⟨h0, _, _⟩ | ⟨a, d, h1, h2, ha, hd, hall⟩
  · exact absurd h0 hA
  · refine Or.inr ⟨a, d, h1, h2, hsub a ha, hsub d hd, fun x hx => ?_⟩
    obtain ⟨y, hy, z, hz, h3, h4⟩ := hB x hx
    exact ⟨le_trans (hall y hy).1 h3, le_trans h4 (hall z hz).2⟩

/-- Merging the range of a page into the range of the pages before it gives
the range of all of them. -/
theorem IsRange_merge (s t : rangeStats) (A B : List (List Nat)) (hB : ∀ x ∈ B, x ≠ [])
    (hs : IsRange s.min s.max A) (ht : IsRange t.min t.max B) :
    IsRange (s.merge t).min (s.merge t).max (A ++ B) := by
  rcases ht with ⟨h0, h1, h2⟩ | ⟨a, d, h1, h2, ha, hd, hall⟩
  · subst h0
    rw [rangeStats.merge, h1, h2, observe_excluded s .nil rfl, List.append_nil]
    exact hs
  · rw [rangeStats.merge, h1, h2]
    have k1 := IsRange_observe s A a (hB a ha) hs
    have k2 := IsRange_observe _ _ d (hB d hd) k1
    apply IsRange_of_bounds _ _ _ _ k2 (by simp)
    · intro x hx
      simp only [List.mem_append, List.mem_singleton] at hx ⊢
      rcases hx with (hx | rfl) | rfl
      · exact Or.inl hx
      · exact Or.inr ha
      · exact Or.inr hd
    · intro x hx
      rcases List.mem_append.1 hx with hx | hx
      · exact ⟨x, by simp [hx], x, by simp [hx], le_refl _, le_refl _⟩
      · exact ⟨a, by simp, d, by simp, (hall x hx).1, (hall x hx).2⟩

/-! ### The builder -/

theorem Stores_new (c : Codec) (opts : BuilderOptions) :
    Stores c opts ⟨opts, 0, [], [], rangeStats.empty, rangeStats.empty, false⟩ [] :=
  ⟨rfl, rfl, rfl, List.Forall₂.nil, fun _ =>
    ⟨Or.inl ⟨rfl, rfl, rfl⟩, Or.inl ⟨rfl, rfl, rfl⟩⟩⟩

/-- Cutting the page in progress turns the buffered row slots into a page. -/
theorem Stores_cutPage (c : Codec) (hc : c.Lawful) (opts : BuilderOptions) (cb : ColumnBuilder)
    (rowss : List (List Value)) (h : Stores c opts cb rowss) :
    Stores c opts (cb.cutPage c) (rowss ++ [cb.buf]) ∧ (cb.cutPage c).buf = [] := by
  obtain ⟨h1, h2, h3, h4, h5⟩ := h
  refine ⟨⟨h1, h2, ?_, ?_, fun hr => ⟨Or.inl ⟨rfl, rfl, rfl⟩, ?_⟩⟩, rfl⟩
  · simpa [ColumnBuilder.cutPage] using h3
  · apply List.rel_append h4
    refine List.Forall₂.cons ⟨?_, rfl, fun hr => ⟨cb.pageStats, ?_, (h5 hr).1⟩⟩ List.Forall₂.nil
    · simp only [Page.decode, ← h1, decompress_compress c hc, decodeRows_encode]
    · simp only [← h1] at hr
      simp [hr]
  · simp only [ColumnBuilder.cutPage, List.flatten_append, List.flatten_cons, List.flatten_nil,
      List.append_nil, nonEmpty_append]
    exact IsRange_merge _ _ _ _ (fun x hx => ((mem_nonEmpty _ x).1 hx).1) (h5 hr).2 (h5 hr).1

/-- Buffering a byte array at the next row adds it to the row slots. -/
theorem Stores_buffer (c : Codec) (opts : BuilderOptions) (cb : ColumnBuilder)
    (rowss : List (List Value)) (h : Stores c opts cb rowss) (b : List Nat) :
    Stores c opts (cb.buffer cb.rows (.byteArray b)) rowss ∧
      (cb.buffer cb.rows (.byteArray b)).buf = cb.buf ++ [.byteArray b] := by
  obtain ⟨h1, h2, h3, h4, h5⟩ := h
  have hb : (cb.buffer cb.rows (.byteArray b)).buf = cb.buf ++ [.byteArray b] := by
    simp [ColumnBuilder.buffer]
  refine ⟨⟨h1, h2, ?_, h4, fun hr => ⟨?_, (h5 hr).2⟩⟩, hb⟩
  · rw [hb]
    simp only [ColumnBuilder.buffer, h3, List.length_append, List.length_singleton]
    omega
  · rw [hb, nonEmpty_append, nonEmpty_bytes]
    have hr1 : cb.opts.Statistics.StoreRangeStats = true := by rw [h1]; exact hr
    simp only [ColumnBuilder.buffer, hr1, if_true]
    by_cases hz : b = []
    · subst hz
      rw [observe_excluded _ (.byteArray []) rfl]
      simpa using (h5 hr).1
    · rw [if_neg hz]
      exact IsRange_observe _ _ b hz (h5 hr).1

/-- Appending a byte array at the next row to a builder of byte arrays
succeeds and adds the value to the row slots that the builder holds. -/
theorem Stores_Append (c : Codec) (hc : c.Lawful) (opts : BuilderOptions)
    (hv : opts.Value = .VALUE_TYPE_BYTE_ARRAY) (cb : ColumnBuilder)
    (rowss : List (List Value)) (h : Stores c opts cb rowss) (b : List Nat) :
    ∃ cb1 rowss1, cb.Append c cb.rows (.byteArray b) = .ok cb1 ∧ Stores c opts cb1 rowss1 ∧
      rowss1.flatten ++ cb1.buf = rowss.flatten ++ cb.buf ++ [.byteArray b] := by
  have hf : cb.flushed = false := h.2.1
  have ht : (!(Value.byteArray b).IsNil && (Value.byteArray b).Type != cb.opts.Value) = false := by
    rw [h.1, hv]
    rfl
  have hpre : ∃ cb1 r1, (if cb.opts.PageSizeHint = 0 ∧ cb.buf ≠ [] then cb.cutPage c else cb) = cb1 ∧
      Stores c opts cb1 r1 ∧ r1.flatten ++ cb1.buf = rowss.flatten ++ cb.buf ∧
      cb1.rows = cb.rows := by
    by_cases hh : cb.opts.PageSizeHint = 0 ∧ cb.buf ≠ []
    · rw [if_pos hh]
      obtain ⟨k1, k2⟩ := Stores_cutPage c hc opts cb rowss h
      exact ⟨_, _, rfl, k1, by simp [k2], rfl⟩
    · rw [if_neg hh]
      exact ⟨_, _, rfl, h, rfl, rfl⟩
  obtain ⟨cb1, r1, e1, s1, f1, w1⟩ := hpre
  obtain ⟨s2, b2⟩ := Stores_buffer c opts cb1 r1 s1 b
  simp only [ColumnBuilder.Append, hf, Bool.false_eq_true, if_false, lt_irrefl, ht, e1, ← w1]
  split
  · obtain ⟨k1, k2⟩ := Stores_cutPage c hc opts _ r1 s2
    refine ⟨_, _, rfl, k1, ?_⟩
    rw [k2, List.flatten_append, b2, ← f1]
    simp
  · refine ⟨_, _, rfl, s2, ?_⟩
    rw [b2, ← f1, List.append_assoc]

theorem Stores_AppendAll (c : Codec) (hc : c.Lawful) (opts : BuilderOptions)
    (hv : opts.Value = .VALUE_TYPE_BYTE_ARRAY) (ins : List (List Nat)) (cb : ColumnBuilder)
    (rowss : List (List Value)) (h : Stores c opts cb rowss) :
    ∃ cb1 rowss1, cb.AppendAll c cb.rows (ins.map ByteArrayValue) = .ok cb1 ∧
      Stores c opts cb1 rowss1 ∧
      rowss1.flatten ++ cb1.buf = rowss.flatten ++ cb.buf ++ ins.map ByteArrayValue := by
  induction ins generalizing cb rowss with
  | nil => exact ⟨cb, rowss, rfl, h, by simp⟩
  | cons b ins ih =>
    obtain ⟨cb1, r1, e1, s1, f1⟩ := Stores_Append c hc opts hv cb rowss h b
    have hrows : cb1.rows = cb.rows + 1 := by
      rw [s1.2.2.1, f1, h.2.2.1]
      simp only [List.length_append, List.length_singleton]
    obtain ⟨cb2, r2, e2, s2, f2⟩ := ih cb1 r1 s1
    refine ⟨cb2, r2, ?_, s2, ?_⟩
    · simp only [List.map_cons, ColumnBuilder.AppendAll, ByteArrayValue, e1]
      rw [← hrows]
      exact e2
    · rw [f2, f1]
      simp [ByteArrayValue]

/-- Appending byte arrays at the rows 0, 1, and so on to a new builder and
flushing it gives a column whose pages hold the appended values. -/
theorem build_spec (c : Codec) (hc : c.Lawful) (opts : BuilderOptions)
    (hv : opts.Value = .VALUE_TYPE_BYTE_ARRAY) (ins : List (List Nat)) :
    ∃ b0 b1 b2 col rowss, NewColumnBuilder [] opts = .ok b0 ∧
      b0.AppendAll c 0 (ins.map ByteArrayValue) = .ok b1 ∧ b1.Flush c = .ok (b2, col) ∧
      List.Forall₂ (PageOk c opts) col.Pages rowss ∧
      rowss.flatten = ins.map ByteArrayValue ∧
      col.Info.RowsCount = ins.length ∧ col.Info.Compression = opts.Compression ∧
      col.Info.ValueType = opts.Value ∧
      (opts.Statistics.StoreRangeStats = true →
        ∃ s : rangeStats, col.Info.Statistics = some s.serialize ∧
          IsRange s.min s.max (nonEmpty rowss.flatten)) := by
  obtain ⟨b1, r1, e1, s1, f1⟩ := Stores_AppendAll c hc opts hv ins _ [] (Stores_new c opts)
  obtain ⟨s2, k2⟩ := Stores_cutPage c hc opts b1 r1 s1
  have hfl : (r1 ++ [b1.buf]).flatten = ins.map ByteArrayValue := by
    rw [List.flatten_append]
    simpa using f1
  have hF : b1.Flush c = .ok ({ b1.cutPage c with flushed := true },
      ⟨{ ValueType := (b1.cutPage c).opts.Value
         Encoding := (b1.cutPage c).opts.Encoding
         Compression := (b1.cutPage c).opts.Compression
         RowsCount := (b1.cutPage c).rows
         ValuesCount := ((b1.cutPage c).pages.map fun pg => pg.Info.ValuesCount).sum
         UncompressedSize := ((b1.cutPage c).pages.map fun pg => pg.Info.UncompressedSize).sum
         CompressedSize := ((b1.cutPage c).pages.map fun pg => pg.Info.CompressedSize).sum
         Statistics :=
           if (b1.cutPage c).opts.Statistics.StoreRangeStats then
             some (b1.cutPage c).colStats.serialize
           else none }, (b1.cutPage c).pages⟩) := by
    simp only [ColumnBuilder.Flush, s1.2.1, Bool.false_eq_true, if_false]
  refine ⟨_, b1, _, _, r1 ++ [b1.buf], rfl, e1, hF, s2.2.2.2.1, hfl, ?_, ?_, ?_, fun hr => ?_⟩
  · have := s2.2.2.1
    rw [k2, List.append_nil, hfl] at this
    simpa using this
  · exact congrArg BuilderOptions.Compression s2.1
  · exact congrArg BuilderOptions.Value s2.1
  · refine ⟨(b1.cutPage c).colStats, ?_, (s2.2.2.2.2 hr).2⟩
    have hr1 : (b1.cutPage c).opts.Statistics.StoreRangeStats = true := by rw [s2.1]; exact hr
    simp [hr1]

/-! ### The reader -/

/-- The read loop returns the values left in the current page followed by the
row slots of the pages not yet opened, when these pages decode. -/
theorem readAll_spec (c : Codec) (n : Nat) (hn : 0 < n) (fuel : Nat) (r : columnReader)
    (rowss : List (List Value))
    (h : List.Forall₂ (fun pg rows => Page.decode c r.col.Info.Compression pg = some rows)
      (r.col.Pages.drop r.pageIdx) rowss)
    (hf : r.cur.length + rowss.flatten.length + rowss.length < fuel) :
    r.readAll c n fuel = some (.ok (r.cur ++ rowss.flatten)) := by
  induction fuel generalizing r rowss with
  | zero => omega
  | succ f ih =>
    obtain ⟨col, idx, cur⟩ := r
    cases cur with
    | cons x xs =>
      have hm : ((x :: xs).drop n).length + rowss.flatten.length + rowss.length < f := by
        simp only [List.length_drop, List.length_cons] at hf ⊢
        omega
      have := ih ⟨col, idx, (x :: xs).drop n⟩ rowss h hm
      simp only [columnReader.readAll, columnReader.Read, this]
      rw [← List.append_assoc, List.take_append_drop]
    | nil =>
      simp only at h
      cases hd : col.Pages.drop idx with
      | nil =>
        rw [hd] at h
        cases h
        simp [columnReader.readAll, columnReader.Read, hd]
      | cons pg rest =>
        rw [hd] at h
        cases h with
        | cons h1 h2 =>
          rename_i rows rs
          have hrest : col.Pages.drop (idx + 1) = rest := by
            rw [← List.tail_drop, hd]
            rfl
          have hm : (rows.drop n).length + rs.flatten.length + rs.length < f := by
            simp only [List.length_drop, List.flatten_cons, List.length_append, List.length_cons,
              List.length_nil] at hf ⊢
            omega
          have := ih ⟨col, idx + 1, rows.drop n⟩ rs (by simpa [hrest] using h2) hm
          simp only [columnReader.readAll, columnReader.Read, hd, h1, this]
          rw [← List.append_assoc, List.take_append_drop]
          rfl

theorem nonEmpty_map (ins : List (List Nat)) :
    nonEmpty (ins.map ByteArrayValue) = ins.filter (fun b => b ≠ []) := by
  induction ins with
  | nil => rfl
  | cons b ins ih =>
    have e : nonEmpty (ByteArrayValue b :: ins.map ByteArrayValue) =
        nonEmpty [Value.byteArray b] ++ nonEmpty (ins.map ByteArrayValue) := by
      rw [← nonEmpty_append]
      rfl
    rw [List.map_cons, e, ih, nonEmpty_bytes]
    by_cases hb : b = [] <;> simp [List.filter_cons, hb]

theorem payloadOf_bytes (b : List Nat) : payloadOf (ByteArrayValue b) = b := by
  cases b <;> simp [payloadOf, ByteArrayValue, Value.IsNil, Value.IsZero, Value.ByteArray]

/-! ### The scenarios of `column_test.go` -/

set_option maxRecDepth 100000 in
/-- The scenario of `TestColumnBuilder_ReadWrite` on ten short byte arrays, two
of them empty, with a page size hint of 0 and an identity codec: the column
has 10 rows, 8 values and 10 pages. -/
theorem ReadWrite_scenario :
    ∃ b0 b1 b2 col,
      NewColumnBuilder []
        ⟨0, .VALUE_TYPE_BYTE_ARRAY, .COMPRESSION_TYPE_ZSTD, .ENCODING_TYPE_PLAIN, ⟨false, false⟩⟩ =
          .ok b0 ∧
      b0.AppendAll ⟨fun d => d, fun d => some d, fun vs => vs.length⟩ 0
        ([[104, 105], [], [116], [111], [105, 102], [98], [], [116, 99], [116, 121], [103]].map
          ByteArrayValue) = .ok b1 ∧
      b1.Flush ⟨fun d => d, fun d => some d, fun vs => vs.length⟩ = .ok (b2, col) ∧
      col.Info.RowsCount = 10 ∧ col.Info.ValuesCount = 8 ∧ col.Pages.length = 10 :=
  ⟨_, _, _, _, rfl, rfl, rfl, by decide, by decide, by decide⟩

set_option maxRecDepth 1000000 in
/-- The scenario of `TestColumnBuilder_MinMax`: an empty byte array and the
byte arrays of 100 bytes b, c, a, e, f, d with a page size hint of 301 and
range statistics, for a size estimate that counts the payload bytes and one
byte for an empty slot: two pages of three values each, with the ranges a to
c and d to f, and the range a to f for the column. -/
theorem MinMax_scenario :
    ∃ b0 b1 b2 col p0 p1 cs s0 s1,
      NewColumnBuilder []
        ⟨301, .VALUE_TYPE_BYTE_ARRAY, .COMPRESSION_TYPE_NONE, .ENCODING_TYPE_PLAIN, ⟨true, false⟩⟩ =
          .ok b0 ∧
      b0.AppendAll
        ⟨fun d => d, fun d => some d, fun vs => (vs.map fun v => max 1 v.ByteArray.length).sum⟩ 0
        ([[], List.replicate 100 98, List.replicate 100 99, List.replicate 100 97,
          List.replicate 100 101, List.replicate 100 102, List.replicate 100 100].map
          ByteArrayValue) = .ok b1 ∧
      b1.Flush
        ⟨fun d => d, fun d => some d, fun vs => (vs.map fun v => max 1 v.ByteArray.length).sum⟩ =
          .ok (b2, col) ∧
      col.Pages = [p0, p1] ∧ p0.Info.ValuesCount = 3 ∧ p1.Info.ValuesCount = 3 ∧
      col.Info.Statistics = some cs ∧ p0.Info.Stats = some s0 ∧ p1.Info.Stats = some s1 ∧
      Value.UnmarshalBinary cs.MinValue = .ok (ByteArrayValue (List.replicate 100 97)) ∧
      Value.UnmarshalBinary cs.MaxValue = .ok (ByteArrayValue (List.replicate 100 102)) ∧
      Value.UnmarshalBinary s0.MinValue = .ok (ByteArrayValue (List.replicate 100 97)) ∧
      Value.UnmarshalBinary s0.MaxValue = .ok (ByteArrayValue (List.replicate 100 99)) ∧
      Value.UnmarshalBinary s1.MinValue = .ok (ByteArrayValue (List.replicate 100 100)) ∧
      Value.UnmarshalBinary s1.MaxValue = .ok (ByteArrayValue (List.replicate 100 102)) :=
  ⟨_, _, _, _, _, _, _, _, _, rfl, rfl, rfl, rfl, rfl, rfl, rfl, rfl, rfl, rfl, rfl, rfl, rfl,
    rfl, rfl⟩

/-! ## Claims C23 and C24 -/

/-- C23: for every list `ins` of byte arrays, every builder options for a
byte-array column, every lawful codec and every buffer of `n > 0` slots:
`NewColumnBuilder` followed by `Append(i, ByteArrayValue(ins[i]))` for the rows
0 to `len(ins) - 1` and by `Flush` succeeds and gives a column of `len(ins)`
rows, and the read loop over a new reader of that column ends, with enough
calls, with exactly the `len(ins)` values in the order of `ins`: every value
read back is the value appended, an empty byte array being read back as a nil
or zero value, so that the payloads read back are `ins`. -/
theorem column_round_trip (c : Codec) (hc : c.Lawful) (opts : BuilderOptions)
    (hv : opts.Value = .VALUE_TYPE_BYTE_ARRAY) (ins : List (List Nat)) (n : Nat) (hn : 0 < n) :
    ∃ b0 b1 b2 col vs fuel, NewColumnBuilder [] opts = .ok b0 ∧
      b0.AppendAll c 0 (ins.map ByteArrayValue) = .ok b1 ∧ b1.Flush c = .ok (b2, col) ∧
      col.Info.RowsCount = ins.length ∧
      (∀ f, fuel ≤ f → (newColumnReader col).readAll c n f = some (.ok vs)) ∧
      vs.length = ins.length ∧ vs.map payloadOf = ins ∧
      List.Forall₂ (fun b v => (b ≠ [] → v = ByteArrayValue b) ∧
        (b = [] → v.IsNil = true ∨ v.IsZero = true)) ins vs := by
  obtain ⟨b0, b1, b2, col, rowss, e0, e1, e2, hp, hfl, hrows, hcomp, _, _⟩ :=
    build_spec c hc opts hv ins
  refine ⟨b0, b1, b2, col, ins.map ByteArrayValue, rowss.flatten.length + rowss.length + 1,
    e0, e1, e2, hrows, fun f hf => ?_, by simp, ?_, ?_⟩
  · have h := readAll_spec c n hn f (newColumnReader col) rowss
      (by
        simp only [newColumnReader, List.drop_zero, hcomp]
        exact hp.imp fun _ _ h => h.1)
      (by simp only [newColumnReader, List.length_nil]; omega)
    rw [h, hfl]
    rfl
  · rw [List.map_map]
    conv_rhs => rw [← List.map_id ins]
    exact List.map_congr_left fun b _ => payloadOf_bytes b
  · rw [List.forall₂_map_right_iff]
    apply List.forall₂_same.2
    intro b _
    refine ⟨fun _ => rfl, fun hb => Or.inr ?_⟩
    subst hb
    rfl

/-- C23, an instance: two byte arrays, the second one empty, in a column with a
page size hint of 0, compressed with an identity codec and read back through a
buffer of one slot. -/
theorem column_round_trip_witness :
    ∃ b0 b1 b2 col vs fuel,
      NewColumnBuilder []
        ⟨0, .VALUE_TYPE_BYTE_ARRAY, .COMPRESSION_TYPE_ZSTD, .ENCODING_TYPE_PLAIN, ⟨false, false⟩⟩ =
          .ok b0 ∧
      b0.AppendAll ⟨fun d => d, fun d => some d, fun vs => vs.length⟩ 0
        ([[104, 105], []].map ByteArrayValue) = .ok b1 ∧
      b1.Flush ⟨fun d => d, fun d => some d, fun vs => vs.length⟩ = .ok (b2, col) ∧
      col.Info.RowsCount = [[104, 105], []].length ∧
      (∀ f, fuel ≤ f → (newColumnReader col).readAll
        ⟨fun d => d, fun d => some d, fun vs => vs.length⟩ 1 f = some (.ok vs)) ∧
      vs.length = [[104, 105], []].length ∧ vs.map payloadOf = [[104, 105], []] ∧
      List.Forall₂ (fun b v => (b ≠ [] → v = ByteArrayValue b) ∧
        (b = [] → v.IsNil = true ∨ v.IsZero = true)) [[104, 105], []] vs :=
  column_round_trip ⟨fun d => d, fun d => some d, fun vs => vs.length⟩ (fun _ => rfl)
    ⟨0, .VALUE_TYPE_BYTE_ARRAY, .COMPRESSION_TYPE_ZSTD, .ENCODING_TYPE_PLAIN, ⟨false, false⟩⟩ rfl
    [[104, 105], []] 1 (by decide)

/-- C24: with range statistics enabled, for every list `ins` of byte arrays
appended at the rows 0 to `len(ins) - 1` of a byte-array column and flushed:
the pages of the column decode to row slots that together are the appended
values in order; the `Stats` of every page decode, with the value codec, to
the smallest and the largest non-empty byte array of the row slots of that
page in the lexicographic order (to nil values when the page has none); the
`Statistics` of the column decode to the smallest and the largest of all
non-empty byte arrays appended; and observing a nil or zero value leaves
every range accumulator as it is. -/
theorem range_statistics (c : Codec) (hc : c.Lawful) (opts : BuilderOptions)
    (hv : opts.Value = .VALUE_TYPE_BYTE_ARRAY) (hr : opts.Statistics.StoreRangeStats = true)
    (ins : List (List Nat)) :
    ∃ b0 b1 b2 col rowss, NewColumnBuilder [] opts = .ok b0 ∧
      b0.AppendAll c 0 (ins.map ByteArrayValue) = .ok b1 ∧ b1.Flush c = .ok (b2, col) ∧
      rowss.flatten = ins.map ByteArrayValue ∧
      List.Forall₂ (fun pg rows => Page.decode c col.Info.Compression pg = some rows ∧
        ∃ st mn mx, pg.Info.Stats = some st ∧ Value.UnmarshalBinary st.MinValue = .ok mn ∧
          Value.UnmarshalBinary st.MaxValue = .ok mx ∧ IsRange mn mx (nonEmpty rows))
        col.Pages rowss ∧
      (∃ st mn mx, col.Info.Statistics = some st ∧ Value.UnmarshalBinary st.MinValue = .ok mn ∧
        Value.UnmarshalBinary st.MaxValue = .ok mx ∧
        IsRange mn mx (ins.filter fun b => b ≠ [])) ∧
      ∀ (s : rangeStats) (v : Value), (v.IsNil || v.IsZero) = true → s.observe v = s := by
  obtain ⟨b0, b1, b2, col, rowss, e0, e1, e2, hp, hfl, _, hcomp, _, hst⟩ :=
    build_spec c hc opts hv ins
  refine ⟨b0, b1, b2, col, rowss, e0, e1, e2, hfl, ?_, ?_, observe_excluded⟩
  · rw [hcomp]
    refine hp.imp fun _ _ h => ⟨h.1, ?_⟩
    obtain ⟨s, h1, h2⟩ := h.2.2 hr
    exact ⟨_, s.min, s.max, h1, unmarshal_marshal _, unmarshal_marshal _, h2⟩
  · obtain ⟨s, h1, h2⟩ := hst hr
    rw [hfl, nonEmpty_map] at h2
    exact ⟨_, s.min, s.max, h1, unmarshal_marshal _, unmarshal_marshal _, h2⟩

/-- C24, an instance: an empty byte array and the byte arrays b, c, a in a
column with range statistics and a page size hint of 2. -/
theorem range_statistics_witness :
    ∃ b0 b1 b2 col rowss,
      NewColumnBuilder []
        ⟨2, .VALUE_TYPE_BYTE_ARRAY, .COMPRESSION_TYPE_NONE, .ENCODING_TYPE_PLAIN, ⟨true, false⟩⟩ =
          .ok b0 ∧
      b0.AppendAll ⟨fun d => d, fun d => some d, fun vs => vs.length⟩ 0
        ([[], [98], [99], [97]].map ByteArrayValue) = .ok b1 ∧
      b1.Flush ⟨fun d => d, fun d => some d, fun vs => vs.length⟩ = .ok (b2, col) ∧
      rowss.flatten = [[], [98], [99], [97]].map ByteArrayValue ∧
      List.Forall₂ (fun pg rows =>
        Page.decode ⟨fun d => d, fun d => some d, fun vs => vs.length⟩ col.Info.Compression pg =
          some rows ∧
        ∃ st mn mx, pg.Info.Stats = some st ∧ Value.UnmarshalBinary st.MinValue = .ok mn ∧
          Value.UnmarshalBinary st.MaxValue = .ok mx ∧ IsRange mn mx (nonEmpty rows))
        col.Pages rowss ∧
      (∃ st mn mx, col.Info.Statistics = some st ∧ Value.UnmarshalBinary st.MinValue = .ok mn ∧
        Value.UnmarshalBinary st.MaxValue = .ok mx ∧
        IsRange mn mx ([[], [98], [99], [97]].filter fun b => b ≠ [])) ∧
      ∀ (s : rangeStats) (v : Value), (v.IsNil || v.IsZero) = true → s.observe v = s :=
  range_statistics ⟨fun d => d, fun d => some d, fun vs => vs.length⟩ (fun _ => rfl)
    ⟨2, .VALUE_TYPE_BYTE_ARRAY, .COMPRESSION_TYPE_NONE, .ENCODING_TYPE_PLAIN, ⟨true, false⟩⟩ rfl rfl
    [[], [98], [99], [97]]

end Dataset
